import Mathlib

/-!
# Macho (C++ Machine Objects, msvc6 variant): transition engine

A shallow embedding of `src/msvc6/Macho.hpp` and `src/msvc6/Macho.cpp`.

* A state class is identified by its place in the inheritance tree
  (`SUBSTATE(S, SUPER)`), so `myParent` of a `_StateInfo` is the structural
  parent and the walks `isChild`, `entry`, `exit` recurse on it.
* `_StateInfo *` pointers are represented by the state they describe (there is
  at most one `_StateInfo` per state and machine).
* The user's state classes (entry/exit/init actions, event handlers, box types,
  history and persistence markers) are a `Program`.  An action is given by the
  library calls it makes, as a list of `Cmd`.
  A user action that runs the settle loop itself (`machine().rattleOn()`,
  `machine().setState(alias, history)`) is outside the library's contract and has
  no `Cmd`.
* Assertions are enabled (no `NDEBUG`); a failed assertion is a `Fault`.
* `trace` is a ghost log of the user actions the engine invokes, at the places
  where the source has its `MACHO_TRC2` / `MACHO_TRC3` hooks; `boxLog` is a ghost
  log of box construction and destruction.
* The loops of `rattleOn` take a bound on their iterations (`fuel`).
-/

namespace Macho

/-- A state class.  `root` is `_StateBase` (key 0); `sub super tag` is a class
declared with `SUBSTATE(tag, super)` (or `TOPSTATE(tag)` when `super` is `root`). -/
inductive StateId where
  | root : StateId
  | sub (super : StateId) (tag : Nat) : StateId
deriving DecidableEq, Repr

/-- History strategy of a state class: none, `HISTORY()` or `DEEPHISTORY()`. -/
inductive HistoryKind where
  | none
  | shallow
  | deep
deriving DecidableEq, Repr

/-- The field `myParent` of the `_StateInfo` of a state (null only for Root). -/
def StateId.myParent : StateId → Option StateId
  | .root => none
  | .sub super _ => some super

/-- Embeds `_StateInfo::isChild(state)`: is `state` this state or one of its superstates?
`return this == &state || (myParent && myParent->isChild(state));` -/
def isChild : StateId → StateId → Bool
  | .root, state => decide (StateId.root = state)
  | .sub super tag, state => decide (StateId.sub super tag = state) || isChild super state

/-- Number of proper superstates. -/
def StateId.depth : StateId → Nat
  | .root => 0
  | .sub super _ => super.depth + 1

/-- The per-machine record of one state (`_StateInfo`): history pointer and box.
`myParent` is structural, `myInstance` carries no data of its own, and
`myBoxPlace` is never assigned a non-null value in this variant of the library. -/
structure StateInfo (β : Type) where
  myHistory : Option StateId := none
  myBox : Option β := none

/-- The slot `myPendingEvent`: null, the dummy installed while a transition is
performed (`(_IEventBase *) &myPendingEvent`), or a queued event object. -/
inductive PendingEvent (ε : Type) where
  | null
  | dummy
  | event (e : ε)
deriving DecidableEq, Repr

/-- Ghost log entry: `entry s`, `exit s`, `init s` for `myInstance->entry()`,
`myInstance->exit()`, `myInstance->init()` called on the instance of `s`;
`history s target` for the branch of `_StateInfo::init` that schedules the stored
history `target` of `s` instead; `dispatch e s` for the handler of event `e` called on
the instance of `s`. -/
inductive Action (ε : Type) where
  | entry (s : StateId)
  | exit (s : StateId)
  | init (s : StateId)
  | history (s target : StateId)
  | dispatch (e : ε) (s : StateId)
deriving DecidableEq, Repr

/-- Ghost log entry for the box factory (`createBox`) and destructor (`deleteBox`). -/
inductive BoxAction where
  | created (s : StateId)
  | deleted (s : StateId)
deriving DecidableEq, Repr

/-- A failed assertion (`snapshot` for the assertions of the snapshot code in `copy`,
`clone` and `cloneBox`), `undefined` for a null dereference or an invalid cast, and
`fuel` for a run of the model that was cut off before the loop finished. -/
inductive Fault where
  | pendingState
  | pendingEvent
  | initTarget
  | boxSet
  | noBox
  | noCurrentState
  | snapshot
  | undefined
  | fuel
deriving DecidableEq, Repr

/-- The class `_MachineBase`, with the ghost logs. -/
structure MachineBase (β ε : Type) where
  myCurrentState : Option StateId := none
  myPendingState : Option StateId := none
  myPendingBox : Option β := none
  myPendingHistory : Bool := false
  myPendingEvent : PendingEvent ε := .null
  myStates : StateId → Option (StateInfo β) := fun _ => none
  trace : List (Action ε) := []
  boxLog : List BoxAction := []

/-- A `StateAlias`: the state it stands for (`myCharacter`) and the box it carries. -/
structure StateAlias (β : Type) where
  myBox : Option β
  myCharacter : StateId

/-- A library call made by a user action: the static `S::setState(machine(), box)` and
`S::setStateDirect(machine(), box)`, the member `setState(alias)`, `dispatch(event)`,
`S::clearHistory(machine())`, `S::clearHistoryDeep(machine())`, and a write to the box
of `s` through `S::box()`. -/
inductive Cmd (β ε : Type) where
  | setState (s : StateId) (box : Option β)
  | setStateDirect (s : StateId) (box : Option β)
  | setStateAlias (state : StateAlias β)
  | dispatch (e : ε)
  | clearHistory (s : StateId)
  | clearHistoryDeep (s : StateId)
  | modifyBox (s : StateId) (f : β → β)

/-- The user's state classes: for each class its history strategy, whether it is
`PERSISTENT()`, the default constructor of its `Box`, its `entry`, `exit` and `init`
actions, and for each event the handler the class ends up with (its own override or
the one it inherits). -/
structure Program (β ε : Type) where
  history : StateId → HistoryKind
  persistent : StateId → Bool
  newBox : StateId → β
  entry : StateId → MachineBase β ε → List (Cmd β ε)
  exit : StateId → MachineBase β ε → List (Cmd β ε)
  init : StateId → MachineBase β ε → List (Cmd β ε)
  handler : ε → StateId → MachineBase β ε → List (Cmd β ε)

variable {β ε : Type}

/-- The `_StateInfo` of state `s`; one that was not created yet reads as a fresh one. -/
def MachineBase.info (m : MachineBase β ε) (s : StateId) : StateInfo β :=
  (m.myStates s).getD {}

/-- Store the `_StateInfo` of state `s`. -/
def MachineBase.setInfo (m : MachineBase β ε) (s : StateId) (i : StateInfo β) :
    MachineBase β ε :=
  { m with myStates := Function.update m.myStates s (some i) }

/-- Append to the ghost trace. -/
def MachineBase.log (m : MachineBase β ε) (a : Action ε) : MachineBase β ε :=
  { m with trace := m.trace ++ [a] }

/-- Append to the ghost box log. -/
def MachineBase.logBox (m : MachineBase β ε) (a : BoxAction) : MachineBase β ε :=
  { m with boxLog := m.boxLog ++ [a] }

/-- Embeds `Link<C, P>::_getInfo(machine)` and `_StateBase::_getInfo(machine)`: create the
`_StateInfo` on first use, parent first. -/
def Link._getInfo : StateId → MachineBase β ε → MachineBase β ε
  | .root, m =>
    match m.myStates .root with
    | some _ => m
    | none => m.setInfo .root {}
  | .sub super tag, m =>
    match m.myStates (.sub super tag) with
    | some _ => m
    | none => (Link._getInfo super m).setInfo (.sub super tag) {}

/-- Embeds `_StateInfo::setHistory(history)`. -/
def StateInfo.setHistory (self : StateId) (history : Option StateId)
    (m : MachineBase β ε) : MachineBase β ε :=
  m.setInfo self { m.info self with myHistory := history }

/-- Embeds `_MachineBase::setPendingState(info, history, box)`. -/
def MachineBase.setPendingState (m : MachineBase β ε) (info : StateId) (history : Bool)
    (box : Option β) : Except Fault (MachineBase β ε) :=
  if m.myPendingState = none ∨ m.myPendingState = some info then
    .ok { m with myPendingState := some info, myPendingBox := box, myPendingHistory := history }
  else
    .error .pendingState

/-- Embeds `_MachineBase::setPendingEvent(event)`. -/
def MachineBase.setPendingEvent (m : MachineBase β ε) (event : ε) :
    Except Fault (MachineBase β ε) :=
  match m.myPendingEvent with
  | .null => .ok { m with myPendingEvent := .event event }
  | _ => .error .pendingEvent

/-- Embeds `Link::setState(Machine & machine, void * box = 0)` (static). -/
def Link.setState (s : StateId) (box : Option β) (m : MachineBase β ε) :
    Except Fault (MachineBase β ε) :=
  (Link._getInfo s m).setPendingState s true box

/-- Embeds `Link::setStateDirect(Machine & machine, void * box = 0)` (static). -/
def Link.setStateDirect (s : StateId) (box : Option β) (m : MachineBase β ε) :
    Except Fault (MachineBase β ε) :=
  (Link._getInfo s m).setPendingState s false box

/-- Embeds `StateAlias::takeBox()`: hand over the box; the alias keeps none. -/
def StateAlias.takeBox (a : StateAlias β) : Option β × StateAlias β :=
  (a.myBox, { a with myBox := none })

/-- Embeds `StateAlias::getInfo(machine)`. -/
def StateAlias.getInfo (a : StateAlias β) (m : MachineBase β ε) : MachineBase β ε :=
  Link._getInfo a.myCharacter m

/-- Embeds `Link::setState(const StateAlias & state)` (member); also returns the alias as
it is left behind. -/
def Link.setStateAlias (state : StateAlias β) (m : MachineBase β ε) :
    Except Fault (MachineBase β ε × StateAlias β) :=
  let m1 := state.getInfo m
  let taken := state.takeBox
  (m1.setPendingState state.myCharacter true taken.1).map (fun m2 => (m2, taken.2))

/-- Embeds `Link::setStateDirect(const StateAlias & state)` (member).  The source calls
`state._takeBox()`, which `StateAlias` does not declare; it is the parameter
`_takeBox` here. -/
def Link.setStateDirectAlias (_takeBox : StateAlias β → Option β × StateAlias β)
    (state : StateAlias β) (m : MachineBase β ε) :
    Except Fault (MachineBase β ε × StateAlias β) :=
  let m1 := state.getInfo m
  let taken := _takeBox state
  (m1.setPendingState state.myCharacter true taken.1).map (fun m2 => (m2, taken.2))

/-- Embeds `Link::clearHistory(machine)`: `_getInfo(m).setHistory(0)`. -/
def Link.clearHistory (s : StateId) (m : MachineBase β ε) : MachineBase β ε :=
  StateInfo.setHistory s none (Link._getInfo s m)

/-- Embeds `Machine::clearHistoryDeep(state)`: every existing `_StateInfo` that is `state`
or below it gets a null history. -/
def MachineBase.clearHistoryDeep (m : MachineBase β ε) (state : StateId) : MachineBase β ε :=
  { m with myStates := fun k =>
      (m.myStates k).map (fun i => if isChild k state then { i with myHistory := none } else i) }

/-- Embeds `Link::clearHistoryDeep(machine)`. -/
def Link.clearHistoryDeep (s : StateId) (m : MachineBase β ε) : MachineBase β ε :=
  (Link._getInfo s m).clearHistoryDeep s

/-- Write access to a box through `box()`, which asserts that the box exists. -/
def StateInfo.modifyBox (self : StateId) (f : β → β) (m : MachineBase β ε) :
    Except Fault (MachineBase β ε) :=
  match (m.info self).myBox with
  | some b => .ok (m.setInfo self { m.info self with myBox := some (f b) })
  | none => .error .noBox

/-- Perform one library call of a user action. -/
def Cmd.run : Cmd β ε → MachineBase β ε → Except Fault (MachineBase β ε)
  | .setState s box, m => Link.setState s box m
  | .setStateDirect s box, m => Link.setStateDirect s box m
  | .setStateAlias state, m => (Link.setStateAlias state m).map Prod.fst
  | .dispatch e, m => m.setPendingEvent e
  | .clearHistory s, m => .ok (Link.clearHistory s m)
  | .clearHistoryDeep s, m => .ok (Link.clearHistoryDeep s m)
  | .modifyBox s f, m => StateInfo.modifyBox s f m

/-- Perform the library calls of a user action in order. -/
def runCmds : List (Cmd β ε) → MachineBase β ε → Except Fault (MachineBase β ε)
  | [], m => .ok m
  | c :: cs, m => (c.run m).bind (runCmds cs)

/-- Embeds `_SubStateInfo::createBox()` (`myBox = new Box()`), `_RootStateInfo::createBox()` (empty). -/
def StateInfo.createBox (p : Program β ε) (self : StateId) (m : MachineBase β ε) :
    MachineBase β ε :=
  match self with
  | .root => m
  | .sub _ _ => (m.setInfo self { m.info self with myBox := some (p.newBox self) }).logBox (.created self)

/-- Embeds `_SubStateInfo::deleteBox()` (`delete myBox; myBox = 0`), `_RootStateInfo::deleteBox()` (empty). -/
def StateInfo.deleteBox (self : StateId) (m : MachineBase β ε) : MachineBase β ε :=
  match self with
  | .root => m
  | .sub _ _ =>
    match (m.info self).myBox with
    | some _ => (m.setInfo self { m.info self with myBox := none }).logBox (.deleted self)
    | none => m

/-- The virtual `_deleteBox(info)`: empty in `_StateBase` and under `PERSISTENT()`,
`info.deleteBox()` in `Link`. -/
def StateBase._deleteBox (p : Program β ε) (self : StateId) (m : MachineBase β ε) :
    MachineBase β ε :=
  match self with
  | .root => m
  | .sub _ _ => if p.persistent self then m else StateInfo.deleteBox self m

/-- Embeds `_StateInfo::setBox(box)`: asserts that no box is installed. -/
def StateInfo.setBox (self : StateId) (box : β) (m : MachineBase β ε) :
    Except Fault (MachineBase β ε) :=
  match (m.info self).myBox with
  | some _ => .error .boxSet
  | none => .ok (m.setInfo self { m.info self with myBox := some box })

/-- Which `_setHistorySuper` a class sees: the one of the `HISTORY()` /
`DEEPHISTORY()` macro of the class itself or of its nearest superstate that has
one (`true`), or the empty one of `_StateBase` (`false`). -/
def StateBase._setHistorySuper (p : Program β ε) : StateId → Bool
  | .root => false
  | .sub super tag =>
    decide (p.history (.sub super tag) ≠ HistoryKind.none) || StateBase._setHistorySuper p super

/-- Embeds `_StateInfo::saveHistory(shallow, deep)`: the virtual `_saveHistory` of the class.
Shallow and deep history store `shallow` resp. `deep` and call
`SUPER::_setHistorySuper(self, deep)`; a state without history calls
`this->_setHistorySuper(self, deep)`, which resolves to the same function; Root does
nothing.  The macro's `_setHistorySuper` is `self.setHistorySuper(deep)`, that is
`myParent->saveHistory(*this, deep)`. -/
def StateInfo.saveHistory (p : Program β ε) :
    StateId → StateId → StateId → MachineBase β ε → MachineBase β ε
  | .root, _, _, m => m
  | .sub super tag, shallow, deep, m =>
    let m1 :=
      match p.history (.sub super tag) with
      | .none => m
      | .shallow => StateInfo.setHistory (.sub super tag) (some shallow) m
      | .deep => StateInfo.setHistory (.sub super tag) (some deep) m
    if StateBase._setHistorySuper p super then
      StateInfo.saveHistory p super (.sub super tag) deep m1
    else m1

/-- Embeds `_StateInfo::setHistorySuper(deep)`: `if (myParent) myParent->saveHistory(*this, deep);` -/
def StateInfo.setHistorySuper (p : Program β ε) (self deep : StateId)
    (m : MachineBase β ε) : MachineBase β ε :=
  match self with
  | .root => m
  | .sub super _ => StateInfo.saveHistory p super self deep m

/-- Embeds `_StateInfo::entry(previous, first)`. -/
def StateInfo.entry (p : Program β ε) (previous : StateId) :
    StateId → Bool → MachineBase β ε → Except Fault (MachineBase β ε)
  | .root, _, m => .ok m
  | .sub super tag, first, m =>
    if first || !isChild previous (.sub super tag) then
      (StateInfo.entry p previous super false m).bind fun m1 =>
        let m2 :=
          match (m1.info (.sub super tag)).myBox with
          | none => StateInfo.createBox p (.sub super tag) m1
          | some _ => m1
        let m3 := m2.log (.entry (.sub super tag))
        runCmds (p.entry (.sub super tag) m3) m3
    else .ok m

/-- Embeds `_StateInfo::exit(next)`. -/
def StateInfo.exit (p : Program β ε) (next : StateId) :
    StateId → MachineBase β ε → Except Fault (MachineBase β ε)
  | .root, m => .ok m
  | .sub super tag, m =>
    if decide (StateId.sub super tag = next) || !isChild next (.sub super tag) then
      let m1 := m.log (.exit (.sub super tag))
      (runCmds (p.exit (.sub super tag) m1) m1).bind fun m2 =>
        StateInfo.exit p next super (StateBase._deleteBox p (.sub super tag) m2)
    else .ok m

/-- The virtual `init()` of the state class; `_StateBase::init()` is empty. -/
def StateBase.init (p : Program β ε) (self : StateId) (m : MachineBase β ε) :
    List (Cmd β ε) :=
  match self with
  | .root => []
  | .sub _ _ => p.init self m

/-- Embeds `_StateInfo::init(history)`. -/
def StateInfo.init (p : Program β ε) (self : StateId) (history : Bool)
    (m : MachineBase β ε) : Except Fault (MachineBase β ε) :=
  (match history, (m.info self).myHistory with
    | true, some h => (m.log (.history self h)).setPendingState h true none
    | _, _ =>
      let m1 := m.log (.init self)
      runCmds (StateBase.init p self m1) m1).map
    (StateInfo.setHistory self none)

/-- Embeds `if (!myPendingEvent) myPendingEvent = (_IEventBase *) &myPendingEvent;`
("Entry/Exit actions may not dispatch events: set dummy event."). -/
def MachineBase.setDummyEvent (m : MachineBase β ε) : MachineBase β ε :=
  match m.myPendingEvent with
  | .null => { m with myPendingEvent := .dummy }
  | _ => m

/-- Embeds `if (myPendingEvent == (_IEventBase *) &myPendingEvent) myPendingEvent = 0;`
("Clear dummy event if need be"). -/
def MachineBase.clearDummyEvent (m : MachineBase β ε) : MachineBase β ε :=
  match m.myPendingEvent with
  | .dummy => { m with myPendingEvent := .null }
  | _ => m

/-- First part of the body of `while (myPendingState)` in `rattleOn`: the dummy
event, `myCurrentState->exit(*myPendingState)` and
`myCurrentState->setHistorySuper(*myCurrentState)`. -/
def MachineBase.exitPhase (p : Program β ε) (m : MachineBase β ε) :
    Except Fault (MachineBase β ε) :=
  match m.myCurrentState, m.myPendingState with
  | some current, some pending =>
    (StateInfo.exit p pending current m.setDummyEvent).bind fun m2 =>
      match m2.myCurrentState with
      | some c => .ok (StateInfo.setHistorySuper p c c m2)
      | none => .error .undefined
  | _, _ => .error .undefined

/-- Second part: `previous = myCurrentState; myCurrentState = myPendingState;`,
`setBox` for a pending box, `myCurrentState->entry(*previous)`, and the clearing of
the pending information.  Returns the local variable `history` as well. -/
def MachineBase.entryPhase (p : Program β ε) (m : MachineBase β ε) :
    Except Fault (MachineBase β ε × Bool) :=
  match m.myCurrentState, m.myPendingState with
  | some previous, some pending =>
    let m1 : MachineBase β ε := { m with myCurrentState := some pending }
    (match m1.myPendingBox with
      | some box => StateInfo.setBox pending box m1
      | none => .ok m1).bind fun m2 =>
    (StateInfo.entry p previous pending true m2).map fun (m3 : MachineBase β ε) =>
      ({ m3 with myPendingState := none, myPendingBox := none, myPendingHistory := false },
        m3.myPendingHistory)
  | _, _ => .error .undefined

/-- Third part: `myCurrentState->init(history)`, the assertion "Init may only
transition to proper substates", and the clearing of the dummy event. -/
def MachineBase.initPhase (p : Program β ε) (history : Bool) (m : MachineBase β ε) :
    Except Fault (MachineBase β ε) :=
  match m.myCurrentState with
  | none => .error .undefined
  | some current =>
    (StateInfo.init p current history m).bind fun m1 =>
      let holds : Bool :=
        match m1.myPendingState, m1.myCurrentState with
        | none, _ => true
        | some pending, some c => isChild pending c && decide (c ≠ pending)
        | some _, none => false
      if holds then .ok m1.clearDummyEvent else .error .initTarget

/-- The body of `while (myPendingState)` in `rattleOn`: one transition. -/
def MachineBase.transition (p : Program β ε) (m : MachineBase β ε) :
    Except Fault (MachineBase β ε) :=
  (m.exitPhase p).bind fun m1 =>
    (m1.entryPhase p).bind fun r => r.1.initPhase p r.2

/-- The loop `while (myPendingState)` of `rattleOn`. -/
def MachineBase.transitionLoop (p : Program β ε) :
    Nat → MachineBase β ε → Except Fault (MachineBase β ε)
  | 0, m =>
    match m.myPendingState with
    | none => .ok m
    | some _ => .error .fuel
  | fuel + 1, m =>
    match m.myPendingState with
    | none => .ok m
    | some _ => (m.transition p).bind (MachineBase.transitionLoop p fuel)

/-- Embeds `event->dispatch(*myCurrentState)`: the handler of the current state's class. -/
def MachineBase.dispatchEvent (p : Program β ε) (e : ε) (m : MachineBase β ε) :
    Except Fault (MachineBase β ε) :=
  match m.myCurrentState with
  | none => .error .undefined
  | some .root => .error .undefined
  | some (.sub super tag) =>
    let m1 := m.log (.dispatch e (.sub super tag))
    runCmds (p.handler e (.sub super tag) m1) m1

/-- The loop `while (myPendingState || myPendingEvent)` of `rattleOn`. -/
def MachineBase.settle (p : Program β ε) :
    Nat → MachineBase β ε → Except Fault (MachineBase β ε)
  | 0, m =>
    match m.myPendingState, m.myPendingEvent with
    | none, .null => .ok m
    | _, _ => .error .fuel
  | fuel + 1, m =>
    match m.myPendingState, m.myPendingEvent with
    | none, .null => .ok m
    | _, _ =>
      (m.transitionLoop p (fuel + 1)).bind fun m1 =>
        (match m1.myPendingEvent with
          | .null => Except.ok m1
          | .dummy => Except.error Fault.undefined
          | .event e =>
            MachineBase.dispatchEvent p e { m1 with myPendingEvent := .null }).bind
          (MachineBase.settle p fuel)

/-- Embeds `_MachineBase::rattleOn()`; `fuel` bounds the iterations of each loop. -/
def MachineBase.rattleOn (p : Program β ε) (fuel : Nat) (m : MachineBase β ε) :
    Except Fault (MachineBase β ε) :=
  match m.myCurrentState with
  | none => .error .noCurrentState
  | some _ => m.settle p fuel

/-- Embeds `_MachineBase::setState(info, history, box)`. -/
def MachineBase.setState (p : Program β ε) (fuel : Nat) (info : StateId) (history : Bool)
    (box : Option β) (m : MachineBase β ε) : Except Fault (MachineBase β ε) :=
  (m.setPendingState info history box).bind (MachineBase.rattleOn p fuel)

/-- Embeds `_MachineBase::setState(const StateAlias & state, bool history)`; also returns
the alias as it is left behind. -/
def MachineBase.setStateAlias (p : Program β ε) (fuel : Nat) (state : StateAlias β)
    (history : Bool) (m : MachineBase β ε) :
    Except Fault (MachineBase β ε × StateAlias β) :=
  let m1 := state.getInfo m
  let taken := state.takeBox
  ((m1.setPendingState state.myCharacter history taken.1).bind
    (MachineBase.rattleOn p fuel)).map (fun m2 => (m2, taken.2))

/-- Embeds `_MachineBase::start(info, box)`. -/
def MachineBase.start (p : Program β ε) (fuel : Nat) (info : StateId) (box : Option β)
    (m : MachineBase β ε) : Except Fault (MachineBase β ε) :=
  let m1 := Link._getInfo .root m
  MachineBase.setState p fuel info false box { m1 with myCurrentState := some .root }

/-- Embeds `_MachineBase::shutdown()`. -/
def MachineBase.shutdown (p : Program β ε) (fuel : Nat) (m : MachineBase β ε) :
    Except Fault (MachineBase β ε) :=
  match m.myPendingState with
  | some _ => .error .pendingState
  | none =>
    (MachineBase.setState p fuel .root false none (Link._getInfo .root m)).map
      fun m1 => { m1 with myCurrentState := none }

/-- Embeds `Machine<TOP>::Machine(TOP::Box * box = 0)` for the top state `top`. -/
def Machine.new (p : Program β ε) (fuel : Nat) (top : StateId) (box : Option β) :
    Except Fault (MachineBase β ε) :=
  MachineBase.start p fuel top box (Link._getInfo top {})

/-- Embeds `Machine<TOP>::Machine(const StateAlias & state)`. -/
def Machine.newAlias (p : Program β ε) (fuel : Nat) (state : StateAlias β) :
    Except Fault (MachineBase β ε × StateAlias β) :=
  (MachineBase.start p fuel state.myCharacter state.takeBox.1 (state.getInfo {})).map
    (fun m => (m, state.takeBox.2))

/-- Embeds `Machine<TOP>::dispatch(event)`. -/
def Machine.dispatch (p : Program β ε) (fuel : Nat) (e : ε) (m : MachineBase β ε) :
    Except Fault (MachineBase β ε) :=
  (m.dispatchEvent p e).bind (MachineBase.rattleOn p fuel)

/-- Does the library call write to the box of state `k`? -/
def Cmd.writes : Cmd β ε → StateId → Bool
  | .modifyBox s _, k => decide (s = k)
  | _, _ => false

/-- No entry, exit or init action of the program writes to the box of state `k`. -/
def NoWrite (p : Program β ε) (k : StateId) : Prop :=
  ∀ (s : StateId) (m : MachineBase β ε) (c : Cmd β ε),
    c ∈ p.entry s m ∨ c ∈ p.exit s m ∨ c ∈ p.init s m → c.writes k = false

/-! ## Vocabulary of the specification -/

/-- The state `a` is a proper ancestor (superstate) of `s`. -/
def ProperAncestor (a s : StateId) : Prop := isChild s a = true ∧ a ≠ s

instance (a s : StateId) : Decidable (ProperAncestor a s) := by
  unfold ProperAncestor; infer_instance

/-- The states from `s` upward, bottom-up, up to but not including `a`
(up to the top state when `a` is not met on the way). -/
def pathUp : StateId → StateId → List StateId
  | .root, _ => []
  | .sub super tag, a =>
    if StateId.sub super tag = a then [] else StateId.sub super tag :: pathUp super a

/-- The states from just below `a` down to `s`, top-down. -/
def pathDown (a s : StateId) : List StateId := (pathUp s a).reverse

/-- The state `l` is the least common ancestor of `s` and `t`: a common ancestor (or one of
them) that lies below every other common ancestor. -/
def IsLCA (l s t : StateId) : Prop :=
  isChild s l = true ∧ isChild t l = true ∧
    ∀ a, isChild s a = true → isChild t a = true → isChild l a = true

/-- The states on which `s.exit(next)` invokes the exit action, in order. -/
def exitPath (next : StateId) : StateId → List StateId
  | .root => []
  | .sub super tag =>
    if decide (StateId.sub super tag = next) || !isChild next (.sub super tag) then
      StateId.sub super tag :: exitPath next super
    else []

/-- The states on which `s.entry(previous, first)` invokes the entry action, in order. -/
def entryPath (previous : StateId) : StateId → Bool → List StateId
  | .root, _ => []
  | .sub super tag, first =>
    if first || !isChild previous (.sub super tag) then
      entryPath previous super false ++ [StateId.sub super tag]
    else []

/-! ## Frame relations used in the proofs -/

/-- What a library call made by a user action leaves alone. -/
structure CmdFrame (m m' : MachineBase β ε) : Prop where
  trace : m'.trace = m.trace
  boxLog : m'.boxLog = m.boxLog
  current : m'.myCurrentState = m.myCurrentState
  pending : ∀ t, m.myPendingState = some t → m'.myPendingState = some t
  event : m.myPendingEvent ≠ .null → m'.myPendingEvent = m.myPendingEvent
  hasBox : ∀ s, (m'.info s).myBox.isSome = (m.info s).myBox.isSome
  history : ∀ s, (m'.info s).myHistory = (m.info s).myHistory ∨ (m'.info s).myHistory = none

/-- The walk appended `acts` to the trace and otherwise behaved like a user action
as far as the machine's own fields and the history pointers go. -/
structure WalkFrame (acts : List (Action ε)) (m m' : MachineBase β ε) : Prop where
  trace : m'.trace = m.trace ++ acts
  current : m'.myCurrentState = m.myCurrentState
  pending : ∀ t, m.myPendingState = some t → m'.myPendingState = some t
  event : m.myPendingEvent ≠ .null → m'.myPendingEvent = m.myPendingEvent
  history : ∀ s, (m'.info s).myHistory = (m.info s).myHistory ∨ (m'.info s).myHistory = none

/-- The state a box log entry is about. -/
def BoxAction.state : BoxAction → StateId
  | .created s => s
  | .deleted s => s

/-- Boxes are created, deleted or installed for the states in `touched` only; the box
of another state changes at most by what user actions write to it. -/
structure BoxFrame (p : Program β ε) (touched : List StateId) (m m' : MachineBase β ε) :
    Prop where
  boxLog : ∃ l, m'.boxLog = m.boxLog ++ l ∧ ∀ a ∈ l, BoxAction.state a ∈ touched
  hasBox : ∀ s, s ∉ touched → (m'.info s).myBox.isSome = (m.info s).myBox.isSome
  box : ∀ s, s ∉ touched → NoWrite p s → (m'.info s).myBox = (m.info s).myBox

/-- Only history pointers differ between `m` and `m'`. -/
structure HistoryOnly (m m' : MachineBase β ε) : Prop where
  trace : m'.trace = m.trace
  boxLog : m'.boxLog = m.boxLog
  current : m'.myCurrentState = m.myCurrentState
  pendingState : m'.myPendingState = m.myPendingState
  pendingBox : m'.myPendingBox = m.myPendingBox
  pendingHistory : m'.myPendingHistory = m.myPendingHistory
  event : m'.myPendingEvent = m.myPendingEvent
  box : ∀ s, (m'.info s).myBox = (m.info s).myBox

/-- The state that `saveHistory` on `k` receives as `shallow` when the history save
started at `x` with `shallow = sh`: the child of `k` on the way down to `x`
(`sh` itself when `k` is `x`). -/
def childToward (k : StateId) : StateId → StateId → StateId
  | .root, sh => sh
  | .sub super tag, sh =>
    if StateId.sub super tag = k then sh else childToward k super (.sub super tag)

/-- The init action `a` belongs to `_StateInfo::init` called on `t`: the user's init
of `t`, or the redirect to the stored history of `t`. -/
def Action.IsInitOf (t : StateId) (a : Action ε) : Prop :=
  a = .init t ∨ ∃ k, a = .history t k

/-- What `_StateInfo::init(history)` on `t` logs, given the stored history of `t`:
the redirect when history is enabled and a target is stored, the user's init otherwise. -/
def initAction (t : StateId) (history : Bool) (stored : Option StateId) : Action ε :=
  match history, stored with
  | true, some k => .history t k
  | _, _ => .init t

/-- Summary of the first part of a transition from `S` to `T`. -/
structure ExitSpec (p : Program β ε) (S T : StateId) (m m1 : MachineBase β ε) : Prop where
  trace : m1.trace = m.trace ++ (exitPath T S).map Action.exit
  current : m1.myCurrentState = some S
  pending : m1.myPendingState = some T
  eventSet : m1.myPendingEvent ≠ .null
  eventKept : ∀ e, m.myPendingEvent = .event e → m1.myPendingEvent = .event e
  eventDummy : m.myPendingEvent = .null → m1.myPendingEvent = .dummy
  boxes : BoxFrame p (exitPath T S) m m1
  history : ∀ k, ¬ ProperAncestor k S ∨ p.history k = .none →
    (m1.info k).myHistory = (m.info k).myHistory ∨ (m1.info k).myHistory = none

/-- Summary of the second part of a transition from `S` to `T`. -/
structure EntrySpec (p : Program β ε) (S T : StateId) (m1 m2 : MachineBase β ε) : Prop where
  trace : m2.trace = m1.trace ++ (entryPath S T true).map Action.entry
  current : m2.myCurrentState = some T
  pending : m2.myPendingState = none
  pendingBox : m2.myPendingBox = none
  pendingHistory : m2.myPendingHistory = false
  event : m2.myPendingEvent = m1.myPendingEvent
  boxes : BoxFrame p (T :: entryPath S T true) m1 m2
  history : ∀ k, (m2.info k).myHistory = (m1.info k).myHistory ∨ (m2.info k).myHistory = none

/-- Summary of the third part of a transition to `T`. -/
structure InitSpec (p : Program β ε) (T : StateId) (history : Bool)
    (m2 m3 : MachineBase β ε) : Prop where
  trace : m3.trace = m2.trace ++ [initAction T history (m2.info T).myHistory]
  redirect : ∀ k, history = true → (m2.info T).myHistory = some k →
    m3.myPendingState = some k ∧ m3.myPendingHistory = true ∧ m3.myPendingBox = none
  current : m3.myCurrentState = some T
  pending : ∀ d, m3.myPendingState = some d → ProperAncestor T d
  eventKept : ∀ e, m2.myPendingEvent = .event e → m3.myPendingEvent = .event e
  eventDummy : m2.myPendingEvent = .dummy → m3.myPendingEvent = .null
  boxes : BoxFrame p [] m2 m3
  cleared : (m3.info T).myHistory = none
  history : ∀ k, (m3.info k).myHistory = (m2.info k).myHistory ∨ (m3.info k).myHistory = none

/-- Summary of one transition from `S` to `T`. -/
structure TransitionSpec (p : Program β ε) (S T : StateId) (m m' : MachineBase β ε) :
    Prop where
  trace : ∃ a : Action ε, a.IsInitOf T ∧
    m'.trace = m.trace ++ (exitPath T S).map Action.exit ++
      (entryPath S T true).map Action.entry ++ [a]
  userInit : ¬ ProperAncestor T S ∨ p.history T = .none → (m.info T).myHistory = none →
    m'.trace = m.trace ++ (exitPath T S).map Action.exit ++
      (entryPath S T true).map Action.entry ++ [Action.init T]
  current : m'.myCurrentState = some T
  pending : ∀ d, m'.myPendingState = some d → ProperAncestor T d
  eventKept : ∀ e, m.myPendingEvent = .event e → m'.myPendingEvent = .event e
  eventNull : m.myPendingEvent = .null → m'.myPendingEvent = .null
  boxes : BoxFrame p (exitPath T S ++ T :: entryPath S T true) m m'
  cleared : (m'.info T).myHistory = none
  history : ∀ k, ¬ ProperAncestor k S ∨ p.history k = .none →
    (m'.info k).myHistory = (m.info k).myHistory ∨ (m'.info k).myHistory = none

/-- The deepest state that is `s` or a superstate of `s` and also `t` or a superstate
of `t`, found by walking up from `s`. -/
def lca : StateId → StateId → StateId
  | .root, _ => .root
  | .sub super tag, t =>
    if isChild t (.sub super tag) then .sub super tag else lca super t

/-- The result of a run, or `d` when the run faults. -/
def okOr {α : Type} (r : Except Fault α) (d : α) : α :=
  match r with
  | .ok a => a
  | .error _ => d

/-! ## The state machine of `Test.cpp`, namespace `Transitions` -/

namespace Transitions

def Top : StateId := .sub .root 1
def StateA : StateId := .sub Top 2
def StateAA : StateId := .sub StateA 3
def StateAAA : StateId := .sub StateAA 4
def StateAAB : StateId := .sub StateAA 5
def StateAB : StateId := .sub StateA 6
def StateABA : StateId := .sub StateAB 7
def StateABB : StateId := .sub StateAB 8
def StateB : StateId := .sub Top 9
def StateBA : StateId := .sub StateB 10
def StateBAA : StateId := .sub StateBA 11
def StateBAB : StateId := .sub StateBA 12
def StateBB : StateId := .sub StateB 13
def StateBBA : StateId := .sub StateBB 14
def StateBBB : StateId := .sub StateBB 15
def StateC : StateId := .sub Top 16
def StateCA : StateId := .sub StateC 17
def StateCAA : StateId := .sub StateCA 18
def StateCAB : StateId := .sub StateCA 19
def StateCB : StateId := .sub StateC 20
def StateCBA : StateId := .sub StateCB 21
def StateCBB : StateId := .sub StateCB 22

/-- The state classes of the test: `StateB` has `HISTORY()`, `StateC` and `StateCA`
have `DEEPHISTORY()`, `StateAAA` is `PERSISTENT()`; `StateA::entry` sets its box to
42, `StateAA::entry` sets the box of `StateA` to 43 and `StateAA::exit` sets it back
to 42; `StateC::init` goes to `StateCA` and `StateCA::init` to `StateCAA`.  A box is
its `data` member; the bookkeeping of entries, exits and inits that the test keeps in
the box of `Top` is what `trace` records. -/
def prog : Program Nat Unit where
  history s :=
    if s = StateB then .shallow
    else if s = StateC ∨ s = StateCA then .deep
    else .none
  persistent s := decide (s = StateAAA)
  newBox _ := 0
  entry s _ :=
    if s = StateA then [.modifyBox StateA (fun _ => 42)]
    else if s = StateAA then [.modifyBox StateA (fun _ => 43)]
    else []
  exit s _ := if s = StateAA then [.modifyBox StateA (fun _ => 42)] else []
  init s _ :=
    if s = StateC then [.setState StateCA none]
    else if s = StateCA then [.setState StateCAA none]
    else []
  handler _ _ _ := []

/-- The test's `Macho::Machine<Top> m;` followed by `S::setState(m); m.rattleOn();` for each `S`
of `targets`. -/
def run (targets : List StateId) : Except Fault (MachineBase Nat Unit) :=
  targets.foldl
    (fun r t => r.bind fun m => (Link.setState t none m).bind (MachineBase.rattleOn prog 8))
    (Machine.new prog 8 Top none)

/-- The machine after `run targets` (the empty machine if that run faults). -/
def machineAt (targets : List StateId) : MachineBase Nat Unit :=
  match run targets with
  | .ok m => m
  | .error _ => {}

/-- The machine after `run targets` and a further `t::setState(m)`, before `rattleOn`. -/
def scheduled (targets : List StateId) (t : StateId) : MachineBase Nat Unit :=
  match Link.setState t none (machineAt targets) with
  | .ok m => m
  | .error _ => {}

/-- The machine `scheduled targets t` after one transition. -/
def stepped (targets : List StateId) (t : StateId) : MachineBase Nat Unit :=
  match (scheduled targets t).transition prog with
  | .ok m => m
  | .error _ => {}

/-- The machine after the first part of a transition (exits and history save). -/
def exited (m : MachineBase Nat Unit) : MachineBase Nat Unit :=
  okOr (m.exitPhase prog) {}

/-- The machine after the second part of a transition (entries), with the history flag. -/
def entered (m : MachineBase Nat Unit) : MachineBase Nat Unit × Bool :=
  okOr (m.entryPhase prog) ({}, false)

/-- The machine after the third part of a transition (init). -/
def inited (m : MachineBase Nat Unit) (history : Bool) : MachineBase Nat Unit :=
  okOr (m.initPhase prog history) {}

/-! The test's deep history round trip: the machine rests in `StateCAA`, leaves for
`StateB`, and returns with `StateC::setState(m)`. -/

/-- In `StateCAA`, with the transition to `StateB` scheduled. -/
def deepLeave : MachineBase Nat Unit := scheduled [StateC] StateB

/-- In `StateB`, with the transition to `StateC` scheduled (history enabled). -/
def deepReturn : MachineBase Nat Unit := scheduled [StateC, StateB] StateC

/-- After the transition to `StateC`: the history redirect is pending. -/
def deepRedirect : MachineBase Nat Unit :=
  inited (entered (exited deepReturn)).1 true

/-- After the follow-up transition. -/
def deepBack : MachineBase Nat Unit := okOr (deepRedirect.transition prog) {}

/-! The test's shallow history round trip: the machine rests in `StateBAA`, leaves for
`StateC` (ending in `StateCAA`), and returns with `StateB::setState(m)`. -/

/-- In `StateBAA`, with the transition to `StateC` scheduled. -/
def shallowLeave : MachineBase Nat Unit := scheduled [StateBAA] StateC

/-- In `StateCAA`, with the transition to `StateB` scheduled (history enabled). -/
def shallowReturn : MachineBase Nat Unit := scheduled [StateBAA, StateC] StateB

/-- After the transition to `StateB`: the history redirect is pending. -/
def shallowRedirect : MachineBase Nat Unit :=
  inited (entered (exited shallowReturn)).1 true

/-- After the follow-up transition. -/
def shallowBack : MachineBase Nat Unit := okOr (shallowRedirect.transition prog) {}

/-! The test's "Clearing history": as the shallow round trip, but with
`StateB::clearHistory(m)` before `StateB::setState(m)`. -/

/-- In `StateCAA`, after `StateB::clearHistory(m); StateB::setState(m);`. -/
def clearedReturn : MachineBase Nat Unit :=
  okOr (Link.setState StateB none (Link.clearHistory StateB (machineAt [StateBAA, StateC]))) {}

/-- The machine `clearedReturn` after the loop `while (myPendingState)`. -/
def clearedBack : MachineBase Nat Unit :=
  okOr (clearedReturn.transitionLoop prog 8) {}

end Transitions

/-- The trace of an init cascade below `prev`: for each further target `d`, reached
from the state before it, the entries from just below that state down to `d`,
top-down, followed by the init action on `d`. -/
def cascade (prev : StateId) : List (StateId × Action ε) → List (Action ε)
  | [] => []
  | (d, a) :: rest => (pathDown prev d).map Action.entry ++ [a] ++ cascade d rest

/-! ## The state machine of `Test.cpp`, namespace `Dispatch` -/

namespace Dispatch

/-- The event protocol of `Dispatch::Top`, with the arguments the test passes:
`clear()`, `event1(1)`, `event2(2, false)`, `event3(3, true)`. -/
inductive Event where
  | clear
  | event1
  | event2
  | event3
deriving DecidableEq, Repr

def Top : StateId := .sub .root 1
def StateA : StateId := .sub Top 2
def StateB : StateId := .sub Top 3

def EVENT1 : Nat := 0
def EVENT2 : Nat := 1
def EVENT3 : Nat := 2
def STATEA_ENTRY : Nat := 3
def STATEB_ENTRY : Nat := 4

/-- The state classes of the test; the box of `Top` is a `std::vector<int>`.
`StateA::event3` calls `SUPER::event3`, schedules the transition to `StateB` and then
dispatches `event1`; `StateB::event3` dispatches first and then schedules `StateA`. -/
def prog : Program (List Nat) Event where
  history _ := .none
  persistent _ := false
  newBox _ := []
  entry s _ :=
    if s = StateA then [.modifyBox Top (fun b => b ++ [STATEA_ENTRY])]
    else if s = StateB then [.modifyBox Top (fun b => b ++ [STATEB_ENTRY])]
    else []
  exit _ _ := []
  init _ _ := []
  handler e s _ :=
    match e with
    | .clear => [.modifyBox Top (fun _ => [])]
    | .event1 => [.modifyBox Top (fun b => b ++ [EVENT1])]
    | .event2 => [.modifyBox Top (fun b => b ++ [EVENT2])]
    | .event3 =>
      if s = StateA then
        [.modifyBox Top (fun b => b ++ [EVENT3]), .setState StateB none, .dispatch .event1]
      else if s = StateB then
        [.modifyBox Top (fun b => b ++ [EVENT3]), .dispatch .event1, .setState StateA none]
      else [.modifyBox Top (fun b => b ++ [EVENT3])]

/-- The test's `Macho::Machine<Top> m; StateA::setState(m); m.rattleOn(); m->clear();` -/
def inStateA : MachineBase (List Nat) Event :=
  okOr ((Machine.new prog 8 Top none).bind fun m =>
    (Link.setState StateA none m).bind fun m1 =>
      (m1.rattleOn prog 8).bind fun m2 =>
        (m2.dispatchEvent prog .clear).bind (MachineBase.rattleOn prog 8)) {}

/-- The machine `inStateA` when the handler of `event3` has returned, before `rattleOn`. -/
def handled : MachineBase (List Nat) Event :=
  okOr (inStateA.dispatchEvent prog .event3) {}

/-- The machine `handled` after `rattleOn`. -/
def rattled : MachineBase (List Nat) Event :=
  okOr (handled.rattleOn prog 8) {}

end Dispatch

/-! ## Requests made by actions, and the queries `isCurrent` / `isCurrentDirect` -/

/-- Does the library call request a transition (`setState`, `setStateDirect`)? -/
def Cmd.schedules : Cmd β ε → Bool
  | .setState _ _ => true
  | .setStateDirect _ _ => true
  | .setStateAlias _ => true
  | _ => false

/-- The entry and exit actions of the program request no transition ("State entry.
Not allowed to initiate state change.", "State exit. Not allowed to initiate state
change."). -/
def NoStateChange (p : Program β ε) : Prop :=
  ∀ (s : StateId) (m : MachineBase β ε) (c : Cmd β ε),
    c ∈ p.entry s m ∨ c ∈ p.exit s m → c.schedules = false

/-- The pending transition (target, box, history flag) is the same in `m` and `m'`. -/
structure PendingKept (m m' : MachineBase β ε) : Prop where
  pendingState : m'.myPendingState = m.myPendingState
  pendingBox : m'.myPendingBox = m.myPendingBox
  pendingHistory : m'.myPendingHistory = m.myPendingHistory

/-- The proper superstates of a state, nearest first, Root last. -/
def StateId.ancestors : StateId → List StateId
  | .root => []
  | .sub super _ => super :: super.ancestors

/-- Embeds `_MachineBase::isCurrent(info)`: `return myCurrentState->isChild(info);`
(a null `myCurrentState` is dereferenced). -/
def MachineBase.isCurrent (m : MachineBase β ε) (info : StateId) : Except Fault Bool :=
  match m.myCurrentState with
  | none => .error .undefined
  | some current => .ok (isChild current info)

/-- Embeds `_MachineBase::isCurrentDirect(info)`: `return myCurrentState == &info;` -/
def MachineBase.isCurrentDirect (m : MachineBase β ε) (info : StateId) : Bool :=
  decide (m.myCurrentState = some info)

/-- Embeds `Link::isCurrent(m)` (static): `return m.isCurrent(_getInfo(m));`  Returns the
machine as well, since `_getInfo` may create the `_StateInfo`. -/
def Link.isCurrent (s : StateId) (m : MachineBase β ε) :
    Except Fault (Bool × MachineBase β ε) :=
  ((Link._getInfo s m).isCurrent s).map fun b => (b, Link._getInfo s m)

/-- Embeds `Link::isCurrentDirect(m)` (static): `return m.isCurrentDirect(_getInfo(m));` -/
def Link.isCurrentDirect (s : StateId) (m : MachineBase β ε) : Bool × MachineBase β ε :=
  ((Link._getInfo s m).isCurrentDirect s, Link._getInfo s m)

namespace Transitions

/-! The test's "Ignoring history": the machine rests in `StateCBB` after a visit to
`StateCAB`, and `StateC::setStateDirect(m)` is called. -/

/-- In `StateCBB`, with the transition to `StateC` scheduled, history disabled. -/
def ignoreHistory : MachineBase Nat Unit :=
  okOr (Link.setStateDirect StateC none (machineAt [StateCAB, StateCBB])) {}

/-- The machine `ignoreHistory` after one transition. -/
def ignoredHistory : MachineBase Nat Unit := okOr (ignoreHistory.transition prog) {}

/-! The test's "Child -> Parent with Deep History", with `StateC::clearHistory(m)`
first: the machine rests in `StateCAA`. -/

/-- In `StateCAA`, after `StateC::clearHistory(m); StateC::setState(m);`. -/
def clearedBelow : MachineBase Nat Unit :=
  okOr (Link.setState StateC none (Link.clearHistory StateC (machineAt [StateC]))) {}

/-- The machine `clearedBelow` after one transition. -/
def clearedBounce : MachineBase Nat Unit := okOr (clearedBelow.transition prog) {}

end Transitions

namespace Transitions

/-- The machine `clearedBelow` after the whole loop `while (myPendingState)`. -/
def clearedSettled : MachineBase Nat Unit := okOr (clearedBelow.transitionLoop prog 8) {}

end Transitions

/-! ## Runs of a machine: construction, operations from outside, destruction -/

/-- Embeds `Machine<TOP>::operator->()` followed by a call of the event handler `e` on the
returned `AfterAdvice`, whose destructor calls `rattleOn()`. -/
def Machine.arrow (p : Program β ε) (fuel : Nat) (e : ε) (m : MachineBase β ε) :
    Except Fault (MachineBase β ε) :=
  match m.myCurrentState, m.myPendingState with
  | none, _ => .error .noCurrentState
  | some _, some _ => .error .pendingState
  | some _, none => (m.dispatchEvent p e).bind (MachineBase.rattleOn p fuel)

/-- Embeds `Machine<TOP>::~Machine()`: `myCurrentState->shutdown();` (the release of the
`_StateInfo` array is not modelled). -/
def Machine.destroy (p : Program β ε) (fuel : Nat) (m : MachineBase β ε) :
    Except Fault (MachineBase β ε) :=
  match m.myCurrentState with
  | none => .error .undefined
  | some _ => m.shutdown p fuel

/-- What the code that owns a machine does with it: a static library call such as
`S::setState(m, box)` or `S::clearHistory(m)`, `m.rattleOn()`, `m.dispatch(event)`,
`m->event(...)`, or `m.setState(alias, history)`. -/
inductive Op (β ε : Type) where
  | call (c : Cmd β ε)
  | rattleOn
  | dispatch (e : ε)
  | arrow (e : ε)
  | setState (state : StateAlias β) (history : Bool)

/-- Perform one operation on the machine. -/
def Machine.apply (p : Program β ε) (fuel : Nat) :
    Op β ε → MachineBase β ε → Except Fault (MachineBase β ε)
  | .call c, m => c.run m
  | .rattleOn, m => m.rattleOn p fuel
  | .dispatch e, m => Machine.dispatch p fuel e m
  | .arrow e, m => Machine.arrow p fuel e m
  | .setState state history, m => (m.setStateAlias p fuel state history).map Prod.fst

/-- Perform the operations in order. -/
def Machine.applyAll (p : Program β ε) (fuel : Nat) :
    List (Op β ε) → MachineBase β ε → Except Fault (MachineBase β ε)
  | [], m => .ok m
  | o :: os, m => (Machine.apply p fuel o m).bind (Machine.applyAll p fuel os)

/-- A run: the machine is constructed with start state `T` and then driven by `ops`. -/
def Machine.run (p : Program β ε) (fuel : Nat) (T : StateId) (box : Option β)
    (ops : List (Op β ε)) : Except Fault (MachineBase β ε) :=
  (Machine.new p fuel T box).bind (Machine.applyAll p fuel ops)

/-- A step of a run that performs no transition: the current state, the box log and
which states hold a box stay, the trace grows by handler dispatches only, and history
pointers stay or become null. -/
structure Quiet (m m' : MachineBase β ε) : Prop where
  current : m'.myCurrentState = m.myCurrentState
  trace : ∃ l, m'.trace = m.trace ++ l ∧ ∀ a ∈ l, ∃ e c, a = Action.dispatch e c
  boxLog : m'.boxLog = m.boxLog
  hasBox : ∀ s, (m'.info s).myBox.isSome = (m.info s).myBox.isSome
  history : ∀ s, (m'.info s).myHistory = (m.info s).myHistory ∨ (m'.info s).myHistory = none

/-- The entry (`true`) and exit (`false`) invocations of state `s` in a trace, in order. -/
def invocations (s : StateId) (tr : List (Action ε)) : List Bool :=
  tr.filterMap fun a =>
    match a with
    | .entry x => if x = s then some true else none
    | .exit x => if x = s then some false else none
    | _ => none

/-- Strict alternation beginning with an entry: `n` times an entry followed by an
exit, and one more entry when `isOpen`. -/
def alternation : Nat → Bool → List Bool
  | 0, isOpen => if isOpen then [true] else []
  | n + 1, isOpen => true :: false :: alternation n isOpen

/-- Is `s` active when `c` is the current state: is it `c` or a superstate of `c`, and
not Root? -/
def active (c s : StateId) : Bool := decide (s ≠ .root) && isChild c s

/-- Every state's entries and exits alternate, and a state is entered but not yet
exited exactly if it is active. -/
def Balanced (m : MachineBase β ε) : Prop :=
  ∃ c, m.myCurrentState = some c ∧
    ∀ s, ∃ n, invocations s m.trace = alternation n (active c s)

/-- Every non-persistent non-Root state holds a box exactly if it is active. -/
def BoxesMatch (p : Program β ε) (m : MachineBase β ε) : Prop :=
  ∃ c, m.myCurrentState = some c ∧
    ∀ s, s ≠ .root → p.persistent s = false → (m.info s).myBox.isSome = isChild c s

/-- The state a library call requests a transition to, if it requests one. -/
def Cmd.target : Cmd β ε → Option StateId
  | .setState s _ => some s
  | .setStateDirect s _ => some s
  | .setStateAlias state => some state.myCharacter
  | _ => none

/-- The init actions of the program request transitions only to states with at most
`h` proper superstates (the state tree has height at most `h`). -/
def InitDepth (p : Program β ε) (h : Nat) : Prop :=
  ∀ (s : StateId) (m : MachineBase β ε) (c : Cmd β ε) (t : StateId),
    c ∈ p.init s m → c.target = some t → t.depth ≤ h

/-- The pending state, the current state and all stored histories have at most `h`
proper superstates. -/
structure DepthBound (h : Nat) (m : MachineBase β ε) : Prop where
  pending : ∀ t, m.myPendingState = some t → t.depth ≤ h
  current : ∀ c, m.myCurrentState = some c → c.depth ≤ h
  history : ∀ k t, (m.info k).myHistory = some t → t.depth ≤ h

/-- Between `m` and `m'` no box is created or deleted for state `k`, and `k` holds a
box after exactly if it held one before. -/
structure BoxKept (k : StateId) (m m' : MachineBase β ε) : Prop where
  boxLog : ∃ l, m'.boxLog = m.boxLog ++ l ∧ BoxAction.created k ∉ l ∧
    BoxAction.deleted k ∉ l
  hasBox : (m'.info k).myBox.isSome = (m.info k).myBox.isSome

namespace Transitions

/-- The test's `S::setState(m); m.rattleOn();` for each `S` of `targets`, as operations
on the machine. -/
def visit : List StateId → List (Op Nat Unit)
  | [] => []
  | t :: ts => Op.call (Cmd.setState t none) :: Op.rattleOn :: visit ts

/-- The test's `Macho::Machine<Top> m;` driven through `targets`. -/
def driven (targets : List StateId) : MachineBase Nat Unit :=
  okOr (Machine.run prog 8 Top none (visit targets)) {}

/-- The test's `Macho::Machine<Top> m(state1);` with
`state1 = Macho::State<StateCAA>(new StateCAA::Box(42))`. -/
def aliasStarted : MachineBase Nat Unit :=
  okOr ((Machine.newAlias prog 8 ⟨some 42, StateCAA⟩).map Prod.fst) {}

end Transitions

namespace Transitions

/-- The machine `driven targets` after `shutdown()`. -/
def shutDown (targets : List StateId) : MachineBase Nat Unit :=
  okOr ((driven targets).shutdown prog 8) {}

/-- The machine `driven targets` after `~Machine()`. -/
def destroyed (targets : List StateId) : MachineBase Nat Unit :=
  okOr (Machine.destroy prog 8 (driven targets)) {}

end Transitions

/-! ## An input program with a persistent superstate

The tests of the repository have one `PERSISTENT()` state, a leaf whose box is never
written.  This program has a persistent state with a substate and a handler that
writes the persistent box:

    TOPSTATE(Top) { STATE(Top) virtual void set() {} };
    SUBSTATE(P, Top) { struct Box { int data; }; PERSISTENT() STATE(P)
                       void set() { box().data = 7; } };
    SUBSTATE(T, P)   { struct Box { int data; }; STATE(T) };
    SUBSTATE(Q, Top) { STATE(Q) };
-/

namespace Persist

def Top : StateId := .sub .root 1
def P : StateId := .sub Top 2
def T : StateId := .sub P 3
def Q : StateId := .sub Top 4

/-- The state classes above; a box is its `data` member, 0 after default construction;
`T` inherits the handler `set` of `P`. -/
def prog : Program Nat Unit where
  history _ := .none
  persistent s := decide (s = P)
  newBox _ := 0
  entry _ _ := []
  exit _ _ := []
  init _ _ := []
  handler _ s _ := if s = P ∨ s = T then [.modifyBox P (fun _ => 7)] else []

/-- `Machine<Top> m; P::setState(m); m.rattleOn(); m->set();`: in `P`, whose box holds 7. -/
def written : MachineBase Nat Unit :=
  okOr (Machine.run prog 8 Top none
    [.call (.setState P none), .rattleOn, .arrow ()]) {}

/-- Then `Q::setState(m);`: the transition that exits `P` is scheduled. -/
def leaving : MachineBase Nat Unit :=
  okOr (Machine.applyAll prog 8 [.call (.setState Q none)] written) {}

/-- After that transition: in `Q`. -/
def left : MachineBase Nat Unit := okOr (leaving.transition prog) {}

/-- Then `P::setState(m);`: the transition that enters `P` again is scheduled. -/
def returning : MachineBase Nat Unit :=
  okOr (Machine.applyAll prog 8 [.call (.setState P none)] left) {}

/-- After that transition: in `P` again. -/
def returned : MachineBase Nat Unit := okOr (returning.transition prog) {}

/-- `Machine<Top> m; P::setState(m, new P::Box(5)); m.rattleOn(); Top::setState(m);
m.rattleOn(); T::setState(m, new T::Box(9));`: in `Top`, with the transition to `T`
scheduled; `P` keeps the box it was given. -/
def preinstalled : MachineBase Nat Unit :=
  okOr (Machine.run prog 8 Top none
    [.call (.setState P (some 5)), .rattleOn, .call (.setState Top none), .rattleOn,
      .call (.setState T (some 9))]) {}

/-- The machine `preinstalled` after one transition: in `T`. -/
def reentered : MachineBase Nat Unit := okOr (preinstalled.transition prog) {}

end Persist

namespace Transitions

/-- The test's machine in `Top`, with `StateCAA::setState(m, new StateCAA::Box(42))`
called. -/
def boxScheduled : MachineBase Nat Unit :=
  okOr (Machine.run prog 8 Top none [.call (.setState StateCAA (some 42))]) {}

end Transitions

/-- Every active state holds a box. -/
def ActiveBoxes (m : MachineBase β ε) : Prop :=
  ∃ c, m.myCurrentState = some c ∧
    ∀ s, s ≠ .root → isChild c s = true → (m.info s).myBox.isSome = true

/-! ## An input program whose actions break the rules

The tests of the repository contain no action that breaks a rule for actions (the test
run would stop at the assertion).  This program does:

    TOPSTATE(Top) { STATE(Top)
      virtual void twice() {} virtual void again() {} virtual void both() {}
      virtual void ping() {} };
    SUBSTATE(A, Top)  { STATE(A)  void init()  { B::setState(machine()); } };
    SUBSTATE(B, Top)  { STATE(B)  void init()  { B::setState(machine()); } };
    SUBSTATE(C, Top)  { STATE(C)  void init()  { Top::setState(machine()); } };
    SUBSTATE(D, Top)  { struct Box { int data; }; STATE(D)
                        void init()  { DA::setState(machine()); }
                        void twice() { A::setState(machine()); D::setState(machine()); }
                        void again() { E::setState(machine());
                                       E::setStateDirect(machine(), new E::Box(5)); }
                        void both()  { dispatch(Event(&Top::ping));
                                       dispatch(Event(&Top::ping)); } };
    SUBSTATE(DA, D)   { STATE(DA) };
    SUBSTATE(E, Top)  { struct Box { int data; }; STATE(E)
                        void exit()  { A::setState(machine()); } };
    SUBSTATE(F, Top)  { STATE(F)  void entry() { A::setState(machine()); } };
    SUBSTATE(G, Top)  { STATE(G)  void entry() { G::setState(machine()); } };
    SUBSTATE(H, Top)  { STATE(H)  void entry() { dispatch(Event(&Top::ping)); } };
    SUBSTATE(I, Top)  { STATE(I)  void exit()  { dispatch(Event(&Top::ping)); } };
    SUBSTATE(J, Top)  { STATE(J)  void init()  { dispatch(Event(&Top::ping)); } };
-/

namespace Faulty

/-- The event protocol of `Faulty::Top`. -/
inductive Event where
  | twice
  | again
  | both
  | ping
deriving DecidableEq, Repr

def Top : StateId := .sub .root 1
def A : StateId := .sub Top 2
def B : StateId := .sub Top 3
def C : StateId := .sub Top 4
def D : StateId := .sub Top 5
def DA : StateId := .sub D 6
def E : StateId := .sub Top 7
def F : StateId := .sub Top 8
def G : StateId := .sub Top 9
def H : StateId := .sub Top 10
def I : StateId := .sub Top 11
def J : StateId := .sub Top 12

/-- The state classes above; a box is its `data` member, 0 after default construction.
`DA` inherits the handlers of `D`. -/
def prog : Program Nat Event where
  history _ := .none
  persistent _ := false
  newBox _ := 0
  entry s _ :=
    if s = F then [.setState A none]
    else if s = G then [.setState G none]
    else if s = H then [.dispatch .ping]
    else []
  exit s _ :=
    if s = E then [.setState A none]
    else if s = I then [.dispatch .ping]
    else []
  init s _ :=
    if s = A then [.setState B none]
    else if s = B then [.setState B none]
    else if s = C then [.setState Top none]
    else if s = D then [.setState DA none]
    else if s = J then [.dispatch .ping]
    else []
  handler e s _ :=
    if s = D ∨ s = DA then
      match e with
      | .twice => [.setState A none, .setState D none]
      | .again => [.setState E none, .setStateDirect E (some 5)]
      | .both => [.dispatch .ping, .dispatch .ping]
      | .ping => []
    else []

/-- `Machine<Top> m; S::setState(m);` for a state `S`: in `Top`, with the transition to `S`
scheduled. -/
def toward (S : StateId) : MachineBase Nat Event :=
  okOr (Machine.run prog 8 Top none [.call (.setState S none)]) {}

/-- The machine `toward S` after the exits of the transition and the history save. -/
def exited (S : StateId) : MachineBase Nat Event :=
  okOr ((toward S).exitPhase prog) {}

/-- The machine `exited S` after the entries of the transition, with the local history
flag: `_StateInfo::init` on `S` comes next. -/
def entered (S : StateId) : MachineBase Nat Event × Bool :=
  okOr ((exited S).entryPhase prog) ({}, false)

/-- The machine `entered S` after `_StateInfo::init` on `S`, before the assertion. -/
def inited (S : StateId) : MachineBase Nat Event :=
  okOr (StateInfo.init prog S (entered S).2 (entered S).1) {}

end Faulty

namespace Transitions

/-- The test's first "Parent -> Child" transition into `StateC`, after the entries and
`_StateInfo::init` on `StateC`, before the assertion: `StateC::init` has scheduled
`StateCA`. -/
def initedC : MachineBase Nat Unit :=
  okOr (StateInfo.init prog StateC (entered (exited (scheduled [] StateC))).2
    (entered (exited (scheduled [] StateC))).1) {}

end Transitions

namespace Faulty

/-- `Machine<Top> m; D::setState(m); m.rattleOn();`: the init of `D` goes on to `DA`. -/
def inD : MachineBase Nat Event :=
  okOr (Machine.run prog 8 Top none [.call (.setState D none), .rattleOn]) {}

/-- The machine `inD` when the handler of `e` has returned, before `rattleOn`. -/
def handled (e : Event) : MachineBase Nat Event :=
  okOr (inD.dispatchEvent prog e) {}

/-- `Machine<Top> m; S::setState(m); m.rattleOn(); B::setState(m);`: in `S`, with the
transition to `B` scheduled. -/
def leaving (S : StateId) : MachineBase Nat Event :=
  okOr (Machine.run prog 8 Top none
    [.call (.setState S none), .rattleOn, .call (.setState B none)]) {}

end Faulty

/-- Does the library call queue an event (`dispatch`)? -/
def Cmd.dispatches : Cmd β ε → Bool
  | .dispatch _ => true
  | _ => false

/-! ## Snapshots (`MACHO_SNAPSHOTS`)

The array `myStates` has one entry per state class, indexed by the key of the class.
The loops of `copy` and `free` run over the keys `0 .. theStateCount - 1`; the list
`keys` gives the state class of each key, in key order (Root has key 0).  A `Snapshot`
is a `_MachineBase`.  The state classes keep the `_shutdown` and `_restore` of
`_StateBase`, as they do in the tests.  The copy constructor of a box type yields a box
with the same contents; it is not the box factory and leaves no entry in `boxLog`. -/

/-- Embeds `_StateInfo::clone(newMachine)`, called on the `_StateInfo` of the state: the
assertion `!newMachine.getInfo(key())`, the clone of the parent, made first by
`newMachine.createClone(myParent->key(), myParent)`, and the `_StateInfo` made by
`create(newMachine, parent)`. -/
def StateInfo.clone : StateId → MachineBase β ε → Except Fault (MachineBase β ε)
  | .root, newMachine =>
    match newMachine.myStates .root with
    | some _ => .error .snapshot
    | none => .ok (newMachine.setInfo .root {})
  | .sub super tag, newMachine =>
    match newMachine.myStates (.sub super tag) with
    | some _ => .error .snapshot
    | none =>
      (match newMachine.myStates super with
        | some _ => Except.ok newMachine
        | none => StateInfo.clone super newMachine).map
        fun (m1 : MachineBase β ε) => m1.setInfo (.sub super tag) {}

/-- Embeds `_MachineBase::createClone(key, original)`:
`if (!clone && original) clone = original->clone(*this);` -/
def MachineBase.createClone (key : StateId) (original : Option (StateInfo β))
    (m : MachineBase β ε) : Except Fault (MachineBase β ε) :=
  match m.myStates key, original with
  | none, some _ => StateInfo.clone key m
  | _, _ => .ok m

/-- Embeds `_SubStateInfo::cloneBox(box)` (`assert(!myBox); myBox = new Box(*box)`) and
`_RootStateInfo::cloneBox(box)` (empty). -/
def StateInfo.cloneBox (self : StateId) (box : β) (m : MachineBase β ε) :
    Except Fault (MachineBase β ε) :=
  match self with
  | .root => .ok m
  | .sub _ _ =>
    match (m.info self).myBox with
    | some _ => .error .snapshot
    | none => .ok (m.setInfo self { m.info self with myBox := some box })

/-- Embeds `_StateInfo::copy(original)`: the history pointer is redirected to the
`_StateInfo` with the same key in this machine (asserted to exist), the box is cloned. -/
def StateInfo.copy (self : StateId) (original : StateInfo β) (m : MachineBase β ε) :
    Except Fault (MachineBase β ε) :=
  (match original.myHistory with
    | some h =>
      match m.myStates h with
      | some _ => Except.ok (StateInfo.setHistory self (some h) m)
      | none => Except.error Fault.snapshot
    | none => Except.ok m).bind fun m1 =>
  match original.myBox with
  | some box => StateInfo.cloneBox self box m1
  | none => .ok m1

/-- First loop of `_MachineBase::copy`: `createClone(i, other[i])` for every key. -/
def MachineBase.createClones (other : StateId → Option (StateInfo β)) :
    List StateId → MachineBase β ε → Except Fault (MachineBase β ε)
  | [], m => .ok m
  | k :: ks, m => (m.createClone k (other k)).bind (MachineBase.createClones other ks)

/-- Second loop of `_MachineBase::copy`: for every key with a `_StateInfo` in this
machine, `assert(other[i]); state->copy(*other[i]);` -/
def MachineBase.copyStates (other : StateId → Option (StateInfo β)) :
    List StateId → MachineBase β ε → Except Fault (MachineBase β ε)
  | [], m => .ok m
  | k :: ks, m =>
    (match m.myStates k with
      | none => Except.ok m
      | some _ =>
        match other k with
        | some original => StateInfo.copy k original m
        | none => Except.error Fault.snapshot).bind (MachineBase.copyStates other ks)

/-- Embeds `_MachineBase::copy(other, count)`. -/
def MachineBase.copy (keys : List StateId) (other : StateId → Option (StateInfo β))
    (m : MachineBase β ε) : Except Fault (MachineBase β ε) :=
  (m.createClones other keys).bind (MachineBase.copyStates other keys)

/-- Embeds `delete myStates[i]; myStates[i] = 0;`: the destructor of `_SubStateInfo`
deletes the box if there is one. -/
def MachineBase.deleteInfo (k : StateId) (m : MachineBase β ε) : MachineBase β ε :=
  match m.myStates k with
  | none => m
  | some _ =>
    { StateInfo.deleteBox k m with
      myStates := Function.update (StateInfo.deleteBox k m).myStates k none }

/-- Embeds `_MachineBase::free(count)`: the entries are freed from the end of the list
("so that child states are freed first"). -/
def MachineBase.free : List StateId → MachineBase β ε → MachineBase β ε
  | [], m => m
  | k :: ks, m => (MachineBase.free ks m).deleteInfo k

/-- Embeds `_MachineBase::allocate(count)`: an array of null pointers. -/
def MachineBase.allocate (m : MachineBase β ε) : MachineBase β ε :=
  { m with myStates := fun _ => none }

/-- Embeds `Snapshot<TOP>::Snapshot(const Machine<TOP> & machine)`. -/
def Snapshot.new (keys : List StateId) (machine : MachineBase β ε) :
    Except Fault (MachineBase β ε) :=
  match machine.myPendingState, machine.myPendingEvent, machine.myCurrentState with
  | some _, _, _ => .error .pendingState
  | none, .null, some current =>
    (MachineBase.copy keys machine.myStates (MachineBase.allocate {})).map fun s =>
      { s with myCurrentState := (s.myStates current).map fun _ => current }
  | none, .null, none => .error .noCurrentState
  | none, _, _ => .error .pendingEvent

/-- Embeds `Machine<TOP>::operator=(const Snapshot<TOP> & snapshot)`.
`myCurrentState->shutdown()` is `_StateBase::_shutdown`, that is `machine().shutdown()`;
`current->restore(*current)` is `_StateBase::_restore`, that is
`myCurrentState = &current`. -/
def Machine.assign (p : Program β ε) (fuel : Nat) (keys : List StateId)
    (snapshot : MachineBase β ε) (m : MachineBase β ε) : Except Fault (MachineBase β ε) :=
  match m.myPendingState, m.myPendingEvent, m.myCurrentState with
  | some _, _, _ => .error .pendingState
  | none, .null, some _ =>
    (m.shutdown p fuel).bind fun m1 =>
      (MachineBase.copy keys snapshot.myStates (m1.free keys)).bind fun m2 =>
        match snapshot.myCurrentState with
        | none => .error .undefined
        | some current =>
          match m2.myStates current with
          | none => .error .undefined
          | some _ => MachineBase.rattleOn p fuel { m2 with myCurrentState := some current }
  | none, .null, none => .error .undefined
  | none, _, _ => .error .pendingEvent

namespace Transitions

/-- The state classes of the test's machine by key: Root, then the classes in the
order of their definition. -/
def keys : List StateId :=
  [.root, Top, StateA, StateAA, StateAAA, StateAAB, StateAB, StateABA, StateABB, StateB,
    StateBA, StateBAA, StateBAB, StateBB, StateBBA, StateBBB, StateC, StateCA, StateCAA,
    StateCAB, StateCB, StateCBA, StateCBB]

/-- The test's `Macho::Snapshot<Top> s(m);`, taken of the machine driven through
`targets`. -/
def snapshot (targets : List StateId) : MachineBase Nat Unit :=
  okOr (Snapshot.new keys (driven targets)) {}

/-- The test's `m = s;`: the machine driven through `later` is overwritten by the
snapshot taken after `targets`. -/
def restored (targets later : List StateId) : MachineBase Nat Unit :=
  okOr (Machine.assign prog 8 keys (snapshot targets) (driven later)) {}

end Transitions

/-- Between `m` and `m'` only new, empty `_StateInfo` objects were created. -/
structure Cloned (m m' : MachineBase β ε) : Prop where
  current : m'.myCurrentState = m.myCurrentState
  pendingState : m'.myPendingState = m.myPendingState
  pendingBox : m'.myPendingBox = m.myPendingBox
  pendingHistory : m'.myPendingHistory = m.myPendingHistory
  event : m'.myPendingEvent = m.myPendingEvent
  trace : m'.trace = m.trace
  boxLog : m'.boxLog = m.boxLog
  states : ∀ k, m'.myStates k = m.myStates k ∨ (m.myStates k = none ∧ m'.myStates k = some {})

/-- Between `m` and `m'` no `_StateInfo` was created or freed, and the machine's own
fields and the ghost logs were left alone. -/
structure Filled (m m' : MachineBase β ε) : Prop where
  current : m'.myCurrentState = m.myCurrentState
  pendingState : m'.myPendingState = m.myPendingState
  pendingBox : m'.myPendingBox = m.myPendingBox
  pendingHistory : m'.myPendingHistory = m.myPendingHistory
  event : m'.myPendingEvent = m.myPendingEvent
  trace : m'.trace = m.trace
  boxLog : m'.boxLog = m.boxLog
  exist : ∀ k, (m'.myStates k).isSome = (m.myStates k).isSome

/-- Nothing is left over from a request for a transition: with no target pending there
is no pending box either, and the history flag is clear. -/
def PendingClear (m : MachineBase β ε) : Prop :=
  m.myPendingState = none → m.myPendingBox = none ∧ m.myPendingHistory = false

/-- The machine is quiescent: no transition is pending (no target, no box, the history
flag clear) and no event is pending. -/
def Quiescent (m : MachineBase β ε) : Prop :=
  m.myPendingState = none ∧ m.myPendingBox = none ∧ m.myPendingHistory = false ∧
    m.myPendingEvent = .null

/-- The body of the loop `while (myPendingState || myPendingEvent)` of `rattleOn`: the
loop `while (myPendingState)`, and then the dispatch of the pending event, if there is
one, to the current state. -/
def MachineBase.outerBody (p : Program β ε) (fuel : Nat) (m : MachineBase β ε) :
    Except Fault (MachineBase β ε) :=
  (m.transitionLoop p fuel).bind fun m1 =>
    match m1.myPendingEvent with
    | .null => Except.ok m1
    | .dummy => Except.error Fault.undefined
    | .event e => MachineBase.dispatchEvent p e { m1 with myPendingEvent := .null }

/-! ## State aliases: copying, assigning, cloning

An alias object that is copied or assigned from is modified (`takeBox` is `const` on a
`mutable` member); the functions return the source object as it is left behind.  The
copy constructor of a box type yields a box with the same contents. -/

/-- Embeds `State<S>::State(typename S::Box * box = 0)`: the alias for state `S`. -/
def State.new (S : StateId) (box : Option β) : StateAlias β :=
  { myBox := box, myCharacter := S }

/-- Embeds the copy constructor `StateAlias::StateAlias(const StateAlias & other)`
("Takes over box from other object!"): returns the new alias and `other` as left
behind. -/
def StateAlias.copy (other : StateAlias β) : StateAlias β × StateAlias β :=
  let taken := other.takeBox
  ({ myBox := taken.1, myCharacter := other.myCharacter }, taken.2)

/-- Embeds `StateAlias::operator=(const StateAlias & other)`:
`(myCharacter->destroy)(myBox); myCharacter = other.myCharacter; myBox = other.takeBox();`
Returns the assigned alias, `other` as left behind, and the box that was destroyed.
(An assignment of an alias to itself is not covered.) -/
def StateAlias.assign (self other : StateAlias β) :
    StateAlias β × StateAlias β × Option β :=
  let destroyed := self.myBox
  let taken := other.takeBox
  ({ myBox := taken.1, myCharacter := other.myCharacter }, taken.2, destroyed)

/-- Embeds `StateAlias::clone()` (compiled with `MACHO_BOX_COPY`):
`return StateAlias(myCharacter, myBox ? (myCharacter->clone)(myBox) : 0);`
where `clone` is `new B(*static_cast<B *>(box))`.  Returns the clone and the alias it
was called on. -/
def StateAlias.clone (a : StateAlias β) : StateAlias β × StateAlias β :=
  ({ myBox :=
      match a.myBox with
      | some box => some box
      | none => none
     myCharacter := a.myCharacter }, a)

namespace Transitions

/-- The test's `Macho::StateAlias state1 = Macho::State<StateCAA>(new StateCAA::Box(42));` -/
def state1 : StateAlias Nat := State.new StateCAA (some 42)

/-- An alias for the persistent state: `Macho::State<StateAAA>(new StateAAA::Box(5))`. -/
def stateP : StateAlias Nat := State.new StateAAA (some 5)

/-- `Macho::Machine<Top> m; m.setState(a, true);`: the machine, and the alias as it is
left behind. -/
def aliasUsed (a : StateAlias Nat) : MachineBase Nat Unit × StateAlias Nat :=
  okOr ((Machine.new prog 8 Top none).bind fun m => m.setStateAlias prog 8 a true)
    ({}, State.new .root none)

/-- Then `StateB::setState(m); m.rattleOn();`. -/
def aliasLeft (a : StateAlias Nat) : MachineBase Nat Unit :=
  okOr (Machine.run prog 8 Top none (Op.setState a true :: visit [StateB])) {}

/-- Then a second `m.setState(a, true);` with the alias that was left behind. -/
def aliasUsedAgain (a : StateAlias Nat) : MachineBase Nat Unit × StateAlias Nat :=
  okOr ((aliasLeft a).setStateAlias prog 8 (aliasUsed a).2 true) ({}, State.new .root none)

/-- The test's "cloning of aliases": the machine in `StateAAB`, then
`m.setState(state1.clone(), true); StateAAB::setState(m); m.rattleOn();`. -/
def cloneUsed : MachineBase Nat Unit :=
  okOr (Machine.run prog 8 Top none
    (visit [StateAAB] ++ Op.setState (StateAlias.clone state1).1 true :: visit [StateAAB])) {}

/-- Then `m.setState(state1, true);` with the alias that was cloned. -/
def originalUsed : MachineBase Nat Unit × StateAlias Nat :=
  okOr (cloneUsed.setStateAlias prog 8 (StateAlias.clone state1).2 true)
    ({}, State.new .root none)

end Transitions

/-! ## Machines that behave alike

Two machines are compared through what the library and the user's actions can read:
the current state, the pending fields, and the history pointers and boxes of the
states of a key table.  The ghost logs are compared from a starting point on. -/

/-- The states a library call names. -/
def Cmd.states : Cmd β ε → List StateId
  | .setState s _ => [s]
  | .setStateDirect s _ => [s]
  | .setStateAlias state => [state.myCharacter]
  | .dispatch _ => []
  | .clearHistory s => [s]
  | .clearHistoryDeep s => [s]
  | .modifyBox s _ => [s]

/-- The states an operation on the machine names. -/
def Op.states : Op β ε → List StateId
  | .call c => c.states
  | .setState state _ => [state.myCharacter]
  | .rattleOn => []
  | .dispatch _ => []
  | .arrow _ => []

/-- The key table holds the superstates of each of its states. -/
def UpClosed (keys : List StateId) : Prop :=
  ∀ k ∈ keys, ∀ a ∈ k.ancestors, a ∈ keys

instance (keys : List StateId) : Decidable (UpClosed keys) := by
  unfold UpClosed; infer_instance

/-- The actions and handlers of the program name states of the key table only. -/
def Named (p : Program β ε) (keys : List StateId) : Prop :=
  ∀ (s : StateId) (m : MachineBase β ε) (c : Cmd β ε),
    (c ∈ p.entry s m ∨ c ∈ p.exit s m ∨ c ∈ p.init s m ∨ ∃ e, c ∈ p.handler e s m) →
    ∀ x ∈ c.states, x ∈ keys

/-- The machines `m` and `m'` look the same to the library and to user code: same current
state, same pending fields, and the same `_StateInfo` contents for every key. -/
structure SameView (keys : List StateId) (m m' : MachineBase β ε) : Prop where
  current : m'.myCurrentState = m.myCurrentState
  pendingState : m'.myPendingState = m.myPendingState
  pendingBox : m'.myPendingBox = m.myPendingBox
  pendingHistory : m'.myPendingHistory = m.myPendingHistory
  event : m'.myPendingEvent = m.myPendingEvent
  info : ∀ k ∈ keys, m'.info k = m.info k

/-- The actions and handlers of the program make the same library calls on machines
that look the same (user code cannot read the ghost logs). -/
def Uniform (p : Program β ε) (keys : List StateId) : Prop :=
  ∀ (s : StateId) (m m' : MachineBase β ε), SameView keys m m' →
    p.entry s m' = p.entry s m ∧ p.exit s m' = p.exit s m ∧ p.init s m' = p.init s m ∧
    ∀ e, p.handler e s m' = p.handler e s m

/-- The machines `m` and `m'` look the same, their traces have grown by the same actions
since they were `t` and `t'`, and the current state, the pending state and the stored
histories of `m` are states of the key table. -/
structure Alike (keys : List StateId) (t t' : List (Action ε)) (m m' : MachineBase β ε) :
    Prop where
  current : m'.myCurrentState = m.myCurrentState
  pendingState : m'.myPendingState = m.myPendingState
  pendingBox : m'.myPendingBox = m.myPendingBox
  pendingHistory : m'.myPendingHistory = m.myPendingHistory
  event : m'.myPendingEvent = m.myPendingEvent
  info : ∀ k ∈ keys, m'.info k = m.info k
  trace : ∃ l, m.trace = t ++ l ∧ m'.trace = t' ++ l
  knownCurrent : ∀ c, m.myCurrentState = some c → c ∈ keys
  knownPending : ∀ c, m.myPendingState = some c → c ∈ keys
  knownHistory : ∀ k ∈ keys, ∀ h, (m.info k).myHistory = some h → h ∈ keys

/-- Two results are both successes related by `R`, or the same failure. -/
def Agree {α : Type} (R : α → α → Prop) : Except Fault α → Except Fault α → Prop
  | .ok a, .ok b => R a b
  | .error e, .error e' => e' = e
  | _, _ => False

namespace Transitions

/-- The requests of the test's loop after the snapshot: `StateC`, `StateCAB`, `StateB`,
`StateC` (back through the deep history) and `StateAAA`, each `S::setState(m);
m.rattleOn();`. -/
def loopOps : List (Op Nat Unit) := visit [StateC, StateCAB, StateB, StateC, StateAAA]

/-- The machine `m` after the first `n` requests of the loop. -/
def looped (n : Nat) (m : MachineBase Nat Unit) : MachineBase Nat Unit :=
  okOr (Machine.applyAll prog 8 (loopOps.take n) m) {}

end Transitions

/-! ## The state machine of `Example.cpp` -/

namespace Example

/-- The event protocol of `Example::Top`: `event1(int i)` and `event2(long l)`. -/
inductive Event where
  | event1 (i : Int)
  | event2 (l : Int)
deriving DecidableEq, Repr

def Top : StateId := .sub .root 1
def Super : StateId := .sub Top 2
def StateA : StateId := .sub Super 3
def StateB : StateId := .sub Super 4

/-- The state classes of `Example.cpp`: `Super` has `HISTORY()`; `Top::init` goes to
`StateA` with `new StateA::Box(44)`; `StateA::event1(i)` sets `box().myData = i`, the box
of `StateA`, and goes to `StateB`; `StateB::event2(l)` sets `Top::box().myData = l` and
goes to `StateA`; the other classes inherit the empty handlers of `Top`.  A box is its
`myData` member (`Box() : myData(0)`); the entry and exit actions only print. -/
def prog : Program Int Event where
  history s := if s = Super then .shallow else .none
  persistent _ := false
  newBox _ := 0
  entry _ _ := []
  exit _ _ := []
  init s _ := if s = Top then [.setState StateA (some 44)] else []
  handler e s _ :=
    match e with
    | .event1 i =>
      if s = StateA then [.modifyBox StateA (fun _ => i), .setState StateB none] else []
    | .event2 l =>
      if s = StateB then [.modifyBox Top (fun _ => l), .setState StateA none] else []

/-- `Macho::Machine<Example::Top> m(new Example::Top::Box(11));` -/
def started : MachineBase Int Event :=
  okOr (Machine.new prog 8 Top (some 11)) {}

/-- The machine when the handler called by `m->event1(i)` has returned, before the
`rattleOn` of the `AfterAdvice` destructor. -/
def inEvent1 (i : Int) : MachineBase Int Event :=
  okOr (started.dispatchEvent prog (.event1 i)) {}

/-- Then `m->event1(i);`. -/
def afterEvent1 (i : Int) : MachineBase Int Event :=
  okOr (Machine.arrow prog 8 (.event1 i) started) {}

/-- Then `m->event2(l);`. -/
def afterEvent2 (i l : Int) : MachineBase Int Event :=
  okOr (Machine.arrow prog 8 (.event2 l) (afterEvent1 i)) {}

/-- The end of `main`: the destructor of the machine. -/
def destroyed (i l : Int) : MachineBase Int Event :=
  okOr (Machine.destroy prog 8 (afterEvent2 i l)) {}

end Example

/-- The entry and exit invocations of a trace, in order. -/
def entriesExits (tr : List (Action ε)) : List (Action ε) :=
  tr.filter fun a =>
    match a with
    | .entry _ => true
    | .exit _ => true
    | _ => false

/-- Embeds `Machine<TOP>::Machine(const Snapshot<TOP> & snapshot)`, "Create machine from a
snapshot": after the constructor of `_MachineBase`, which sets `myCurrentState(0)`, the
body is `allocate(theStateCount); copy(snapshot.myStates, theStateCount);`. -/
def Machine.ofSnapshot (keys : List StateId) (snapshot : MachineBase β ε) :
    Except Fault (MachineBase β ε) :=
  MachineBase.copy keys snapshot.myStates (MachineBase.allocate {})

namespace Transitions

/-- `Macho::Machine<Top> m2(s);` for the snapshot taken after `targets`. -/
def fromSnapshot (targets : List StateId) : MachineBase Nat Unit :=
  okOr (Machine.ofSnapshot keys (snapshot targets)) {}

end Transitions

namespace Transitions

/-- The test's "Ignoring history": `StateC::setStateDirect(m)` is scheduled when the
machine rests in `StateB` and `StateC` holds the stored history `StateCAB`; the machine
after the exits and entries of the transition, before `init`. -/
def directEntered : MachineBase Nat Unit :=
  (entered (exited
    (okOr (Link.setStateDirect StateC none (driven [StateCAB, StateB])) {}))).1

/-- The same with `StateC::setState(m)`, which enables history. -/
def historyEntered : MachineBase Nat Unit :=
  (entered (exited (okOr (Link.setState StateC none (driven [StateCAB, StateB])) {}))).1

end Transitions

namespace Transitions

/-- The machine resting in `S` with `T::setState(m)` scheduled. -/
def leaving (S T : StateId) : MachineBase Nat Unit :=
  okOr (Link.setState T none (driven [S])) {}

end Transitions

/-! ## Preinitialized boxes and the assertion of `setBox` -/

/-- The state a library call hands a preinitialized box to, if it hands one over. -/
def Cmd.boxed : Cmd β ε → Option StateId
  | .setState s (some _) => some s
  | .setStateDirect s (some _) => some s
  | .setStateAlias state =>
    match state.myBox with
    | some _ => some state.myCharacter
    | none => none
  | _ => none

/-- The state an operation on the machine hands a preinitialized box to. -/
def Op.boxed : Op β ε → Option StateId
  | .call c => c.boxed
  | .setState state _ =>
    match state.myBox with
    | some _ => some state.myCharacter
    | none => none
  | _ => none

/-- The actions and handlers of the program hand preinitialized boxes to non-persistent
states only (and not to Root, which no `setState` can name). -/
def BoxesToFresh (p : Program β ε) : Prop :=
  ∀ (s : StateId) (m : MachineBase β ε) (c : Cmd β ε),
    (c ∈ p.entry s m ∨ c ∈ p.exit s m ∨ c ∈ p.init s m ∨ ∃ e, c ∈ p.handler e s m) →
    ∀ t, c.boxed = some t → t ≠ .root ∧ p.persistent t = false

/-- A pending box belongs to a pending transition to a non-persistent state. -/
def BoxTarget (p : Program β ε) (m : MachineBase β ε) : Prop :=
  ∀ b, m.myPendingBox = some b →
    ∃ t, m.myPendingState = some t ∧ t ≠ .root ∧ p.persistent t = false

namespace Example

/-- The requests of `main`: `m->event1(42); m->event2(43);`. -/
def mainOps : List (Op Int Event) := [.arrow (.event1 42), .arrow (.event2 43)]

/-- The machine in the cascade of its construction: `Top` is entered and `Top::init` has
scheduled `StateA` with `new StateA::Box(44)`. -/
def topInited : MachineBase Int Event :=
  okOr ((okOr (MachineBase.setPendingState
    { Link._getInfo .root (Link._getInfo Top {}) with myCurrentState := some .root }
    Top false (some 11)) {}).transition prog) {}

end Example

/-! ## The recursive walks with the number of nested calls counted -/

/-- The member `_StateInfo::isChild(state)` with at most `n` nested calls: each call
compares `this` with `state` and otherwise calls `myParent->isChild(state)`, and the
info of Root has no parent. -/
def isChildWithin : Nat → StateId → StateId → Option Bool
  | 0, _, _ => none
  | _ + 1, .root, state => some (decide (StateId.root = state))
  | n + 1, .sub super tag, state =>
    if StateId.sub super tag = state then some true else isChildWithin n super state

/-- The member `_StateInfo::entry(previous, first)` with at most `n` nested calls. -/
def StateInfo.entryWithin (p : Program β ε) (previous : StateId) :
    Nat → StateId → Bool → MachineBase β ε → Except Fault (MachineBase β ε)
  | 0, _, _, _ => .error .fuel
  | _ + 1, .root, _, m => .ok m
  | n + 1, .sub super tag, first, m =>
    if first || !isChild previous (.sub super tag) then
      (StateInfo.entryWithin p previous n super false m).bind fun m1 =>
        let m2 :=
          match (m1.info (.sub super tag)).myBox with
          | none => StateInfo.createBox p (.sub super tag) m1
          | some _ => m1
        let m3 := m2.log (.entry (.sub super tag))
        runCmds (p.entry (.sub super tag) m3) m3
    else .ok m

/-- The member `_StateInfo::exit(next)` with at most `n` nested calls. -/
def StateInfo.exitWithin (p : Program β ε) (next : StateId) :
    Nat → StateId → MachineBase β ε → Except Fault (MachineBase β ε)
  | 0, _, _ => .error .fuel
  | _ + 1, .root, m => .ok m
  | n + 1, .sub super tag, m =>
    if decide (StateId.sub super tag = next) || !isChild next (.sub super tag) then
      let m1 := m.log (.exit (.sub super tag))
      (runCmds (p.exit (.sub super tag) m1) m1).bind fun m2 =>
        StateInfo.exitWithin p next n super (StateBase._deleteBox p (.sub super tag) m2)
    else .ok m

namespace Transitions

/-- The machine of `Macho::Machine<Top> m(StateC::alias())` when the constructor has
scheduled the start state and is about to run the loop `while (myPendingState)`. -/
def constructing : MachineBase Nat Unit :=
  okOr (MachineBase.setPendingState
    { Link._getInfo .root (Link._getInfo StateC {}) with myCurrentState := some .root }
    StateC false none) {}

end Transitions

/-- Every stored history pointer names a proper substate of the state that holds it, and
only a state with a history strategy holds one. -/
def HistoryOK (p : Program β ε) (m : MachineBase β ε) : Prop :=
  ∀ k t, (m.info k).myHistory = some t → ProperAncestor k t ∧ p.history k ≠ .none

/-! ## Events queued by handlers -/

namespace Echo

/-- The one event of the machine below. -/
inductive Event where
  | ping
deriving DecidableEq, Repr

def Top : StateId := .sub .root 1

/-- A machine with the single state `Top` whose handler `Top::ping()` is
`dispatch(Event(&Top::ping));`: it queues the event it handles, schedules no transition,
and the state has no entry, exit or init action. -/
def prog : Program Unit Event where
  history _ := .none
  persistent _ := false
  newBox _ := ()
  entry _ _ := []
  exit _ _ := []
  init _ _ := []
  handler _ _ _ := [.dispatch .ping]

/-- The machine after `Macho::Machine<Top> m;` -/
def started : MachineBase Unit Event := okOr (Machine.new prog 8 Top none) {}

/-- The machine `started` when the handler of `ping` has returned, before `rattleOn`. -/
def handled : MachineBase Unit Event := okOr (started.dispatchEvent prog .ping) {}

end Echo

/-- The event handlers of the program request transitions only to states with at most
`h` proper superstates (the state tree has height at most `h`). -/
def HandlerDepth (p : Program β ε) (h : Nat) : Prop :=
  ∀ (e : ε) (s : StateId) (m : MachineBase β ε) (c : Cmd β ε) (t : StateId),
    c ∈ p.handler e s m → c.target = some t → t.depth ≤ h

/-- The event a handler queues has a smaller rank than the event it handles. -/
def EventRank (p : Program β ε) (rank : ε → Nat) : Prop :=
  ∀ (e : ε) (s : StateId) (m : MachineBase β ε) (e' : ε),
    Cmd.dispatch e' ∈ p.handler e s m → rank e' < rank e

/-- How many dispatches the pending event slot can still cause: none when it is empty,
one more than the rank of a queued event. -/
def PendingEvent.dispatches (rank : ε → Nat) : PendingEvent ε → Nat
  | .event e => rank e + 1
  | _ => 0

namespace Dispatch

/-- The rank of the test's events: the handlers of `event3` queue `event1`, the other
handlers queue nothing. -/
def rank : Event → Nat
  | .event3 => 1
  | _ => 0

end Dispatch

/-! ## Event handlers: declared by a state class or inherited from its superstate -/

/-- The handler of event `e` that the class of state `s` ends up with, given the
handlers the state classes declare themselves (`own e s` is the body, if the class of
`s` declares a handler of `e`).  `class Link : public P` derives the class of a state
from the class of its superstate, and the event calls the handler as a virtual member of
the current state's instance: a handler that the class does not declare is the one of
the superstate.  `_StateBase`, the class of Root, declares none.  Returns the declaring
state and the body. -/
def Link.inherited (own : ε → StateId → Option (MachineBase β ε → List (Cmd β ε)))
    (e : ε) : StateId → Option (StateId × (MachineBase β ε → List (Cmd β ε)))
  | .root => none
  | .sub super tag =>
    match own e (.sub super tag) with
    | some body => some (.sub super tag, body)
    | none => Link.inherited own e super

/-- The program `p` with the event handlers that result from what the state classes
declare. -/
def Program.withHandlers (p : Program β ε)
    (own : ε → StateId → Option (MachineBase β ε → List (Cmd β ε))) : Program β ε :=
  { p with
    handler := fun e s m =>
      match Link.inherited own e s with
      | some r => r.2 m
      | none => [] }

namespace Dispatch

/-- The handlers the test's state classes declare: `Top` declares `clear`, `event1`,
`event2` and `event3`; `StateA` and `StateB` declare `event3` only, each calling
`SUPER::event3` first. -/
def own (e : Event) (s : StateId) :
    Option (MachineBase (List Nat) Event → List (Cmd (List Nat) Event)) :=
  if s = Top then
    match e with
    | .clear => some fun _ => [.modifyBox Top (fun _ => [])]
    | .event1 => some fun _ => [.modifyBox Top (fun b => b ++ [EVENT1])]
    | .event2 => some fun _ => [.modifyBox Top (fun b => b ++ [EVENT2])]
    | .event3 => some fun _ => [.modifyBox Top (fun b => b ++ [EVENT3])]
  else if s = StateA then
    match e with
    | .event3 => some fun _ =>
      [.modifyBox Top (fun b => b ++ [EVENT3]), .setState StateB none, .dispatch .event1]
    | _ => none
  else if s = StateB then
    match e with
    | .event3 => some fun _ =>
      [.modifyBox Top (fun b => b ++ [EVENT3]), .dispatch .event1, .setState StateA none]
    | _ => none
  else none

end Dispatch

/-! ## The state tree -/

theorem isChild_refl (s : StateId) : isChild s s = true := by
  cases s <;> simp [isChild]

theorem isChild_root (s : StateId) : isChild s .root = true := by
  induction s with
  | root => simp [isChild]
  | sub super tag ih => simp [isChild, ih]

theorem isChild_depth {s a : StateId} (h : isChild s a = true) : a.depth ≤ s.depth := by
  induction s with
  | root =>
    simp [isChild] at h
    subst h; exact Nat.le_refl _
  | sub super tag ih =>
    simp only [isChild, Bool.or_eq_true, decide_eq_true_eq] at h
    rcases h with h | h
    · subst h; exact Nat.le_refl _
    · have := ih h
      simp only [StateId.depth]; omega

theorem isChild_super {super : StateId} {tag : Nat} {a : StateId}
    (h : isChild (.sub super tag) a = true) (hne : a ≠ .sub super tag) :
    isChild super a = true := by
  simp only [isChild, Bool.or_eq_true, decide_eq_true_eq] at h
  rcases h with h | h
  · exact absurd h.symm hne
  · exact h

theorem isChild_of_super {super : StateId} (tag : Nat) {a : StateId}
    (h : isChild super a = true) : isChild (.sub super tag) a = true := by
  simp [isChild, h]

theorem isChild_trans {a b c : StateId} (hab : isChild a b = true)
    (hbc : isChild b c = true) : isChild a c = true := by
  induction a with
  | root =>
    simp [isChild] at hab
    subst hab; exact hbc
  | sub super tag ih =>
    simp only [isChild, Bool.or_eq_true, decide_eq_true_eq] at hab
    rcases hab with h | h
    · subst h; exact hbc
    · exact isChild_of_super tag (ih h)

theorem isChild_antisymm {a b : StateId} (hab : isChild a b = true)
    (hba : isChild b a = true) : a = b := by
  have h1 := isChild_depth hab
  have h2 := isChild_depth hba
  cases a with
  | root =>
    simp [isChild] at hab
    exact hab
  | sub super tag =>
    simp only [isChild, Bool.or_eq_true, decide_eq_true_eq] at hab
    rcases hab with h | h
    · exact h
    · have := isChild_depth h
      simp only [StateId.depth] at h2
      omega

theorem not_isChild_super_sub (super : StateId) (tag : Nat) :
    isChild super (.sub super tag) = false := by
  cases h : isChild super (.sub super tag) with
  | false => rfl
  | true =>
    have := isChild_depth h
    simp only [StateId.depth] at this
    omega

/-- Two ancestors of one state are comparable. -/
theorem isChild_total {s a b : StateId} (ha : isChild s a = true) (hb : isChild s b = true) :
    isChild a b = true ∨ isChild b a = true := by
  induction s with
  | root =>
    simp [isChild] at ha hb
    subst ha; subst hb; left; rfl
  | sub super tag ih =>
    by_cases hea : a = .sub super tag
    · subst hea; left; exact hb
    · by_cases heb : b = .sub super tag
      · subst heb; right; exact ha
      · exact ih (isChild_super ha hea) (isChild_super hb heb)

theorem properAncestor_isChild {a s : StateId} (h : ProperAncestor a s) :
    Macho.isChild s a = true := h.1

theorem properAncestor_not_isChild {a s : StateId} (h : ProperAncestor a s) :
    Macho.isChild a s = false := by
  cases hc : Macho.isChild a s with
  | false => rfl
  | true => exact absurd (isChild_antisymm hc h.1) h.2

theorem properAncestor_super (super : StateId) (tag : Nat) :
    ProperAncestor super (.sub super tag) := by
  refine ⟨isChild_of_super tag (isChild_refl super), ?_⟩
  intro h
  have := congrArg StateId.depth h
  simp [StateId.depth] at this

/-! ## Exit and entry paths in terms of the tree -/

theorem exitPath_eq_pathUp {next l : StateId} (hnl : isChild next l = true) (hne : l ≠ next) :
    ∀ x : StateId, isChild x l = true →
      (∀ a, isChild x a = true → isChild next a = true → isChild l a = true) →
      exitPath next x = pathUp x l := by
  intro x
  induction x with
  | root => intro _ _; simp [exitPath, pathUp]
  | sub super tag ih =>
    intro hxl hdeep
    by_cases hx : StateId.sub super tag = l
    · have h1 : ¬ (StateId.sub super tag = next) := fun h => hne (hx.symm.trans h)
      have h2 : isChild next (.sub super tag) = true := hx ▸ hnl
      simp [exitPath, pathUp, hx, h1, h2]
      subst hx
      simp [h1, h2]
    · have h2 : isChild next (.sub super tag) = false := by
        cases hc : isChild next (.sub super tag) with
        | false => rfl
        | true =>
          exact absurd (isChild_antisymm hxl (hdeep _ (isChild_refl _) hc)) hx
      have hsl : isChild super l = true := isChild_super hxl (Ne.symm hx)
      have := ih hsl (fun a ha hna => hdeep a (isChild_of_super tag ha) hna)
      simp [exitPath, pathUp, hx, h2, this]

theorem exitPath_super_of_isChild {next : StateId} :
    ∀ x : StateId, isChild next x = true → x ≠ next → exitPath next x = [] := by
  intro x hx hne
  cases x with
  | root => simp [exitPath]
  | sub super tag => simp [exitPath, hx, hne]

theorem exitPath_to_ancestor {next : StateId} (hroot : next ≠ .root) :
    ∀ x : StateId, isChild x next = true → exitPath next x = pathUp x next ++ [next] := by
  intro x
  induction x with
  | root =>
    intro h
    simp [isChild] at h
    exact absurd h.symm hroot
  | sub super tag ih =>
    intro hx
    by_cases he : StateId.sub super tag = next
    · subst he
      have h1 := exitPath_super_of_isChild super
        (isChild_of_super tag (isChild_refl super)) (properAncestor_super super tag).2
      simp [exitPath, pathUp, h1]
    · have h2 : isChild next (.sub super tag) = false := by
        cases hc : isChild next (.sub super tag) with
        | false => rfl
        | true => exact absurd (isChild_antisymm hx hc) he
      have := ih (isChild_super hx (Ne.symm he))
      simp [exitPath, pathUp, he, h2, this]

theorem entryPath_false_eq_pathDown {previous l : StateId} (hpl : isChild previous l = true) :
    ∀ x : StateId, isChild x l = true →
      (∀ a, isChild x a = true → isChild previous a = true → isChild l a = true) →
      entryPath previous x false = pathDown l x := by
  intro x
  induction x with
  | root => intro _ _; simp [entryPath, pathDown, pathUp]
  | sub super tag ih =>
    intro hxl hdeep
    by_cases hx : StateId.sub super tag = l
    · subst hx
      simp [entryPath, pathDown, pathUp, hpl]
    · have h2 : isChild previous (.sub super tag) = false := by
        cases hc : isChild previous (.sub super tag) with
        | false => rfl
        | true =>
          exact absurd (isChild_antisymm hxl (hdeep _ (isChild_refl _) hc)) hx
      have hsl : isChild super l = true := isChild_super hxl (Ne.symm hx)
      have := ih hsl (fun a ha hna => hdeep a (isChild_of_super tag ha) hna)
      simp [entryPath, pathDown, pathUp, hx, h2, this]

/-- Entering a state that is the previous state or one of its superstates enters
that state alone. -/
theorem entryPath_true_of_isChild {previous : StateId} (super : StateId) (tag : Nat)
    (h : isChild previous (.sub super tag) = true) :
    entryPath previous (.sub super tag) true = [.sub super tag] := by
  have hps : isChild previous super = true :=
    isChild_trans h (isChild_of_super tag (isChild_refl super))
  have := entryPath_false_eq_pathDown hps super (isChild_refl super) (fun a ha _ => ha)
  have h0 : pathDown super super = [] := by
    cases super <;> simp [pathDown, pathUp]
  simp [entryPath, this, h0]

/-- Entering a state that is neither the previous state nor one of its superstates
enters the states below the least common ancestor, top-down. -/
theorem entryPath_true_eq_pathDown {previous l t : StateId} (hl : IsLCA l previous t)
    (ht : isChild previous t = false) : entryPath previous t true = pathDown l t := by
  cases t with
  | root => simp [isChild_root] at ht
  | sub super tag =>
    have := entryPath_false_eq_pathDown hl.1 (.sub super tag) hl.2.1
      (fun a ha hpa => hl.2.2 a hpa ha)
    rw [← this]
    simp [entryPath, ht]

/-! ## What the library calls of a user action can change -/

@[simp] theorem info_setInfo (m : MachineBase β ε) (s k : StateId) (i : StateInfo β) :
    (m.setInfo s i).info k = if k = s then i else m.info k := by
  unfold MachineBase.info MachineBase.setInfo
  by_cases h : k = s
  · subst h; simp
  · simp [Function.update, h]

@[simp] theorem info_log (m : MachineBase β ε) (a : Action ε) (k : StateId) :
    (m.log a).info k = m.info k := rfl

@[simp] theorem info_logBox (m : MachineBase β ε) (a : BoxAction) (k : StateId) :
    (m.logBox a).info k = m.info k := rfl

theorem info_getInfo (s : StateId) (m : MachineBase β ε) (k : StateId) :
    (Link._getInfo s m).info k = m.info k := by
  induction s generalizing m k with
  | root =>
    unfold Link._getInfo
    cases h : m.myStates .root with
    | some i => rfl
    | none =>
      simp only [info_setInfo]
      split
      · rename_i hk
        subst hk
        simp [MachineBase.info, h]
      · rfl
  | sub super tag ih =>
    unfold Link._getInfo
    cases h : m.myStates (.sub super tag) with
    | some i => rfl
    | none =>
      simp only [info_setInfo]
      split
      · rename_i hk
        subst hk
        have := ih m (.sub super tag)
        simp [MachineBase.info, h] at this ⊢
      · exact ih m k

theorem getInfo_fields (s : StateId) (m : MachineBase β ε) :
    (Link._getInfo s m).trace = m.trace ∧
    (Link._getInfo s m).boxLog = m.boxLog ∧
    (Link._getInfo s m).myCurrentState = m.myCurrentState ∧
    (Link._getInfo s m).myPendingState = m.myPendingState ∧
    (Link._getInfo s m).myPendingBox = m.myPendingBox ∧
    (Link._getInfo s m).myPendingHistory = m.myPendingHistory ∧
    (Link._getInfo s m).myPendingEvent = m.myPendingEvent := by
  induction s generalizing m with
  | root =>
    unfold Link._getInfo
    cases m.myStates .root <;> simp [MachineBase.setInfo]
  | sub super tag ih =>
    unfold Link._getInfo
    cases m.myStates (.sub super tag) with
    | some i => simp
    | none => simpa [MachineBase.setInfo] using ih m

theorem cmdFrame_refl (m : MachineBase β ε) : CmdFrame m m :=
  ⟨rfl, rfl, rfl, fun _ h => h, fun _ => rfl, fun _ => rfl, fun _ => Or.inl rfl⟩

theorem cmdFrame_trans {m1 m2 m3 : MachineBase β ε} (h12 : CmdFrame m1 m2)
    (h23 : CmdFrame m2 m3) : CmdFrame m1 m3 where
  trace := h23.trace.trans h12.trace
  boxLog := h23.boxLog.trans h12.boxLog
  current := h23.current.trans h12.current
  pending := fun t h => h23.pending t (h12.pending t h)
  event := fun h => by
    have h2 := h12.event h
    rw [h23.event (by rw [h2]; exact h), h2]
  hasBox := fun s => (h23.hasBox s).trans (h12.hasBox s)
  history := fun s => by
    rcases h23.history s with h | h
    · rcases h12.history s with h' | h'
      · exact Or.inl (h.trans h')
      · exact Or.inr (h.trans h')
    · exact Or.inr h

theorem cmdFrame_getInfo (s : StateId) (m : MachineBase β ε) : CmdFrame m (Link._getInfo s m) := by
  obtain ⟨h1, h2, h3, h4, _, _, h7⟩ := getInfo_fields s m
  exact ⟨h1, h2, h3, fun t h => by rw [h4]; exact h, fun _ => h7,
    fun k => by rw [info_getInfo], fun k => Or.inl (by rw [info_getInfo])⟩

theorem cmdFrame_setPendingState {m m' : MachineBase β ε} {info : StateId} {history : Bool}
    {box : Option β} (h : m.setPendingState info history box = .ok m') : CmdFrame m m' := by
  unfold MachineBase.setPendingState at h
  split at h
  · rename_i hc
    cases h
    refine ⟨rfl, rfl, rfl, ?_, fun _ => rfl, fun _ => rfl, fun _ => Or.inl rfl⟩
    intro t ht
    rcases hc with hc | hc
    · rw [hc] at ht; cases ht
    · rw [hc] at ht; simpa using ht
  · cases h

theorem cmdFrame_setPendingEvent {m m' : MachineBase β ε} {e : ε}
    (h : m.setPendingEvent e = .ok m') : CmdFrame m m' := by
  unfold MachineBase.setPendingEvent at h
  split at h
  · rename_i hc
    cases h
    exact ⟨rfl, rfl, rfl, fun _ h => h, fun hn => absurd hc hn, fun _ => rfl, fun _ => Or.inl rfl⟩
  · cases h

theorem cmdFrame_setHistory_none (s : StateId) (m : MachineBase β ε) :
    CmdFrame m (StateInfo.setHistory s none m) := by
  refine ⟨rfl, rfl, rfl, fun _ h => h, fun _ => rfl, ?_, ?_⟩
  · intro k
    simp only [StateInfo.setHistory, info_setInfo]
    split
    · rename_i hk; subst hk; rfl
    · rfl
  · intro k
    simp only [StateInfo.setHistory, info_setInfo]
    split
    · right; rfl
    · left; rfl

theorem cmdFrame_clearHistoryDeep (s : StateId) (m : MachineBase β ε) :
    CmdFrame m (m.clearHistoryDeep s) := by
  refine ⟨rfl, rfl, rfl, fun _ h => h, fun _ => rfl, ?_, ?_⟩
  · intro k
    simp only [MachineBase.clearHistoryDeep, MachineBase.info]
    cases m.myStates k with
    | none => rfl
    | some i => by_cases hc : isChild k s = true <;> simp [hc]
  · intro k
    simp only [MachineBase.clearHistoryDeep, MachineBase.info]
    cases m.myStates k with
    | none => left; rfl
    | some i => by_cases hc : isChild k s = true <;> simp [hc]

theorem cmdFrame_modifyBox {m m' : MachineBase β ε} {s : StateId} {f : β → β}
    (h : StateInfo.modifyBox s f m = .ok m') : CmdFrame m m' := by
  unfold StateInfo.modifyBox at h
  split at h
  · rename_i b hb
    cases h
    refine ⟨rfl, rfl, rfl, fun _ h => h, fun _ => rfl, ?_, ?_⟩
    · intro k
      simp only [info_setInfo]
      split
      · rename_i hk; subst hk; simp [hb]
      · rfl
    · intro k
      simp only [info_setInfo]
      split
      · rename_i hk; subst hk; left; rfl
      · left; rfl
  · cases h

theorem cmdFrame_run {c : Cmd β ε} {m m' : MachineBase β ε} (h : c.run m = .ok m') :
    CmdFrame m m' := by
  cases c with
  | setState s box =>
    exact cmdFrame_trans (cmdFrame_getInfo s m) (cmdFrame_setPendingState h)
  | setStateDirect s box =>
    exact cmdFrame_trans (cmdFrame_getInfo s m) (cmdFrame_setPendingState h)
  | setStateAlias state =>
    simp only [Cmd.run, Link.setStateAlias, StateAlias.getInfo, StateAlias.takeBox] at h
    cases h1 : (Link._getInfo state.myCharacter m).setPendingState state.myCharacter true
        state.myBox with
    | error e => rw [h1] at h; cases h
    | ok m2 =>
      rw [h1] at h
      cases h
      exact cmdFrame_trans (cmdFrame_getInfo _ m) (cmdFrame_setPendingState h1)
  | dispatch e => exact cmdFrame_setPendingEvent h
  | clearHistory s =>
    cases h
    exact cmdFrame_trans (cmdFrame_getInfo s m) (cmdFrame_setHistory_none s _)
  | clearHistoryDeep s =>
    cases h
    exact cmdFrame_trans (cmdFrame_getInfo s m) (cmdFrame_clearHistoryDeep s _)
  | modifyBox s f => exact cmdFrame_modifyBox h

theorem cmdFrame_runCmds {cs : List (Cmd β ε)} {m m' : MachineBase β ε}
    (h : runCmds cs m = .ok m') : CmdFrame m m' := by
  induction cs generalizing m with
  | nil => cases h; exact cmdFrame_refl _
  | cons c cs ih =>
    simp only [Macho.runCmds] at h
    cases h1 : c.run m with
    | error e => rw [h1] at h; cases h
    | ok m1 =>
      rw [h1] at h
      exact cmdFrame_trans (cmdFrame_run h1) (ih h)

theorem setPendingState_info {m m' : MachineBase β ε} {info : StateId} {history : Bool}
    {box : Option β} (h : m.setPendingState info history box = .ok m') (k : StateId) :
    m'.info k = m.info k := by
  unfold MachineBase.setPendingState at h
  split at h
  · cases h; rfl
  · cases h

theorem setPendingEvent_info {m m' : MachineBase β ε} {e : ε}
    (h : m.setPendingEvent e = .ok m') (k : StateId) : m'.info k = m.info k := by
  unfold MachineBase.setPendingEvent at h
  split at h
  · cases h; rfl
  · cases h

theorem clearHistoryDeep_box (m : MachineBase β ε) (s k : StateId) :
    ((m.clearHistoryDeep s).info k).myBox = (m.info k).myBox := by
  simp only [MachineBase.clearHistoryDeep, MachineBase.info]
  cases m.myStates k with
  | none => rfl
  | some i => by_cases hc : isChild k s = true <;> simp [hc]

theorem setHistory_box (s : StateId) (h : Option StateId) (m : MachineBase β ε) (k : StateId) :
    ((StateInfo.setHistory s h m).info k).myBox = (m.info k).myBox := by
  simp only [StateInfo.setHistory, info_setInfo]
  split
  · rename_i hk; subst hk; rfl
  · rfl

/-- A library call that is no write to the box of `k` leaves that box as it is. -/
theorem run_box {c : Cmd β ε} {m m' : MachineBase β ε} (h : c.run m = .ok m')
    (k : StateId) (hw : c.writes k = false) : (m'.info k).myBox = (m.info k).myBox := by
  cases c with
  | setState s box =>
    rw [setPendingState_info h, info_getInfo]
  | setStateDirect s box =>
    rw [setPendingState_info h, info_getInfo]
  | setStateAlias state =>
    simp only [Cmd.run, Link.setStateAlias, StateAlias.getInfo, StateAlias.takeBox] at h
    cases h1 : (Link._getInfo state.myCharacter m).setPendingState state.myCharacter true
        state.myBox with
    | error e => rw [h1] at h; cases h
    | ok m2 =>
      rw [h1] at h
      cases h
      rw [setPendingState_info h1, info_getInfo]
  | dispatch e => rw [setPendingEvent_info h]
  | clearHistory s =>
    cases h
    rw [Link.clearHistory, setHistory_box, info_getInfo]
  | clearHistoryDeep s =>
    cases h
    rw [Link.clearHistoryDeep, clearHistoryDeep_box, info_getInfo]
  | modifyBox s f =>
    simp only [Cmd.writes, decide_eq_false_iff_not] at hw
    simp only [Cmd.run, StateInfo.modifyBox] at h
    split at h
    · cases h
      simp [info_setInfo, Ne.symm hw]
    · cases h

theorem runCmds_box {cs : List (Cmd β ε)} {m m' : MachineBase β ε}
    (h : runCmds cs m = .ok m') (k : StateId) (hw : ∀ c ∈ cs, c.writes k = false) :
    (m'.info k).myBox = (m.info k).myBox := by
  induction cs generalizing m with
  | nil => cases h; rfl
  | cons c cs ih =>
    simp only [Macho.runCmds] at h
    cases h1 : c.run m with
    | error e => rw [h1] at h; cases h
    | ok m1 =>
      rw [h1] at h
      rw [ih h (fun c' hc' => hw c' (List.mem_cons_of_mem _ hc')),
        run_box h1 k (hw c (List.mem_cons_self _ _))]

/-! ## What the exit and entry walks change -/

theorem cmdFrame_walk {m m' : MachineBase β ε} (h : CmdFrame m m') : WalkFrame [] m m' :=
  ⟨by rw [h.trace, List.append_nil], h.current, h.pending, h.event, h.history⟩

theorem walkFrame_refl (m : MachineBase β ε) : WalkFrame [] m m := cmdFrame_walk (cmdFrame_refl m)

theorem walkFrame_trans {a1 a2 : List (Action ε)} {m1 m2 m3 : MachineBase β ε}
    (h12 : WalkFrame a1 m1 m2) (h23 : WalkFrame a2 m2 m3) : WalkFrame (a1 ++ a2) m1 m3 where
  trace := by rw [h23.trace, h12.trace, List.append_assoc]
  current := h23.current.trans h12.current
  pending := fun t h => h23.pending t (h12.pending t h)
  event := fun h => by
    have h2 := h12.event h
    rw [h23.event (by rw [h2]; exact h), h2]
  history := fun s => by
    rcases h23.history s with h | h
    · rcases h12.history s with h' | h'
      · exact Or.inl (h.trans h')
      · exact Or.inr (h.trans h')
    · exact Or.inr h

theorem walkFrame_log (m : MachineBase β ε) (a : Action ε) : WalkFrame [a] m (m.log a) :=
  ⟨rfl, rfl, fun _ h => h, fun _ => rfl, fun _ => Or.inl rfl⟩

theorem walkFrame_createBox (p : Program β ε) (s : StateId) (m : MachineBase β ε) :
    WalkFrame [] m (StateInfo.createBox p s m) := by
  cases s with
  | root => exact walkFrame_refl m
  | sub super tag =>
    refine ⟨by simp [StateInfo.createBox, MachineBase.logBox, MachineBase.setInfo], rfl,
      fun _ h => h, fun _ => rfl, fun k => Or.inl ?_⟩
    simp only [StateInfo.createBox, info_logBox, info_setInfo]
    split
    · rename_i hk; subst hk; rfl
    · rfl

theorem walkFrame_deleteBox (s : StateId) (m : MachineBase β ε) :
    WalkFrame [] m (StateInfo.deleteBox s m) := by
  cases s with
  | root => exact walkFrame_refl m
  | sub super tag =>
    simp only [StateInfo.deleteBox]
    cases hb : (m.info (.sub super tag)).myBox with
    | none => exact walkFrame_refl m
    | some b =>
      refine ⟨by simp [MachineBase.logBox, MachineBase.setInfo], rfl,
        fun _ h => h, fun _ => rfl, fun k => Or.inl ?_⟩
      simp only [info_logBox, info_setInfo]
      split
      · rename_i hk; subst hk; rfl
      · rfl

theorem walkFrame_virtualDeleteBox (p : Program β ε) (s : StateId) (m : MachineBase β ε) :
    WalkFrame [] m (StateBase._deleteBox p s m) := by
  cases s with
  | root => exact walkFrame_refl m
  | sub super tag =>
    simp only [StateBase._deleteBox]
    split
    · exact walkFrame_refl m
    · exact walkFrame_deleteBox _ m

theorem walkFrame_exit (p : Program β ε) (next : StateId) :
    ∀ (s : StateId) (m m' : MachineBase β ε), StateInfo.exit p next s m = .ok m' →
      WalkFrame ((exitPath next s).map Action.exit) m m' := by
  intro s
  induction s with
  | root =>
    intro m m' h
    cases h
    exact walkFrame_refl _
  | sub super tag ih =>
    intro m m' h
    simp only [StateInfo.exit, exitPath] at h ⊢
    split at h
    · rename_i hc
      rw [if_pos hc]
      cases h1 : runCmds (p.exit (.sub super tag) (m.log (.exit (.sub super tag))))
          (m.log (.exit (.sub super tag))) with
      | error e => rw [h1] at h; cases h
      | ok m2 =>
        rw [h1] at h
        have f1 := walkFrame_log m (.exit (.sub super tag))
        have f2 := cmdFrame_walk (cmdFrame_runCmds h1)
        have f3 := walkFrame_virtualDeleteBox p (.sub super tag) m2
        have f4 := ih _ _ h
        have := walkFrame_trans (walkFrame_trans (walkFrame_trans f1 f2) f3) f4
        simpa using this
    · rename_i hc
      rw [if_neg hc]
      cases h
      exact walkFrame_refl _

theorem walkFrame_entry (p : Program β ε) (previous : StateId) :
    ∀ (s : StateId) (first : Bool) (m m' : MachineBase β ε),
      StateInfo.entry p previous s first m = .ok m' →
      WalkFrame ((entryPath previous s first).map Action.entry) m m' := by
  intro s
  induction s with
  | root =>
    intro first m m' h
    cases h
    exact walkFrame_refl _
  | sub super tag ih =>
    intro first m m' h
    simp only [StateInfo.entry, entryPath] at h ⊢
    split at h
    · rename_i hc
      rw [if_pos hc]
      cases h1 : StateInfo.entry p previous super false m with
      | error e => rw [h1] at h; cases h
      | ok m1 =>
        rw [h1] at h
        simp only [Except.bind] at h
        have f1 := ih _ _ _ h1
        have f2 : WalkFrame [] m1
            (match (m1.info (.sub super tag)).myBox with
              | none => StateInfo.createBox p (.sub super tag) m1
              | some _ => m1) := by
          split
          · exact walkFrame_createBox p _ m1
          · exact walkFrame_refl m1
        have f3 := walkFrame_log
          (match (m1.info (.sub super tag)).myBox with
              | none => StateInfo.createBox p (.sub super tag) m1
              | some _ => m1) (.entry (.sub super tag))
        have f4 := cmdFrame_walk (cmdFrame_runCmds h)
        have := walkFrame_trans (walkFrame_trans (walkFrame_trans f1 f2) f3) f4
        simpa using this
    · rename_i hc
      rw [if_neg hc]
      cases h
      exact walkFrame_refl _

/-! ## What the walks do to boxes -/

theorem boxFrame_refl (p : Program β ε) (t : List StateId) (m : MachineBase β ε) :
    BoxFrame p t m m :=
  ⟨⟨[], by simp, by simp⟩, fun _ _ => rfl, fun _ _ _ => rfl⟩

theorem boxFrame_mono {p : Program β ε} {t t' : List StateId} {m m' : MachineBase β ε}
    (h : BoxFrame p t m m') (hsub : ∀ s ∈ t, s ∈ t') : BoxFrame p t' m m' := by
  obtain ⟨l, hl, hmem⟩ := h.boxLog
  exact ⟨⟨l, hl, fun a ha => hsub _ (hmem a ha)⟩,
    fun s hs => h.hasBox s (fun hc => hs (hsub s hc)),
    fun s hs => h.box s (fun hc => hs (hsub s hc))⟩

theorem boxFrame_trans {p : Program β ε} {t1 t2 : List StateId} {m1 m2 m3 : MachineBase β ε}
    (h12 : BoxFrame p t1 m1 m2) (h23 : BoxFrame p t2 m2 m3) :
    BoxFrame p (t1 ++ t2) m1 m3 := by
  obtain ⟨l1, hl1, hmem1⟩ := h12.boxLog
  obtain ⟨l2, hl2, hmem2⟩ := h23.boxLog
  refine ⟨⟨l1 ++ l2, by rw [hl2, hl1, List.append_assoc], ?_⟩, ?_, ?_⟩
  · intro a ha
    rcases List.mem_append.mp ha with h | h
    · exact List.mem_append_left _ (hmem1 a h)
    · exact List.mem_append_right _ (hmem2 a h)
  · intro s hs
    have hs1 : s ∉ t1 := fun hc => hs (List.mem_append_left _ hc)
    have hs2 : s ∉ t2 := fun hc => hs (List.mem_append_right _ hc)
    rw [h23.hasBox s hs2, h12.hasBox s hs1]
  · intro s hs hw
    have hs1 : s ∉ t1 := fun hc => hs (List.mem_append_left _ hc)
    have hs2 : s ∉ t2 := fun hc => hs (List.mem_append_right _ hc)
    rw [h23.box s hs2 hw, h12.box s hs1 hw]

theorem boxFrame_ofCmds {p : Program β ε} {cs : List (Cmd β ε)} {m m' : MachineBase β ε}
    (h : runCmds cs m = .ok m')
    (hcs : ∀ k, NoWrite p k → ∀ c ∈ cs, c.writes k = false) : BoxFrame p [] m m' := by
  have hf := cmdFrame_runCmds h
  exact ⟨⟨[], by simp [hf.boxLog], by simp⟩, fun s _ => hf.hasBox s,
    fun s _ hw => runCmds_box h s (hcs s hw)⟩

theorem boxFrame_log (p : Program β ε) (m : MachineBase β ε) (a : Action ε) :
    BoxFrame p [] m (m.log a) :=
  ⟨⟨[], by simp [MachineBase.log], by simp⟩, fun _ _ => rfl, fun _ _ _ => rfl⟩

theorem boxFrame_ofHistoryOnly (p : Program β ε) {m m' : MachineBase β ε}
    (h : HistoryOnly m m') : BoxFrame p [] m m' :=
  ⟨⟨[], by simp [h.boxLog], by simp⟩, fun s _ => by rw [h.box s], fun s _ _ => h.box s⟩

theorem boxFrame_createBox (p : Program β ε) (s : StateId) (m : MachineBase β ε) :
    BoxFrame p [s] m (StateInfo.createBox p s m) := by
  cases s with
  | root => exact boxFrame_refl p _ m
  | sub super tag =>
    refine ⟨⟨[.created (.sub super tag)], rfl, by simp [BoxAction.state]⟩, ?_, ?_⟩
    · intro k hk
      have hk' : k ≠ .sub super tag := by simpa using hk
      simp [StateInfo.createBox, info_setInfo, hk']
    · intro k hk _
      have hk' : k ≠ .sub super tag := by simpa using hk
      simp [StateInfo.createBox, info_setInfo, hk']

theorem boxFrame_virtualDeleteBox (p : Program β ε) (s : StateId) (m : MachineBase β ε) :
    BoxFrame p [s] m (StateBase._deleteBox p s m) := by
  cases s with
  | root => exact boxFrame_refl p _ m
  | sub super tag =>
    simp only [StateBase._deleteBox]
    split
    · exact boxFrame_refl p _ m
    · simp only [StateInfo.deleteBox]
      cases hb : (m.info (.sub super tag)).myBox with
      | none => exact boxFrame_refl p _ m
      | some b =>
        refine ⟨⟨[.deleted (.sub super tag)], rfl, by simp [BoxAction.state]⟩, ?_, ?_⟩
        · intro k hk
          have hk' : k ≠ .sub super tag := by simpa using hk
          simp [info_setInfo, hk']
        · intro k hk _
          have hk' : k ≠ .sub super tag := by simpa using hk
          simp [info_setInfo, hk']

theorem boxFrame_setBox (p : Program β ε) {s : StateId} {box : β} {m m' : MachineBase β ε}
    (h : StateInfo.setBox s box m = .ok m') : BoxFrame p [s] m m' := by
  unfold StateInfo.setBox at h
  split at h
  · cases h
  · cases h
    refine ⟨⟨[], by simp [MachineBase.setInfo], by simp⟩, ?_, ?_⟩
    · intro k hk
      have hk' : k ≠ s := by simpa using hk
      simp [info_setInfo, hk']
    · intro k hk _
      have hk' : k ≠ s := by simpa using hk
      simp [info_setInfo, hk']

theorem boxFrame_exit (p : Program β ε) (next : StateId) :
    ∀ (s : StateId) (m m' : MachineBase β ε), StateInfo.exit p next s m = .ok m' →
      BoxFrame p (exitPath next s) m m' := by
  intro s
  induction s with
  | root =>
    intro m m' h
    cases h
    exact boxFrame_refl p _ _
  | sub super tag ih =>
    intro m m' h
    simp only [StateInfo.exit, exitPath] at h ⊢
    split at h
    · rename_i hc
      rw [if_pos hc]
      cases h1 : runCmds (p.exit (.sub super tag) (m.log (.exit (.sub super tag))))
          (m.log (.exit (.sub super tag))) with
      | error e => rw [h1] at h; cases h
      | ok m2 =>
        rw [h1] at h
        have f1 := boxFrame_log p m (.exit (.sub super tag))
        have f2 : BoxFrame p [] _ m2 :=
          boxFrame_ofCmds h1 (fun k hw c hc => hw _ _ c (Or.inr (Or.inl hc)))
        have f3 := boxFrame_virtualDeleteBox p (.sub super tag) m2
        have f4 := ih _ _ h
        have := boxFrame_trans (boxFrame_trans (boxFrame_trans f1 f2) f3) f4
        simpa using this
    · rename_i hc
      rw [if_neg hc]
      cases h
      exact boxFrame_refl p _ _

theorem boxFrame_entry (p : Program β ε) (previous : StateId) :
    ∀ (s : StateId) (first : Bool) (m m' : MachineBase β ε),
      StateInfo.entry p previous s first m = .ok m' →
      BoxFrame p (entryPath previous s first) m m' := by
  intro s
  induction s with
  | root =>
    intro first m m' h
    cases h
    exact boxFrame_refl p _ _
  | sub super tag ih =>
    intro first m m' h
    simp only [StateInfo.entry, entryPath] at h ⊢
    split at h
    · rename_i hc
      rw [if_pos hc]
      cases h1 : StateInfo.entry p previous super false m with
      | error e => rw [h1] at h; cases h
      | ok m1 =>
        rw [h1] at h
        simp only [Except.bind] at h
        have f1 := ih _ _ _ h1
        have f2 : BoxFrame p [.sub super tag] m1
            (match (m1.info (.sub super tag)).myBox with
              | none => StateInfo.createBox p (.sub super tag) m1
              | some _ => m1) := by
          split
          · exact boxFrame_createBox p _ m1
          · exact boxFrame_refl p _ m1
        have f3 := boxFrame_log p
          (match (m1.info (.sub super tag)).myBox with
              | none => StateInfo.createBox p (.sub super tag) m1
              | some _ => m1) (.entry (.sub super tag))
        have f4 : BoxFrame p [] _ m' :=
          boxFrame_ofCmds h (fun k hw c hc => hw _ _ c (Or.inl hc))
        have := boxFrame_trans (boxFrame_trans (boxFrame_trans f1 f2) f3) f4
        simpa using this
    · rename_i hc
      rw [if_neg hc]
      cases h
      exact boxFrame_refl p _ _

/-! ## The history save -/

theorem historyOnly_refl (m : MachineBase β ε) : HistoryOnly m m :=
  ⟨rfl, rfl, rfl, rfl, rfl, rfl, rfl, fun _ => rfl⟩

theorem historyOnly_trans {m1 m2 m3 : MachineBase β ε} (h12 : HistoryOnly m1 m2)
    (h23 : HistoryOnly m2 m3) : HistoryOnly m1 m3 :=
  ⟨h23.trace.trans h12.trace, h23.boxLog.trans h12.boxLog, h23.current.trans h12.current,
    h23.pendingState.trans h12.pendingState, h23.pendingBox.trans h12.pendingBox,
    h23.pendingHistory.trans h12.pendingHistory, h23.event.trans h12.event,
    fun s => (h23.box s).trans (h12.box s)⟩

theorem historyOnly_setHistory (s : StateId) (h : Option StateId) (m : MachineBase β ε) :
    HistoryOnly m (StateInfo.setHistory s h m) :=
  ⟨rfl, rfl, rfl, rfl, rfl, rfl, rfl, fun k => setHistory_box s h m k⟩

theorem setHistory_history (s : StateId) (h : Option StateId) (m : MachineBase β ε)
    (k : StateId) :
    ((StateInfo.setHistory s h m).info k).myHistory = if k = s then h else (m.info k).myHistory := by
  simp only [StateInfo.setHistory, info_setInfo]
  split <;> rfl

theorem historyOnly_saveHistory (p : Program β ε) :
    ∀ (x sh dp : StateId) (m : MachineBase β ε),
      HistoryOnly m (StateInfo.saveHistory p x sh dp m) := by
  intro x
  induction x with
  | root => intro sh dp m; exact historyOnly_refl m
  | sub super tag ih =>
    intro sh dp m
    simp only [StateInfo.saveHistory]
    have h1 : HistoryOnly m
        (match p.history (.sub super tag) with
          | .none => m
          | .shallow => StateInfo.setHistory (.sub super tag) (some sh) m
          | .deep => StateInfo.setHistory (.sub super tag) (some dp) m) := by
      split
      · exact historyOnly_refl m
      · exact historyOnly_setHistory _ _ m
      · exact historyOnly_setHistory _ _ m
    split
    · exact historyOnly_trans h1 (ih _ _ _)
    · exact h1

theorem historyOnly_setHistorySuper (p : Program β ε) (self dp : StateId)
    (m : MachineBase β ε) : HistoryOnly m (StateInfo.setHistorySuper p self dp m) := by
  cases self with
  | root => exact historyOnly_refl m
  | sub super tag => exact historyOnly_saveHistory p _ _ _ m

/-- The history save started at `x` touches the history pointers of `x` and its
superstates only. -/
theorem saveHistory_other (p : Program β ε) :
    ∀ (x sh dp : StateId) (m : MachineBase β ε) (k : StateId), isChild x k = false →
      ((StateInfo.saveHistory p x sh dp m).info k).myHistory = (m.info k).myHistory := by
  intro x
  induction x with
  | root => intro sh dp m k _; rfl
  | sub super tag ih =>
    intro sh dp m k hk
    simp only [isChild, Bool.or_eq_false_iff, decide_eq_false_iff_not] at hk
    have hne : k ≠ .sub super tag := fun h => hk.1 h.symm
    simp only [StateInfo.saveHistory]
    have h1 : ((match p.history (.sub super tag) with
          | .none => m
          | .shallow => StateInfo.setHistory (.sub super tag) (some sh) m
          | .deep => StateInfo.setHistory (.sub super tag) (some dp) m).info k).myHistory
        = (m.info k).myHistory := by
      split
      · rfl
      · rw [setHistory_history, if_neg hne]
      · rw [setHistory_history, if_neg hne]
    split
    · rw [ih _ _ _ k hk.2, h1]
    · exact h1

/-- The history save of `rattleOn` for the previous state `c` touches the history pointers
of the proper superstates of `c` only. -/
theorem setHistorySuper_other (p : Program β ε) (c dp : StateId) (m : MachineBase β ε)
    (k : StateId) (hk : ¬ ProperAncestor k c) :
    ((StateInfo.setHistorySuper p c dp m).info k).myHistory = (m.info k).myHistory := by
  cases c with
  | root => rfl
  | sub super tag =>
    apply saveHistory_other
    cases hc : isChild super k with
    | false => rfl
    | true =>
      exfalso
      apply hk
      refine ⟨isChild_of_super tag hc, ?_⟩
      intro he
      subst he
      rw [not_isChild_super_sub] at hc
      cases hc

/-- The history save leaves the history pointer of a state without history strategy
as it is. -/
theorem saveHistory_noHistory (p : Program β ε) :
    ∀ (x sh dp : StateId) (m : MachineBase β ε) (k : StateId), p.history k = .none →
      ((StateInfo.saveHistory p x sh dp m).info k).myHistory = (m.info k).myHistory := by
  intro x
  induction x with
  | root => intro sh dp m k _; rfl
  | sub super tag ih =>
    intro sh dp m k hk
    simp only [StateInfo.saveHistory]
    have h1 : ((match p.history (.sub super tag) with
          | .none => m
          | .shallow => StateInfo.setHistory (.sub super tag) (some sh) m
          | .deep => StateInfo.setHistory (.sub super tag) (some dp) m).info k).myHistory
        = (m.info k).myHistory := by
      by_cases he : k = .sub super tag
      · subst he
        rw [hk]
      · split
        · rfl
        · rw [setHistory_history, if_neg he]
        · rw [setHistory_history, if_neg he]
    split
    · rw [ih _ _ _ k hk, h1]
    · exact h1

theorem setHistorySuper_noHistory (p : Program β ε) (c dp : StateId) (m : MachineBase β ε)
    (k : StateId) (hk : p.history k = .none) :
    ((StateInfo.setHistorySuper p c dp m).info k).myHistory = (m.info k).myHistory := by
  cases c with
  | root => rfl
  | sub super tag => exact saveHistory_noHistory p _ _ _ m k hk

theorem setHistorySuper_resolves (p : Program β ε) :
    ∀ (x k : StateId), isChild x k = true → k ≠ .root → p.history k ≠ .none →
      StateBase._setHistorySuper p x = true := by
  intro x
  induction x with
  | root =>
    intro k hk hr _
    simp [isChild] at hk
    exact absurd hk.symm hr
  | sub super tag ih =>
    intro k hk hr hh
    by_cases he : k = .sub super tag
    · subst he
      simp [StateBase._setHistorySuper, hh]
    · simp [StateBase._setHistorySuper, ih k (isChild_super hk he) hr hh]

/-- What the history save started at `x` stores in `x` and in each superstate `k`
of `x`, by the history strategy of `k`. -/
theorem saveHistory_history (p : Program β ε) :
    ∀ (x sh dp : StateId) (m : MachineBase β ε) (k : StateId), isChild x k = true →
      k ≠ .root →
      ((StateInfo.saveHistory p x sh dp m).info k).myHistory =
        match p.history k with
        | .none => (m.info k).myHistory
        | .shallow => some (childToward k x sh)
        | .deep => some dp := by
  intro x
  induction x with
  | root =>
    intro sh dp m k hk hr
    simp [isChild] at hk
    exact absurd hk.symm hr
  | sub super tag ih =>
    intro sh dp m k hk hr
    by_cases he : k = .sub super tag
    · subst he
      simp only [StateInfo.saveHistory, childToward, if_true]
      have hns := not_isChild_super_sub super tag
      cases hh : p.history (.sub super tag) <;> simp only [] <;> split <;>
        simp [saveHistory_other p _ _ _ _ _ hns, setHistory_history]
    · have hsk := isChild_super hk he
      have hne : ¬ (StateId.sub super tag = k) := fun h => he h.symm
      simp only [StateInfo.saveHistory, childToward, if_neg hne]
      have h1 : ((match p.history (.sub super tag) with
            | .none => m
            | .shallow => StateInfo.setHistory (.sub super tag) (some sh) m
            | .deep => StateInfo.setHistory (.sub super tag) (some dp) m).info k).myHistory
          = (m.info k).myHistory := by
        split
        · rfl
        · rw [setHistory_history, if_neg he]
        · rw [setHistory_history, if_neg he]
      split
      · rw [ih _ _ _ k hsk hr]
        cases hh : p.history k <;> simp only []
        exact h1
      · rename_i hb
        cases hh : p.history k with
        | none => simpa using h1
        | shallow =>
          exact absurd (setHistorySuper_resolves p super k hsk hr (by rw [hh]; simp)) hb
        | deep =>
          exact absurd (setHistorySuper_resolves p super k hsk hr (by rw [hh]; simp)) hb

/-! ## The three parts of one transition -/

theorem exitPhase_ok {p : Program β ε} {m m1 : MachineBase β ε} {S T : StateId}
    (hc : m.myCurrentState = some S) (hp : m.myPendingState = some T)
    (h : m.exitPhase p = .ok m1) :
    ∃ me, StateInfo.exit p T S m.setDummyEvent = .ok me ∧
      m1 = StateInfo.setHistorySuper p S S me := by
  unfold MachineBase.exitPhase at h
  rw [hc, hp] at h
  simp only at h
  cases he : StateInfo.exit p T S m.setDummyEvent with
  | error e => rw [he] at h; cases h
  | ok me =>
    rw [he] at h
    have hcur : me.myCurrentState = some S := by
      rw [(walkFrame_exit p T S _ _ he).current]
      unfold MachineBase.setDummyEvent
      split <;> exact hc
    simp only [Except.bind, hcur] at h
    cases h
    exact ⟨me, rfl, rfl⟩

theorem entryPhase_ok {p : Program β ε} {m m2 : MachineBase β ε} {history : Bool}
    {S T : StateId} (hc : m.myCurrentState = some S) (hp : m.myPendingState = some T)
    (h : m.entryPhase p = .ok (m2, history)) :
    ∃ mb m3,
      (match m.myPendingBox with
        | some box => StateInfo.setBox T box { m with myCurrentState := some T }
        | none => .ok { m with myCurrentState := some T }) = .ok mb ∧
      StateInfo.entry p S T true mb = .ok m3 ∧
      m2 = { m3 with myPendingState := none, myPendingBox := none, myPendingHistory := false } ∧
      history = m3.myPendingHistory := by
  unfold MachineBase.entryPhase at h
  split at h
  · rename_i previous pending hcur hpend
    rw [hc] at hcur
    rw [hp] at hpend
    cases hcur
    cases hpend
    simp only at h
    cases hb : (match m.myPendingBox with
          | some box => StateInfo.setBox T box { m with myCurrentState := some T }
          | none => Except.ok { m with myCurrentState := some T }) with
    | error e => rw [hb] at h; cases h
    | ok mb =>
      rw [hb] at h
      simp only [Except.bind] at h
      cases he : StateInfo.entry p S T true mb with
      | error e => rw [he] at h; cases h
      | ok m3 =>
        rw [he] at h
        simp only [Except.map] at h
        cases h
        exact ⟨mb, m3, rfl, he, rfl, rfl⟩
  · cases h

theorem initPhase_ok {p : Program β ε} {m m3 : MachineBase β ε} {history : Bool}
    {T : StateId} (hc : m.myCurrentState = some T) (h : m.initPhase p history = .ok m3) :
    ∃ mi, StateInfo.init p T history m = .ok mi ∧
      (∀ d, mi.myPendingState = some d →
        ∃ c, mi.myCurrentState = some c ∧ isChild d c = true ∧ c ≠ d) ∧
      m3 = mi.clearDummyEvent := by
  unfold MachineBase.initPhase at h
  rw [hc] at h
  simp only at h
  cases hi : StateInfo.init p T history m with
  | error e => rw [hi] at h; cases h
  | ok mi =>
    rw [hi] at h
    simp only [Except.bind] at h
    split at h
    · rename_i hh
      cases h
      refine ⟨mi, rfl, ?_, rfl⟩
      intro d hd
      rw [hd] at hh
      cases hcur : mi.myCurrentState with
      | none => rw [hcur] at hh; simp at hh
      | some c =>
        rw [hcur] at hh
        simp only [Bool.and_eq_true, decide_eq_true_eq] at hh
        exact ⟨c, rfl, hh.1, hh.2⟩
    · cases h

/-- The two branches of `_StateInfo::init(history)`. -/
theorem init_ok {p : Program β ε} {m mi : MachineBase β ε} {history : Bool} {T : StateId}
    (h : StateInfo.init p T history m = .ok mi) :
    (∃ k mp, history = true ∧ (m.info T).myHistory = some k ∧
        (m.log (.history T k)).setPendingState k true none = .ok mp ∧
        mi = StateInfo.setHistory T none mp) ∨
    (∃ mu, (history = false ∨ (m.info T).myHistory = none) ∧
        runCmds (StateBase.init p T (m.log (.init T))) (m.log (.init T)) = .ok mu ∧
        mi = StateInfo.setHistory T none mu) := by
  unfold StateInfo.init at h
  cases hh : history with
  | false =>
    right
    rw [hh] at h
    simp only at h
    cases hr : runCmds (StateBase.init p T (m.log (.init T))) (m.log (.init T)) with
    | error e => rw [hr] at h; cases h
    | ok mu =>
      rw [hr] at h
      cases h
      exact ⟨mu, Or.inl rfl, rfl, rfl⟩
  | true =>
    rw [hh] at h
    cases hk : (m.info T).myHistory with
    | none =>
      right
      rw [hk] at h
      simp only at h
      cases hr : runCmds (StateBase.init p T (m.log (.init T))) (m.log (.init T)) with
      | error e => rw [hr] at h; cases h
      | ok mu =>
        rw [hr] at h
        cases h
        exact ⟨mu, Or.inr rfl, rfl, rfl⟩
    | some k =>
      left
      rw [hk] at h
      simp only at h
      cases hr : (m.log (.history T k)).setPendingState k true none with
      | error e => rw [hr] at h; cases h
      | ok mp =>
        rw [hr] at h
        cases h
        exact ⟨k, mp, rfl, rfl, hr, rfl⟩

theorem setDummyEvent_walk (m : MachineBase β ε) :
    m.setDummyEvent.trace = m.trace ∧ m.setDummyEvent.boxLog = m.boxLog ∧
    m.setDummyEvent.myCurrentState = m.myCurrentState ∧
    m.setDummyEvent.myPendingState = m.myPendingState ∧
    m.setDummyEvent.myPendingBox = m.myPendingBox ∧
    m.setDummyEvent.myPendingHistory = m.myPendingHistory ∧
    (∀ k, m.setDummyEvent.info k = m.info k) ∧
    m.setDummyEvent.myPendingEvent ≠ .null ∧
    (∀ e, m.myPendingEvent = .event e → m.setDummyEvent.myPendingEvent = .event e) ∧
    (m.myPendingEvent = .null → m.setDummyEvent.myPendingEvent = .dummy) := by
  unfold MachineBase.setDummyEvent
  cases h : m.myPendingEvent <;> simp [h, MachineBase.info]

theorem clearDummyEvent_walk (m : MachineBase β ε) :
    m.clearDummyEvent.trace = m.trace ∧ m.clearDummyEvent.boxLog = m.boxLog ∧
    m.clearDummyEvent.myCurrentState = m.myCurrentState ∧
    m.clearDummyEvent.myPendingState = m.myPendingState ∧
    m.clearDummyEvent.myPendingBox = m.myPendingBox ∧
    m.clearDummyEvent.myPendingHistory = m.myPendingHistory ∧
    (∀ k, m.clearDummyEvent.info k = m.info k) ∧
    (∀ e, m.myPendingEvent = .event e → m.clearDummyEvent.myPendingEvent = .event e) ∧
    (m.myPendingEvent = .dummy → m.clearDummyEvent.myPendingEvent = .null) ∧
    (m.myPendingEvent = .null → m.clearDummyEvent.myPendingEvent = .null) := by
  unfold MachineBase.clearDummyEvent
  cases h : m.myPendingEvent <;> simp [h, MachineBase.info]

theorem exitPhase_spec {p : Program β ε} {m m1 : MachineBase β ε} {S T : StateId}
    (hc : m.myCurrentState = some S) (hp : m.myPendingState = some T)
    (h : m.exitPhase p = .ok m1) : ExitSpec p S T m m1 := by
  obtain ⟨me, he, rfl⟩ := exitPhase_ok hc hp h
  obtain ⟨d1, d2, d3, d4, d5, d6, d7, d8, d9, d10⟩ := setDummyEvent_walk m
  have hw := walkFrame_exit p T S _ _ he
  have hb := boxFrame_exit p T S _ _ he
  have ho := historyOnly_setHistorySuper p S S me
  refine ⟨?_, ?_, ?_, ?_, ?_, ?_, ?_, ?_⟩
  · rw [ho.trace, hw.trace, d1]
  · rw [ho.current, hw.current, d3, hc]
  · rw [ho.pendingState]
    exact hw.pending T (by rw [d4, hp])
  · rw [ho.event, hw.event d8]; exact d8
  · intro e hev
    rw [ho.event, hw.event d8]; exact d9 e hev
  · intro hev
    rw [ho.event, hw.event d8]; exact d10 hev
  · have b0 : BoxFrame p [] m m.setDummyEvent :=
      ⟨⟨[], by simp [d2], by simp⟩, fun s _ => by rw [d7], fun s _ _ => by rw [d7]⟩
    have := boxFrame_trans (boxFrame_trans b0 hb) (boxFrame_ofHistoryOnly p ho)
    simpa using this
  · intro k hk
    have hsame : ((StateInfo.setHistorySuper p S S me).info k).myHistory =
        (me.info k).myHistory := by
      rcases hk with hk | hk
      · exact setHistorySuper_other p S S me k hk
      · exact setHistorySuper_noHistory p S S me k hk
    rw [hsame]
    have := hw.history k
    rw [d7] at this
    exact this

theorem entryPhase_spec {p : Program β ε} {m1 m2 : MachineBase β ε} {history : Bool}
    {S T : StateId} (hc : m1.myCurrentState = some S) (hp : m1.myPendingState = some T)
    (hev : m1.myPendingEvent ≠ .null) (h : m1.entryPhase p = .ok (m2, history)) :
    EntrySpec p S T m1 m2 := by
  obtain ⟨mb, m3, hb, he, rfl, _⟩ := entryPhase_ok hc hp h
  have hw := walkFrame_entry p S T true _ _ he
  have hbx := boxFrame_entry p S T true _ _ he
  -- the installation of the pending box
  have hset : mb.trace = m1.trace ∧ mb.myCurrentState = some T ∧
      mb.myPendingEvent = m1.myPendingEvent ∧ BoxFrame p [T] m1 mb ∧
      (∀ k, (mb.info k).myHistory = (m1.info k).myHistory) := by
    split at hb
    · have hbf := boxFrame_setBox p hb
      unfold StateInfo.setBox at hb
      split at hb
      · cases hb
      · cases hb
        refine ⟨rfl, rfl, rfl, ?_, ?_⟩
        · exact ⟨hbf.boxLog, hbf.hasBox, hbf.box⟩
        · intro k
          simp only [info_setInfo]
          split
          · rename_i hk; subst hk; rfl
          · rfl
    · cases hb
      exact ⟨rfl, rfl, rfl, ⟨⟨[], by simp, by simp⟩, fun _ _ => rfl, fun _ _ _ => rfl⟩,
        fun _ => rfl⟩
  obtain ⟨s1, s2, s3, s4, s5⟩ := hset
  refine ⟨?_, ?_, rfl, rfl, rfl, ?_, ?_, ?_⟩
  · show m3.trace = _
    rw [hw.trace, s1]
  · show m3.myCurrentState = _
    rw [hw.current, s2]
  · show m3.myPendingEvent = _
    rw [hw.event (by rw [s3]; exact hev), s3]
  · have hx : BoxFrame p (entryPath S T true) mb
        { m3 with myPendingState := none, myPendingBox := none, myPendingHistory := false } :=
      ⟨hbx.boxLog, hbx.hasBox, hbx.box⟩
    have := boxFrame_trans s4 hx
    simpa using this
  · intro k
    have := hw.history k
    rw [s5 k] at this
    exact this

theorem initAction_none (t : StateId) (history : Bool) :
    initAction t history none = (Action.init t : Action ε) := by
  cases history <;> rfl

theorem initAction_false (t : StateId) (stored : Option StateId) :
    initAction t false stored = (Action.init t : Action ε) := rfl

theorem initAction_isInitOf (t : StateId) (history : Bool) (stored : Option StateId) :
    (initAction t history stored : Action ε).IsInitOf t := by
  cases history with
  | false => exact Or.inl rfl
  | true =>
    cases stored with
    | none => exact Or.inl rfl
    | some k => exact Or.inr ⟨k, rfl⟩

theorem initPhase_spec {p : Program β ε} {m2 m3 : MachineBase β ε} {history : Bool}
    {T : StateId} (hc : m2.myCurrentState = some T)
    (h : m2.initPhase p history = .ok m3) : InitSpec p T history m2 m3 := by
  obtain ⟨mi, hi, hassert, rfl⟩ := initPhase_ok hc h
  obtain ⟨c1, c2, c3, c4, c5, c6, c7, c8, c9, c10⟩ := clearDummyEvent_walk mi
  have hbase : mi.trace = m2.trace ++ [initAction T history (m2.info T).myHistory] ∧
      (∀ k, history = true → (m2.info T).myHistory = some k →
        mi.myPendingState = some k ∧ mi.myPendingHistory = true ∧ mi.myPendingBox = none) ∧
      mi.myCurrentState = some T ∧
      (∀ e, m2.myPendingEvent = .event e → mi.myPendingEvent = .event e) ∧
      (m2.myPendingEvent = .dummy → mi.myPendingEvent = .dummy) ∧
      BoxFrame p [] m2 mi ∧ (mi.info T).myHistory = none ∧
      (∀ k, (mi.info k).myHistory = (m2.info k).myHistory ∨ (mi.info k).myHistory = none) := by
    rcases init_ok hi with ⟨k, mp, hh, hk, hs, rfl⟩ | ⟨mu, hcond, hr, rfl⟩
    · have hf := cmdFrame_setPendingState hs
      have hcl := cmdFrame_setHistory_none T mp
      have hmp : mp.myPendingState = some k ∧ mp.myPendingHistory = true ∧
          mp.myPendingBox = none := by
        unfold MachineBase.setPendingState at hs
        split at hs
        · cases hs; exact ⟨rfl, rfl, rfl⟩
        · cases hs
      refine ⟨?_, ?_, ?_, ?_, ?_, ?_, ?_, ?_⟩
      · rw [hcl.trace, hf.trace, hh, hk]; rfl
      · intro k' _ hk'
        rw [hk] at hk'
        cases hk'
        exact hmp
      · rw [hcl.current, hf.current]; exact hc
      · intro e he
        have h1 : (m2.log (.history T k)).myPendingEvent ≠ .null := by
          show m2.myPendingEvent ≠ _
          rw [he]; simp
        rw [hcl.event (by rw [hf.event h1]; exact h1), hf.event h1]
        exact he
      · intro he
        have h1 : (m2.log (.history T k)).myPendingEvent ≠ .null := by
          show m2.myPendingEvent ≠ _
          rw [he]; simp
        rw [hcl.event (by rw [hf.event h1]; exact h1), hf.event h1]
        exact he
      · refine ⟨⟨[], ?_, by simp⟩, ?_, ?_⟩
        · rw [hcl.boxLog, hf.boxLog]; simp [MachineBase.log]
        · intro s _
          rw [hcl.hasBox, hf.hasBox]; rfl
        · intro s _ _
          rw [setHistory_box, setPendingState_info hs]; rfl
      · rw [setHistory_history, if_pos rfl]
      · intro s
        rcases (cmdFrame_trans hf hcl).history s with h1 | h1
        · left; rw [h1]; rfl
        · right; exact h1
    · have hf := cmdFrame_runCmds hr
      have hcl := cmdFrame_setHistory_none T mu
      have hact : initAction T history (m2.info T).myHistory = (Action.init T : Action ε) := by
        rcases hcond with hcond | hcond
        · rw [hcond]; rfl
        · rw [hcond]; exact initAction_none T history
      refine ⟨?_, ?_, ?_, ?_, ?_, ?_, ?_, ?_⟩
      · rw [hcl.trace, hf.trace, hact]; rfl
      · intro k' hh hk'
        rcases hcond with hcond | hcond
        · rw [hcond] at hh; cases hh
        · rw [hcond] at hk'; cases hk'
      · rw [hcl.current, hf.current]; exact hc
      · intro e he
        have h1 : (m2.log (.init T)).myPendingEvent ≠ .null := by
          show m2.myPendingEvent ≠ _
          rw [he]; simp
        rw [hcl.event (by rw [hf.event h1]; exact h1), hf.event h1]
        exact he
      · intro he
        have h1 : (m2.log (.init T)).myPendingEvent ≠ .null := by
          show m2.myPendingEvent ≠ _
          rw [he]; simp
        rw [hcl.event (by rw [hf.event h1]; exact h1), hf.event h1]
        exact he
      · have b1 : BoxFrame p [] (m2.log (.init T)) mu := by
          apply boxFrame_ofCmds hr
          intro k hw c hcm
          cases T with
          | root => simp [StateBase.init] at hcm
          | sub super tag => exact hw _ _ c (Or.inr (Or.inr hcm))
        have b2 : BoxFrame p [] mu (StateInfo.setHistory T none mu) :=
          boxFrame_ofHistoryOnly p (historyOnly_setHistory T none mu)
        have := boxFrame_trans (boxFrame_trans (boxFrame_log p m2 (.init T)) b1) b2
        simpa using this
      · rw [setHistory_history, if_pos rfl]
      · intro s
        rcases (cmdFrame_trans hf hcl).history s with h1 | h1
        · left; rw [h1]; rfl
        · right; exact h1
  obtain ⟨b1, b2, b3, b4, b5, b6, b7, b8⟩ := hbase
  refine ⟨?_, ?_, ?_, ?_, ?_, ?_, ?_, ?_, ?_⟩
  · rw [c1, b1]
  · intro k hh hk
    rw [c4, c5, c6]
    exact b2 k hh hk
  · rw [c3, b3]
  · intro d hd
    rw [c4] at hd
    obtain ⟨c, hcc, hdc, hne⟩ := hassert d hd
    rw [b3] at hcc
    cases hcc
    exact ⟨hdc, hne⟩
  · intro e he
    exact c8 e (b4 e he)
  · intro he
    exact c9 (b5 he)
  · exact ⟨by rw [c2]; exact b6.boxLog, fun s hs => by rw [c7]; exact b6.hasBox s hs,
      fun s hs hw => by rw [c7]; exact b6.box s hs hw⟩
  · rw [c7]; exact b7
  · intro k
    rw [c7]; exact b8 k

theorem transition_ok {p : Program β ε} {m m' : MachineBase β ε}
    (h : m.transition p = .ok m') :
    ∃ m1 m2 history, m.exitPhase p = .ok m1 ∧ m1.entryPhase p = .ok (m2, history) ∧
      m2.initPhase p history = .ok m' := by
  unfold MachineBase.transition at h
  cases h1 : m.exitPhase p with
  | error e => rw [h1] at h; cases h
  | ok m1 =>
    rw [h1] at h
    simp only [Except.bind] at h
    cases h2 : m1.entryPhase p with
    | error e => rw [h2] at h; cases h
    | ok r =>
      rw [h2] at h
      exact ⟨m1, r.1, r.2, rfl, h2, h⟩

theorem transition_spec {p : Program β ε} {m m' : MachineBase β ε} {S T : StateId}
    (hc : m.myCurrentState = some S) (hp : m.myPendingState = some T)
    (h : m.transition p = .ok m') : TransitionSpec p S T m m' := by
  obtain ⟨m1, m2, history, h1, h2, h3⟩ := transition_ok h
  have e1 := exitPhase_spec hc hp h1
  have e2 := entryPhase_spec e1.current e1.pending e1.eventSet h2
  have e3 := initPhase_spec e2.current h3
  have htr : m'.trace = m.trace ++ (exitPath T S).map Action.exit ++
      (entryPath S T true).map Action.entry ++ [initAction T history (m2.info T).myHistory] := by
    rw [e3.trace, e2.trace, e1.trace]
  refine ⟨⟨_, initAction_isInitOf T history _, htr⟩, ?_, e3.current, e3.pending, ?_, ?_, ?_,
    e3.cleared, ?_⟩
  · intro hna hnone
    have h2n : (m2.info T).myHistory = none := by
      rcases e2.history T with h | h
      · rw [h]
        rcases e1.history T hna with h' | h'
        · rw [h', hnone]
        · exact h'
      · exact h
    rw [htr, h2n, initAction_none]
  · intro e he
    have := e1.eventKept e he
    rw [← e2.event] at this
    exact e3.eventKept e this
  · intro he
    have := e1.eventDummy he
    rw [← e2.event] at this
    exact e3.eventDummy this
  · have := boxFrame_trans (boxFrame_trans e1.boxes e2.boxes) e3.boxes
    simpa using this
  · intro k hk
    rcases e3.history k with h | h
    · rcases e2.history k with h' | h'
      · rcases e1.history k hk with h'' | h''
        · left; rw [h, h', h'']
        · right; rw [h, h', h'']
      · right; rw [h, h']
    · right; exact h

/-! ## Paths: membership and the least common ancestor -/

theorem lca_isLCA (s t : StateId) : IsLCA (lca s t) s t := by
  induction s with
  | root => exact ⟨isChild_refl _, isChild_root t, fun a ha _ => ha⟩
  | sub super tag ih =>
    simp only [lca]
    split
    · rename_i h
      exact ⟨isChild_refl _, h, fun a ha _ => ha⟩
    · rename_i h
      refine ⟨isChild_of_super tag ih.1, ih.2.1, ?_⟩
      intro a ha hta
      have hne : a ≠ .sub super tag := by
        intro he
        subst he
        exact h hta
      exact ih.2.2 a (isChild_super ha hne) hta

theorem not_mem_pathUp (a : StateId) : ∀ s : StateId, a ∉ pathUp s a := by
  intro s
  induction s with
  | root => simp [pathUp]
  | sub super tag ih =>
    simp only [pathUp]
    split
    · simp
    · rename_i hne
      simp only [List.mem_cons, not_or]
      exact ⟨fun h => hne h.symm, ih⟩

theorem mem_exitPath {next x : StateId} :
    ∀ s : StateId, x ∈ exitPath next s → x = next ∨ isChild next x = false := by
  intro s
  induction s with
  | root => simp [exitPath]
  | sub super tag ih =>
    simp only [exitPath]
    split
    · rename_i hc
      intro hx
      rcases List.mem_cons.mp hx with h | h
      · subst h
        simp only [Bool.or_eq_true, decide_eq_true_eq, Bool.not_eq_true'] at hc
        exact hc
      · exact ih h
    · simp

theorem mem_entryPath {previous x : StateId} :
    ∀ (s : StateId) (first : Bool), x ∈ entryPath previous s first →
      isChild previous x = false ∨ (first = true ∧ x = s) := by
  intro s
  induction s with
  | root => simp [entryPath]
  | sub super tag ih =>
    intro first
    simp only [entryPath]
    split
    · rename_i hc
      intro hx
      rcases List.mem_append.mp hx with h | h
      · rcases ih false h with h' | h'
        · exact Or.inl h'
        · exact absurd h'.1 (by simp)
      · simp only [List.mem_singleton] at h
        subst h
        simp only [Bool.or_eq_true, Bool.not_eq_true'] at hc
        rcases hc with hc | hc
        · exact Or.inr ⟨hc, rfl⟩
        · exact Or.inl hc
    · simp

/-- A proper superstate of both the source and the target is on neither path. -/
theorem not_mem_paths {A S T : StateId} (hAS : ProperAncestor A S)
    (hAT : ProperAncestor A T) : A ∉ exitPath T S ++ T :: entryPath S T true := by
  intro h
  rcases List.mem_append.mp h with h | h
  · rcases mem_exitPath S h with h' | h'
    · exact hAT.2 h'
    · rw [hAT.1] at h'; cases h'
  · rcases List.mem_cons.mp h with h | h
    · exact hAT.2 h
    · rcases mem_entryPath T true h with h' | h'
      · rw [hAS.1] at h'; cases h'
      · exact hAT.2 h'.2

/-! ## Claims about one transition -/

/-- C1: a transition performed by `rattleOn` from current state `S` to target `T`,
neither of which is the other or an ancestor of the other, invokes exit on exactly
the states from `S` up to but not including their least common ancestor `L`,
bottom-up, and then entry on exactly the states from just below `L` down to `T`,
top-down, every exit before every entry (init on `T` follows). -/
theorem transition_unrelated (p : Program β ε) (m m' : MachineBase β ε) (S T L : StateId)
    (hc : m.myCurrentState = some S) (hp : m.myPendingState = some T)
    (hST : isChild S T = false) (hTS : isChild T S = false) (hL : IsLCA L S T)
    (h : m.transition p = .ok m') :
    ∃ a : Action ε, a.IsInitOf T ∧
      m'.trace = m.trace ++ (pathUp S L).map Action.exit ++
        (pathDown L T).map Action.entry ++ [a] := by
  obtain ⟨a, ha, htr⟩ := (transition_spec hc hp h).trace
  have hne : L ≠ T := by
    intro he
    subst he
    rw [hL.1] at hST
    cases hST
  have hex : exitPath T S = pathUp S L :=
    exitPath_eq_pathUp hL.2.1 hne S hL.1 hL.2.2
  have hen : entryPath S T true = pathDown L T := entryPath_true_eq_pathDown hL hST
  exact ⟨a, ha, by rw [htr, hex, hen]⟩

/-- Witness for C1: the test's "Sibling* -> Sibling*", from `StateAAA` to `StateABB`. -/
theorem transition_unrelated_witness :
    ∃ a : Action Unit, a.IsInitOf Transitions.StateABB ∧
      (Transitions.stepped [Transitions.StateAAA] Transitions.StateABB).trace =
        (Transitions.scheduled [Transitions.StateAAA] Transitions.StateABB).trace ++
          (pathUp Transitions.StateAAA Transitions.StateA).map Action.exit ++
          (pathDown Transitions.StateA Transitions.StateABB).map Action.entry ++ [a] :=
  transition_unrelated Transitions.prog
    (Transitions.scheduled [Transitions.StateAAA] Transitions.StateABB)
    (Transitions.stepped [Transitions.StateAAA] Transitions.StateABB)
    Transitions.StateAAA Transitions.StateABB Transitions.StateA
    (by decide) (by decide) (by decide) (by decide)
    (lca_isLCA Transitions.StateAAA Transitions.StateABB) (by rfl)

/-- C2, as stated, fails: in the test machine the transition from `StateAB` to
`StateAA` runs `StateAA::entry`, which writes 43 into the box of `StateA`, a proper
ancestor of both states, whose box held 42 before. -/
theorem common_ancestor_box_counterexample :
    (Transitions.scheduled [Transitions.StateAB] Transitions.StateAA).myCurrentState
        = some Transitions.StateAB ∧
    (Transitions.scheduled [Transitions.StateAB] Transitions.StateAA).myPendingState
        = some Transitions.StateAA ∧
    ProperAncestor Transitions.StateA Transitions.StateAB ∧
    ProperAncestor Transitions.StateA Transitions.StateAA ∧
    (Transitions.scheduled [Transitions.StateAB] Transitions.StateAA).transition
        Transitions.prog
      = .ok (Transitions.stepped [Transitions.StateAB] Transitions.StateAA) ∧
    ((Transitions.scheduled [Transitions.StateAB] Transitions.StateAA).info
        Transitions.StateA).myBox = some 42 ∧
    ((Transitions.stepped [Transitions.StateAB] Transitions.StateAA).info
        Transitions.StateA).myBox = some 43 := by
  refine ⟨by decide, by decide, by decide, by decide, by rfl, by decide, by decide⟩

/-- C2, amended: for every transition `S -> T` performed by `rattleOn`, a state `A`
that is a proper ancestor of both `S` and `T` has neither its exit nor its entry
action invoked, and the engine neither creates, deletes nor installs a box for `A`;
the box of `A` is the same afterwards unless an action of the program writes to it. -/
theorem common_ancestor_untouched (p : Program β ε) (m m' : MachineBase β ε)
    (S T A : StateId) (hc : m.myCurrentState = some S) (hp : m.myPendingState = some T)
    (hAS : ProperAncestor A S) (hAT : ProperAncestor A T)
    (h : m.transition p = .ok m') :
    (∃ tr, m'.trace = m.trace ++ tr ∧ Action.exit A ∉ tr ∧ Action.entry A ∉ tr) ∧
    (∃ bl, m'.boxLog = m.boxLog ++ bl ∧ BoxAction.created A ∉ bl ∧
      BoxAction.deleted A ∉ bl) ∧
    (m'.info A).myBox.isSome = (m.info A).myBox.isSome ∧
    (NoWrite p A → (m'.info A).myBox = (m.info A).myBox) := by
  have hs := transition_spec hc hp h
  have hA := not_mem_paths hAS hAT
  have hA1 : A ∉ exitPath T S := fun hc' => hA (List.mem_append_left _ hc')
  have hA2 : A ∉ entryPath S T true :=
    fun hc' => hA (List.mem_append_right _ (List.mem_cons_of_mem _ hc'))
  obtain ⟨a, ha, htr⟩ := hs.trace
  obtain ⟨bl, hbl, hmem⟩ := hs.boxes.boxLog
  refine ⟨⟨_, by rw [htr, List.append_assoc, List.append_assoc], ?_, ?_⟩,
    ⟨bl, hbl, ?_, ?_⟩, hs.boxes.hasBox A hA, hs.boxes.box A hA⟩
  · intro hin
    simp only [List.mem_append, List.mem_map, List.mem_singleton] at hin
    rcases hin with ⟨x, hx, he⟩ | ⟨x, _, he⟩ | he
    · cases he; exact hA1 hx
    · cases he
    · rcases ha with ha | ⟨k, ha⟩ <;> rw [ha] at he <;> cases he
  · intro hin
    simp only [List.mem_append, List.mem_map, List.mem_singleton] at hin
    rcases hin with ⟨x, _, he⟩ | ⟨x, hx, he⟩ | he
    · cases he
    · cases he; exact hA2 hx
    · rcases ha with ha | ⟨k, ha⟩ <;> rw [ha] at he <;> cases he
  · intro hin
    exact hA (hmem _ hin)
  · intro hin
    exact hA (hmem _ hin)

/-- No entry, exit or init action of the test machine writes to the box of `Top`. -/
theorem transitions_noWrite_top : NoWrite Transitions.prog Transitions.Top := by
  intro s m c h
  simp only [Transitions.prog] at h
  rcases h with h | h | h
  · split at h
    · simp only [List.mem_singleton] at h
      subst h
      decide
    · split at h
      · simp only [List.mem_singleton] at h
        subst h
        decide
      · simp at h
  · split at h
    · simp only [List.mem_singleton] at h
      subst h
      decide
    · simp at h
  · split at h
    · simp only [List.mem_singleton] at h
      subst h
      rfl
    · split at h
      · simp only [List.mem_singleton] at h
        subst h
        rfl
      · simp at h

/-- Witness for the amended C2: the test's transition from `StateAAA` to `StateABB`
and their common ancestor `Top`, to whose box no action writes. -/
theorem common_ancestor_untouched_witness :
    (∃ tr, (Transitions.stepped [Transitions.StateAAA] Transitions.StateABB).trace =
        (Transitions.scheduled [Transitions.StateAAA] Transitions.StateABB).trace ++ tr ∧
      Action.exit Transitions.Top ∉ tr ∧ Action.entry Transitions.Top ∉ tr) ∧
    (∃ bl, (Transitions.stepped [Transitions.StateAAA] Transitions.StateABB).boxLog =
        (Transitions.scheduled [Transitions.StateAAA] Transitions.StateABB).boxLog ++ bl ∧
      BoxAction.created Transitions.Top ∉ bl ∧ BoxAction.deleted Transitions.Top ∉ bl) ∧
    ((Transitions.stepped [Transitions.StateAAA] Transitions.StateABB).info
        Transitions.Top).myBox.isSome =
      ((Transitions.scheduled [Transitions.StateAAA] Transitions.StateABB).info
        Transitions.Top).myBox.isSome ∧
    ((Transitions.stepped [Transitions.StateAAA] Transitions.StateABB).info
        Transitions.Top).myBox =
      ((Transitions.scheduled [Transitions.StateAAA] Transitions.StateABB).info
        Transitions.Top).myBox :=
  have h := common_ancestor_untouched Transitions.prog
    (Transitions.scheduled [Transitions.StateAAA] Transitions.StateABB)
    (Transitions.stepped [Transitions.StateAAA] Transitions.StateABB)
    Transitions.StateAAA Transitions.StateABB Transitions.Top
    (by decide) (by decide) (by decide) (by decide) (by rfl)
  ⟨h.1, h.2.1, h.2.2.1, h.2.2.2 transitions_noWrite_top⟩

/-- C3: for a non-Root state `T`, a transition from current state `T` to `T` itself
invokes exactly the exit of `T`, then the entry of `T`, then init on `T` (the user's
init of `T` whenever `T` holds no stored history, which is so for the current state
after any transition), invokes the exit or entry of no other state, and leaves `T`
the current state. -/
theorem transition_self (p : Program β ε) (m m' : MachineBase β ε) (T : StateId)
    (hT : T ≠ .root) (hc : m.myCurrentState = some T) (hp : m.myPendingState = some T)
    (h : m.transition p = .ok m') :
    (∃ a : Action ε, a.IsInitOf T ∧
      m'.trace = m.trace ++ [Action.exit T, Action.entry T, a]) ∧
    ((m.info T).myHistory = none →
      m'.trace = m.trace ++ [Action.exit T, Action.entry T, Action.init T]) ∧
    m'.myCurrentState = some T := by
  have hs := transition_spec hc hp h
  have hex : exitPath T T = [T] := by
    have := exitPath_to_ancestor hT T (isChild_refl T)
    rw [this]
    cases T with
    | root => exact absurd rfl hT
    | sub super tag => simp [pathUp]
  have hen : entryPath T T true = [T] := by
    cases T with
    | root => exact absurd rfl hT
    | sub super tag => exact entryPath_true_of_isChild super tag (isChild_refl _)
  obtain ⟨a, ha, htr⟩ := hs.trace
  refine ⟨⟨a, ha, ?_⟩, ?_, hs.current⟩
  · rw [htr, hex, hen]; simp
  · intro hn
    rw [hs.userInit (Or.inl (fun hpa => hpa.2 rfl)) hn, hex, hen]; simp

/-- Witness for C3: the test's "Self transition" on `StateA`. -/
theorem transition_self_witness :
    (∃ a : Action Unit, a.IsInitOf Transitions.StateA ∧
      (Transitions.stepped [Transitions.StateA] Transitions.StateA).trace =
        (Transitions.scheduled [Transitions.StateA] Transitions.StateA).trace ++
          [Action.exit Transitions.StateA, Action.entry Transitions.StateA, a]) ∧
    (Transitions.stepped [Transitions.StateA] Transitions.StateA).trace =
      (Transitions.scheduled [Transitions.StateA] Transitions.StateA).trace ++
        [Action.exit Transitions.StateA, Action.entry Transitions.StateA,
          Action.init Transitions.StateA] ∧
    (Transitions.stepped [Transitions.StateA] Transitions.StateA).myCurrentState =
      some Transitions.StateA :=
  have h := transition_self Transitions.prog
    (Transitions.scheduled [Transitions.StateA] Transitions.StateA)
    (Transitions.stepped [Transitions.StateA] Transitions.StateA)
    Transitions.StateA (by decide) (by decide) (by decide) (by rfl)
  ⟨h.1, h.2.1 (by decide), h.2.2⟩

/-- C4: a transition from current state `S` to a proper descendant `T` of `S` invokes
no exit action and does not re-enter `S`; entry is invoked on exactly the states
strictly below `S` on the path down to `T`, top-down, and init is invoked on `T` only
(`_StateInfo::init` on `T`; it is the user's init of `T` when `T` holds no stored
history). -/
theorem transition_to_descendant (p : Program β ε) (m m' : MachineBase β ε) (S T : StateId)
    (hc : m.myCurrentState = some S) (hp : m.myPendingState = some T)
    (hST : ProperAncestor S T) (h : m.transition p = .ok m') :
    (∃ a : Action ε, a.IsInitOf T ∧
      m'.trace = m.trace ++ (pathDown S T).map Action.entry ++ [a]) ∧
    ((m.info T).myHistory = none →
      m'.trace = m.trace ++ (pathDown S T).map Action.entry ++ [Action.init T]) ∧
    S ∉ pathDown S T ∧ m'.myCurrentState = some T := by
  have hs := transition_spec hc hp h
  have hex : exitPath T S = [] := exitPath_super_of_isChild S hST.1 hST.2
  have hl : IsLCA S S T := ⟨isChild_refl S, hST.1, fun a ha _ => ha⟩
  have hen : entryPath S T true = pathDown S T :=
    entryPath_true_eq_pathDown hl (properAncestor_not_isChild hST)
  obtain ⟨a, ha, htr⟩ := hs.trace
  refine ⟨⟨a, ha, ?_⟩, ?_, ?_, hs.current⟩
  · rw [htr, hex, hen]; simp
  · intro hn
    have hnp : ¬ ProperAncestor T S := fun hpa => by
      have := properAncestor_not_isChild hST
      rw [hpa.1] at this
      cases this
    rw [hs.userInit (Or.inl hnp) hn, hex, hen]; simp
  · intro hin
    exact not_mem_pathUp S T (List.mem_reverse.mp hin)

/-- Witness for C4: the test's "Parent -> Child*", from `StateA` to `StateAAA`. -/
theorem transition_to_descendant_witness :
    (∃ a : Action Unit, a.IsInitOf Transitions.StateAAA ∧
      (Transitions.stepped [Transitions.StateA] Transitions.StateAAA).trace =
        (Transitions.scheduled [Transitions.StateA] Transitions.StateAAA).trace ++
          (pathDown Transitions.StateA Transitions.StateAAA).map Action.entry ++ [a]) ∧
    (Transitions.stepped [Transitions.StateA] Transitions.StateAAA).trace =
      (Transitions.scheduled [Transitions.StateA] Transitions.StateAAA).trace ++
        (pathDown Transitions.StateA Transitions.StateAAA).map Action.entry ++
        [Action.init Transitions.StateAAA] ∧
    Transitions.StateA ∉ pathDown Transitions.StateA Transitions.StateAAA ∧
    (Transitions.stepped [Transitions.StateA] Transitions.StateAAA).myCurrentState =
      some Transitions.StateAAA :=
  have h := transition_to_descendant Transitions.prog
    (Transitions.scheduled [Transitions.StateA] Transitions.StateAAA)
    (Transitions.stepped [Transitions.StateA] Transitions.StateAAA)
    Transitions.StateA Transitions.StateAAA (by decide) (by decide) (by decide) (by rfl)
  ⟨h.1, h.2.1 (by decide), h.2.2.1, h.2.2.2⟩

/-- C5: a transition from current state `S` to a non-Root proper ancestor `T` of `S`
invokes exit on every state from `S` up to and including `T`, bottom-up, then entry
on `T` alone, then init on `T` (`_StateInfo::init` on `T`; it is the user's init of
`T` when `T` has no history strategy and no stored history); no state above `T` is
exited or entered, and `T` is the current state afterwards. -/
theorem transition_to_ancestor (p : Program β ε) (m m' : MachineBase β ε) (S T : StateId)
    (hT : T ≠ .root) (hc : m.myCurrentState = some S) (hp : m.myPendingState = some T)
    (hTS : ProperAncestor T S) (h : m.transition p = .ok m') :
    (∃ a : Action ε, a.IsInitOf T ∧
      m'.trace = m.trace ++ (pathUp S T ++ [T]).map Action.exit ++ [Action.entry T, a]) ∧
    (p.history T = .none → (m.info T).myHistory = none →
      m'.trace = m.trace ++ (pathUp S T ++ [T]).map Action.exit ++
        [Action.entry T, Action.init T]) ∧
    m'.myCurrentState = some T := by
  have hs := transition_spec hc hp h
  have hex : exitPath T S = pathUp S T ++ [T] := exitPath_to_ancestor hT S hTS.1
  have hen : entryPath S T true = [T] := by
    cases T with
    | root => exact absurd rfl hT
    | sub super tag => exact entryPath_true_of_isChild super tag hTS.1
  obtain ⟨a, ha, htr⟩ := hs.trace
  refine ⟨⟨a, ha, ?_⟩, ?_, hs.current⟩
  · rw [htr, hex, hen]; simp
  · intro hk hn
    rw [hs.userInit (Or.inr hk) hn, hex, hen]; simp

/-- Witness for C5: the test's "Child -> Parent*", from `StateABB` to `StateA`. -/
theorem transition_to_ancestor_witness :
    (∃ a : Action Unit, a.IsInitOf Transitions.StateA ∧
      (Transitions.stepped [Transitions.StateABB] Transitions.StateA).trace =
        (Transitions.scheduled [Transitions.StateABB] Transitions.StateA).trace ++
          (pathUp Transitions.StateABB Transitions.StateA ++
            [Transitions.StateA]).map Action.exit ++
          [Action.entry Transitions.StateA, a]) ∧
    (Transitions.stepped [Transitions.StateABB] Transitions.StateA).trace =
      (Transitions.scheduled [Transitions.StateABB] Transitions.StateA).trace ++
        (pathUp Transitions.StateABB Transitions.StateA ++
          [Transitions.StateA]).map Action.exit ++
        [Action.entry Transitions.StateA, Action.init Transitions.StateA] ∧
    (Transitions.stepped [Transitions.StateABB] Transitions.StateA).myCurrentState =
      some Transitions.StateA :=
  have h := transition_to_ancestor Transitions.prog
    (Transitions.scheduled [Transitions.StateABB] Transitions.StateA)
    (Transitions.stepped [Transitions.StateABB] Transitions.StateA)
    Transitions.StateABB Transitions.StateA (by decide) (by decide) (by decide)
    (by decide) (by rfl)
  ⟨h.1, h.2.1 (by decide) (by decide), h.2.2⟩

/-! ## `setStateDirect` -/

/-- C10: the static `setStateDirect(machine, box)` schedules exactly what
`setPendingState(info, false, box)` schedules, but the member
`setStateDirect(const StateAlias &)` passes `true`, whatever its `_takeBox` does.  On
the test machine resting in `StateB`, with the history of `StateC` stored, the static
overload leaves `myPendingHistory` clear and `rattleOn` runs the init of `StateC`; an
alias for `StateC` given to the member overload leaves `myPendingHistory` set and
`rattleOn` takes the stored history of `StateC` instead. -/
theorem setStateDirect_alias_history :
    (∀ (s : StateId) (box : Option Nat) (m : MachineBase Nat Unit),
      Link.setStateDirect s box m = (Link._getInfo s m).setPendingState s false box) ∧
    (∀ (_takeBox : StateAlias Nat → Option Nat × StateAlias Nat) (state : StateAlias Nat)
        (m : MachineBase Nat Unit) (r : MachineBase Nat Unit × StateAlias Nat),
      Link.setStateDirectAlias _takeBox state m = .ok r → r.1.myPendingHistory = true) ∧
    ((Transitions.machineAt [Transitions.StateC, Transitions.StateB]).info
        Transitions.StateC).myHistory = some Transitions.StateCAA ∧
    (Link.setStateDirect Transitions.StateC none
        (Transitions.machineAt [Transitions.StateC, Transitions.StateB])).toOption.map
      (fun m => (m.myPendingState, m.myPendingHistory)) =
      some (some Transitions.StateC, false) ∧
    (Link.setStateDirectAlias StateAlias.takeBox ⟨none, Transitions.StateC⟩
        (Transitions.machineAt [Transitions.StateC, Transitions.StateB])).toOption.map
      (fun r => (r.1.myPendingState, r.1.myPendingHistory)) =
      some (some Transitions.StateC, true) ∧
    ((Link.setStateDirect Transitions.StateC none
        (Transitions.machineAt [Transitions.StateC, Transitions.StateB])).bind
      (MachineBase.rattleOn Transitions.prog 8)).toOption.map
      (fun m => m.trace.drop
        (Transitions.machineAt [Transitions.StateC, Transitions.StateB]).trace.length) =
      some [.exit Transitions.StateB, .entry Transitions.StateC, .init Transitions.StateC,
        .entry Transitions.StateCA, .history Transitions.StateCA Transitions.StateCAA,
        .entry Transitions.StateCAA, .init Transitions.StateCAA] ∧
    ((Link.setStateDirectAlias StateAlias.takeBox ⟨none, Transitions.StateC⟩
        (Transitions.machineAt [Transitions.StateC, Transitions.StateB])).bind
      (fun r => r.1.rattleOn Transitions.prog 8)).toOption.map
      (fun m => m.trace.drop
        (Transitions.machineAt [Transitions.StateC, Transitions.StateB]).trace.length) =
      some [.exit Transitions.StateB, .entry Transitions.StateC,
        .history Transitions.StateC Transitions.StateCAA,
        .entry Transitions.StateCA, .entry Transitions.StateCAA,
        .init Transitions.StateCAA] := by
  refine ⟨fun _ _ _ => rfl, ?_, by decide, by decide, by decide, by decide, by decide⟩
  intro tb state m r h
  simp only [Link.setStateDirectAlias] at h
  cases h1 : (state.getInfo m).setPendingState state.myCharacter true (tb state).1 with
  | error e => rw [h1] at h; cases h
  | ok m2 =>
    rw [h1] at h
    cases h
    unfold MachineBase.setPendingState at h1
    split at h1
    · cases h1; rfl
    · cases h1

/-! ## The loop `while (myPendingState)` -/

theorem transitionLoop_none {p : Program β ε} {m : MachineBase β ε}
    (hp : m.myPendingState = none) (fuel : Nat) : m.transitionLoop p fuel = .ok m := by
  cases fuel <;> simp [MachineBase.transitionLoop, hp]

theorem transitionLoop_some {p : Program β ε} {m m' : MachineBase β ε} {T : StateId}
    {fuel : Nat} (hp : m.myPendingState = some T) (h : m.transitionLoop p fuel = .ok m') :
    ∃ n m1, fuel = n + 1 ∧ m.transition p = .ok m1 ∧ m1.transitionLoop p n = .ok m' := by
  cases fuel with
  | zero => simp [MachineBase.transitionLoop, hp] at h
  | succ n =>
    simp only [MachineBase.transitionLoop, hp] at h
    cases h1 : m.transition p with
    | error e => rw [h1] at h; cases h
    | ok m1 =>
      rw [h1] at h
      exact ⟨n, m1, rfl, rfl, h⟩

/-- The whole loop for one scheduled transition from `S` to `T`: the exits and entries
of that transition, init on `T`, and then the init cascade, each further target a
proper descendant of the one before it. -/
theorem transitionLoop_cascade (p : Program β ε) :
    ∀ (fuel : Nat) (m m' : MachineBase β ε) (S T : StateId),
      m.myCurrentState = some S → m.myPendingState = some T →
      m.transitionLoop p fuel = .ok m' →
      ∃ (a0 : Action ε) (steps : List (StateId × Action ε)),
        a0.IsInitOf T ∧ (∀ s ∈ steps, s.2.IsInitOf s.1) ∧
        List.Chain ProperAncestor T (steps.map Prod.fst) ∧
        m'.trace = m.trace ++ (exitPath T S).map Action.exit ++
          (entryPath S T true).map Action.entry ++ [a0] ++ cascade T steps ∧
        m'.myCurrentState = some ((steps.map Prod.fst).getLastD T) ∧
        m'.myPendingState = none ∧
        (∀ e, m.myPendingEvent = .event e → m'.myPendingEvent = .event e) ∧
        (m.myPendingEvent = .null → m'.myPendingEvent = .null) := by
  intro fuel
  induction fuel with
  | zero =>
    intro m m' S T _ hp h
    simp [MachineBase.transitionLoop, hp] at h
  | succ n ih =>
    intro m m' S T hc hp h
    obtain ⟨n', m1, hn, ht, hl⟩ := transitionLoop_some hp h
    cases hn
    have hs := transition_spec hc hp ht
    obtain ⟨a0, ha0, htr⟩ := hs.trace
    cases hp1 : m1.myPendingState with
    | none =>
      rw [transitionLoop_none hp1] at hl
      cases hl
      refine ⟨a0, [], ha0, by simp, List.Chain.nil, ?_, hs.current, hp1, hs.eventKept,
        hs.eventNull⟩
      simp [cascade, htr]
    | some d =>
      have hTd := hs.pending d hp1
      obtain ⟨a1, steps, ha1, hst, hch, htr', hcur', hpend', hek, hen⟩ :=
        ih m1 m' T d hs.current hp1 hl
      have hex : exitPath d T = [] := exitPath_super_of_isChild T hTd.1 hTd.2
      have hl' : IsLCA T T d := ⟨isChild_refl T, hTd.1, fun a ha _ => ha⟩
      have hent : entryPath T d true = pathDown T d :=
        entryPath_true_eq_pathDown hl' (properAncestor_not_isChild hTd)
      refine ⟨a0, (d, a1) :: steps, ha0, ?_, ?_, ?_, ?_, hpend', ?_, ?_⟩
      · intro s hsm
        rcases List.mem_cons.mp hsm with h1 | h1
        · subst h1; exact ha1
        · exact hst s h1
      · exact List.Chain.cons hTd hch
      · rw [htr', htr, hex, hent]
        simp [cascade]
      · rw [hcur']
        simp [List.getLastD]
        cases steps with
        | nil => simp
        | cons x xs => simp [List.getLast?_cons_cons]
      · intro e he
        exact hek e (hs.eventKept e he)
      · intro he
        exact hen (hs.eventNull he)

theorem dispatchEvent_ok {p : Program β ε} {m m' : MachineBase β ε} {e : ε}
    (h : m.dispatchEvent p e = .ok m') :
    ∃ c, m.myCurrentState = some c ∧ c ≠ .root ∧
      runCmds (p.handler e c (m.log (.dispatch e c))) (m.log (.dispatch e c)) = .ok m' := by
  unfold MachineBase.dispatchEvent at h
  split at h
  · cases h
  · cases h
  · rename_i super tag hc
    exact ⟨_, hc, by simp, h⟩

theorem transitionLoop_trace {p : Program β ε} {fuel : Nat} {m m' : MachineBase β ε}
    (h : m.transitionLoop p fuel = .ok m') : ∃ rest, m'.trace = m.trace ++ rest := by
  cases hp : m.myPendingState with
  | none =>
    rw [transitionLoop_none hp] at h
    cases h
    exact ⟨[], by simp⟩
  | some T =>
    cases hc : m.myCurrentState with
    | none =>
      obtain ⟨n, m1, _, ht, _⟩ := transitionLoop_some hp h
      obtain ⟨_, _, _, he, _, _⟩ := transition_ok ht
      simp [MachineBase.exitPhase, hc] at he
    | some S =>
      obtain ⟨a0, steps, _, _, _, htr, _⟩ := transitionLoop_cascade p fuel m m' S T hc hp h
      exact ⟨(exitPath T S).map Action.exit ++ (entryPath S T true).map Action.entry ++
        [a0] ++ cascade T steps, by rw [htr]; simp only [List.append_assoc]⟩

theorem pathDown_child (H : StateId) (tag : Nat) : pathDown H (.sub H tag) = [.sub H tag] := by
  have hne : ¬ (StateId.sub H tag = H) := fun h => (properAncestor_super H tag).2 h.symm
  have h0 : pathUp H H = [] := by cases H <;> simp [pathUp]
  simp [pathDown, pathUp, hne, h0]

/-- For a direct child `K` of `H`, a history save started anywhere in the subtree of
`K` hands `K` to `H` as the shallow target. -/
theorem childToward_child (H : StateId) (tag : Nat) :
    ∀ (x sh : StateId), isChild x H = true → H ≠ .root →
      (x = H → sh = .sub H tag) → (x ≠ H → isChild x (.sub H tag) = true) →
      childToward H x sh = .sub H tag := by
  intro x
  induction x with
  | root =>
    intro sh hx hH _ _
    simp [isChild] at hx
    exact absurd hx.symm hH
  | sub super t ih =>
    intro sh hx hH h1 h2
    simp only [childToward]
    split
    · rename_i he
      exact h1 he
    · rename_i hne
      have hxK := h2 hne
      have hsH : isChild super H = true := isChild_super hx (Ne.symm hne)
      apply ih (.sub super t) hsH hH
      · intro hs
        subst hs
        by_cases hk : StateId.sub super t = StateId.sub super tag
        · exact hk
        · have := isChild_super hxK (Ne.symm hk)
          rw [not_isChild_super_sub] at this
          cases this
      · intro hs
        by_cases hk : StateId.sub super t = StateId.sub H tag
        · exact absurd (StateId.sub.inj hk).1 hs
        · exact isChild_super hxK (Ne.symm hk)

/-- The history save of `rattleOn` on leaving `L` stores `L` in every proper
ancestor of `L` that has deep history. -/
theorem setHistorySuper_deep (p : Program β ε) (H L : StateId) (m : MachineBase β ε)
    (hH : H ≠ .root) (hdeep : p.history H = .deep) (hHL : ProperAncestor H L) :
    ((StateInfo.setHistorySuper p L L m).info H).myHistory = some L := by
  cases L with
  | root =>
    have := hHL.1
    simp [isChild] at this
    exact absurd this.symm hH
  | sub super tag =>
    simp only [StateInfo.setHistorySuper]
    rw [saveHistory_history p super _ _ m H (isChild_super hHL.1 hHL.2) hH, hdeep]

/-- The history save of `rattleOn` on leaving `L` stores, in a proper ancestor `H`
of `L` that has shallow history, the child of `H` under which `L` lies. -/
theorem setHistorySuper_shallow (p : Program β ε) (H L : StateId) (tag : Nat)
    (m : MachineBase β ε) (hH : H ≠ .root) (hsh : p.history H = .shallow)
    (hLK : isChild L (.sub H tag) = true) :
    ((StateInfo.setHistorySuper p L L m).info H).myHistory = some (.sub H tag) := by
  have hKH : isChild (.sub H tag) H = true := isChild_of_super tag (isChild_refl H)
  have hLH : isChild L H = true := isChild_trans hLK hKH
  cases L with
  | root =>
    simp [isChild] at hLK
  | sub super t =>
    have hne : H ≠ .sub super t := by
      intro he
      rw [← he, not_isChild_super_sub] at hLK
      cases hLK
    have hsH : isChild super H = true := isChild_super hLH hne
    simp only [StateInfo.setHistorySuper]
    rw [saveHistory_history p super _ _ m H hsH hH, hsh]
    simp only
    congr 1
    apply childToward_child H tag super _ hsH hH
    · intro hs
      subst hs
      by_cases hk : StateId.sub super t = StateId.sub super tag
      · exact hk
      · have := isChild_super hLK (Ne.symm hk)
        rw [not_isChild_super_sub] at this
        cases this
    · intro hs
      by_cases hk : StateId.sub super t = StateId.sub H tag
      · exact absurd (StateId.sub.inj hk).1 hs
      · exact isChild_super hLK (Ne.symm hk)

/-- The transition into a state `H` whose stored history is `some K`, requested from
a state `Y` outside the subtree of `H` with history enabled: exits up to the least
common ancestor `G`, entries down to `H`, then the redirect to `K` instead of the
user's init of `H`. -/
theorem history_redirect {p : Program β ε} {H K Y G : StateId}
    {m2 m2a m2b m3 : MachineBase β ε}
    (hY : isChild Y H = false) (hG : IsLCA G Y H)
    (h2c : m2.myCurrentState = some Y) (h2p : m2.myPendingState = some H)
    (h2a : m2.exitPhase p = .ok m2a) (h2b : m2a.entryPhase p = .ok (m2b, true))
    (hstored : (m2b.info H).myHistory = some K)
    (h3 : m2b.initPhase p true = .ok m3) :
    m3.trace = m2.trace ++ (pathUp Y G).map Action.exit ++
        (pathDown G H).map Action.entry ++ [Action.history H K] ∧
    m3.myCurrentState = some H ∧ m3.myPendingState = some K ∧
    m3.myPendingHistory = true ∧ m3.myPendingBox = none ∧
    (m3.info H).myHistory = none ∧
    (∀ k, ¬ ProperAncestor k Y → (m2.info k).myHistory = none →
      (m3.info k).myHistory = none) := by
  have e1 := exitPhase_spec h2c h2p h2a
  have e2 := entryPhase_spec e1.current e1.pending e1.eventSet h2b
  have e3 := initPhase_spec e2.current h3
  have hne : G ≠ H := by
    intro he
    subst he
    rw [hG.1] at hY
    cases hY
  have hex : exitPath H Y = pathUp Y G := exitPath_eq_pathUp hG.2.1 hne Y hG.1 hG.2.2
  have hen : entryPath Y H true = pathDown G H := entryPath_true_eq_pathDown hG hY
  obtain ⟨r1, r2, r3⟩ := e3.redirect K rfl hstored
  refine ⟨?_, e3.current, r1, r2, r3, e3.cleared, ?_⟩
  · rw [e3.trace, e2.trace, e1.trace, hex, hen, hstored]
    rfl
  · intro k hk hn
    rcases e3.history k with h | h
    · rw [h]
      rcases e2.history k with h' | h'
      · rw [h']
        rcases e1.history k (Or.inl hk) with h'' | h''
        · rw [h'', hn]
        · exact h''
      · exact h'
    · exact h

/-- C8: let `H` have deep history and let the current state be a proper descendant
`L` of `H`.  When the machine leaves `L` (here for any target `X`), the history save
stores `L` in `H`.  When later, from a state `Y` outside the subtree of `H`, it
transitions to `H` with history enabled, the history of `H` being at the init of `H`
what was stored then and `L` holding no stored history, the user's init of `H` is
not invoked: the machine enters down to `H`, is redirected, enters from below `H` down
to `L` top-down, invokes init on `L`, which is then the current state, and the
history pointer of `H` is null afterwards. -/
theorem deep_history_round_trip (p : Program β ε) (H L X Y G : StateId)
    (m0 ma m2 m2a m2b m3 m4 : MachineBase β ε)
    (hH : H ≠ .root) (hdeep : p.history H = .deep) (hHL : ProperAncestor H L)
    (h0c : m0.myCurrentState = some L) (h0p : m0.myPendingState = some X)
    (h0 : m0.exitPhase p = .ok ma)
    (hY : isChild Y H = false) (hG : IsLCA G Y H)
    (h2c : m2.myCurrentState = some Y) (h2p : m2.myPendingState = some H)
    (hLnone : (m2.info L).myHistory = none)
    (h2a : m2.exitPhase p = .ok m2a) (h2b : m2a.entryPhase p = .ok (m2b, true))
    (hkept : (m2b.info H).myHistory = (ma.info H).myHistory)
    (h3 : m2b.initPhase p true = .ok m3) (h4 : m3.transition p = .ok m4) :
    (ma.info H).myHistory = some L ∧
    m3.trace = m2.trace ++ (pathUp Y G).map Action.exit ++
      (pathDown G H).map Action.entry ++ [Action.history H L] ∧
    m4.trace = m3.trace ++ (pathDown H L).map Action.entry ++ [Action.init L] ∧
    (∃ tr, m4.trace = m2.trace ++ tr ∧ Action.init H ∉ tr) ∧
    m4.myCurrentState = some L ∧ (m4.info H).myHistory = none := by
  obtain ⟨me, _, rfl⟩ := exitPhase_ok h0c h0p h0
  have hsaved := setHistorySuper_deep p H L me hH hdeep hHL
  rw [hsaved] at hkept
  obtain ⟨t3, c3, p3, _, _, n3, k3⟩ := history_redirect hY hG h2c h2p h2a h2b hkept h3
  have hs := transition_spec c3 p3 h4
  have hLY : ¬ ProperAncestor L Y := by
    intro hpa
    rw [isChild_trans hpa.1 hHL.1] at hY
    cases hY
  have hLH : ¬ ProperAncestor L H := by
    intro hpa
    exact hHL.2 (isChild_antisymm hpa.1 hHL.1)
  have hex : exitPath L H = [] := exitPath_super_of_isChild H hHL.1 hHL.2
  have hl : IsLCA H H L := ⟨isChild_refl H, hHL.1, fun a ha _ => ha⟩
  have hen : entryPath H L true = pathDown H L :=
    entryPath_true_eq_pathDown hl (properAncestor_not_isChild hHL)
  have t4 : m4.trace = m3.trace ++ (pathDown H L).map Action.entry ++ [Action.init L] := by
    rw [hs.userInit (Or.inl hLH) (k3 L hLY hLnone), hex, hen]
    simp
  refine ⟨hsaved, t3, t4, ⟨(pathUp Y G).map Action.exit ++ (pathDown G H).map Action.entry ++
    [Action.history H L] ++ (pathDown H L).map Action.entry ++ [Action.init L], ?_, ?_⟩,
    hs.current, ?_⟩
  · rw [t4, t3]
    simp only [List.append_assoc]
  · intro hin
    simp only [List.mem_append, List.mem_map, List.mem_singleton] at hin
    rcases hin with (((⟨x, _, he⟩ | ⟨x, _, he⟩) | he) | ⟨x, _, he⟩) | he
    · cases he
    · cases he
    · cases he
    · cases he
    · exact hHL.2 (Action.init.inj he)
  · rcases hs.history H (Or.inl (fun hpa => hpa.2 rfl)) with h | h
    · rw [h, n3]
    · exact h

/-- Witness for C8: the test's "Child of Sibling -> Sibling with Deep History":
`StateC` (deep history) remembers `StateCAA` when the machine leaves for `StateB`, and
`StateC::setState(m)` from `StateB` brings it back to `StateCAA`. -/
theorem deep_history_round_trip_witness :
    ((Transitions.exited Transitions.deepLeave).info Transitions.StateC).myHistory =
      some Transitions.StateCAA ∧
    Transitions.deepRedirect.trace = Transitions.deepReturn.trace ++
      (pathUp Transitions.StateB Transitions.Top).map Action.exit ++
      (pathDown Transitions.Top Transitions.StateC).map Action.entry ++
      [Action.history Transitions.StateC Transitions.StateCAA] ∧
    Transitions.deepBack.trace = Transitions.deepRedirect.trace ++
      (pathDown Transitions.StateC Transitions.StateCAA).map Action.entry ++
      [Action.init Transitions.StateCAA] ∧
    (∃ tr, Transitions.deepBack.trace = Transitions.deepReturn.trace ++ tr ∧
      Action.init Transitions.StateC ∉ tr) ∧
    Transitions.deepBack.myCurrentState = some Transitions.StateCAA ∧
    (Transitions.deepBack.info Transitions.StateC).myHistory = none :=
  deep_history_round_trip Transitions.prog Transitions.StateC Transitions.StateCAA
    Transitions.StateB Transitions.StateB Transitions.Top
    Transitions.deepLeave (Transitions.exited Transitions.deepLeave)
    Transitions.deepReturn (Transitions.exited Transitions.deepReturn)
    (Transitions.entered (Transitions.exited Transitions.deepReturn)).1
    Transitions.deepRedirect Transitions.deepBack
    (by decide) (by decide) (by decide) (by decide) (by decide) (by rfl)
    (by decide) (lca_isLCA Transitions.StateB Transitions.StateC)
    (by decide) (by decide) (by decide) (by rfl) (by rfl) (by decide) (by rfl) (by rfl)

/-- C9, as stated, fails when the history of `H` is cleared in between: the test
machine rests in `StateBAA`, below the child `StateBA` of `StateB` (shallow history),
and leaves for `StateC`, so that `StateB` remembers `StateBA`; after
`StateB::clearHistory(m)` the transition `StateB::setState(m)`, history enabled, runs
the user's init of `StateB` and does not enter `StateBA`: `StateB` is current. -/
theorem shallow_history_cleared_counterexample :
    Transitions.prog.history Transitions.StateB = .shallow ∧
    (Transitions.machineAt [Transitions.StateBAA]).myCurrentState =
      some Transitions.StateBAA ∧
    Transitions.StateBA = .sub Transitions.StateB 10 ∧
    isChild Transitions.StateBAA Transitions.StateBA = true ∧
    (Transitions.machineAt [Transitions.StateBAA, Transitions.StateC]).myCurrentState =
      some Transitions.StateCAA ∧
    isChild Transitions.StateCAA Transitions.StateB = false ∧
    ((Transitions.machineAt [Transitions.StateBAA, Transitions.StateC]).info
      Transitions.StateB).myHistory = some Transitions.StateBA ∧
    Transitions.clearedReturn.myCurrentState = some Transitions.StateCAA ∧
    Transitions.clearedReturn.myPendingState = some Transitions.StateB ∧
    Transitions.clearedReturn.myPendingHistory = true ∧
    Transitions.clearedReturn.transitionLoop Transitions.prog 8 =
      .ok Transitions.clearedBack ∧
    Transitions.clearedBack.trace = Transitions.clearedReturn.trace ++
      [.exit Transitions.StateCAA, .exit Transitions.StateCA, .exit Transitions.StateC,
        .entry Transitions.StateB, .init Transitions.StateB] ∧
    Transitions.clearedBack.myCurrentState = some Transitions.StateB := by
  refine ⟨by decide, by decide, rfl, by decide, by decide, by decide, by decide, by decide,
    by decide, by decide, by rfl, by decide, by decide⟩

/-- C9, amended: let `H` have shallow history and let the current state `L` lie in the
subtree of the direct child `K = sub H tag` of `H`.  When the machine leaves `L` (here
for any target `X`), the history save stores `K` in `H`.  When later, from a state `Y`
outside the subtree of `H`, it transitions to `H` with history enabled, the history of
`H` not having been cleared in between (at the init of `H` it is what was stored
then), the user's init of `H` is not invoked: the machine enters down to `H`, is
redirected to `K` itself, enters `K` alone and runs init on `K` (the user's init of
`K` when `K` holds no stored history), so `K` is the current state, and stays so when
that init schedules nothing. -/
theorem shallow_history_round_trip (p : Program β ε) (H L X Y G : StateId) (tag : Nat)
    (m0 ma m2 m2a m2b m3 m4 : MachineBase β ε)
    (hH : H ≠ .root) (hsh : p.history H = .shallow)
    (hLK : isChild L (.sub H tag) = true)
    (h0c : m0.myCurrentState = some L) (h0p : m0.myPendingState = some X)
    (h0 : m0.exitPhase p = .ok ma)
    (hY : isChild Y H = false) (hG : IsLCA G Y H)
    (h2c : m2.myCurrentState = some Y) (h2p : m2.myPendingState = some H)
    (h2a : m2.exitPhase p = .ok m2a) (h2b : m2a.entryPhase p = .ok (m2b, true))
    (hkept : (m2b.info H).myHistory = (ma.info H).myHistory)
    (h3 : m2b.initPhase p true = .ok m3) (h4 : m3.transition p = .ok m4) :
    (ma.info H).myHistory = some (.sub H tag) ∧
    m3.trace = m2.trace ++ (pathUp Y G).map Action.exit ++
      (pathDown G H).map Action.entry ++ [Action.history H (.sub H tag)] ∧
    (∃ a : Action ε, a.IsInitOf (.sub H tag) ∧
      m4.trace = m3.trace ++ [Action.entry (.sub H tag), a]) ∧
    ((m3.info (.sub H tag)).myHistory = none →
      m4.trace = m3.trace ++ [Action.entry (.sub H tag), Action.init (.sub H tag)]) ∧
    (∃ tr, m4.trace = m2.trace ++ tr ∧ Action.init H ∉ tr) ∧
    m4.myCurrentState = some (.sub H tag) ∧
    (m4.myPendingState = none → ∀ fuel, m4.transitionLoop p fuel = .ok m4) := by
  obtain ⟨me, _, rfl⟩ := exitPhase_ok h0c h0p h0
  have hsaved := setHistorySuper_shallow p H L tag me hH hsh hLK
  rw [hsaved] at hkept
  obtain ⟨t3, c3, p3, _, _, _, _⟩ := history_redirect hY hG h2c h2p h2a h2b hkept h3
  have hs := transition_spec c3 p3 h4
  have hHK := properAncestor_super H tag
  have hKH : ¬ ProperAncestor (.sub H tag) H := by
    intro hpa
    exact hHK.2 (isChild_antisymm hpa.1 hHK.1)
  have hex : exitPath (.sub H tag) H = [] := exitPath_super_of_isChild H hHK.1 hHK.2
  have hl : IsLCA H H (.sub H tag) := ⟨isChild_refl H, hHK.1, fun a ha _ => ha⟩
  have hen : entryPath H (.sub H tag) true = [.sub H tag] := by
    rw [entryPath_true_eq_pathDown hl (properAncestor_not_isChild hHK), pathDown_child]
  obtain ⟨a, ha, t4⟩ := hs.trace
  have t4' : m4.trace = m3.trace ++ [Action.entry (.sub H tag), a] := by
    rw [t4, hex, hen]; simp
  refine ⟨hsaved, t3, ⟨a, ha, t4'⟩, ?_, ⟨(pathUp Y G).map Action.exit ++
    (pathDown G H).map Action.entry ++ [Action.history H (.sub H tag)] ++
    [Action.entry (.sub H tag), a], ?_, ?_⟩, hs.current,
    fun hn fuel => transitionLoop_none hn fuel⟩
  · intro hn
    rw [hs.userInit (Or.inl hKH) hn, hex, hen]; simp
  · rw [t4', t3]
    simp only [List.append_assoc]
  · intro hin
    simp only [List.mem_append, List.mem_map, List.mem_singleton, List.mem_cons,
      List.mem_nil_iff, or_false] at hin
    rcases hin with ((⟨x, _, he⟩ | ⟨x, _, he⟩) | he) | he | he
    · cases he
    · cases he
    · cases he
    · cases he
    · rcases ha with ha | ⟨k, ha⟩
      · rw [ha] at he
        exact hHK.2 (Action.init.inj he)
      · rw [ha] at he
        cases he

/-- Witness for the amended C9: the test's "Child* of Sibling -> Sibling with Shallow History":
`StateB` (shallow history) remembers `StateBA` when the machine leaves `StateBAA` for
`StateC`, and `StateB::setState(m)` from `StateCAA` brings it back to `StateBA`. -/
theorem shallow_history_round_trip_witness :
    ((Transitions.exited Transitions.shallowLeave).info Transitions.StateB).myHistory =
      some (.sub Transitions.StateB 10) ∧
    Transitions.shallowRedirect.trace = Transitions.shallowReturn.trace ++
      (pathUp Transitions.StateCAA Transitions.Top).map Action.exit ++
      (pathDown Transitions.Top Transitions.StateB).map Action.entry ++
      [Action.history Transitions.StateB (.sub Transitions.StateB 10)] ∧
    (∃ a : Action Unit, a.IsInitOf (.sub Transitions.StateB 10) ∧
      Transitions.shallowBack.trace = Transitions.shallowRedirect.trace ++
        [Action.entry (.sub Transitions.StateB 10), a]) ∧
    Transitions.shallowBack.trace = Transitions.shallowRedirect.trace ++
      [Action.entry (.sub Transitions.StateB 10),
        Action.init (.sub Transitions.StateB 10)] ∧
    (∃ tr, Transitions.shallowBack.trace = Transitions.shallowReturn.trace ++ tr ∧
      Action.init Transitions.StateB ∉ tr) ∧
    Transitions.shallowBack.myCurrentState = some (.sub Transitions.StateB 10) ∧
    (∀ fuel, Transitions.shallowBack.transitionLoop Transitions.prog fuel =
      .ok Transitions.shallowBack) :=
  have h := shallow_history_round_trip Transitions.prog Transitions.StateB
    Transitions.StateBAA Transitions.StateC Transitions.StateCAA Transitions.Top 10
    Transitions.shallowLeave (Transitions.exited Transitions.shallowLeave)
    Transitions.shallowReturn (Transitions.exited Transitions.shallowReturn)
    (Transitions.entered (Transitions.exited Transitions.shallowReturn)).1
    Transitions.shallowRedirect Transitions.shallowBack
    (by decide) (by decide) (by decide) (by decide) (by decide) (by rfl)
    (by decide) (lca_isLCA Transitions.StateCAA Transitions.StateB)
    (by decide) (by decide) (by rfl) (by rfl) (by decide) (by rfl) (by rfl)
  ⟨h.1, h.2.1, h.2.2.1, h.2.2.2.1 (by decide), h.2.2.2.2.1, h.2.2.2.2.2.1,
    h.2.2.2.2.2.2 (by decide)⟩

/-! ## The current state holds no stored history -/

theorem exitPhase_some {p : Program β ε} {m m1 : MachineBase β ε}
    (h : m.exitPhase p = .ok m1) :
    ∃ S T, m.myCurrentState = some S ∧ m.myPendingState = some T := by
  unfold MachineBase.exitPhase at h
  split at h
  · rename_i S T hc hp
    exact ⟨S, T, hc, hp⟩
  · cases h

/-- After any transition the current state holds no stored history. -/
theorem transition_current_clean {p : Program β ε} {m m' : MachineBase β ε}
    (h : m.transition p = .ok m') :
    ∃ T, m'.myCurrentState = some T ∧ (m'.info T).myHistory = none := by
  obtain ⟨m1, _, _, he, _, _⟩ := transition_ok h
  obtain ⟨S, T, hc, hp⟩ := exitPhase_some he
  have hs := transition_spec hc hp h
  exact ⟨T, hs.current, hs.cleared⟩

/-- The library calls of a user action (an event handler, say) keep it so. -/
theorem runCmds_current_clean {cs : List (Cmd β ε)} {m m' : MachineBase β ε} {T : StateId}
    (h : runCmds cs m = .ok m') (hc : m.myCurrentState = some T)
    (hn : (m.info T).myHistory = none) :
    m'.myCurrentState = some T ∧ (m'.info T).myHistory = none := by
  have hf := cmdFrame_runCmds h
  refine ⟨by rw [hf.current, hc], ?_⟩
  rcases hf.history T with h1 | h1
  · rw [h1, hn]
  · exact h1

/-! ## Actions that request no transition leave the pending transition alone -/

theorem pendingKept_refl (m : MachineBase β ε) : PendingKept m m := ⟨rfl, rfl, rfl⟩

theorem pendingKept_trans {m1 m2 m3 : MachineBase β ε} (h12 : PendingKept m1 m2)
    (h23 : PendingKept m2 m3) : PendingKept m1 m3 :=
  ⟨h23.pendingState.trans h12.pendingState, h23.pendingBox.trans h12.pendingBox,
    h23.pendingHistory.trans h12.pendingHistory⟩

theorem pendingKept_getInfo (s : StateId) (m : MachineBase β ε) :
    PendingKept m (Link._getInfo s m) := by
  obtain ⟨_, _, _, g4, g5, g6, _⟩ := getInfo_fields s m
  exact ⟨g4, g5, g6⟩

theorem pendingKept_ofHistoryOnly {m m' : MachineBase β ε} (h : HistoryOnly m m') :
    PendingKept m m' := ⟨h.pendingState, h.pendingBox, h.pendingHistory⟩

theorem pendingKept_run {c : Cmd β ε} {m m' : MachineBase β ε} (hs : c.schedules = false)
    (h : c.run m = .ok m') : PendingKept m m' := by
  cases c with
  | setState s box => simp [Cmd.schedules] at hs
  | setStateDirect s box => simp [Cmd.schedules] at hs
  | setStateAlias state => simp [Cmd.schedules] at hs
  | dispatch e =>
    simp only [Cmd.run, MachineBase.setPendingEvent] at h
    split at h
    · cases h; exact ⟨rfl, rfl, rfl⟩
    · cases h
  | clearHistory s =>
    simp only [Cmd.run] at h
    cases h
    exact pendingKept_trans (pendingKept_getInfo s m)
      (pendingKept_ofHistoryOnly (historyOnly_setHistory s none _))
  | clearHistoryDeep s =>
    simp only [Cmd.run] at h
    cases h
    exact pendingKept_trans (pendingKept_getInfo s m) ⟨rfl, rfl, rfl⟩
  | modifyBox s f =>
    simp only [Cmd.run, StateInfo.modifyBox] at h
    split at h
    · cases h; exact ⟨rfl, rfl, rfl⟩
    · cases h

theorem pendingKept_runCmds {cs : List (Cmd β ε)} {m m' : MachineBase β ε}
    (hs : ∀ c ∈ cs, c.schedules = false) (h : runCmds cs m = .ok m') : PendingKept m m' := by
  induction cs generalizing m with
  | nil => simp only [runCmds] at h; cases h; exact pendingKept_refl _
  | cons c cs ih =>
    simp only [runCmds] at h
    cases h1 : c.run m with
    | error e => rw [h1] at h; cases h
    | ok m1 =>
      rw [h1] at h
      exact pendingKept_trans (pendingKept_run (hs c (List.mem_cons_self _ _)) h1)
        (ih (fun c' hc' => hs c' (List.mem_cons_of_mem _ hc')) h)

theorem pendingKept_virtualDeleteBox (p : Program β ε) (s : StateId) (m : MachineBase β ε) :
    PendingKept m (StateBase._deleteBox p s m) := by
  unfold StateBase._deleteBox
  cases s with
  | root => exact pendingKept_refl _
  | sub super tag =>
    simp only
    split
    · exact pendingKept_refl _
    · unfold StateInfo.deleteBox
      simp only
      split <;> exact ⟨rfl, rfl, rfl⟩

theorem pendingKept_exit (p : Program β ε) (hp : NoStateChange p) (next : StateId) :
    ∀ (s : StateId) (m m' : MachineBase β ε), StateInfo.exit p next s m = .ok m' →
      PendingKept m m' := by
  intro s
  induction s with
  | root => intro m m' h; simp only [StateInfo.exit] at h; cases h; exact pendingKept_refl _
  | sub super tag ih =>
    intro m m' h
    simp only [StateInfo.exit] at h
    split at h
    · cases h1 : runCmds (p.exit (.sub super tag) (m.log (.exit (.sub super tag))))
          (m.log (.exit (.sub super tag))) with
      | error e => rw [h1] at h; cases h
      | ok m2 =>
        rw [h1] at h
        have k1 : PendingKept m (m.log (.exit (.sub super tag))) := ⟨rfl, rfl, rfl⟩
        have k2 := pendingKept_runCmds (fun c hc => hp _ _ c (Or.inr hc)) h1
        have k3 := pendingKept_virtualDeleteBox p (.sub super tag) m2
        exact pendingKept_trans (pendingKept_trans (pendingKept_trans k1 k2) k3) (ih _ _ h)
    · cases h; exact pendingKept_refl _

theorem pendingKept_entry (p : Program β ε) (hp : NoStateChange p) (previous : StateId) :
    ∀ (s : StateId) (first : Bool) (m m' : MachineBase β ε),
      StateInfo.entry p previous s first m = .ok m' → PendingKept m m' := by
  intro s
  induction s with
  | root => intro first m m' h; simp only [StateInfo.entry] at h; cases h; exact pendingKept_refl _
  | sub super tag ih =>
    intro first m m' h
    simp only [StateInfo.entry] at h
    split at h
    · cases h1 : StateInfo.entry p previous super false m with
      | error e => rw [h1] at h; cases h
      | ok m1 =>
        rw [h1] at h
        simp only [Except.bind] at h
        have k1 := ih false m m1 h1
        have k2 := pendingKept_runCmds (fun c hc => hp _ _ c (Or.inl hc)) h
        refine pendingKept_trans k1 (pendingKept_trans ?_ k2)
        split
        · unfold StateInfo.createBox
          exact ⟨rfl, rfl, rfl⟩
        · exact ⟨rfl, rfl, rfl⟩
    · cases h; exact pendingKept_refl _

theorem pendingKept_exitPhase {p : Program β ε} (hp : NoStateChange p)
    {m m1 : MachineBase β ε} (h : m.exitPhase p = .ok m1) : PendingKept m m1 := by
  obtain ⟨S, T, hc, hpd⟩ := exitPhase_some h
  obtain ⟨me, he, hm1⟩ := exitPhase_ok hc hpd h
  obtain ⟨_, _, _, d4, d5, d6, _⟩ := setDummyEvent_walk m
  have k0 : PendingKept m m.setDummyEvent := ⟨d4, d5, d6⟩
  have k1 := pendingKept_exit p hp T S _ _ he
  have k2 := pendingKept_ofHistoryOnly (historyOnly_setHistorySuper p S S me)
  rw [hm1]
  exact pendingKept_trans (pendingKept_trans k0 k1) k2

/-- The flag that reaches `init` is the one the transition was requested with, when
no entry action requests a transition. -/
theorem entryPhase_flag {p : Program β ε} (hp : NoStateChange p) {m1 m2 : MachineBase β ε}
    {history : Bool} {S T : StateId} (hc : m1.myCurrentState = some S)
    (hpd : m1.myPendingState = some T) (h : m1.entryPhase p = .ok (m2, history)) :
    history = m1.myPendingHistory := by
  obtain ⟨mb, m3, hb, he, _, hh⟩ := entryPhase_ok hc hpd h
  have k := pendingKept_entry p hp S T true _ _ he
  rw [hh, k.pendingHistory]
  split at hb
  · rename_i box hbx
    unfold StateInfo.setBox at hb
    split at hb
    · cases hb
    · cases hb; rfl
  · cases hb; rfl
/-! ## `_StateInfo::init` -/

theorem transitions_noStateChange : NoStateChange Transitions.prog := by
  intro s m c h
  simp only [Transitions.prog] at h
  rcases h with h | h
  · split at h
    · simp only [List.mem_singleton] at h
      subst h
      rfl
    · split at h
      · simp only [List.mem_singleton] at h
        subst h
        rfl
      · simp at h
  · split at h
    · simp only [List.mem_singleton] at h
      subst h
      rfl
    · simp at h

/-- A transition requested with history disabled ends with the user's init of its
target, when no entry or exit action requests a transition itself. -/
theorem transition_direct {p : Program β ε} (hp : NoStateChange p) {m m' : MachineBase β ε}
    {S T : StateId} (hc : m.myCurrentState = some S) (hpd : m.myPendingState = some T)
    (hflag : m.myPendingHistory = false) (h : m.transition p = .ok m') :
    m'.trace = m.trace ++ (exitPath T S).map Action.exit ++
      (entryPath S T true).map Action.entry ++ [Action.init T] := by
  obtain ⟨m1, m2, history, h1, h2, h3⟩ := transition_ok h
  have e1 := exitPhase_spec hc hpd h1
  have e2 := entryPhase_spec e1.current e1.pending e1.eventSet h2
  have e3 := initPhase_spec e2.current h3
  have hf : history = false := by
    rw [entryPhase_flag hp e1.current e1.pending h2, (pendingKept_exitPhase hp h1).pendingHistory,
      hflag]
  rw [e3.trace, e2.trace, e1.trace, hf, initAction_false]

/-- C11: `_StateInfo::init(history)` on a state `X`.  When the flag is true and a history
target `k` is stored (and, as in `rattleOn`, nothing is pending), it returns having
scheduled the transition to `k` (history enabled, no box) and has not invoked the
user's init of `X`.  In every other case it invokes the user's init of `X`: its outcome
is that of the library calls of that init.  So, when it returns, the redirect was taken
if and only if the flag is true and the history pointer is non-null, and the user's
init ran if and only if not.  In particular a transition requested with history
disabled ends with the user's init of its target, whatever history is stored for the
target (entry and exit actions requesting no transition). -/
theorem init_history_or_user (p : Program β ε) (X : StateId) (history : Bool)
    (m : MachineBase β ε) :
    (∀ k, history = true → (m.info X).myHistory = some k → m.myPendingState = none →
      ∃ m', StateInfo.init p X history m = .ok m' ∧
        m'.trace = m.trace ++ [Action.history X k] ∧
        m'.myPendingState = some k ∧ m'.myPendingHistory = true ∧
        m'.myPendingBox = none) ∧
    (¬ (history = true ∧ (m.info X).myHistory ≠ none) →
      StateInfo.init p X history m =
        (runCmds (StateBase.init p X (m.log (.init X))) (m.log (.init X))).map
          (StateInfo.setHistory X none)) ∧
    (∀ m', StateInfo.init p X history m = .ok m' →
      ((∃ k, m'.trace = m.trace ++ [Action.history X k] ∧ m'.myPendingState = some k) ↔
        (history = true ∧ (m.info X).myHistory ≠ none)) ∧
      (m'.trace = m.trace ++ [Action.init X] ↔
        ¬ (history = true ∧ (m.info X).myHistory ≠ none))) ∧
    (∀ (S T : StateId) (m0 m1 : MachineBase β ε), NoStateChange p →
      m0.myCurrentState = some S → m0.myPendingState = some T →
      m0.myPendingHistory = false → m0.transition p = .ok m1 →
      m1.trace = m0.trace ++ (exitPath T S).map Action.exit ++
        (entryPath S T true).map Action.entry ++ [Action.init T]) := by
  have hA : ∀ k, history = true → (m.info X).myHistory = some k → m.myPendingState = none →
      ∃ m', StateInfo.init p X history m = .ok m' ∧
        m'.trace = m.trace ++ [Action.history X k] ∧
        m'.myPendingState = some k ∧ m'.myPendingHistory = true ∧
        m'.myPendingBox = none := by
    intro k hh hk hpd
    subst hh
    have hs : (m.log (Action.history X k)).setPendingState k true none =
        .ok { m.log (Action.history X k) with
          myPendingState := some k, myPendingBox := none, myPendingHistory := true } := by
      unfold MachineBase.setPendingState
      rw [if_pos (Or.inl (by exact hpd))]
    refine ⟨StateInfo.setHistory X none { m.log (Action.history X k) with
        myPendingState := some k, myPendingBox := none, myPendingHistory := true },
      ?_, rfl, rfl, rfl, rfl⟩
    unfold StateInfo.init
    simp only [hk, hs]
    rfl
  have hB : ¬ (history = true ∧ (m.info X).myHistory ≠ none) →
      StateInfo.init p X history m =
        (runCmds (StateBase.init p X (m.log (.init X))) (m.log (.init X))).map
          (StateInfo.setHistory X none) := by
    intro hn
    unfold StateInfo.init
    cases history with
    | false => rfl
    | true =>
      cases hk : (m.info X).myHistory with
      | none => rfl
      | some k => exact absurd ⟨rfl, by rw [hk]; simp⟩ hn
  refine ⟨hA, hB, ?_, fun S T m0 m1 hp hc hpd hf h => transition_direct hp hc hpd hf h⟩
  intro m' h
  by_cases hcase : history = true ∧ (m.info X).myHistory ≠ none
  · obtain ⟨hh, hk⟩ := hcase
    obtain ⟨k, hk'⟩ := Option.ne_none_iff_exists'.mp hk
    have hi := init_ok h
    rcases hi with ⟨k2, mp, _, hk2, hsp, hmi⟩ | ⟨mu, hor, _, _⟩
    · have hkk : k2 = k := by rw [hk'] at hk2; exact (Option.some.inj hk2).symm
      subst hkk
      have htr : m'.trace = m.trace ++ [Action.history X k2] := by
        rw [hmi]
        show mp.trace = _
        rw [(cmdFrame_setPendingState hsp).trace]
        rfl
      have hpend : m'.myPendingState = some k2 := by
        rw [hmi]
        show mp.myPendingState = _
        unfold MachineBase.setPendingState at hsp
        split at hsp
        · cases hsp; rfl
        · cases hsp
      refine ⟨⟨fun _ => ⟨hh, hk⟩, fun _ => ⟨k2, htr, hpend⟩⟩, ?_⟩
      constructor
      · intro h2
        rw [htr] at h2
        simp at h2
      · intro h2
        exact absurd ⟨hh, hk⟩ h2
    · rcases hor with hor | hor
      · rw [hh] at hor; cases hor
      · exact absurd hor hk
  · have h2 := hB hcase
    rw [h2] at h
    cases hru : runCmds (StateBase.init p X (m.log (.init X))) (m.log (.init X)) with
    | error e => rw [hru] at h; cases h
    | ok mu =>
      rw [hru] at h
      cases h
      have htr : (StateInfo.setHistory X none mu).trace = m.trace ++ [Action.init X] := by
        show mu.trace = _
        rw [(cmdFrame_runCmds hru).trace]
        rfl
      refine ⟨⟨?_, fun hc => absurd hc hcase⟩, ⟨fun _ => hcase, fun _ => htr⟩⟩
      rintro ⟨k, hk, _⟩
      rw [htr] at hk
      simp at hk
/-- Witness for C11: the test's "Ignoring history" (`StateC::setStateDirect(m)` from
`StateCBB`, while `StateC` holds the stored history `StateCAB`), and the init of
`StateC` on the return of the deep history round trip. -/
theorem init_history_or_user_witness :
    ((Transitions.ignoreHistory.info Transitions.StateC).myHistory =
        some Transitions.StateCAB ∧
      Transitions.ignoredHistory.trace = Transitions.ignoreHistory.trace ++
        (exitPath Transitions.StateC Transitions.StateCBB).map Action.exit ++
        (entryPath Transitions.StateCBB Transitions.StateC true).map Action.entry ++
        [Action.init Transitions.StateC]) ∧
    (∃ m', StateInfo.init Transitions.prog Transitions.StateC true
          (Transitions.entered (Transitions.exited Transitions.deepReturn)).1 = .ok m' ∧
        m'.trace = (Transitions.entered (Transitions.exited Transitions.deepReturn)).1.trace ++
          [Action.history Transitions.StateC Transitions.StateCAA] ∧
        m'.myPendingState = some Transitions.StateCAA ∧ m'.myPendingHistory = true ∧
        m'.myPendingBox = none) :=
  ⟨⟨by decide,
      (init_history_or_user Transitions.prog Transitions.StateC false
        Transitions.ignoreHistory).2.2.2 Transitions.StateCBB Transitions.StateC
        Transitions.ignoreHistory Transitions.ignoredHistory transitions_noStateChange
        (by decide) (by decide) (by decide) (by rfl)⟩,
    (init_history_or_user Transitions.prog Transitions.StateC true
      (Transitions.entered (Transitions.exited Transitions.deepReturn)).1).1
      Transitions.StateCAA rfl (by decide) (by decide)⟩
/-! ## `clearHistory` and `clearHistoryDeep` -/

theorem historyOnly_getInfo (s : StateId) (m : MachineBase β ε) :
    HistoryOnly m (Link._getInfo s m) := by
  obtain ⟨g1, g2, g3, g4, g5, g6, g7⟩ := getInfo_fields s m
  exact ⟨g1, g2, g3, g4, g5, g6, g7, fun k => by rw [info_getInfo]⟩

theorem historyOnly_clearHistory (s : StateId) (m : MachineBase β ε) :
    HistoryOnly m (Link.clearHistory s m) :=
  historyOnly_trans (historyOnly_getInfo s m) (historyOnly_setHistory s none _)

theorem clearHistory_history (s : StateId) (m : MachineBase β ε) (k : StateId) :
    ((Link.clearHistory s m).info k).myHistory = if k = s then none else (m.info k).myHistory := by
  unfold Link.clearHistory
  rw [setHistory_history, info_getInfo]

/-- C12, as stated, fails when the machine rests below `K`: the test machine is in
`StateCAA`, below `StateC` (deep history).  After `StateC::clearHistory(m)` the history
pointer of `StateC` is null, but the transition `StateC::setState(m)` saves the history of
`StateC` anew while it leaves `StateCAA`, so init on `StateC` redirects to `StateCAA`
and the user's init of `StateC` is not invoked. -/
theorem clearHistory_bounce_counterexample :
    Transitions.prog.history Transitions.StateC = .deep ∧
    (Transitions.machineAt [Transitions.StateC]).myCurrentState = some Transitions.StateCAA ∧
    ((Link.clearHistory Transitions.StateC
      (Transitions.machineAt [Transitions.StateC])).info Transitions.StateC).myHistory = none ∧
    Link.setState Transitions.StateC none
        (Link.clearHistory Transitions.StateC (Transitions.machineAt [Transitions.StateC])) =
      .ok Transitions.clearedBelow ∧
    Transitions.clearedBelow.myPendingHistory = true ∧
    Transitions.clearedBelow.transition Transitions.prog = .ok Transitions.clearedBounce ∧
    Transitions.clearedBounce.trace = Transitions.clearedBelow.trace ++
      [.exit Transitions.StateCAA, .exit Transitions.StateCA, .exit Transitions.StateC,
        .entry Transitions.StateC, .history Transitions.StateC Transitions.StateCAA] ∧
    Transitions.clearedBelow.transitionLoop Transitions.prog 8 =
      .ok Transitions.clearedSettled ∧
    Transitions.clearedSettled.trace = Transitions.clearedBelow.trace ++
      [.exit Transitions.StateCAA, .exit Transitions.StateCA, .exit Transitions.StateC,
        .entry Transitions.StateC, .history Transitions.StateC Transitions.StateCAA,
        .entry Transitions.StateCA, .entry Transitions.StateCAA,
        .init Transitions.StateCAA] ∧
    Transitions.clearedSettled.myCurrentState = some Transitions.StateCAA := by
  refine ⟨by decide, by decide, by decide, by rfl, by decide, by rfl, by decide, by rfl,
    by decide, by decide⟩

/-- C12, amended: `clearHistory` on `K` sets the history pointer of `K` to null and
changes the history pointer of no other state (and nothing else in the machine);
consequently a following transition to `K` with history enabled, taken from a current
state `S` that is not a proper descendant of `K` (or with `K` declaring no history),
invokes the user's init of `K` instead of redirecting to a remembered substate. -/
theorem clearHistory_then_init (p : Program β ε) (K : StateId) (m : MachineBase β ε) :
    ((Link.clearHistory K m).info K).myHistory = none ∧
    (∀ k, k ≠ K → ((Link.clearHistory K m).info k).myHistory = (m.info k).myHistory) ∧
    HistoryOnly m (Link.clearHistory K m) ∧
    (∀ (S : StateId) (box : Option β) (m2 m' : MachineBase β ε),
      m.myCurrentState = some S → (¬ ProperAncestor K S ∨ p.history K = .none) →
      Link.setState K box (Link.clearHistory K m) = .ok m2 → m2.transition p = .ok m' →
      m2.myPendingHistory = true ∧
      m'.trace = m2.trace ++ (exitPath K S).map Action.exit ++
        (entryPath S K true).map Action.entry ++ [Action.init K]) := by
  refine ⟨by rw [clearHistory_history, if_pos rfl],
    fun k hk => by rw [clearHistory_history, if_neg hk], historyOnly_clearHistory K m, ?_⟩
  intro S box m2 m' hc hor hs ht
  unfold Link.setState at hs
  have hf := cmdFrame_setPendingState hs
  have hc2 : m2.myCurrentState = some S := by
    rw [hf.current, (getInfo_fields K _).2.2.1, (historyOnly_clearHistory K m).current, hc]
  have hp2 : m2.myPendingState = some K ∧ m2.myPendingHistory = true := by
    unfold MachineBase.setPendingState at hs
    split at hs
    · cases hs; exact ⟨rfl, rfl⟩
    · cases hs
  have hh : (m2.info K).myHistory = none := by
    rw [setPendingState_info hs, info_getInfo, clearHistory_history, if_pos rfl]
  exact ⟨hp2.2, (transition_spec hc2 hp2.1 ht).userInit hor hh⟩

/-- Witness for the amended C12: the test's "Clearing history" (`StateB::clearHistory(m);
StateB::setState(m);` with the machine in `StateCAA`). -/
theorem clearHistory_then_init_witness :
    Transitions.clearedReturn.myPendingHistory = true ∧
    Transitions.clearedBack.trace = Transitions.clearedReturn.trace ++
      (exitPath Transitions.StateB Transitions.StateCAA).map Action.exit ++
      (entryPath Transitions.StateCAA Transitions.StateB true).map Action.entry ++
      [Action.init Transitions.StateB] :=
  (clearHistory_then_init Transitions.prog Transitions.StateB
    (Transitions.machineAt [Transitions.StateBAA, Transitions.StateC])).2.2.2
    Transitions.StateCAA none Transitions.clearedReturn Transitions.clearedBack
    (by decide) (Or.inl (by decide)) (by rfl) (by rfl)

theorem clearHistoryDeep_history (m : MachineBase β ε) (s k : StateId) :
    ((m.clearHistoryDeep s).info k).myHistory =
      if isChild k s = true then none else (m.info k).myHistory := by
  unfold MachineBase.clearHistoryDeep MachineBase.info
  simp only
  cases m.myStates k with
  | none => simp
  | some i =>
    simp only [Option.map_some', Option.getD_some]
    split <;> rfl

/-- C13: `clearHistoryDeep` on `K` leaves every state that is `K` or a descendant of `K`
with a null history pointer, and the history pointer of every other state, all boxes
and the rest of the machine unchanged. -/
theorem clearHistoryDeep_frame (K : StateId) (m : MachineBase β ε) (k : StateId) :
    ((Link.clearHistoryDeep K m).info k).myHistory =
      (if k = K ∨ ProperAncestor K k then none else (m.info k).myHistory) ∧
    HistoryOnly m (Link.clearHistoryDeep K m) := by
  constructor
  · unfold Link.clearHistoryDeep
    rw [clearHistoryDeep_history, info_getInfo]
    by_cases h : isChild k K = true
    · rw [if_pos h, if_pos]
      by_cases hk : k = K
      · exact Or.inl hk
      · exact Or.inr ⟨h, fun e => hk e.symm⟩
    · rw [if_neg h, if_neg]
      rintro (hk | hk)
      · subst hk; exact h (isChild_refl k)
      · exact h hk.1
  · unfold Link.clearHistoryDeep
    refine historyOnly_trans (historyOnly_getInfo K m) ?_
    exact ⟨rfl, rfl, rfl, rfl, rfl, rfl, rfl, fun s => clearHistoryDeep_box _ K s⟩
/-! ## `isCurrent` and `isCurrentDirect` -/

theorem isChild_iff_ancestors (c K : StateId) :
    isChild c K = true ↔ (K = c ∨ K ∈ c.ancestors) := by
  induction c with
  | root =>
    simp only [isChild, StateId.ancestors, decide_eq_true_eq, List.not_mem_nil, or_false]
    exact eq_comm
  | sub super tag ih =>
    simp only [isChild, StateId.ancestors, Bool.or_eq_true, decide_eq_true_eq, List.mem_cons]
    rw [ih]
    constructor
    · rintro (h | h | h)
      · exact Or.inl h.symm
      · exact Or.inr (Or.inl h)
      · exact Or.inr (Or.inr h)
    · rintro (h | h | h)
      · exact Or.inl h.symm
      · exact Or.inr (Or.inl h)
      · exact Or.inr (Or.inr h)

/-- C14: for a started machine (current state `c`) and every state `K`, `isCurrent(K)`
returns true if and only if `K` is the current state or an ancestor of it, and
`isCurrentDirect(K)` returns true if and only if `K` is the current state; hence
`isCurrentDirect(K)` implies `isCurrent(K)`, and exactly one state satisfies
`isCurrentDirect`.  Neither query changes the current state. -/
theorem isCurrent_isCurrentDirect (m : MachineBase β ε) (c : StateId)
    (hc : m.myCurrentState = some c) (K : StateId) :
    (∃ b, Link.isCurrent K m = .ok (b, Link._getInfo K m) ∧
      (b = true ↔ (K = c ∨ K ∈ c.ancestors))) ∧
    ((Link.isCurrentDirect K m).1 = true ↔ K = c) ∧
    ((Link.isCurrentDirect K m).1 = true → ∃ mk, Link.isCurrent K m = .ok (true, mk)) ∧
    (∃! K', (Link.isCurrentDirect K' m).1 = true) ∧
    (Link.isCurrentDirect K m).2.myCurrentState = some c ∧
    (Link._getInfo K m).myCurrentState = some c := by
  have hg : ∀ K', (Link._getInfo K' m).myCurrentState = some c := fun K' => by
    rw [(getInfo_fields K' m).2.2.1, hc]
  have hd : ∀ K', (Link.isCurrentDirect K' m).1 = true ↔ K' = c := fun K' => by
    unfold Link.isCurrentDirect MachineBase.isCurrentDirect
    simp only [hg K', decide_eq_true_eq, Option.some.injEq]
    exact eq_comm
  have hi : Link.isCurrent K m = .ok (isChild c K, Link._getInfo K m) := by
    unfold Link.isCurrent MachineBase.isCurrent
    simp only [hg K]
    rfl
  refine ⟨⟨isChild c K, hi, isChild_iff_ancestors c K⟩, hd K, ?_, ?_, hg K, hg K⟩
  · intro h
    have hk := (hd K).mp h
    subst hk
    exact ⟨_, by rw [hi, isChild_refl]⟩
  · exact ⟨c, (hd c).mpr rfl, fun y hy => (hd y).mp hy⟩

/-- Witness for C14: the test's machine after "Parent -> Child*", resting in
`StateAAA`, queried for `StateAA`. -/
theorem isCurrent_isCurrentDirect_witness :
    (∃ b, Link.isCurrent Transitions.StateAA (Transitions.machineAt [Transitions.StateAAA]) =
        .ok (b, Link._getInfo Transitions.StateAA
          (Transitions.machineAt [Transitions.StateAAA])) ∧
      (b = true ↔ (Transitions.StateAA = Transitions.StateAAA ∨
        Transitions.StateAA ∈ Transitions.StateAAA.ancestors))) ∧
    ((Link.isCurrentDirect Transitions.StateAA
        (Transitions.machineAt [Transitions.StateAAA])).1 = true ↔
      Transitions.StateAA = Transitions.StateAAA) ∧
    ((Link.isCurrentDirect Transitions.StateAA
        (Transitions.machineAt [Transitions.StateAAA])).1 = true →
      ∃ mk, Link.isCurrent Transitions.StateAA
        (Transitions.machineAt [Transitions.StateAAA]) = .ok (true, mk)) ∧
    (∃! K', (Link.isCurrentDirect K'
      (Transitions.machineAt [Transitions.StateAAA])).1 = true) ∧
    (Link.isCurrentDirect Transitions.StateAA
      (Transitions.machineAt [Transitions.StateAAA])).2.myCurrentState =
        some Transitions.StateAAA ∧
    (Link._getInfo Transitions.StateAA
      (Transitions.machineAt [Transitions.StateAAA])).myCurrentState =
        some Transitions.StateAAA :=
  isCurrent_isCurrentDirect (Transitions.machineAt [Transitions.StateAAA])
    Transitions.StateAAA (by decide) Transitions.StateAA

/-! ## Construction and shutdown -/

theorem settle_quiescent_id {p : Program β ε} {m : MachineBase β ε}
    (hp : m.myPendingState = none) (he : m.myPendingEvent = .null) (fuel : Nat) :
    m.settle p fuel = .ok m := by
  cases fuel <;> simp [MachineBase.settle, hp, he]

/-- With a transition pending and no event queued, the settle loop is the loop
`while (myPendingState)`. -/
theorem settle_pending_null {p : Program β ε} {fuel : Nat} {m m' : MachineBase β ε}
    {S T : StateId} (hc : m.myCurrentState = some S) (hp : m.myPendingState = some T)
    (he : m.myPendingEvent = .null) (h : m.settle p fuel = .ok m') :
    m.transitionLoop p fuel = .ok m' ∧ m'.myPendingState = none ∧
      m'.myPendingEvent = .null := by
  cases fuel with
  | zero =>
    unfold MachineBase.settle at h
    simp only [hp] at h
    cases h
  | succ n =>
    unfold MachineBase.settle at h
    simp only [hp] at h
    cases h1 : m.transitionLoop p (n + 1) with
    | error f => rw [h1] at h; cases h
    | ok mt =>
      rw [h1] at h
      simp only [Except.bind] at h
      obtain ⟨_, _, _, _, _, _, _, hpn, _, hen⟩ :=
        transitionLoop_cascade p (n + 1) m mt S T hc hp h1
      have hpe := hen he
      simp only [hpe] at h
      rw [settle_quiescent_id hpn hpe] at h
      cases h
      exact ⟨rfl, hpn, hpe⟩

theorem exit_not_mem_cascade (x : StateId) :
    ∀ (steps : List (StateId × Action ε)) (prev : StateId),
      (∀ s ∈ steps, s.2.IsInitOf s.1) → Action.exit x ∉ cascade prev steps := by
  intro steps
  induction steps with
  | nil => intro prev _; simp [cascade]
  | cons s rest ih =>
    intro prev hs
    obtain ⟨d, a⟩ := s
    simp only [cascade, List.mem_append, List.mem_map, List.mem_singleton, not_or]
    refine ⟨⟨?_, ?_⟩, ih d (fun s' hs' => hs s' (List.mem_cons_of_mem _ hs'))⟩
    · rintro ⟨y, _, hy⟩; cases hy
    · intro ha
      have := hs (d, a) (List.mem_cons_self _ _)
      rcases this with h1 | ⟨k, h1⟩
      · simp only at h1; rw [h1] at ha; cases ha
      · simp only at h1; rw [h1] at ha; cases ha

theorem entryPath_root_eq_pathDown (T : StateId) :
    entryPath .root T true = pathDown .root T := by
  cases T with
  | root => simp [entryPath, pathDown, pathUp]
  | sub super tag =>
    exact entryPath_true_eq_pathDown
      ⟨isChild_refl _, isChild_root _, fun a ha _ => ha⟩ (by simp [isChild])

/-- The loop for a scheduled transition whose init is the user's init of the target. -/
theorem transitionLoop_userInit {p : Program β ε} {fuel : Nat} {m m' : MachineBase β ε}
    {S T : StateId} (hc : m.myCurrentState = some S) (hp : m.myPendingState = some T)
    (hor : ¬ ProperAncestor T S ∨ p.history T = .none) (hh : (m.info T).myHistory = none)
    (h : m.transitionLoop p fuel = .ok m') :
    ∃ steps : List (StateId × Action ε),
      (∀ s ∈ steps, s.2.IsInitOf s.1) ∧
      List.Chain ProperAncestor T (steps.map Prod.fst) ∧
      m'.trace = m.trace ++ (exitPath T S).map Action.exit ++
        (entryPath S T true).map Action.entry ++ [Action.init T] ++ cascade T steps ∧
      m'.myCurrentState = some ((steps.map Prod.fst).getLastD T) ∧
      m'.myPendingState = none ∧
      (m.myPendingEvent = .null → m'.myPendingEvent = .null) := by
  obtain ⟨a0, steps, _, hst, hch, htr, hcur, hpn, _, hen⟩ :=
    transitionLoop_cascade p fuel m m' S T hc hp h
  obtain ⟨n, m1, _, ht, hl⟩ := transitionLoop_some hp h
  have h1 := (transition_spec hc hp ht).userInit hor hh
  obtain ⟨r, hr⟩ := transitionLoop_trace hl
  have ha : a0 = Action.init T := by
    rw [hr, h1] at htr
    simp only [List.append_assoc] at htr
    have h2 := List.append_cancel_left (List.append_cancel_left (List.append_cancel_left htr))
    simp only [List.singleton_append] at h2
    exact (List.cons.inj h2).1.symm
  subst ha
  exact ⟨steps, hst, hch, htr, hcur, hpn, hen⟩
theorem start_ok {p : Program β ε} {fuel : Nat} {T : StateId} {box : Option β}
    {m0 m : MachineBase β ε} (hp0 : m0.myPendingState = none)
    (h : MachineBase.start p fuel T box m0 = .ok m) :
    ∃ ms : MachineBase β ε, ms.myCurrentState = some .root ∧ ms.myPendingState = some T ∧
      ms.myPendingBox = box ∧ ms.myPendingHistory = false ∧
      ms.myPendingEvent = m0.myPendingEvent ∧ ms.trace = m0.trace ∧
      ms.boxLog = m0.boxLog ∧ (∀ k, ms.info k = m0.info k) ∧ ms.settle p fuel = .ok m := by
  obtain ⟨g1, g2, _, g4, _, _, g7⟩ := getInfo_fields .root m0
  unfold MachineBase.start MachineBase.setState at h
  simp only at h
  have hs : ({ Link._getInfo .root m0 with myCurrentState := some .root } :
      MachineBase β ε).setPendingState T false box =
      .ok { Link._getInfo .root m0 with
        myCurrentState := some StateId.root, myPendingState := some T,
        myPendingBox := box, myPendingHistory := false } := by
    unfold MachineBase.setPendingState
    rw [if_pos (Or.inl (by show (Link._getInfo .root m0).myPendingState = none; rw [g4, hp0]))]
  rw [hs] at h
  simp only [Except.bind, MachineBase.rattleOn] at h
  exact ⟨{ Link._getInfo .root m0 with
      myCurrentState := some StateId.root, myPendingState := some T,
      myPendingBox := box, myPendingHistory := false },
    rfl, rfl, rfl, rfl, g7, g1, g2, fun k => info_getInfo .root m0 k, h⟩

/-- What starting a machine that has no history, no trace and nothing pending does. -/
theorem start_spec {p : Program β ε} {fuel : Nat} {T : StateId} {box : Option β}
    {m0 m : MachineBase β ε} (hp0 : m0.myPendingState = none)
    (he0 : m0.myPendingEvent = .null) (ht0 : m0.trace = [])
    (hh0 : (m0.info T).myHistory = none)
    (h : MachineBase.start p fuel T box m0 = .ok m) :
    ∃ steps : List (StateId × Action ε),
      (∀ s ∈ steps, s.2.IsInitOf s.1) ∧
      List.Chain ProperAncestor T (steps.map Prod.fst) ∧
      m.trace = (pathDown .root T).map Action.entry ++ [Action.init T] ++ cascade T steps ∧
      (∀ s, Action.exit s ∉ m.trace) ∧
      m.myCurrentState = some ((steps.map Prod.fst).getLastD T) ∧
      m.myPendingState = none ∧ m.myPendingEvent = .null := by
  obtain ⟨ms, hc, hp, _, _, he, ht, _, hi, hs⟩ := start_ok hp0 h
  have he' : ms.myPendingEvent = .null := by rw [he, he0]
  obtain ⟨hl, hpn, hen⟩ := settle_pending_null hc hp he' hs
  have hor : ¬ ProperAncestor T .root ∨ p.history T = .none := by
    left
    rintro ⟨h1, h2⟩
    simp only [isChild, decide_eq_true_eq] at h1
    exact h2 h1.symm
  obtain ⟨steps, hst, hch, htr, hcur, _, _⟩ :=
    transitionLoop_userInit hc hp hor (by rw [hi, hh0]) hl
  have htr' : m.trace = (pathDown .root T).map Action.entry ++ [Action.init T] ++
      cascade T steps := by
    rw [htr, ht, ht0, entryPath_root_eq_pathDown]
    simp [exitPath]
  refine ⟨steps, hst, hch, htr', ?_, hcur, hpn, hen⟩
  intro s
  rw [htr']
  simp only [List.mem_append, List.mem_map, List.mem_singleton, not_or]
  refine ⟨⟨?_, ?_⟩, exit_not_mem_cascade s steps T hst⟩
  · rintro ⟨y, _, hy⟩; cases hy
  · intro hx; cases hx

theorem fresh_getInfo (T : StateId) :
    (Link._getInfo T ({} : MachineBase β ε)).myPendingState = none ∧
    (Link._getInfo T ({} : MachineBase β ε)).myPendingEvent = .null ∧
    (Link._getInfo T ({} : MachineBase β ε)).trace = [] ∧
    (Link._getInfo T ({} : MachineBase β ε)).boxLog = [] ∧
    (∀ k, (Link._getInfo T ({} : MachineBase β ε)).info k = {}) := by
  obtain ⟨g1, g2, _, g4, _, _, g7⟩ := getInfo_fields T ({} : MachineBase β ε)
  exact ⟨g4, g7, g1, g2, fun k => by rw [info_getInfo]; rfl⟩
/-! ## Steps that perform no transition -/

theorem quiet_refl (m : MachineBase β ε) : Quiet m m :=
  ⟨rfl, ⟨[], by simp, by simp⟩, rfl, fun _ => rfl, fun _ => Or.inl rfl⟩

theorem quiet_trans {m1 m2 m3 : MachineBase β ε} (h12 : Quiet m1 m2) (h23 : Quiet m2 m3) :
    Quiet m1 m3 where
  current := h23.current.trans h12.current
  trace := by
    obtain ⟨l1, e1, a1⟩ := h12.trace
    obtain ⟨l2, e2, a2⟩ := h23.trace
    refine ⟨l1 ++ l2, by rw [e2, e1, List.append_assoc], ?_⟩
    intro a ha
    rcases List.mem_append.mp ha with h | h
    · exact a1 a h
    · exact a2 a h
  boxLog := h23.boxLog.trans h12.boxLog
  hasBox := fun s => (h23.hasBox s).trans (h12.hasBox s)
  history := fun s => by
    rcases h23.history s with h | h
    · rcases h12.history s with h' | h'
      · exact Or.inl (h.trans h')
      · exact Or.inr (h.trans h')
    · exact Or.inr h

theorem quiet_ofCmdFrame {m m' : MachineBase β ε} (h : CmdFrame m m') : Quiet m m' :=
  ⟨h.current, ⟨[], by simp [h.trace], by simp⟩, h.boxLog, h.hasBox, h.history⟩

theorem quiet_dispatchEvent {p : Program β ε} {m m' : MachineBase β ε} {e : ε}
    (h : m.dispatchEvent p e = .ok m') : Quiet m m' := by
  obtain ⟨c, _, _, hr⟩ := dispatchEvent_ok h
  have hf := cmdFrame_runCmds hr
  exact ⟨hf.current, ⟨[Action.dispatch e c], by rw [hf.trace]; rfl,
      by intro a ha; exact ⟨e, c, List.mem_singleton.mp ha⟩⟩,
    hf.boxLog, hf.hasBox, hf.history⟩

/-! ## Invariants of the settle loop and of runs -/

theorem transitionLoop_invariant {p : Program β ε} (I : MachineBase β ε → Prop)
    (htrans : ∀ m m', I m → m.transition p = .ok m' → I m') :
    ∀ (fuel : Nat) (m m' : MachineBase β ε), I m → m.transitionLoop p fuel = .ok m' → I m' := by
  intro fuel
  induction fuel with
  | zero =>
    intro m m' hi h
    unfold MachineBase.transitionLoop at h
    split at h
    · cases h; exact hi
    · cases h
  | succ n ih =>
    intro m m' hi h
    unfold MachineBase.transitionLoop at h
    split at h
    · cases h; exact hi
    · cases h1 : m.transition p with
      | error e => rw [h1] at h; cases h
      | ok m1 =>
        rw [h1] at h
        exact ih m1 m' (htrans m m1 hi h1) h

theorem settle_invariant {p : Program β ε} (I : MachineBase β ε → Prop)
    (htrans : ∀ m m', I m → m.transition p = .ok m' → I m')
    (hquiet : ∀ m m', I m → Quiet m m' → I m') :
    ∀ (fuel : Nat) (m m' : MachineBase β ε), I m → m.settle p fuel = .ok m' → I m' := by
  intro fuel
  induction fuel with
  | zero =>
    intro m m' hi h
    unfold MachineBase.settle at h
    split at h
    · cases h; exact hi
    · cases h
  | succ n ih =>
    intro m m' hi h
    unfold MachineBase.settle at h
    split at h
    · cases h; exact hi
    · cases h1 : m.transitionLoop p (n + 1) with
      | error e => rw [h1] at h; cases h
      | ok m1 =>
        rw [h1] at h
        simp only [Except.bind] at h
        have hi1 := transitionLoop_invariant I htrans _ _ _ hi h1
        cases hpe : m1.myPendingEvent with
        | null =>
          simp only [hpe] at h
          exact ih _ _ hi1 h
        | dummy =>
          simp only [hpe] at h
          cases h
        | event e =>
          simp only [hpe] at h
          cases h2 : MachineBase.dispatchEvent p e { m1 with myPendingEvent := .null } with
          | error f => rw [h2] at h; cases h
          | ok m2 =>
            rw [h2] at h
            have hq : Quiet m1 { m1 with myPendingEvent := .null } :=
              ⟨rfl, ⟨[], by simp, by simp⟩, rfl, fun _ => rfl, fun _ => Or.inl rfl⟩
            exact ih _ _ (hquiet _ _ hi1 (quiet_trans hq (quiet_dispatchEvent h2))) h

theorem rattleOn_invariant {p : Program β ε} (I : MachineBase β ε → Prop)
    (htrans : ∀ m m', I m → m.transition p = .ok m' → I m')
    (hquiet : ∀ m m', I m → Quiet m m' → I m')
    {fuel : Nat} {m m' : MachineBase β ε} (hi : I m) (h : m.rattleOn p fuel = .ok m') :
    I m' := by
  unfold MachineBase.rattleOn at h
  split at h
  · cases h
  · exact settle_invariant I htrans hquiet fuel m m' hi h

theorem apply_invariant {p : Program β ε} (I : MachineBase β ε → Prop)
    (htrans : ∀ m m', I m → m.transition p = .ok m' → I m')
    (hquiet : ∀ m m', I m → Quiet m m' → I m')
    {fuel : Nat} {o : Op β ε} {m m' : MachineBase β ε} (hi : I m)
    (h : Machine.apply p fuel o m = .ok m') : I m' := by
  cases o with
  | call c =>
    exact hquiet _ _ hi (quiet_ofCmdFrame (cmdFrame_run h))
  | rattleOn => exact rattleOn_invariant I htrans hquiet hi h
  | dispatch e =>
    simp only [Machine.apply, Machine.dispatch] at h
    cases h1 : m.dispatchEvent p e with
    | error f => rw [h1] at h; cases h
    | ok m1 =>
      rw [h1] at h
      exact rattleOn_invariant I htrans hquiet (hquiet _ _ hi (quiet_dispatchEvent h1)) h
  | arrow e =>
    simp only [Machine.apply, Machine.arrow] at h
    split at h
    · cases h
    · cases h
    · cases h1 : m.dispatchEvent p e with
      | error f => rw [h1] at h; cases h
      | ok m1 =>
        rw [h1] at h
        exact rattleOn_invariant I htrans hquiet (hquiet _ _ hi (quiet_dispatchEvent h1)) h
  | setState state history =>
    simp only [Machine.apply, MachineBase.setStateAlias] at h
    cases h1 : (state.getInfo m).setPendingState state.myCharacter history state.takeBox.1 with
    | error f => rw [h1] at h; cases h
    | ok m1 =>
      rw [h1] at h
      simp only [Except.bind] at h
      cases h2 : m1.rattleOn p fuel with
      | error f => rw [h2] at h; cases h
      | ok m2 =>
        rw [h2] at h
        cases h
        have hq : Quiet m m1 :=
          quiet_ofCmdFrame (cmdFrame_trans (cmdFrame_getInfo _ m) (cmdFrame_setPendingState h1))
        exact rattleOn_invariant I htrans hquiet (hquiet _ _ hi hq) h2

theorem applyAll_invariant {p : Program β ε} (I : MachineBase β ε → Prop)
    (htrans : ∀ m m', I m → m.transition p = .ok m' → I m')
    (hquiet : ∀ m m', I m → Quiet m m' → I m') (fuel : Nat) :
    ∀ (ops : List (Op β ε)) (m m' : MachineBase β ε), I m →
      Machine.applyAll p fuel ops m = .ok m' → I m' := by
  intro ops
  induction ops with
  | nil => intro m m' hi h; simp only [Machine.applyAll] at h; cases h; exact hi
  | cons o os ih =>
    intro m m' hi h
    simp only [Machine.applyAll] at h
    cases h1 : Machine.apply p fuel o m with
    | error f => rw [h1] at h; cases h
    | ok m1 =>
      rw [h1] at h
      exact ih m1 m' (apply_invariant I htrans hquiet hi h1) h

/-- An invariant that holds when the loop of `start` begins, and that transitions and
steps without a transition keep, holds after every run. -/
theorem run_invariant {p : Program β ε} (I : MachineBase β ε → Prop)
    (htrans : ∀ m m', I m → m.transition p = .ok m' → I m')
    (hquiet : ∀ m m', I m → Quiet m m' → I m')
    (hstart : ∀ ms : MachineBase β ε, ms.myCurrentState = some .root → ms.trace = [] →
      ms.boxLog = [] → (∀ k, ms.info k = {}) → I ms)
    {fuel : Nat} {T : StateId} {box : Option β} {ops : List (Op β ε)} {m : MachineBase β ε}
    (h : Machine.run p fuel T box ops = .ok m) : I m := by
  unfold Machine.run at h
  cases h1 : Machine.new p fuel T box with
  | error f => rw [h1] at h; cases h
  | ok m1 =>
    rw [h1] at h
    refine applyAll_invariant I htrans hquiet fuel ops m1 m ?_ h
    obtain ⟨f1, _, f3, f4, f5⟩ := @fresh_getInfo β ε T
    obtain ⟨ms, hc, _, _, _, _, ht, hb, hi, hs⟩ := start_ok f1 h1
    refine settle_invariant I htrans hquiet fuel ms m1 ?_ hs
    exact hstart ms hc (by rw [ht, f3]) (by rw [hb, f4]) (fun k => by rw [hi, f5])
/-! ## Which states a transition exits and enters -/

theorem mem_exitPath_iff (T : StateId) :
    ∀ (S x : StateId), x ∈ exitPath T S ↔
      (x ≠ .root ∧ isChild S x = true ∧ (x = T ∨ isChild T x = false)) := by
  intro S
  induction S with
  | root =>
    intro x
    simp only [exitPath, List.not_mem_nil, false_iff, not_and]
    intro hx hc
    simp only [isChild, decide_eq_true_eq] at hc
    exact absurd hc.symm hx
  | sub super tag ih =>
    intro x
    unfold exitPath
    by_cases hcond : (decide (StateId.sub super tag = T) || !isChild T (.sub super tag)) = true
    · rw [if_pos hcond, List.mem_cons, ih]
      simp only [Bool.or_eq_true, decide_eq_true_eq, Bool.not_eq_true'] at hcond
      constructor
      · rintro (h | ⟨h1, h2, h3⟩)
        · subst h
          exact ⟨by simp, isChild_refl _, hcond⟩
        · exact ⟨h1, isChild_of_super tag h2, h3⟩
      · rintro ⟨h1, h2, h3⟩
        by_cases hx : x = .sub super tag
        · exact Or.inl hx
        · exact Or.inr ⟨h1, isChild_super h2 hx, h3⟩
    · rw [if_neg hcond]
      simp only [Bool.or_eq_true, decide_eq_true_eq, Bool.not_eq_true', not_or,
        Bool.not_eq_false] at hcond
      simp only [List.not_mem_nil, false_iff, not_and]
      intro _ h2 h3
      have hTx : isChild T x = true := isChild_trans hcond.2 h2
      rcases h3 with h3 | h3
      · subst h3
        exact hcond.1 (isChild_antisymm h2 hcond.2)
      · rw [hTx] at h3; cases h3

theorem mem_entryPath_iff (S : StateId) :
    ∀ (T : StateId) (first : Bool) (x : StateId), x ∈ entryPath S T first ↔
      (x ≠ .root ∧ isChild T x = true ∧ ((first = true ∧ x = T) ∨ isChild S x = false)) := by
  intro T
  induction T with
  | root =>
    intro first x
    simp only [entryPath, List.not_mem_nil, false_iff, not_and]
    intro hx hc
    simp only [isChild, decide_eq_true_eq] at hc
    exact absurd hc.symm hx
  | sub super tag ih =>
    intro first x
    unfold entryPath
    by_cases hcond : (first || !isChild S (.sub super tag)) = true
    · rw [if_pos hcond, List.mem_append, List.mem_singleton, ih]
      simp only [Bool.or_eq_true, Bool.not_eq_true'] at hcond
      constructor
      · rintro (⟨h1, h2, h3⟩ | h)
        · refine ⟨h1, isChild_of_super tag h2, Or.inr ?_⟩
          rcases h3 with ⟨h3, _⟩ | h3
          · cases h3
          · exact h3
        · subst h
          refine ⟨by simp, isChild_refl _, ?_⟩
          rcases hcond with hc | hc
          · exact Or.inl ⟨hc, rfl⟩
          · exact Or.inr hc
      · rintro ⟨h1, h2, h3⟩
        by_cases hx : x = .sub super tag
        · exact Or.inr hx
        · refine Or.inl ⟨h1, isChild_super h2 hx, Or.inr ?_⟩
          rcases h3 with ⟨_, h3⟩ | h3
          · exact absurd h3 hx
          · exact h3
    · rw [if_neg hcond]
      simp only [Bool.or_eq_true, Bool.not_eq_true', not_or, Bool.not_eq_true,
        Bool.not_eq_false] at hcond
      simp only [List.not_mem_nil, false_iff, not_and]
      intro _ h2 h3
      rcases h3 with ⟨h3, _⟩ | h3
      · rw [hcond.1] at h3; cases h3
      · rw [isChild_trans hcond.2 h2] at h3; cases h3

/-! ## Entries and exits alternate -/

theorem invocations_append (s : StateId) (a b : List (Action ε)) :
    invocations s (a ++ b) = invocations s a ++ invocations s b := by
  unfold invocations
  rw [List.filterMap_append]

theorem invocations_exitPath (s T : StateId) :
    ∀ S : StateId, invocations s ((exitPath T S).map Action.exit : List (Action ε)) =
      if s ∈ exitPath T S then [false] else [] := by
  intro S
  induction S with
  | root => simp [exitPath, invocations]
  | sub super tag ih =>
    unfold exitPath
    split
    · rw [List.map_cons, ← List.singleton_append, invocations_append, ih]
      by_cases hs : StateId.sub super tag = s
      · have hn : s ∉ exitPath T super := by
          intro hm
          have h := ((mem_exitPath_iff T super s).mp hm).2.1
          rw [← hs, not_isChild_super_sub] at h
          cases h
        rw [if_neg hn, if_pos (by rw [hs]; exact List.mem_cons_self _ _)]
        simp [invocations, hs]
      · have h1 : invocations s ([Action.exit (.sub super tag)] : List (Action ε)) = [] := by
          simp [invocations, hs]
        rw [h1, List.nil_append]
        have h2 : (s ∈ StateId.sub super tag :: exitPath T super) ↔ s ∈ exitPath T super := by
          rw [List.mem_cons]
          constructor
          · rintro (h | h)
            · exact absurd h.symm hs
            · exact h
          · exact Or.inr
        simp only [h2]
    · simp [invocations]

theorem invocations_entryPath (s S : StateId) :
    ∀ (T : StateId) (first : Bool),
      invocations s ((entryPath S T first).map Action.entry : List (Action ε)) =
        if s ∈ entryPath S T first then [true] else [] := by
  intro T
  induction T with
  | root => intro first; simp [entryPath, invocations]
  | sub super tag ih =>
    intro first
    unfold entryPath
    split
    · rw [List.map_append, invocations_append, ih]
      by_cases hs : StateId.sub super tag = s
      · have hn : s ∉ entryPath S super false := by
          intro hm
          have h := ((mem_entryPath_iff S super false s).mp hm).2.1
          rw [← hs, not_isChild_super_sub] at h
          cases h
        rw [if_neg hn, if_pos (by rw [hs]; simp)]
        simp [invocations, hs]
      · have h1 : invocations s
            (List.map Action.entry [StateId.sub super tag] : List (Action ε)) = [] := by
          simp [invocations, hs]
        rw [h1, List.append_nil]
        have h2 : (s ∈ entryPath S super false ++ [StateId.sub super tag]) ↔
            s ∈ entryPath S super false := by
          rw [List.mem_append, List.mem_singleton]
          constructor
          · rintro (h | h)
            · exact h
            · exact absurd h.symm hs
          · exact Or.inl
        simp only [h2]
    · simp [invocations]

theorem invocations_isInitOf (s t : StateId) {a : Action ε} (ha : a.IsInitOf t) :
    invocations s [a] = [] := by
  rcases ha with h | ⟨k, h⟩ <;> subst h <;> rfl

theorem invocations_dispatches (s : StateId) :
    ∀ l : List (Action ε), (∀ a ∈ l, ∃ e c, a = Action.dispatch e c) → invocations s l = [] := by
  intro l
  induction l with
  | nil => intro _; rfl
  | cons a l ih =>
    intro h
    obtain ⟨e, c, ha⟩ := h a (List.mem_cons_self _ _)
    subst ha
    rw [← List.singleton_append, invocations_append,
      ih (fun b hb => h b (List.mem_cons_of_mem _ hb))]
    rfl

theorem alternation_close (n : Nat) : alternation n true ++ [false] = alternation (n + 1) false := by
  induction n with
  | zero => rfl
  | succ n ih =>
    show true :: false :: (alternation n true ++ [false]) = _
    rw [ih]
    rfl

theorem alternation_open (n : Nat) : alternation n false ++ [true] = alternation n true := by
  induction n with
  | zero => rfl
  | succ n ih =>
    show true :: false :: (alternation n false ++ [true]) = _
    rw [ih]
    rfl

theorem balanced_transition {p : Program β ε} {m m' : MachineBase β ε} (hb : Balanced m)
    (h : m.transition p = .ok m') : Balanced m' := by
  obtain ⟨S, hc, hinv⟩ := hb
  obtain ⟨m1, _, _, he, _, _⟩ := transition_ok h
  obtain ⟨S', T, hc', hp⟩ := exitPhase_some he
  have hSS : S' = S := by rw [hc] at hc'; exact (Option.some.inj hc').symm
  subst hSS
  have hs := transition_spec hc hp h
  obtain ⟨a, ha, htr⟩ := hs.trace
  refine ⟨T, hs.current, fun s => ?_⟩
  obtain ⟨n, hn⟩ := hinv s
  rw [htr, invocations_append, invocations_append, invocations_append, hn,
    invocations_exitPath, invocations_entryPath, invocations_isInitOf s T ha,
    List.append_nil]
  have hex := mem_exitPath_iff T S' s
  have hen := mem_entryPath_iff S' T true s
  by_cases hroot : s = .root
  · subst hroot
    rw [if_neg (fun hm => (hex.mp hm).1 rfl), if_neg (fun hm => (hen.mp hm).1 rfl)]
    exact ⟨n, by simp [active]⟩
  · have hA : active S' s = isChild S' s := by simp [active, hroot]
    have hB : active T s = isChild T s := by simp [active, hroot]
    rw [hA, hB]
    by_cases hSs : isChild S' s = true
    · by_cases hTs : isChild T s = true
      · by_cases hQ : s = T
        · rw [if_pos (hex.mpr ⟨hroot, hSs, Or.inl hQ⟩),
            if_pos (hen.mpr ⟨hroot, hTs, Or.inl ⟨rfl, hQ⟩⟩), hSs, hTs]
          exact ⟨n + 1, by rw [alternation_close, alternation_open]⟩
        · have h1 : s ∉ exitPath T S' := by
            intro hm
            rcases (hex.mp hm).2.2 with h | h
            · exact hQ h
            · rw [hTs] at h; cases h
          have h2 : s ∉ entryPath S' T true := by
            intro hm
            rcases (hen.mp hm).2.2 with ⟨_, h⟩ | h
            · exact hQ h
            · rw [hSs] at h; cases h
          rw [if_neg h1, if_neg h2, hSs, hTs]
          exact ⟨n, by simp⟩
      · have hTs' : isChild T s = false := by simpa using hTs
        have h2 : s ∉ entryPath S' T true := fun hm => hTs (hen.mp hm).2.1
        rw [if_pos (hex.mpr ⟨hroot, hSs, Or.inr hTs'⟩), if_neg h2, hSs, hTs']
        exact ⟨n + 1, by rw [alternation_close]; simp⟩
    · have hSs' : isChild S' s = false := by simpa using hSs
      have h1 : s ∉ exitPath T S' := fun hm => hSs (hex.mp hm).2.1
      by_cases hTs : isChild T s = true
      · rw [if_neg h1, if_pos (hen.mpr ⟨hroot, hTs, Or.inr hSs'⟩), hSs', hTs]
        exact ⟨n, by rw [List.append_nil, alternation_open]⟩
      · have hTs' : isChild T s = false := by simpa using hTs
        have h2 : s ∉ entryPath S' T true := fun hm => hTs (hen.mp hm).2.1
        rw [if_neg h1, if_neg h2, hSs', hTs']
        exact ⟨n, by simp⟩

theorem balanced_quiet {m m' : MachineBase β ε} (hb : Balanced m) (hq : Quiet m m') :
    Balanced m' := by
  obtain ⟨c, hc, hinv⟩ := hb
  obtain ⟨l, hl, hd⟩ := hq.trace
  refine ⟨c, by rw [hq.current, hc], fun s => ?_⟩
  obtain ⟨n, hn⟩ := hinv s
  exact ⟨n, by rw [hl, invocations_append, invocations_dispatches s l hd, List.append_nil, hn]⟩

theorem balanced_start (ms : MachineBase β ε) (hc : ms.myCurrentState = some .root)
    (ht : ms.trace = []) : Balanced ms := by
  refine ⟨.root, hc, fun s => ⟨0, ?_⟩⟩
  rw [ht]
  have : active .root s = false := by
    unfold active
    by_cases h : s = .root
    · simp [h]
    · have : isChild .root s = false := by
        simp only [isChild, decide_eq_false_iff_not]
        exact fun e => h e.symm
      simp [this]
  rw [this]
  rfl
/-! ## Root stores no history; the transition to Root -/

theorem saveHistory_root (p : Program β ε) :
    ∀ (x sh dp : StateId) (m : MachineBase β ε),
      ((StateInfo.saveHistory p x sh dp m).info .root).myHistory = (m.info .root).myHistory := by
  intro x
  induction x with
  | root => intro sh dp m; rfl
  | sub super tag ih =>
    intro sh dp m
    unfold StateInfo.saveHistory
    have h1 : ∀ h, ((StateInfo.setHistory (.sub super tag) h m).info .root).myHistory =
        (m.info .root).myHistory := fun h => by
      rw [setHistory_history, if_neg (by simp)]
    cases hh : p.history (.sub super tag) <;> simp only [] <;> split <;>
      simp [ih, h1]

theorem setHistorySuper_root (p : Program β ε) (c dp : StateId) (m : MachineBase β ε) :
    ((StateInfo.setHistorySuper p c dp m).info .root).myHistory = (m.info .root).myHistory := by
  cases c with
  | root => rfl
  | sub super tag => exact saveHistory_root p super _ dp m

theorem rootClean_transition {p : Program β ε} {m m' : MachineBase β ε}
    (hr : (m.info .root).myHistory = none) (h : m.transition p = .ok m') :
    (m'.info .root).myHistory = none := by
  obtain ⟨m1, m2, history, h1, h2, h3⟩ := transition_ok h
  obtain ⟨S, T, hc, hp⟩ := exitPhase_some h1
  have e1 := exitPhase_spec hc hp h1
  have e2 := entryPhase_spec e1.current e1.pending e1.eventSet h2
  have e3 := initPhase_spec e2.current h3
  obtain ⟨me, hme, hm1⟩ := exitPhase_ok hc hp h1
  have hw := walkFrame_exit p T S _ _ hme
  have r0 : (me.info .root).myHistory = none := by
    rcases hw.history .root with hx | hx
    · rw [hx, (setDummyEvent_walk m).2.2.2.2.2.2.1, hr]
    · exact hx
  have r1 : (m1.info .root).myHistory = none := by
    rw [hm1, setHistorySuper_root, r0]
  have r2 : (m2.info .root).myHistory = none := by
    rcases e2.history .root with hx | hx
    · rw [hx, r1]
    · exact hx
  rcases e3.history .root with hx | hx
  · rw [hx, r2]
  · exact hx

theorem rootClean_quiet {m m' : MachineBase β ε} (hr : (m.info .root).myHistory = none)
    (hq : Quiet m m') : (m'.info .root).myHistory = none := by
  rcases hq.history .root with hx | hx
  · rw [hx, hr]
  · exact hx

theorem exitPath_root_eq_pathUp : ∀ c : StateId, exitPath .root c = pathUp c .root := by
  intro c
  induction c with
  | root => rfl
  | sub super tag ih =>
    unfold exitPath pathUp
    rw [if_pos (by simp [isChild]), if_neg (by simp), ih]

/-- The transition to Root, which `shutdown` requests: all active states are exited,
nothing is entered, and Root's own `init()` (the empty `_StateBase::init`) requests
nothing. -/
theorem transition_to_root {p : Program β ε} {m m' : MachineBase β ε} {c : StateId}
    (hc : m.myCurrentState = some c) (hp : m.myPendingState = some .root)
    (hr : (m.info .root).myHistory = none) (h : m.transition p = .ok m') :
    m'.trace = m.trace ++ (pathUp c .root).map Action.exit ++ [Action.init .root] ∧
    m'.myCurrentState = some .root ∧ m'.myPendingState = none ∧
    (m.myPendingEvent = .null → m'.myPendingEvent = .null) := by
  obtain ⟨m1, m2, history, h1, h2, h3⟩ := transition_ok h
  have e1 := exitPhase_spec hc hp h1
  have e2 := entryPhase_spec e1.current e1.pending e1.eventSet h2
  have e3 := initPhase_spec e2.current h3
  obtain ⟨me, hme, hm1⟩ := exitPhase_ok hc hp h1
  have hw := walkFrame_exit p .root c _ _ hme
  have r0 : (me.info .root).myHistory = none := by
    rcases hw.history .root with hx | hx
    · rw [hx, (setDummyEvent_walk m).2.2.2.2.2.2.1, hr]
    · exact hx
  have r1 : (m1.info .root).myHistory = none := by
    rw [hm1, setHistorySuper_root, r0]
  have r2 : (m2.info .root).myHistory = none := by
    rcases e2.history .root with hx | hx
    · rw [hx, r1]
    · exact hx
  have hs := transition_spec hc hp h
  refine ⟨?_, hs.current, ?_, hs.eventNull⟩
  · rw [e3.trace, e2.trace, e1.trace, r2, initAction_none, exitPath_root_eq_pathUp]
    simp [entryPath]
  · obtain ⟨mi, hmi, _, hm3⟩ := initPhase_ok e2.current h3
    rcases init_ok hmi with ⟨k, mp, _, hk, _, _⟩ | ⟨mu, _, hru, hmu⟩
    · rw [r2] at hk; cases hk
    · simp only [StateBase.init, runCmds] at hru
      cases hru
      rw [hm3, (clearDummyEvent_walk mi).2.2.2.1, hmu]
      exact e2.pending

theorem setPendingState_ok_of_none {m : MachineBase β ε} (hp : m.myPendingState = none)
    (info : StateId) (history : Bool) (box : Option β) :
    ∃ ms, m.setPendingState info history box = .ok ms ∧
      ms.myCurrentState = m.myCurrentState ∧ ms.myPendingState = some info ∧
      ms.myPendingBox = box ∧ ms.myPendingHistory = history ∧
      ms.myPendingEvent = m.myPendingEvent ∧ ms.trace = m.trace ∧ ms.boxLog = m.boxLog ∧
      (∀ k, ms.info k = m.info k) := by
  refine ⟨{ m with
      myPendingState := some info, myPendingBox := box, myPendingHistory := history },
    ?_, rfl, rfl, rfl, rfl, rfl, rfl, rfl, fun _ => rfl⟩
  unfold MachineBase.setPendingState
  rw [if_pos (Or.inl hp)]

theorem shutdown_ok {p : Program β ε} {fuel : Nat} {m m' : MachineBase β ε}
    (hp : m.myPendingState = none) (h : m.shutdown p fuel = .ok m') :
    ∃ ms m1 : MachineBase β ε, ms.myCurrentState = m.myCurrentState ∧
      ms.myPendingState = some .root ∧ ms.myPendingEvent = m.myPendingEvent ∧
      ms.trace = m.trace ∧ ms.boxLog = m.boxLog ∧ (∀ k, ms.info k = m.info k) ∧
      ms.rattleOn p fuel = .ok m1 ∧ m' = { m1 with myCurrentState := none } := by
  unfold MachineBase.shutdown at h
  rw [hp] at h
  simp only [MachineBase.setState] at h
  obtain ⟨g1, g2, g3, g4, _, _, g7⟩ := getInfo_fields .root m
  obtain ⟨ms, hms, s1, s2, _, _, s5, s6, s7, s8⟩ :=
    @setPendingState_ok_of_none β ε (Link._getInfo .root m) (by rw [g4, hp]) .root false none
  rw [hms] at h
  simp only [Except.bind] at h
  cases h1 : ms.rattleOn p fuel with
  | error f => rw [h1] at h; cases h
  | ok m1 =>
    rw [h1] at h
    cases h
    exact ⟨ms, m1, by rw [s1, g3], s2, by rw [s5, g7], by rw [s6, g1], by rw [s7, g2],
      fun k => by rw [s8, info_getInfo], h1, rfl⟩

/-- What `shutdown` does with a quiescent machine whose current state is `c`. -/
theorem shutdown_spec {p : Program β ε} {fuel : Nat} {m m' : MachineBase β ε} {c : StateId}
    (hc : m.myCurrentState = some c) (hp : m.myPendingState = none)
    (he : m.myPendingEvent = .null) (hr : (m.info .root).myHistory = none)
    (h : m.shutdown p fuel = .ok m') :
    m'.trace = m.trace ++ (pathUp c .root).map Action.exit ++ [Action.init .root] ∧
    m'.myCurrentState = none ∧ m'.myPendingState = none ∧ m'.myPendingEvent = .null := by
  obtain ⟨ms, m1, s1, s2, s3, s4, _, s6, hra, hm'⟩ := shutdown_ok hp h
  have hc1 : ms.myCurrentState = some c := by rw [s1, hc]
  unfold MachineBase.rattleOn at hra
  rw [hc1] at hra
  simp only at hra
  obtain ⟨hl, hpn, hen⟩ := settle_pending_null hc1 s2 (by rw [s3, he]) hra
  obtain ⟨n, mt, _, ht, hl2⟩ := transitionLoop_some s2 hl
  obtain ⟨t1, _, t3, _⟩ := transition_to_root hc1 s2 (by rw [s6, hr]) ht
  rw [transitionLoop_none t3] at hl2
  cases hl2
  subst hm'
  exact ⟨by show m1.trace = _; rw [t1, s4], rfl, hpn, hen⟩

/-! ## Boxes of exited and entered states -/

theorem virtualDeleteBox_none (p : Program β ε) (super : StateId) (tag : Nat)
    (m : MachineBase β ε) (hp : p.persistent (.sub super tag) = false) :
    ((StateBase._deleteBox p (.sub super tag) m).info (.sub super tag)).myBox = none := by
  unfold StateBase._deleteBox
  simp only [hp]
  unfold StateInfo.deleteBox
  simp only
  cases hb : (m.info (.sub super tag)).myBox with
  | none => simpa using hb
  | some b => simp [MachineBase.logBox, MachineBase.info, MachineBase.setInfo]

theorem exit_deleted (p : Program β ε) (next : StateId) :
    ∀ (s : StateId) (m m' : MachineBase β ε), StateInfo.exit p next s m = .ok m' →
      ∀ x ∈ exitPath next s, p.persistent x = false → (m'.info x).myBox = none := by
  intro s
  induction s with
  | root => intro m m' _ x hx; simp [exitPath] at hx
  | sub super tag ih =>
    intro m m' h x hx hpx
    simp only [StateInfo.exit] at h
    unfold exitPath at hx
    split at h
    · rename_i hcond
      rw [if_pos hcond] at hx
      cases h1 : runCmds (p.exit (.sub super tag) (m.log (.exit (.sub super tag))))
          (m.log (.exit (.sub super tag))) with
      | error e => rw [h1] at h; cases h
      | ok m2 =>
        rw [h1] at h
        simp only [Except.bind] at h
        rcases List.mem_cons.mp hx with hx | hx
        · subst hx
          have hn : StateId.sub super tag ∉ exitPath next super := by
            intro hm
            have hh := ((mem_exitPath_iff next super _).mp hm).2.1
            rw [not_isChild_super_sub] at hh
            cases hh
          have hf := (boxFrame_exit p next super _ _ h).hasBox _ hn
          rw [virtualDeleteBox_none p super tag m2 hpx] at hf
          cases hb : (m'.info (StateId.sub super tag)).myBox with
          | none => rfl
          | some b => rw [hb] at hf; cases hf
        · exact ih _ _ h x hx hpx
    · rename_i hcond
      rw [if_neg hcond] at hx
      cases hx

theorem entry_present (p : Program β ε) (previous : StateId) :
    ∀ (s : StateId) (first : Bool) (m m' : MachineBase β ε),
      StateInfo.entry p previous s first m = .ok m' →
      ∀ x ∈ entryPath previous s first, (m'.info x).myBox.isSome = true := by
  intro s
  induction s with
  | root => intro first m m' _ x hx; simp [entryPath] at hx
  | sub super tag ih =>
    intro first m m' h x hx
    simp only [StateInfo.entry] at h
    unfold entryPath at hx
    split at h
    · rename_i hcond
      rw [if_pos hcond] at hx
      cases h1 : StateInfo.entry p previous super false m with
      | error e => rw [h1] at h; cases h
      | ok m1 =>
        rw [h1] at h
        simp only [Except.bind] at h
        have hf := cmdFrame_runCmds h
        rw [hf.hasBox]
        show (MachineBase.info (match (m1.info (.sub super tag)).myBox with
          | none => StateInfo.createBox p (.sub super tag) m1
          | some _ => m1) x).myBox.isSome = true
        rcases List.mem_append.mp hx with hx | hx
        · have hne : x ≠ .sub super tag := by
            intro e
            have hh := ((mem_entryPath_iff previous super false x).mp hx).2.1
            rw [e, not_isChild_super_sub] at hh
            cases hh
          have hi := ih false m m1 h1 x hx
          split
          · rw [(boxFrame_createBox p (.sub super tag) m1).hasBox x (by simpa using hne)]
            exact hi
          · exact hi
        · rw [List.mem_singleton] at hx
          subst hx
          split
          · simp [StateInfo.createBox, MachineBase.logBox, MachineBase.info,
              MachineBase.setInfo]
          · rename_i b hb
            rw [hb]; rfl
    · rename_i hcond
      rw [if_neg hcond] at hx
      cases hx

theorem exitPhase_deleted {p : Program β ε} {m m1 : MachineBase β ε} {S T : StateId}
    (hc : m.myCurrentState = some S) (hp : m.myPendingState = some T)
    (h : m.exitPhase p = .ok m1) :
    ∀ x ∈ exitPath T S, p.persistent x = false → (m1.info x).myBox = none := by
  intro x hx hpx
  obtain ⟨me, hme, hm1⟩ := exitPhase_ok hc hp h
  rw [hm1, (historyOnly_setHistorySuper p S S me).box]
  exact exit_deleted p T S _ _ hme x hx hpx

theorem entryPhase_present {p : Program β ε} {m1 m2 : MachineBase β ε} {history : Bool}
    {S T : StateId} (hc : m1.myCurrentState = some S) (hp : m1.myPendingState = some T)
    (h : m1.entryPhase p = .ok (m2, history)) :
    ∀ x ∈ entryPath S T true, (m2.info x).myBox.isSome = true := by
  intro x hx
  obtain ⟨mb, m3, _, he, hm2, _⟩ := entryPhase_ok hc hp h
  rw [hm2]
  exact entry_present p S T true _ _ he x hx

theorem boxesMatch_transition {p : Program β ε} {m m' : MachineBase β ε}
    (hb : BoxesMatch p m) (h : m.transition p = .ok m') : BoxesMatch p m' := by
  obtain ⟨S, hc, hinv⟩ := hb
  obtain ⟨m1, m2, history, h1, h2, h3⟩ := transition_ok h
  obtain ⟨S', T, hc', hp⟩ := exitPhase_some h1
  have hSS : S' = S := by rw [hc] at hc'; exact (Option.some.inj hc').symm
  subst hSS
  have e1 := exitPhase_spec hc hp h1
  have e2 := entryPhase_spec e1.current e1.pending e1.eventSet h2
  have e3 := initPhase_spec e2.current h3
  refine ⟨T, e3.current, fun s hs hps => ?_⟩
  have hex := mem_exitPath_iff T S' s
  have hen := mem_entryPath_iff S' T true s
  rw [e3.boxes.hasBox s (by simp)]
  by_cases hin : s ∈ entryPath S' T true
  · rw [entryPhase_present e1.current e1.pending h2 s hin, (hen.mp hin).2.1]
  · have hsT : s ∉ T :: entryPath S' T true := by
      intro hm
      rcases List.mem_cons.mp hm with hm | hm
      · exact hin (hen.mpr ⟨hs, by rw [hm]; exact isChild_refl _, Or.inl ⟨rfl, hm⟩⟩)
      · exact hin hm
    rw [e2.boxes.hasBox s hsT]
    by_cases hout : s ∈ exitPath T S'
    · rw [exitPhase_deleted hc hp h1 s hout hps]
      rcases (hex.mp hout).2.2 with hq | hq
      · exact absurd (hen.mpr ⟨hs, by rw [hq]; exact isChild_refl _, Or.inl ⟨rfl, hq⟩⟩) hin
      · rw [hq]; rfl
    · rw [e1.boxes.hasBox s hout, hinv s hs hps]
      by_cases hSs : isChild S' s = true
      · by_cases hTs : isChild T s = true
        · rw [hSs, hTs]
        · exact absurd (hex.mpr ⟨hs, hSs, Or.inr (by simpa using hTs)⟩) hout
      · by_cases hTs : isChild T s = true
        · exact absurd (hen.mpr ⟨hs, hTs, Or.inr (by simpa using hSs)⟩) hin
        · have a1 : isChild S' s = false := by simpa using hSs
          have a2 : isChild T s = false := by simpa using hTs
          rw [a1, a2]

theorem boxesMatch_quiet {p : Program β ε} {m m' : MachineBase β ε} (hb : BoxesMatch p m)
    (hq : Quiet m m') : BoxesMatch p m' := by
  obtain ⟨c, hc, hinv⟩ := hb
  exact ⟨c, by rw [hq.current, hc], fun s hs hps => by rw [hq.hasBox, hinv s hs hps]⟩

theorem boxesMatch_start (p : Program β ε) (ms : MachineBase β ε)
    (hc : ms.myCurrentState = some .root) (hi : ∀ k, ms.info k = {}) : BoxesMatch p ms := by
  refine ⟨.root, hc, fun s hs _ => ?_⟩
  rw [hi]
  have : isChild .root s = false := by
    simp only [isChild, decide_eq_false_iff_not]
    exact fun e => hs e.symm
  rw [this]
  rfl
/-! ## The model's loop bound is never what stops a single step -/

theorem bind_ne_fuel {α γ : Type} {r : Except Fault α} {f : α → Except Fault γ}
    (hr : r ≠ .error .fuel) (hf : ∀ a, r = .ok a → f a ≠ .error .fuel) :
    r.bind f ≠ .error .fuel := by
  cases r with
  | error e =>
    intro h
    simp only [Except.bind] at h
    cases h
    exact hr rfl
  | ok a => exact hf a rfl

theorem map_ne_fuel {α γ : Type} {r : Except Fault α} {f : α → γ}
    (hr : r ≠ .error .fuel) : r.map f ≠ .error .fuel := by
  cases r with
  | error e =>
    intro h
    simp only [Except.map] at h
    cases h
    exact hr rfl
  | ok a => intro h; cases h

theorem setPendingState_ne_fuel (m : MachineBase β ε) (info : StateId) (history : Bool)
    (box : Option β) : m.setPendingState info history box ≠ .error .fuel := by
  unfold MachineBase.setPendingState
  split <;> intro h <;> cases h

theorem run_ne_fuel (c : Cmd β ε) (m : MachineBase β ε) : c.run m ≠ .error .fuel := by
  cases c with
  | setState s box => exact setPendingState_ne_fuel _ _ _ _
  | setStateDirect s box => exact setPendingState_ne_fuel _ _ _ _
  | setStateAlias state =>
    simp only [Cmd.run, Link.setStateAlias]
    exact map_ne_fuel (map_ne_fuel (setPendingState_ne_fuel _ _ _ _))
  | dispatch e =>
    simp only [Cmd.run, MachineBase.setPendingEvent]
    split <;> intro h <;> cases h
  | clearHistory s => intro h; cases h
  | clearHistoryDeep s => intro h; cases h
  | modifyBox s f =>
    simp only [Cmd.run, StateInfo.modifyBox]
    split <;> intro h <;> cases h

theorem runCmds_ne_fuel : ∀ (cs : List (Cmd β ε)) (m : MachineBase β ε),
    runCmds cs m ≠ .error .fuel := by
  intro cs
  induction cs with
  | nil => intro m h; cases h
  | cons c cs ih =>
    intro m
    simp only [runCmds]
    exact bind_ne_fuel (run_ne_fuel c m) (fun a _ => ih a)

theorem exit_ne_fuel (p : Program β ε) (next : StateId) :
    ∀ (s : StateId) (m : MachineBase β ε), StateInfo.exit p next s m ≠ .error .fuel := by
  intro s
  induction s with
  | root => intro m h; cases h
  | sub super tag ih =>
    intro m
    simp only [StateInfo.exit]
    split
    · exact bind_ne_fuel (runCmds_ne_fuel _ _) (fun a _ => ih _)
    · intro h; cases h

theorem entry_ne_fuel (p : Program β ε) (previous : StateId) :
    ∀ (s : StateId) (first : Bool) (m : MachineBase β ε),
      StateInfo.entry p previous s first m ≠ .error .fuel := by
  intro s
  induction s with
  | root => intro first m h; cases h
  | sub super tag ih =>
    intro first m
    simp only [StateInfo.entry]
    split
    · exact bind_ne_fuel (ih false m) (fun a _ => runCmds_ne_fuel _ _)
    · intro h; cases h

theorem init_ne_fuel (p : Program β ε) (self : StateId) (history : Bool)
    (m : MachineBase β ε) : StateInfo.init p self history m ≠ .error .fuel := by
  unfold StateInfo.init
  apply map_ne_fuel
  split
  · exact setPendingState_ne_fuel _ _ _ _
  · exact runCmds_ne_fuel _ _

theorem transition_ne_fuel (p : Program β ε) (m : MachineBase β ε) :
    m.transition p ≠ .error .fuel := by
  unfold MachineBase.transition
  refine bind_ne_fuel ?_ (fun m1 _ => bind_ne_fuel ?_ (fun r _ => ?_))
  · unfold MachineBase.exitPhase
    split
    · refine bind_ne_fuel (exit_ne_fuel p _ _ _) (fun m2 _ => ?_)
      split <;> intro h <;> cases h
    · intro h; cases h
  · unfold MachineBase.entryPhase
    split
    · refine bind_ne_fuel ?_ (fun m2 _ => map_ne_fuel (entry_ne_fuel p _ _ _ _))
      split
      · unfold StateInfo.setBox
        split <;> intro h <;> cases h
      · intro h; cases h
    · intro h; cases h
  · unfold MachineBase.initPhase
    split
    · intro h; cases h
    · refine bind_ne_fuel (init_ne_fuel p _ _ _) (fun m1 _ => ?_)
      simp only
      split <;> intro h <;> cases h

theorem dispatchEvent_ne_fuel (p : Program β ε) (e : ε) (m : MachineBase β ε) :
    m.dispatchEvent p e ≠ .error .fuel := by
  unfold MachineBase.dispatchEvent
  split
  · intro h; cases h
  · intro h; cases h
  · exact runCmds_ne_fuel _ _

/-! ## The loop `while (myPendingState)` ends within the height of the state tree -/

theorem properAncestor_depth {a s : StateId} (h : ProperAncestor a s) : a.depth < s.depth := by
  obtain ⟨h1, h2⟩ := h
  cases s with
  | root =>
    simp only [isChild, decide_eq_true_eq] at h1
    exact absurd h1.symm h2
  | sub super tag =>
    have := isChild_depth (isChild_super h1 h2)
    simp only [StateId.depth]
    omega

theorem runCmds_pending_target : ∀ (cs : List (Cmd β ε)) (m m' : MachineBase β ε),
    runCmds cs m = .ok m' →
    m'.myPendingState = m.myPendingState ∨ ∃ c ∈ cs, c.target = m'.myPendingState := by
  intro cs
  induction cs with
  | nil => intro m m' h; simp only [runCmds] at h; cases h; exact Or.inl rfl
  | cons c cs ih =>
    intro m m' h
    simp only [runCmds] at h
    cases h1 : c.run m with
    | error e => rw [h1] at h; cases h
    | ok m1 =>
      rw [h1] at h
      rcases ih m1 m' h with h2 | ⟨c', hc', ht⟩
      · have hc1 : m1.myPendingState = m.myPendingState ∨ c.target = m1.myPendingState := by
          have sp : ∀ (m0 ma : MachineBase β ε) (info : StateId) (history : Bool)
              (box : Option β), m0.setPendingState info history box = .ok ma →
              ma.myPendingState = some info := by
            intro m0 ma info history box hs
            unfold MachineBase.setPendingState at hs
            split at hs
            · cases hs; rfl
            · cases hs
          cases c with
          | setState s box => exact Or.inr (sp _ _ _ _ _ h1).symm
          | setStateDirect s box => exact Or.inr (sp _ _ _ _ _ h1).symm
          | setStateAlias state =>
            right
            simp only [Cmd.run, Link.setStateAlias] at h1
            cases h3 : (state.getInfo m).setPendingState state.myCharacter true
                state.takeBox.1 with
            | error e => rw [h3] at h1; cases h1
            | ok ma =>
              rw [h3] at h1
              cases h1
              exact (sp _ _ _ _ _ h3).symm
          | dispatch e =>
            exact Or.inl (pendingKept_run (c := Cmd.dispatch e) rfl h1).pendingState
          | clearHistory s =>
            exact Or.inl (pendingKept_run (c := Cmd.clearHistory s) rfl h1).pendingState
          | clearHistoryDeep s =>
            exact Or.inl (pendingKept_run (c := Cmd.clearHistoryDeep s) rfl h1).pendingState
          | modifyBox s f =>
            exact Or.inl (pendingKept_run (c := Cmd.modifyBox s f) rfl h1).pendingState
        rcases hc1 with h3 | h3
        · exact Or.inl (h2.trans h3)
        · exact Or.inr ⟨c, List.mem_cons_self _ _, by rw [h3, h2]⟩
      · exact Or.inr ⟨c', List.mem_cons_of_mem _ hc', ht⟩

theorem saveHistory_depth (p : Program β ε) (h : Nat) :
    ∀ (x sh dp : StateId) (m : MachineBase β ε),
      (∀ k t, (m.info k).myHistory = some t → t.depth ≤ h) →
      sh.depth ≤ h → dp.depth ≤ h → x.depth ≤ h →
      ∀ k t, ((StateInfo.saveHistory p x sh dp m).info k).myHistory = some t → t.depth ≤ h := by
  intro x
  induction x with
  | root => intro sh dp m hm _ _ _ k t hk; exact hm k t hk
  | sub super tag ih =>
    intro sh dp m hm hsh hdp hx
    have hsup : super.depth ≤ h := by simp only [StateId.depth] at hx; omega
    have hset : ∀ v : StateId, v.depth ≤ h → ∀ k t,
        ((StateInfo.setHistory (.sub super tag) (some v) m).info k).myHistory = some t →
        t.depth ≤ h := by
      intro v hv k t hk
      rw [setHistory_history] at hk
      split at hk
      · cases hk; exact hv
      · exact hm k t hk
    unfold StateInfo.saveHistory
    cases hh : p.history (.sub super tag) <;> simp only [] <;> split
    · exact ih _ dp m hm hx hdp hsup
    · exact hm
    · exact ih _ dp _ (hset sh hsh) hx hdp hsup
    · exact hset sh hsh
    · exact ih _ dp _ (hset dp hdp) hx hdp hsup
    · exact hset dp hdp

theorem depthBound_transition {p : Program β ε} {h : Nat} (hp : InitDepth p h)
    {m m' : MachineBase β ε} (hb : DepthBound h m) (ht : m.transition p = .ok m') :
    DepthBound h m' := by
  obtain ⟨m1, m2, history, h1, h2, h3⟩ := transition_ok ht
  obtain ⟨S, T, hc, hpd⟩ := exitPhase_some h1
  have e1 := exitPhase_spec hc hpd h1
  have e2 := entryPhase_spec e1.current e1.pending e1.eventSet h2
  have e3 := initPhase_spec e2.current h3
  obtain ⟨me, hme, hm1⟩ := exitPhase_ok hc hpd h1
  have hw := walkFrame_exit p T S _ _ hme
  have hT : T.depth ≤ h := hb.pending T hpd
  have hS : S.depth ≤ h := hb.current S hc
  have b0 : ∀ k t, (me.info k).myHistory = some t → t.depth ≤ h := by
    intro k t hk
    rcases hw.history k with hx | hx
    · rw [hx, (setDummyEvent_walk m).2.2.2.2.2.2.1] at hk
      exact hb.history k t hk
    · rw [hx] at hk; cases hk
  have b1 : ∀ k t, (m1.info k).myHistory = some t → t.depth ≤ h := by
    rw [hm1]
    cases S with
    | root => exact b0
    | sub super tag =>
      exact saveHistory_depth p h super _ _ me b0 hS hS
        (by simp only [StateId.depth] at hS; omega)
  have b2 : ∀ k t, (m2.info k).myHistory = some t → t.depth ≤ h := by
    intro k t hk
    rcases e2.history k with hx | hx
    · rw [hx] at hk; exact b1 k t hk
    · rw [hx] at hk; cases hk
  refine ⟨?_, ?_, ?_⟩
  · intro d hd
    obtain ⟨mi, hmi, _, hm3⟩ := initPhase_ok e2.current h3
    have hdi : mi.myPendingState = some d := by
      rw [← (clearDummyEvent_walk mi).2.2.2.1, ← hm3]; exact hd
    rcases init_ok hmi with ⟨k, mp, _, hk, hsp, hmu⟩ | ⟨mu, _, hru, hmu⟩
    · have : mp.myPendingState = some k := by
        unfold MachineBase.setPendingState at hsp
        split at hsp
        · cases hsp; rfl
        · cases hsp
      have hkd : k = d := by
        rw [hmu] at hdi
        have : mp.myPendingState = some d := hdi
        rw [‹mp.myPendingState = some k›] at this
        exact Option.some.inj this
      rw [← hkd]
      exact b2 T k hk
    · have hdu : mu.myPendingState = some d := by rw [hmu] at hdi; exact hdi
      rcases runCmds_pending_target _ _ _ hru with hx | ⟨c, hc', hx⟩
      · rw [hdu] at hx
        have : (m2.log (Action.init T)).myPendingState = none := e2.pending
        rw [this] at hx; cases hx
      · rw [hdu] at hx
        cases T with
        | root => simp [StateBase.init] at hc'
        | sub super tag => exact hp _ _ c d hc' hx
  · intro c hc'
    rw [e3.current] at hc'
    cases hc'
    exact hT
  · intro k t hk
    rcases e3.history k with hx | hx
    · rw [hx] at hk; exact b2 k t hk
    · rw [hx] at hk; cases hk

/-- With every init action requesting transitions only within a tree of height `h`,
the loop `while (myPendingState)` is not cut off by the model's bound once the bound
exceeds what is left of the height below the pending target: it returns, or a
callback fails an assertion. -/
theorem transitionLoop_ne_fuel {p : Program β ε} {h : Nat} (hp : InitDepth p h) :
    ∀ (fuel : Nat) (m : MachineBase β ε), DepthBound h m →
      (∀ T, m.myPendingState = some T → h < T.depth + fuel) →
      m.transitionLoop p fuel ≠ .error .fuel := by
  intro fuel
  induction fuel with
  | zero =>
    intro m hb hf
    cases hpd : m.myPendingState with
    | none => rw [transitionLoop_none hpd]; intro h; cases h
    | some T =>
      have := hf T hpd
      have := hb.pending T hpd
      omega
  | succ n ih =>
    intro m hb hf
    cases hpd : m.myPendingState with
    | none => rw [transitionLoop_none hpd]; intro h; cases h
    | some T =>
      unfold MachineBase.transitionLoop
      simp only [hpd]
      refine bind_ne_fuel (transition_ne_fuel p m) (fun m1 h1 => ?_)
      refine ih m1 (depthBound_transition hp hb h1) (fun D hD => ?_)
      obtain ⟨m1', _, _, he, _, _⟩ := transition_ok h1
      obtain ⟨S, T', hc, hpd'⟩ := exitPhase_some he
      have hTT : T' = T := by rw [hpd] at hpd'; exact (Option.some.inj hpd').symm
      subst hTT
      have := properAncestor_depth ((transition_spec hc hpd h1).pending D hD)
      have := hf T' hpd
      omega
/-! ## Boxes that a walk keeps -/

theorem boxKept_refl (k : StateId) (m : MachineBase β ε) : BoxKept k m m :=
  ⟨⟨[], by simp, by simp, by simp⟩, rfl⟩

theorem boxKept_trans {k : StateId} {m1 m2 m3 : MachineBase β ε} (h12 : BoxKept k m1 m2)
    (h23 : BoxKept k m2 m3) : BoxKept k m1 m3 := by
  obtain ⟨l1, e1, a1, b1⟩ := h12.boxLog
  obtain ⟨l2, e2, a2, b2⟩ := h23.boxLog
  refine ⟨⟨l1 ++ l2, by rw [e2, e1, List.append_assoc], ?_, ?_⟩,
    h23.hasBox.trans h12.hasBox⟩
  · simp only [List.mem_append, not_or]; exact ⟨a1, a2⟩
  · simp only [List.mem_append, not_or]; exact ⟨b1, b2⟩

theorem boxKept_ofEq {k : StateId} {m m' : MachineBase β ε} (hl : m'.boxLog = m.boxLog)
    (hb : (m'.info k).myBox.isSome = (m.info k).myBox.isSome) : BoxKept k m m' :=
  ⟨⟨[], by simp [hl], by simp, by simp⟩, hb⟩

theorem boxKept_runCmds (k : StateId) {cs : List (Cmd β ε)} {m m' : MachineBase β ε}
    (h : runCmds cs m = .ok m') : BoxKept k m m' :=
  boxKept_ofEq (cmdFrame_runCmds h).boxLog ((cmdFrame_runCmds h).hasBox k)

theorem boxKept_ofBoxFrame (p : Program β ε) {k : StateId} {t : List StateId}
    {m m' : MachineBase β ε} (h : BoxFrame p t m m') (hk : k ∉ t) : BoxKept k m m' := by
  obtain ⟨l, hl, hs⟩ := h.boxLog
  refine ⟨⟨l, hl, ?_, ?_⟩, h.hasBox k hk⟩
  · intro hm; exact hk (hs _ hm)
  · intro hm; exact hk (hs _ hm)

theorem boxKept_virtualDeleteBox (p : Program β ε) (k x : StateId) (m : MachineBase β ε)
    (hk : p.persistent k = true ∨ k ≠ x) : BoxKept k m (StateBase._deleteBox p x m) := by
  by_cases hkx : k = x
  · subst hkx
    have hp : p.persistent k = true := by
      rcases hk with h | h
      · exact h
      · exact absurd rfl h
    cases k with
    | root => exact boxKept_refl _ _
    | sub super tag =>
      simp only [StateBase._deleteBox, hp, if_true]
      exact boxKept_refl _ _
  · exact boxKept_ofBoxFrame p (boxFrame_virtualDeleteBox p x m) (by simpa using hkx)

theorem virtualDeleteBox_box (p : Program β ε) (k x : StateId) (m : MachineBase β ε)
    (hk : p.persistent k = true ∨ k ≠ x) :
    ((StateBase._deleteBox p x m).info k).myBox = (m.info k).myBox := by
  cases x with
  | root => rfl
  | sub super tag =>
    simp only [StateBase._deleteBox]
    split
    · rfl
    · rename_i hnp
      have hne : k ≠ .sub super tag := by
        rcases hk with h | h
        · intro e; rw [e] at h; exact hnp h
        · exact h
      simp only [StateInfo.deleteBox]
      split
      · simp [MachineBase.logBox, MachineBase.info, MachineBase.setInfo, Function.update, hne]
      · rfl

/-- The exit walk neither creates nor deletes the box of a persistent state (nor of a
state it does not exit), and leaves its contents to what the exit actions write. -/
theorem exit_keeps (p : Program β ε) (k next : StateId) :
    ∀ (s : StateId) (m m' : MachineBase β ε), (p.persistent k = true ∨ k ∉ exitPath next s) →
      StateInfo.exit p next s m = .ok m' →
      BoxKept k m m' ∧
      ((∀ x ∈ exitPath next s, ∀ mm c, c ∈ p.exit x mm → c.writes k = false) →
        (m'.info k).myBox = (m.info k).myBox) := by
  intro s
  induction s with
  | root =>
    intro m m' _ h
    simp only [StateInfo.exit] at h
    cases h
    exact ⟨boxKept_refl _ _, fun _ => rfl⟩
  | sub super tag ih =>
    intro m m' hk h
    simp only [StateInfo.exit] at h
    unfold exitPath at hk ⊢
    split at h
    · rename_i hcond
      rw [if_pos hcond] at hk ⊢
      cases h1 : runCmds (p.exit (.sub super tag) (m.log (.exit (.sub super tag))))
          (m.log (.exit (.sub super tag))) with
      | error e => rw [h1] at h; cases h
      | ok m2 =>
        rw [h1] at h
        simp only [Except.bind] at h
        have hk1 : p.persistent k = true ∨ k ≠ .sub super tag := by
          rcases hk with hk | hk
          · exact Or.inl hk
          · exact Or.inr (fun e => hk (by rw [e]; exact List.mem_cons_self _ _))
        have hk2 : p.persistent k = true ∨ k ∉ exitPath next super := by
          rcases hk with hk | hk
          · exact Or.inl hk
          · exact Or.inr (fun e => hk (List.mem_cons_of_mem _ e))
        obtain ⟨i1, i2⟩ := ih _ _ hk2 h
        have k1 : BoxKept k m (m.log (.exit (.sub super tag))) := boxKept_ofEq rfl rfl
        have k2 := boxKept_runCmds k h1
        have k3 := boxKept_virtualDeleteBox p k (.sub super tag) m2 hk1
        refine ⟨boxKept_trans (boxKept_trans (boxKept_trans k1 k2) k3) i1, fun hw => ?_⟩
        rw [i2 (fun x hx => hw x (List.mem_cons_of_mem _ hx)),
          virtualDeleteBox_box p k _ m2 hk1,
          runCmds_box h1 k (fun c hc => hw _ (List.mem_cons_self _ _) _ c hc)]
        rfl
    · rename_i hcond
      cases h
      exact ⟨boxKept_refl _ _, fun _ => rfl⟩

/-- The steps of `_StateInfo::entry` on a state that is entered: the walk on the
superstate, `createBox()` unless a box is held, and the entry action, which runs on the
machine `mc.log (.entry s)`. -/
theorem entry_ok {p : Program β ε} {previous super : StateId} {tag : Nat} {first : Bool}
    {m m' : MachineBase β ε}
    (hcond : (first || !isChild previous (.sub super tag)) = true)
    (h : StateInfo.entry p previous (.sub super tag) first m = .ok m') :
    ∃ m1 mc, StateInfo.entry p previous super false m = .ok m1 ∧
      (((m1.info (.sub super tag)).myBox = none ∧
          mc = StateInfo.createBox p (.sub super tag) m1) ∨
        ((m1.info (.sub super tag)).myBox.isSome = true ∧ mc = m1)) ∧
      runCmds (p.entry (.sub super tag) (mc.log (.entry (.sub super tag))))
        (mc.log (.entry (.sub super tag))) = .ok m' := by
  simp only [StateInfo.entry] at h
  rw [if_pos hcond] at h
  cases h1 : StateInfo.entry p previous super false m with
  | error e => rw [h1] at h; cases h
  | ok m1 =>
    rw [h1] at h
    simp only [Except.bind] at h
    cases hb : (m1.info (.sub super tag)).myBox with
    | none =>
      simp only [hb] at h
      exact ⟨m1, _, rfl, Or.inl ⟨hb, rfl⟩, h⟩
    | some b =>
      simp only [hb] at h
      exact ⟨m1, _, rfl, Or.inr ⟨by rw [hb]; rfl, rfl⟩, h⟩

theorem createBox_other (p : Program β ε) (x k : StateId) (m : MachineBase β ε)
    (hne : k ≠ x) : ((StateInfo.createBox p x m).info k) = m.info k := by
  cases x with
  | root => rfl
  | sub super tag =>
    simp [StateInfo.createBox, MachineBase.logBox, MachineBase.info, MachineBase.setInfo,
      Function.update, hne]

/-- The entry walk neither creates nor deletes the box of a state that already holds
one (nor of a state it does not enter), and leaves its contents to what the entry
actions write. -/
theorem entry_keeps (p : Program β ε) (k previous : StateId) :
    ∀ (s : StateId) (first : Bool) (m m' : MachineBase β ε),
      ((m.info k).myBox.isSome = true ∨ k ∉ entryPath previous s first) →
      StateInfo.entry p previous s first m = .ok m' →
      BoxKept k m m' ∧
      ((∀ x ∈ entryPath previous s first, ∀ mm c, c ∈ p.entry x mm → c.writes k = false) →
        (m'.info k).myBox = (m.info k).myBox) := by
  intro s
  induction s with
  | root =>
    intro first m m' _ h
    simp only [StateInfo.entry] at h
    cases h
    exact ⟨boxKept_refl _ _, fun _ => rfl⟩
  | sub super tag ih =>
    intro first m m' hk h
    by_cases hcond : (first || !isChild previous (.sub super tag)) = true
    · obtain ⟨m1, mc, h1, hmc, hr⟩ := entry_ok hcond h
      unfold entryPath at hk ⊢
      rw [if_pos hcond] at hk ⊢
      have hk2 : (m.info k).myBox.isSome = true ∨ k ∉ entryPath previous super false := by
        rcases hk with hk | hk
        · exact Or.inl hk
        · exact Or.inr (fun e => hk (List.mem_append_left _ e))
      obtain ⟨i1, i2⟩ := ih false m m1 hk2 h1
      have hk1 : (m1.info k).myBox.isSome = true ∨ k ≠ .sub super tag := by
        rcases hk with hk | hk
        · exact Or.inl (by rw [i1.hasBox, hk])
        · exact Or.inr (fun e => hk (by rw [e]; simp))
      have hcre : BoxKept k m1 mc ∧ (mc.info k).myBox = (m1.info k).myBox := by
        rcases hmc with ⟨hnone, hmc⟩ | ⟨_, hmc⟩
        · have hne : k ≠ .sub super tag := by
            rcases hk1 with h' | h'
            · intro e; rw [e, hnone] at h'; cases h'
            · exact h'
          rw [hmc]
          exact ⟨boxKept_ofBoxFrame p (boxFrame_createBox p _ m1) (by simpa using hne),
            by rw [createBox_other p _ k m1 hne]⟩
        · rw [hmc]; exact ⟨boxKept_refl _ _, rfl⟩
      have k3 := boxKept_runCmds k hr
      have k4 : BoxKept k mc (mc.log (.entry (.sub super tag))) := boxKept_ofEq rfl rfl
      refine ⟨boxKept_trans (boxKept_trans i1 hcre.1) (boxKept_trans k4 k3), fun hw => ?_⟩
      rw [runCmds_box hr k (fun c hc => hw _ (by simp) _ c hc), info_log, hcre.2,
        i2 (fun x hx => hw x (List.mem_append_left _ hx))]
    · simp only [StateInfo.entry] at h
      rw [if_neg hcond] at h
      cases h
      exact ⟨boxKept_refl _ _, fun _ => rfl⟩

/-- The entry walk creates, with the class's default constructor, the box of every
state it enters that holds none. -/
theorem entry_creates (p : Program β ε) (previous : StateId) :
    ∀ (s : StateId) (first : Bool) (m m' : MachineBase β ε),
      StateInfo.entry p previous s first m = .ok m' →
      ∀ x ∈ entryPath previous s first, (m.info x).myBox = none →
        (∃ l, m'.boxLog = m.boxLog ++ l ∧ BoxAction.created x ∈ l) ∧
        ((∀ y ∈ entryPath previous s first, ∀ mm c, c ∈ p.entry y mm → c.writes x = false) →
          (m'.info x).myBox = some (p.newBox x)) := by
  intro s
  induction s with
  | root => intro first m m' _ x hx; simp [entryPath] at hx
  | sub super tag ih =>
    intro first m m' h x hx hnone
    by_cases hcond : (first || !isChild previous (.sub super tag)) = true
    · obtain ⟨m1, mc, h1, hmc, hr⟩ := entry_ok hcond h
      unfold entryPath at hx ⊢
      rw [if_pos hcond] at hx ⊢
      have f1 := boxFrame_entry p previous super false m m1 h1
      have hlog : m'.boxLog = mc.boxLog := (cmdFrame_runCmds hr).boxLog
      rcases List.mem_append.mp hx with hx | hx
      · have hne : x ≠ .sub super tag := by
          intro e
          have hh := ((mem_entryPath_iff previous super false x).mp hx).2.1
          rw [e, not_isChild_super_sub] at hh
          cases hh
        obtain ⟨⟨l1, hl1, hc1⟩, i2⟩ := ih false m m1 h1 x hx hnone
        have hmcl : ∃ l2, mc.boxLog = m1.boxLog ++ l2 ∧ (mc.info x).myBox = (m1.info x).myBox := by
          rcases hmc with ⟨_, hmc⟩ | ⟨_, hmc⟩
          · rw [hmc]
            exact ⟨[.created (.sub super tag)], rfl, by rw [createBox_other p _ x m1 hne]⟩
          · rw [hmc]; exact ⟨[], by simp, rfl⟩
        obtain ⟨l2, hl2, hb2⟩ := hmcl
        refine ⟨⟨l1 ++ l2, by rw [hlog, hl2, hl1, List.append_assoc],
          List.mem_append_left _ hc1⟩, fun hw => ?_⟩
        rw [runCmds_box hr x (fun c hc => hw _ (by simp) _ c hc), info_log, hb2,
          i2 (fun y hy => hw y (List.mem_append_left _ hy))]
      · rw [List.mem_singleton] at hx
        subst hx
        have hn1 : (m1.info (.sub super tag)).myBox = none := by
          have hnot : StateId.sub super tag ∉ entryPath previous super false := by
            intro hm
            have hh := ((mem_entryPath_iff previous super false _).mp hm).2.1
            rw [not_isChild_super_sub] at hh
            cases hh
          have := f1.hasBox _ hnot
          rw [hnone] at this
          cases hb : (m1.info (.sub super tag)).myBox with
          | none => rfl
          | some b => rw [hb] at this; cases this
        obtain ⟨l1, hl1, _⟩ := f1.boxLog
        have hmc' : mc = StateInfo.createBox p (.sub super tag) m1 := by
          rcases hmc with ⟨_, hmc⟩ | ⟨hsome, _⟩
          · exact hmc
          · rw [hn1] at hsome; cases hsome
        refine ⟨⟨l1 ++ [.created (.sub super tag)], ?_, by simp⟩, fun hw => ?_⟩
        · rw [hlog, hmc', ← List.append_assoc, ← hl1]; rfl
        · rw [runCmds_box hr _ (fun c hc => hw _ (by simp) _ c hc), info_log, hmc']
          simp [StateInfo.createBox, MachineBase.logBox, MachineBase.info,
            MachineBase.setInfo]
    · unfold entryPath at hx
      rw [if_neg hcond] at hx
      cases hx

/-! ## Claims about construction and shutdown -/

theorem settle_eq_transitionLoop {p : Program β ε} {n : Nat} {m : MachineBase β ε}
    {S T : StateId} (hc : m.myCurrentState = some S) (hp : m.myPendingState = some T)
    (he : m.myPendingEvent = .null) :
    m.settle p (n + 1) = m.transitionLoop p (n + 1) := by
  unfold MachineBase.settle
  simp only [hp]
  cases h1 : m.transitionLoop p (n + 1) with
  | error f => rfl
  | ok mt =>
    simp only [Except.bind]
    obtain ⟨_, _, _, _, _, _, _, hpn, _, hen⟩ :=
      transitionLoop_cascade p (n + 1) m mt S T hc hp h1
    simp only [hen he]
    exact settle_quiescent_id hpn (hen he) n

theorem newAlias_eq (p : Program β ε) (fuel : Nat) (T : StateId) (box : Option β) :
    Machine.newAlias p fuel ⟨box, T⟩ =
      (Machine.new p fuel T box).map (fun m => (m, (⟨none, T⟩ : StateAlias β))) := rfl

/-- The constructor is not cut off by the model's bound when the bound exceeds the
height of the state tree. -/
theorem new_ne_fuel {p : Program β ε} {h fuel : Nat} (hp : InitDepth p h) {T : StateId}
    (hT : T.depth ≤ h) (hf : h < fuel) (box : Option β) :
    Machine.new p fuel T box ≠ .error .fuel := by
  obtain ⟨f1, f2, _, _, f5⟩ := @fresh_getInfo β ε T
  obtain ⟨g1, g2, _, g4, _, _, g7⟩ := getInfo_fields .root (Link._getInfo T ({} : MachineBase β ε))
  unfold Machine.new MachineBase.start MachineBase.setState
  simp only
  obtain ⟨ms, hms, s1, s2, _, _, s5, _, _, s8⟩ :=
    @setPendingState_ok_of_none β ε
      { Link._getInfo .root (Link._getInfo T {}) with myCurrentState := some StateId.root }
      (by show (Link._getInfo .root (Link._getInfo T {})).myPendingState = none; rw [g4, f1])
      T false box
  rw [hms]
  simp only [Except.bind]
  have hc : ms.myCurrentState = some .root := s1
  have he : ms.myPendingEvent = .null := by
    rw [s5]
    show (Link._getInfo .root (Link._getInfo T {})).myPendingEvent = .null
    rw [g7, f2]
  unfold MachineBase.rattleOn
  rw [hc]
  simp only
  obtain ⟨n, hn⟩ : ∃ n, fuel = n + 1 := ⟨fuel - 1, by omega⟩
  subst hn
  rw [settle_eq_transitionLoop hc s2 he]
  refine transitionLoop_ne_fuel hp (n + 1) ms ⟨?_, ?_, ?_⟩ ?_
  · intro t ht
    rw [s2] at ht; cases ht; exact hT
  · intro c hc'
    rw [hc] at hc'; cases hc'
    simp [StateId.depth]
  · intro k t hk
    rw [s8] at hk
    have : (MachineBase.info ({ Link._getInfo .root (Link._getInfo T {}) with
        myCurrentState := some StateId.root } : MachineBase β ε) k) = {} := by
      show (Link._getInfo .root (Link._getInfo T {})).info k = {}
      rw [info_getInfo, f5]
    rw [this] at hk
    cases hk
  · intro T' hT'
    rw [s2] at hT'; cases hT'
    omega

/-- C19: constructing a machine with start target `T` (`Machine(box)` for the top state,
or `Machine(alias)` for the state named by the alias) invokes entry on every state
from Top down to `T`, top-down, invokes no exit, and then invokes init with history
disabled, hence the user's init, on `T` only; what follows is the init cascade of `T`,
each step entering the states down to a proper descendant and running init there.
After construction the machine is quiescent, and its current state is `T` or the
state the cascade ends in.  When the init actions request transitions within a state
tree of height `h` only, a bound above `h` does not cut the constructor off. -/
theorem construction (p : Program β ε) (fuel : Nat) (T : StateId) (box : Option β) :
    (∀ m : MachineBase β ε,
      (Machine.new p fuel T box = .ok m ∨
        ∃ a, Machine.newAlias p fuel ⟨box, T⟩ = .ok (m, a)) →
      ∃ steps : List (StateId × Action ε),
        (∀ s ∈ steps, s.2.IsInitOf s.1) ∧
        List.Chain ProperAncestor T (steps.map Prod.fst) ∧
        m.trace = (pathDown .root T).map Action.entry ++ [Action.init T] ++
          cascade T steps ∧
        (∀ s, Action.exit s ∉ m.trace) ∧
        m.myCurrentState = some ((steps.map Prod.fst).getLastD T) ∧
        m.myPendingState = none ∧ m.myPendingEvent = .null) ∧
    (∀ h, InitDepth p h → T.depth ≤ h → h < fuel →
      Machine.new p fuel T box ≠ .error .fuel ∧
      Machine.newAlias p fuel ⟨box, T⟩ ≠ .error .fuel) := by
  constructor
  · intro m hm
    have hnew : Machine.new p fuel T box = .ok m := by
      rcases hm with hm | ⟨a, hm⟩
      · exact hm
      · rw [newAlias_eq] at hm
        cases h1 : Machine.new p fuel T box with
        | error e => rw [h1] at hm; cases hm
        | ok m1 => rw [h1] at hm; cases hm; rfl
    obtain ⟨f1, f2, f3, _, f5⟩ := @fresh_getInfo β ε T
    exact start_spec f1 f2 f3 (by rw [f5]) hnew
  · intro h hp hT hf
    have h1 := new_ne_fuel hp hT hf box
    refine ⟨h1, ?_⟩
    rw [newAlias_eq]
    exact map_ne_fuel h1

theorem transitions_initDepth : InitDepth Transitions.prog 4 := by
  intro s m c t hc ht
  simp only [Transitions.prog] at hc
  split at hc
  · simp only [List.mem_singleton] at hc
    subst hc
    cases ht
    decide
  · split at hc
    · simp only [List.mem_singleton] at hc
      subst hc
      cases ht
      decide
    · simp at hc

/-- Witness for C19: the test's `Macho::Machine<Top> m(state1)` with `state1` an alias
for `StateCAA` carrying a box, and the bound 8 above the height 4 of the test's tree. -/
theorem construction_witness :
    (∃ steps : List (StateId × Action Unit),
      (∀ s ∈ steps, s.2.IsInitOf s.1) ∧
      List.Chain ProperAncestor Transitions.StateCAA (steps.map Prod.fst) ∧
      Transitions.aliasStarted.trace =
        (pathDown .root Transitions.StateCAA).map Action.entry ++
          [Action.init Transitions.StateCAA] ++ cascade Transitions.StateCAA steps ∧
      (∀ s, Action.exit s ∉ Transitions.aliasStarted.trace) ∧
      Transitions.aliasStarted.myCurrentState =
        some ((steps.map Prod.fst).getLastD Transitions.StateCAA) ∧
      Transitions.aliasStarted.myPendingState = none ∧
      Transitions.aliasStarted.myPendingEvent = .null) ∧
    (Machine.new Transitions.prog 8 Transitions.StateCAA (some 42) ≠ .error .fuel ∧
      Machine.newAlias Transitions.prog 8 ⟨some 42, Transitions.StateCAA⟩ ≠ .error .fuel) ∧
    Transitions.aliasStarted.trace =
      [.entry Transitions.Top, .entry Transitions.StateC, .entry Transitions.StateCA,
        .entry Transitions.StateCAA, .init Transitions.StateCAA] ∧
    Transitions.aliasStarted.myCurrentState = some Transitions.StateCAA :=
  ⟨(construction Transitions.prog 8 Transitions.StateCAA (some 42)).1
      Transitions.aliasStarted (Or.inr ⟨⟨none, Transitions.StateCAA⟩, by rfl⟩),
    (construction Transitions.prog 8 Transitions.StateCAA (some 42)).2 4
      transitions_initDepth (by decide) (by decide), by decide, by decide⟩
/-! ## Invariants of runs -/

theorem run_rootClean {p : Program β ε} {fuel : Nat} {T : StateId} {box : Option β}
    {ops : List (Op β ε)} {m : MachineBase β ε} (h : Machine.run p fuel T box ops = .ok m) :
    (m.info .root).myHistory = none :=
  run_invariant (fun m => (m.info .root).myHistory = none)
    (fun _ _ hi ht => rootClean_transition hi ht) (fun _ _ hi hq => rootClean_quiet hi hq)
    (fun ms _ _ _ hi => by show (ms.info .root).myHistory = none; rw [hi]) h

theorem run_balanced {p : Program β ε} {fuel : Nat} {T : StateId} {box : Option β}
    {ops : List (Op β ε)} {m : MachineBase β ε} (h : Machine.run p fuel T box ops = .ok m) :
    Balanced m :=
  run_invariant Balanced (fun _ _ hi ht => balanced_transition hi ht)
    (fun _ _ hi hq => balanced_quiet hi hq) (fun ms hc ht _ _ => balanced_start ms hc ht) h

theorem run_boxesMatch {p : Program β ε} {fuel : Nat} {T : StateId} {box : Option β}
    {ops : List (Op β ε)} {m : MachineBase β ε} (h : Machine.run p fuel T box ops = .ok m) :
    BoxesMatch p m :=
  run_invariant (BoxesMatch p) (fun _ _ hi ht => boxesMatch_transition hi ht)
    (fun _ _ hi hq => boxesMatch_quiet hi hq) (fun ms hc _ _ hi => boxesMatch_start p ms hc hi) h

theorem active_iff (c s : StateId) :
    active c s = true ↔ (s ≠ .root ∧ (s = c ∨ s ∈ c.ancestors)) := by
  unfold active
  rw [Bool.and_eq_true, decide_eq_true_eq, isChild_iff_ancestors]

theorem active_eq_decide (c s : StateId) :
    active c s = decide (s ≠ .root ∧ (s = c ∨ s ∈ c.ancestors)) := by
  rw [Bool.eq_iff_iff, active_iff, decide_eq_true_eq]

theorem mem_pathUp_root_iff (c s : StateId) :
    s ∈ pathUp c .root ↔ (s ≠ .root ∧ (s = c ∨ s ∈ c.ancestors)) := by
  rw [← exitPath_root_eq_pathUp, mem_exitPath_iff, isChild_iff_ancestors]
  constructor
  · rintro ⟨h1, h2, _⟩; exact ⟨h1, h2⟩
  · rintro ⟨h1, h2⟩
    refine ⟨h1, h2, Or.inr ?_⟩
    simp only [isChild, decide_eq_false_iff_not]
    exact fun e => h1 e.symm

theorem destroy_ok {p : Program β ε} {fuel : Nat} {m m' : MachineBase β ε}
    (h : Machine.destroy p fuel m = .ok m') :
    ∃ c, m.myCurrentState = some c ∧ m.myPendingState = none ∧ m.shutdown p fuel = .ok m' := by
  unfold Machine.destroy at h
  split at h
  · cases h
  · rename_i c hc
    refine ⟨c, hc, ?_, h⟩
    unfold MachineBase.shutdown at h
    split at h
    · cases h
    · assumption

/-- The shutdown of a quiescent machine is not cut off by a bound of at least one
iteration. -/
theorem shutdown_ne_fuel {p : Program β ε} {n : Nat} {m : MachineBase β ε} {c : StateId}
    (hc : m.myCurrentState = some c) (hp : m.myPendingState = none)
    (he : m.myPendingEvent = .null) (hr : (m.info .root).myHistory = none) :
    m.shutdown p (n + 1) ≠ .error .fuel := by
  unfold MachineBase.shutdown
  rw [hp]
  simp only [MachineBase.setState]
  obtain ⟨_, _, g3, g4, _, _, g7⟩ := getInfo_fields .root m
  obtain ⟨ms, hms, s1, s2, _, _, s5, _, _, s8⟩ :=
    @setPendingState_ok_of_none β ε (Link._getInfo .root m) (by rw [g4, hp]) .root false none
  rw [hms]
  simp only [Except.bind]
  apply map_ne_fuel
  have hc1 : ms.myCurrentState = some c := by rw [s1, g3, hc]
  have he1 : ms.myPendingEvent = .null := by rw [s5, g7, he]
  unfold MachineBase.rattleOn
  rw [hc1]
  simp only
  rw [settle_eq_transitionLoop hc1 s2 he1]
  unfold MachineBase.transitionLoop
  simp only [s2]
  refine bind_ne_fuel (transition_ne_fuel p ms) (fun m1 h1 => ?_)
  obtain ⟨_, _, t3, _⟩ := transition_to_root hc1 s2 (by rw [s8, info_getInfo, hr]) h1
  rw [transitionLoop_none t3]
  intro h; cases h

/-- C20: `shutdown` of a started quiescent machine (one reached by a run, with nothing
pending, current state `c`) invokes exit on every active state, from `c` up to Top in
bottom-up order, invokes no entry action and no init of a state class (the only other
call is the empty `_StateBase::init()` of Root, the target of the transition that
`shutdown` requests), and leaves the machine with a null current state.  The
destructor of the machine does the same.  With a bound of at least one iteration the
model's bound does not cut `shutdown` off. -/
theorem shutdown_exits_active (p : Program β ε) (fuel : Nat) (T : StateId) (box : Option β)
    (ops : List (Op β ε)) (m : MachineBase β ε) (c : StateId)
    (hrun : Machine.run p fuel T box ops = .ok m) (hc : m.myCurrentState = some c)
    (hp : m.myPendingState = none) (he : m.myPendingEvent = .null) :
    (∀ fuel' m', (m.shutdown p fuel' = .ok m' ∨ Machine.destroy p fuel' m = .ok m') →
      m'.trace = m.trace ++ (pathUp c .root).map Action.exit ++ [Action.init .root] ∧
      (∀ s, s ∈ pathUp c .root ↔ (s ≠ .root ∧ (s = c ∨ s ∈ c.ancestors))) ∧
      (∀ s, Action.entry s ∉
        ((pathUp c .root).map Action.exit ++ [Action.init .root] : List (Action ε))) ∧
      (∀ s, s ≠ .root → Action.init s ∉
        ((pathUp c .root).map Action.exit ++ [Action.init .root] : List (Action ε))) ∧
      m'.myCurrentState = none ∧ m'.myPendingState = none ∧ m'.myPendingEvent = .null) ∧
    (∀ mm : MachineBase β ε, StateBase.init p .root mm = []) ∧
    (∀ n, m.shutdown p (n + 1) ≠ .error .fuel ∧ Machine.destroy p (n + 1) m ≠ .error .fuel) := by
  have hr := run_rootClean hrun
  refine ⟨?_, fun _ => rfl, fun n => ?_⟩
  · intro fuel' m' h
    have hs : m.shutdown p fuel' = .ok m' := by
      rcases h with h | h
      · exact h
      · obtain ⟨_, _, _, hs⟩ := destroy_ok h
        exact hs
    obtain ⟨t1, t2, t3, t4⟩ := shutdown_spec hc hp he hr hs
    refine ⟨t1, mem_pathUp_root_iff c, ?_, ?_, t2, t3, t4⟩
    · intro s hm
      simp only [List.mem_append, List.mem_map, List.mem_singleton] at hm
      rcases hm with ⟨y, _, hy⟩ | hm
      · cases hy
      · cases hm
    · intro s hsr hm
      simp only [List.mem_append, List.mem_map, List.mem_singleton] at hm
      rcases hm with ⟨y, _, hy⟩ | hm
      · cases hy
      · cases hm; exact hsr rfl
  · have h1 := @shutdown_ne_fuel β ε p n m c hc hp he hr
    refine ⟨h1, ?_⟩
    unfold Machine.destroy
    rw [hc]
    exact h1

/-- C15: in every run that starts a machine and applies operations to it whose
callbacks fail no assertion, at every point reached (in particular at every quiescent
point) the entry and exit invocations of each state alternate, beginning with an
entry, and the states entered but not yet exited are exactly the current state and
its non-Root ancestors; when the (quiescent) machine is then shut down, the
invocations of each state end with an exit. -/
theorem entries_exits_balanced (p : Program β ε) (fuel : Nat) (T : StateId)
    (box : Option β) (ops : List (Op β ε)) (m : MachineBase β ε)
    (h : Machine.run p fuel T box ops = .ok m) :
    (∃ c, m.myCurrentState = some c ∧
      ∀ s, ∃ n, invocations s m.trace =
        alternation n (decide (s ≠ .root ∧ (s = c ∨ s ∈ c.ancestors)))) ∧
    (∀ fuel' mEnd, m.myPendingEvent = .null → Machine.destroy p fuel' m = .ok mEnd →
      mEnd.myCurrentState = none ∧
      ∀ s, ∃ n, invocations s mEnd.trace = alternation n false) := by
  obtain ⟨c, hc, hinv⟩ := run_balanced h
  constructor
  · refine ⟨c, hc, fun s => ?_⟩
    obtain ⟨n, hn⟩ := hinv s
    exact ⟨n, by rw [hn, active_eq_decide]⟩
  · intro fuel' mEnd he hd
    obtain ⟨c', hc', hp, hs⟩ := destroy_ok hd
    have hcc : c' = c := by rw [hc] at hc'; exact (Option.some.inj hc').symm
    subst hcc
    obtain ⟨t1, t2, _, _⟩ := shutdown_spec hc hp he (run_rootClean h) hs
    refine ⟨t2, fun s => ?_⟩
    obtain ⟨n, hn⟩ := hinv s
    rw [t1, invocations_append, invocations_append, hn, ← exitPath_root_eq_pathUp,
      invocations_exitPath]
    have hi : invocations s ([Action.init .root] : List (Action ε)) = [] := rfl
    rw [hi, List.append_nil]
    by_cases ha : active c' s = true
    · have hm : s ∈ exitPath .root c' := by
        rw [exitPath_root_eq_pathUp, mem_pathUp_root_iff]
        exact (active_iff c' s).mp ha
      rw [if_pos hm, ha]
      exact ⟨n + 1, alternation_close n⟩
    · have hm : s ∉ exitPath .root c' := by
        rw [exitPath_root_eq_pathUp, mem_pathUp_root_iff]
        exact fun hx => ha ((active_iff c' s).mpr hx)
      have ha' : active c' s = false := by simpa using ha
      rw [if_neg hm, ha']
      exact ⟨n, by simp⟩
/-- Witness for C20: the test's machine resting in `StateAAA` is shut down. -/
theorem shutdown_exits_active_witness :
    (Transitions.shutDown [Transitions.StateAAA]).trace =
      (Transitions.driven [Transitions.StateAAA]).trace ++
        (pathUp Transitions.StateAAA .root).map Action.exit ++ [Action.init .root] ∧
    (∀ s, s ∈ pathUp Transitions.StateAAA .root ↔
      (s ≠ .root ∧ (s = Transitions.StateAAA ∨ s ∈ Transitions.StateAAA.ancestors))) ∧
    (Transitions.shutDown [Transitions.StateAAA]).myCurrentState = none ∧
    (Transitions.shutDown [Transitions.StateAAA]).myPendingState = none ∧
    (Transitions.shutDown [Transitions.StateAAA]).myPendingEvent = .null ∧
    pathUp Transitions.StateAAA .root =
      [Transitions.StateAAA, Transitions.StateAA, Transitions.StateA, Transitions.Top] ∧
    (Transitions.driven [Transitions.StateAAA]).shutdown Transitions.prog 8 =
      .ok (Transitions.shutDown [Transitions.StateAAA]) :=
  ⟨((shutdown_exits_active Transitions.prog 8 Transitions.Top none
      (Transitions.visit [Transitions.StateAAA]) (Transitions.driven [Transitions.StateAAA])
      Transitions.StateAAA (by rfl) (by decide) (by decide) (by decide)).1 8
      (Transitions.shutDown [Transitions.StateAAA]) (Or.inl (by rfl))).1,
    ((shutdown_exits_active Transitions.prog 8 Transitions.Top none
      (Transitions.visit [Transitions.StateAAA]) (Transitions.driven [Transitions.StateAAA])
      Transitions.StateAAA (by rfl) (by decide) (by decide) (by decide)).1 8
      (Transitions.shutDown [Transitions.StateAAA]) (Or.inl (by rfl))).2.1,
    by decide, by decide, by decide, by decide, by rfl⟩

/-- Witness for C15: the test's machine driven to `StateAAA`, then `StateB`, then
`StateA`, and destroyed: `StateA` is entered, exited, entered and finally exited. -/
theorem entries_exits_balanced_witness :
    ((∃ c, (Transitions.driven
          [Transitions.StateAAA, Transitions.StateB, Transitions.StateA]).myCurrentState =
          some c ∧
        ∀ s, ∃ n, invocations s (Transitions.driven
            [Transitions.StateAAA, Transitions.StateB, Transitions.StateA]).trace =
          alternation n (decide (s ≠ .root ∧ (s = c ∨ s ∈ c.ancestors)))) ∧
      ((Transitions.destroyed
          [Transitions.StateAAA, Transitions.StateB, Transitions.StateA]).myCurrentState =
          none ∧
        ∀ s, ∃ n, invocations s (Transitions.destroyed
            [Transitions.StateAAA, Transitions.StateB, Transitions.StateA]).trace =
          alternation n false)) ∧
    invocations Transitions.StateA (Transitions.driven
      [Transitions.StateAAA, Transitions.StateB, Transitions.StateA]).trace =
        [true, false, true] ∧
    invocations Transitions.StateA (Transitions.destroyed
      [Transitions.StateAAA, Transitions.StateB, Transitions.StateA]).trace =
        [true, false, true, false] :=
  ⟨⟨(entries_exits_balanced Transitions.prog 8 Transitions.Top none
        (Transitions.visit [Transitions.StateAAA, Transitions.StateB, Transitions.StateA])
        (Transitions.driven [Transitions.StateAAA, Transitions.StateB, Transitions.StateA])
        (by rfl)).1,
      (entries_exits_balanced Transitions.prog 8 Transitions.Top none
        (Transitions.visit [Transitions.StateAAA, Transitions.StateB, Transitions.StateA])
        (Transitions.driven [Transitions.StateAAA, Transitions.StateB, Transitions.StateA])
        (by rfl)).2 8
        (Transitions.destroyed [Transitions.StateAAA, Transitions.StateB, Transitions.StateA])
        (by decide) (by rfl)⟩,
    by decide, by decide⟩
/-- Witness for C13: the test's "Clearing History deep": the machine rests in `StateB`
after a visit to `StateCAB`, so that `StateC` and `StateCA` remember `StateCAB`;
`StateC::clearHistoryDeep(m)` clears both. -/
theorem clearHistoryDeep_frame_witness :
    (((Link.clearHistoryDeep Transitions.StateC
        (Transitions.driven [Transitions.StateCAB, Transitions.StateB])).info
          Transitions.StateCA).myHistory =
      (if Transitions.StateCA = Transitions.StateC ∨
          ProperAncestor Transitions.StateC Transitions.StateCA then none
        else ((Transitions.driven [Transitions.StateCAB, Transitions.StateB]).info
          Transitions.StateCA).myHistory) ∧
      HistoryOnly (Transitions.driven [Transitions.StateCAB, Transitions.StateB])
        (Link.clearHistoryDeep Transitions.StateC
          (Transitions.driven [Transitions.StateCAB, Transitions.StateB]))) ∧
    ((Transitions.driven [Transitions.StateCAB, Transitions.StateB]).info
      Transitions.StateC).myHistory = some Transitions.StateCAB ∧
    ((Transitions.driven [Transitions.StateCAB, Transitions.StateB]).info
      Transitions.StateCA).myHistory = some Transitions.StateCAB ∧
    ((Link.clearHistoryDeep Transitions.StateC
      (Transitions.driven [Transitions.StateCAB, Transitions.StateB])).info
        Transitions.StateC).myHistory = none ∧
    ((Link.clearHistoryDeep Transitions.StateC
      (Transitions.driven [Transitions.StateCAB, Transitions.StateB])).info
        Transitions.StateCA).myHistory = none :=
  ⟨clearHistoryDeep_frame Transitions.StateC
      (Transitions.driven [Transitions.StateCAB, Transitions.StateB]) Transitions.StateCA,
    by decide, by decide, by decide, by decide⟩

/-! ## Boxes are created at entry and destroyed at exit -/

/-- The exit walk runs the destructor of the box of every non-persistent state it
exits that holds one. -/
theorem exit_deletes (p : Program β ε) (next : StateId) :
    ∀ (s : StateId) (m m' : MachineBase β ε), StateInfo.exit p next s m = .ok m' →
      ∀ x ∈ exitPath next s, p.persistent x = false → (m.info x).myBox.isSome = true →
        ∃ l, m'.boxLog = m.boxLog ++ l ∧ BoxAction.deleted x ∈ l := by
  intro s
  induction s with
  | root => intro m m' _ x hx; simp [exitPath] at hx
  | sub super tag ih =>
    intro m m' h x hx hpx hbx
    simp only [StateInfo.exit] at h
    unfold exitPath at hx
    split at h
    · rename_i hcond
      rw [if_pos hcond] at hx
      cases h1 : runCmds (p.exit (.sub super tag) (m.log (.exit (.sub super tag))))
          (m.log (.exit (.sub super tag))) with
      | error e => rw [h1] at h; cases h
      | ok m2 =>
        rw [h1] at h
        simp only [Except.bind] at h
        have hf := cmdFrame_runCmds h1
        have hl2 : m2.boxLog = m.boxLog := hf.boxLog
        have hb2 : ∀ k, (m2.info k).myBox.isSome = (m.info k).myBox.isSome :=
          fun k => hf.hasBox k
        obtain ⟨l3, hl3, _⟩ := (boxFrame_exit p next super _ _ h).boxLog
        rcases List.mem_cons.mp hx with hx | hx
        · subst hx
          have hd : (StateBase._deleteBox p (.sub super tag) m2).boxLog =
              m2.boxLog ++ [.deleted (.sub super tag)] := by
            simp only [StateBase._deleteBox, hpx]
            unfold StateInfo.deleteBox
            simp only
            have := hb2 (.sub super tag)
            rw [hbx] at this
            cases hb : (m2.info (.sub super tag)).myBox with
            | none => rw [hb] at this; cases this
            | some b => rfl
          exact ⟨[.deleted (.sub super tag)] ++ l3, by rw [hl3, hd, hl2, List.append_assoc],
            by simp⟩
        · have hne : x ≠ .sub super tag := by
            intro e
            have hh := ((mem_exitPath_iff next super x).mp hx).2.1
            rw [e, not_isChild_super_sub] at hh
            cases hh
          have hk := boxFrame_virtualDeleteBox p (.sub super tag) m2
          have hbx2 : ((StateBase._deleteBox p (.sub super tag) m2).info x).myBox.isSome =
              true := by
            rw [hk.hasBox x (by simpa using hne), hb2, hbx]
          obtain ⟨l, hl, hm⟩ := ih _ _ h x hx hpx hbx2
          obtain ⟨l0, hl0, _⟩ := hk.boxLog
          exact ⟨l0 ++ l, by rw [hl, hl0, hl2, List.append_assoc],
            List.mem_append_right _ hm⟩
    · rename_i hcond
      rw [if_neg hcond] at hx
      cases hx

/-- Before the entry walk of a transition, no non-persistent state that is about to
be entered holds a box. -/
theorem entryPath_noBox {p : Program β ε} {m m1 : MachineBase β ε} {S T : StateId}
    (hb : BoxesMatch p m) (hc : m.myCurrentState = some S) (hp : m.myPendingState = some T)
    (h1 : m.exitPhase p = .ok m1) :
    ∀ x ∈ entryPath S T true, p.persistent x = false → (m1.info x).myBox = none := by
  intro x hx hpx
  obtain ⟨c, hc', hinv⟩ := hb
  have hcS : c = S := by rw [hc] at hc'; exact (Option.some.inj hc').symm
  subst hcS
  obtain ⟨hxr, hTx, hor⟩ := (mem_entryPath_iff c T true x).mp hx
  by_cases hout : x ∈ exitPath T c
  · exact exitPhase_deleted hc hp h1 x hout hpx
  · have e1 := exitPhase_spec hc hp h1
    have hs := e1.boxes.hasBox x hout
    rw [hinv x hxr hpx] at hs
    have hSx : isChild c x = false := by
      rcases hor with ⟨_, hq⟩ | hq
      · cases hcx : isChild c x with
        | false => rfl
        | true => exact absurd ((mem_exitPath_iff T c x).mpr ⟨hxr, hcx, Or.inl hq⟩) hout
      · exact hq
    rw [hSx] at hs
    cases hb1 : (m1.info x).myBox with
    | none => rfl
    | some b => rw [hb1] at hs; cases hs

theorem entryPhase_boxLog {p : Program β ε} {m1 m2 : MachineBase β ε} {history : Bool}
    {S T : StateId} (hc : m1.myCurrentState = some S) (hp : m1.myPendingState = some T)
    (h : m1.entryPhase p = .ok (m2, history)) :
    ∃ mb m3, StateInfo.entry p S T true mb = .ok m3 ∧ mb.boxLog = m1.boxLog ∧
      mb.trace = m1.trace ∧
      (∀ k, k ≠ T → mb.info k = m1.info k) ∧
      (m1.myPendingBox = none → ∀ k, mb.info k = m1.info k) ∧
      (∀ b, m1.myPendingBox = some b → (mb.info T).myBox = some b) ∧
      m2.boxLog = m3.boxLog ∧ m2.trace = m3.trace ∧ (∀ k, m2.info k = m3.info k) ∧
      m2 = { m3 with myPendingState := none, myPendingBox := none, myPendingHistory := false } := by
  obtain ⟨mb, m3, hb, he, hm2, _⟩ := entryPhase_ok hc hp h
  refine ⟨mb, m3, he, ?_, ?_, ?_, ?_, ?_, by rw [hm2], by rw [hm2], fun k => by rw [hm2]; rfl,
    hm2⟩
  · split at hb
    · unfold StateInfo.setBox at hb
      split at hb
      · cases hb
      · cases hb; rfl
    · cases hb; rfl
  · split at hb
    · unfold StateInfo.setBox at hb
      split at hb
      · cases hb
      · cases hb; rfl
    · cases hb; rfl
  · intro k hk
    split at hb
    · unfold StateInfo.setBox at hb
      split at hb
      · cases hb
      · cases hb
        simp [info_setInfo, hk]
        rfl
    · cases hb; rfl
  · intro hn k
    rw [hn] at hb
    cases hb
    rfl
  · intro b hbx
    rw [hbx] at hb
    simp only at hb
    unfold StateInfo.setBox at hb
    split at hb
    · cases hb
    · cases hb
      simp [info_setInfo]

/-- C16: at every point reached by a run (in particular at every quiescent point
between start and shutdown), every non-persistent non-Root state holds a box exactly
if it is active, that is, if it is the current state or an ancestor of it.  In the
transition that follows, every non-persistent state that is exited held a box, has its
destructor run and holds none after the exit walk; every non-persistent state that is
entered held none, gets one from its default constructor or, being the target, the
preinitialized box, and holds it after the entry walk. -/
theorem box_iff_active (p : Program β ε) (fuel : Nat) (T : StateId) (box : Option β)
    (ops : List (Op β ε)) (m : MachineBase β ε)
    (h : Machine.run p fuel T box ops = .ok m) :
    ∃ c, m.myCurrentState = some c ∧
      (∀ s, s ≠ .root → p.persistent s = false →
        ((m.info s).myBox.isSome = true ↔ (s = c ∨ s ∈ c.ancestors))) ∧
      (∀ (T' : StateId) (m1 m2 : MachineBase β ε) (history : Bool),
        m.myPendingState = some T' → m.exitPhase p = .ok m1 →
        m1.entryPhase p = .ok (m2, history) →
        (∀ x ∈ exitPath T' c, p.persistent x = false →
          (m.info x).myBox.isSome = true ∧ (m1.info x).myBox = none ∧
          ∃ l, m1.boxLog = m.boxLog ++ l ∧ BoxAction.deleted x ∈ l) ∧
        (∀ x ∈ entryPath c T' true, p.persistent x = false →
          (m1.info x).myBox = none ∧ (m2.info x).myBox.isSome = true ∧
          ((∃ l, m2.boxLog = m1.boxLog ++ l ∧ BoxAction.created x ∈ l) ∨
            (x = T' ∧ m1.myPendingBox.isSome = true)))) := by
  have hb := run_boxesMatch h
  obtain ⟨c, hc, hinv⟩ := hb
  refine ⟨c, hc, fun s hs hps => ?_, ?_⟩
  · rw [hinv s hs hps, isChild_iff_ancestors]
  · intro T' m1 m2 history hp h1 h2
    have e1 := exitPhase_spec hc hp h1
    constructor
    · intro x hx hpx
      obtain ⟨hxr, hcx, _⟩ := (mem_exitPath_iff T' c x).mp hx
      have hbx : (m.info x).myBox.isSome = true := by rw [hinv x hxr hpx, hcx]
      refine ⟨hbx, exitPhase_deleted hc hp h1 x hx hpx, ?_⟩
      obtain ⟨me, hme, hm1⟩ := exitPhase_ok hc hp h1
      obtain ⟨d1, d2, _, _, _, _, d7, _⟩ := setDummyEvent_walk m
      obtain ⟨l, hl, hd⟩ := exit_deletes p T' c _ _ hme x hx hpx (by rw [d7, hbx])
      exact ⟨l, by rw [hm1, (historyOnly_setHistorySuper p c c me).boxLog, hl, d2], hd⟩
    · intro x hx hpx
      have hn := entryPath_noBox ⟨c, hc, hinv⟩ hc hp h1 x hx hpx
      refine ⟨hn, entryPhase_present e1.current e1.pending h2 x hx, ?_⟩
      obtain ⟨mb, m3, he, hbl, _, hother, hnone, hsome, h2l, _, _, _⟩ :=
        entryPhase_boxLog e1.current e1.pending h2
      cases hpb : m1.myPendingBox with
      | none =>
        left
        obtain ⟨⟨l, hl, hcr⟩, _⟩ := entry_creates p c T' true mb m3 he x hx
          (by rw [hnone hpb, hn])
        exact ⟨l, by rw [h2l, hl, hbl], hcr⟩
      | some b =>
        by_cases hxT : x = T'
        · exact Or.inr ⟨hxT, rfl⟩
        · left
          obtain ⟨⟨l, hl, hcr⟩, _⟩ := entry_creates p c T' true mb m3 he x hx
            (by rw [hother x hxT, hn])
          exact ⟨l, by rw [h2l, hl, hbl], hcr⟩
/-- Witness for C16: the test's machine resting in `StateAB`: `StateA` and `StateAB` hold
a box, `StateAA` and `StateB` hold none. -/
theorem box_iff_active_witness :
    (∃ c, (Transitions.driven [Transitions.StateAB]).myCurrentState = some c ∧
      (∀ s, s ≠ .root → Transitions.prog.persistent s = false →
        (((Transitions.driven [Transitions.StateAB]).info s).myBox.isSome = true ↔
          (s = c ∨ s ∈ c.ancestors))) ∧
      (∀ (T' : StateId) (m1 m2 : MachineBase Nat Unit) (history : Bool),
        (Transitions.driven [Transitions.StateAB]).myPendingState = some T' →
        (Transitions.driven [Transitions.StateAB]).exitPhase Transitions.prog = .ok m1 →
        m1.entryPhase Transitions.prog = .ok (m2, history) →
        (∀ x ∈ exitPath T' c, Transitions.prog.persistent x = false →
          ((Transitions.driven [Transitions.StateAB]).info x).myBox.isSome = true ∧
          (m1.info x).myBox = none ∧
          ∃ l, m1.boxLog = (Transitions.driven [Transitions.StateAB]).boxLog ++ l ∧
            BoxAction.deleted x ∈ l) ∧
        (∀ x ∈ entryPath c T' true, Transitions.prog.persistent x = false →
          (m1.info x).myBox = none ∧ (m2.info x).myBox.isSome = true ∧
          ((∃ l, m2.boxLog = m1.boxLog ++ l ∧ BoxAction.created x ∈ l) ∨
            (x = T' ∧ m1.myPendingBox.isSome = true))))) ∧
    (Transitions.driven [Transitions.StateAB]).myCurrentState = some Transitions.StateAB ∧
    ((Transitions.driven [Transitions.StateAB]).info Transitions.StateA).myBox.isSome = true ∧
    ((Transitions.driven [Transitions.StateAB]).info Transitions.StateAB).myBox.isSome = true ∧
    ((Transitions.driven [Transitions.StateAB]).info Transitions.StateAA).myBox = none ∧
    ((Transitions.driven [Transitions.StateAB]).info Transitions.StateB).myBox = none :=
  ⟨box_iff_active Transitions.prog 8 Transitions.Top none
      (Transitions.visit [Transitions.StateAB]) (Transitions.driven [Transitions.StateAB])
      (by rfl),
    by decide, by decide, by decide, by decide, by decide⟩

/-! ## Every active state holds a box -/

theorem activeBoxes_transition {p : Program β ε} {m m' : MachineBase β ε}
    (hb : ActiveBoxes m) (h : m.transition p = .ok m') : ActiveBoxes m' := by
  obtain ⟨S, hc, hinv⟩ := hb
  obtain ⟨m1, m2, history, h1, h2, h3⟩ := transition_ok h
  obtain ⟨S', T, hc', hp⟩ := exitPhase_some h1
  have hSS : S' = S := by rw [hc] at hc'; exact (Option.some.inj hc').symm
  subst hSS
  have e1 := exitPhase_spec hc hp h1
  have e2 := entryPhase_spec e1.current e1.pending e1.eventSet h2
  have e3 := initPhase_spec e2.current h3
  refine ⟨T, e3.current, fun s hs hTs => ?_⟩
  rw [e3.boxes.hasBox s (by simp)]
  by_cases hin : s ∈ entryPath S' T true
  · exact entryPhase_present e1.current e1.pending h2 s hin
  · have hsT : s ≠ T := fun e =>
      hin ((mem_entryPath_iff S' T true s).mpr ⟨hs, hTs, Or.inl ⟨rfl, e⟩⟩)
    have hSs : isChild S' s = true := by
      cases hx : isChild S' s with
      | true => rfl
      | false => exact absurd ((mem_entryPath_iff S' T true s).mpr ⟨hs, hTs, Or.inr hx⟩) hin
    have hout : s ∉ exitPath T S' := by
      intro hm
      rcases ((mem_exitPath_iff T S' s).mp hm).2.2 with hq | hq
      · exact hsT hq
      · rw [hTs] at hq; cases hq
    have hsT' : s ∉ T :: entryPath S' T true := by
      intro hm
      rcases List.mem_cons.mp hm with hm | hm
      · exact hsT hm
      · exact hin hm
    rw [e2.boxes.hasBox s hsT', e1.boxes.hasBox s hout]
    exact hinv s hs hSs

theorem activeBoxes_quiet {m m' : MachineBase β ε} (hb : ActiveBoxes m) (hq : Quiet m m') :
    ActiveBoxes m' := by
  obtain ⟨c, hc, hinv⟩ := hb
  exact ⟨c, by rw [hq.current, hc], fun s hs hcs => by rw [hq.hasBox, hinv s hs hcs]⟩

/-- In a machine reached by a run, every active state, persistent or not, holds a box. -/
theorem run_activeBoxes {p : Program β ε} {fuel : Nat} {T : StateId} {box : Option β}
    {ops : List (Op β ε)} {m : MachineBase β ε} (h : Machine.run p fuel T box ops = .ok m) :
    ActiveBoxes m :=
  run_invariant ActiveBoxes (fun _ _ hi ht => activeBoxes_transition hi ht)
    (fun _ _ hi hq => activeBoxes_quiet hi hq)
    (fun ms hc _ _ _ => ⟨.root, hc, fun s hs hcs => by
      simp only [isChild, decide_eq_true_eq] at hcs
      exact absurd hcs.symm hs⟩) h

/-! ## Persistent boxes -/

theorem entryPhase_setBox_none {p : Program β ε} {m1 m2 : MachineBase β ε} {history : Bool}
    {S T : StateId} {b : β} (hc : m1.myCurrentState = some S)
    (hp : m1.myPendingState = some T) (hb : m1.myPendingBox = some b)
    (h : m1.entryPhase p = .ok (m2, history)) : (m1.info T).myBox = none := by
  obtain ⟨mb, m3, hs, _, _, _⟩ := entryPhase_ok hc hp h
  rw [hb] at hs
  simp only at hs
  unfold StateInfo.setBox at hs
  split at hs
  · cases hs
  · rename_i hn
    exact hn

/-- One transition keeps the box of a persistent state that holds one. -/
theorem transition_persistent {p : Program β ε} {P : StateId} (hP : p.persistent P = true)
    {m m' : MachineBase β ε} (hbox : (m.info P).myBox.isSome = true)
    (h : m.transition p = .ok m') :
    BoxKept P m m' ∧ (NoWrite p P → (m'.info P).myBox = (m.info P).myBox) := by
  obtain ⟨m1, m2, history, h1, h2, h3⟩ := transition_ok h
  obtain ⟨S, T, hc, hp⟩ := exitPhase_some h1
  have e1 := exitPhase_spec hc hp h1
  have e2 := entryPhase_spec e1.current e1.pending e1.eventSet h2
  have e3 := initPhase_spec e2.current h3
  obtain ⟨me, hme, hm1⟩ := exitPhase_ok hc hp h1
  obtain ⟨_, d2, _, _, _, _, d7, _⟩ := setDummyEvent_walk m
  obtain ⟨x1, x2⟩ := exit_keeps p P T S _ _ (Or.inl hP) hme
  have ho := historyOnly_setHistorySuper p S S me
  have a1 : BoxKept P m m1 := by
    rw [hm1]
    exact boxKept_trans (boxKept_trans (boxKept_ofEq d2 (by rw [d7])) x1)
      (boxKept_ofEq ho.boxLog (by rw [ho.box]))
  have c1 : NoWrite p P → (m1.info P).myBox = (m.info P).myBox := by
    intro hw
    rw [hm1, ho.box, x2 (fun x _ mm c hc' => hw x mm c (Or.inr (Or.inl hc'))), d7]
  obtain ⟨mb, m3, he, hbl, _, hother, hnone, _, h2l, _, h2i, _⟩ :=
    entryPhase_boxLog e1.current e1.pending h2
  have hb1 : (m1.info P).myBox.isSome = true := by rw [a1.hasBox, hbox]
  have hmb : mb.info P = m1.info P := by
    cases hpb : m1.myPendingBox with
    | none => exact hnone hpb P
    | some b =>
      have hTn := entryPhase_setBox_none e1.current e1.pending hpb h2
      refine hother P (fun e => ?_)
      rw [e, hTn] at hb1
      cases hb1
  obtain ⟨y1, y2⟩ := entry_keeps p P S T true mb m3 (Or.inl (by rw [hmb, hb1])) he
  have a2 : BoxKept P m1 m2 :=
    boxKept_trans (boxKept_trans (boxKept_ofEq hbl (by rw [hmb])) y1)
      (boxKept_ofEq h2l (by rw [h2i]))
  have c2 : NoWrite p P → (m2.info P).myBox = (m1.info P).myBox := by
    intro hw
    rw [h2i, y2 (fun x _ mm c hc' => hw x mm c (Or.inl hc')), hmb]
  have a3 : BoxKept P m2 m' := boxKept_ofBoxFrame p e3.boxes (by simp)
  refine ⟨boxKept_trans (boxKept_trans a1 a2) a3, fun hw => ?_⟩
  rw [e3.boxes.box P (by simp) hw, c2 hw, c1 hw]

theorem boxKept_quiet {k : StateId} {m m' : MachineBase β ε} (hq : Quiet m m') :
    BoxKept k m m' := boxKept_ofEq hq.boxLog (hq.hasBox k)

/-- However the machine is driven on, the box of a persistent state that holds one is
neither deleted nor created anew. -/
theorem applyAll_persistent {p : Program β ε} {P : StateId} (hP : p.persistent P = true)
    {fuel : Nat} {ops : List (Op β ε)} {m m' : MachineBase β ε}
    (hbox : (m.info P).myBox.isSome = true) (h : Machine.applyAll p fuel ops m = .ok m') :
    BoxKept P m m' :=
  applyAll_invariant (fun x => BoxKept P m x)
    (fun a b hi ht =>
      boxKept_trans hi (transition_persistent hP (by rw [hi.hasBox, hbox]) ht).1)
    (fun a b hi hq => boxKept_trans hi (boxKept_quiet hq)) fuel ops m m' (boxKept_refl P m) h

/-- C17: let `P` be marked `PERSISTENT()`.  Once `P` holds a box, as it does whenever it
is active in a machine reached by a run, no transition, whether it exits `P`, enters
`P` again or both, runs the destructor or the default constructor of the box of `P`;
`P` holds a box afterwards, with the same contents unless an entry, exit or init action
writes to it.  The same holds for the exit walk alone.  However the machine is driven
on, the box of `P` is never deleted and never created anew, so what was written to it
during one activation is there at the next. -/
theorem persistent_box_kept (p : Program β ε) (P : StateId) (hP : p.persistent P = true)
    (m : MachineBase β ε) :
    ((m.info P).myBox.isSome = true →
      (∀ m', m.transition p = .ok m' →
        (∃ l, m'.boxLog = m.boxLog ++ l ∧ BoxAction.created P ∉ l ∧
          BoxAction.deleted P ∉ l) ∧
        (m'.info P).myBox.isSome = true ∧
        (NoWrite p P → (m'.info P).myBox = (m.info P).myBox)) ∧
      (∀ (S T : StateId) (m1 : MachineBase β ε), m.myCurrentState = some S →
        m.myPendingState = some T → P ∈ exitPath T S → m.exitPhase p = .ok m1 →
        (∃ tr, m1.trace = m.trace ++ tr ∧ Action.exit P ∈ tr) ∧
        (∃ l, m1.boxLog = m.boxLog ++ l ∧ BoxAction.deleted P ∉ l) ∧
        (m1.info P).myBox.isSome = true ∧
        (NoWrite p P → (m1.info P).myBox = (m.info P).myBox)) ∧
      (∀ (fuel : Nat) (ops : List (Op β ε)) (m' : MachineBase β ε),
        Machine.applyAll p fuel ops m = .ok m' →
        (∃ l, m'.boxLog = m.boxLog ++ l ∧ BoxAction.created P ∉ l ∧
          BoxAction.deleted P ∉ l) ∧
        (m'.info P).myBox.isSome = true)) ∧
    (∀ (fuel : Nat) (T0 : StateId) (box0 : Option β) (ops : List (Op β ε)) (c : StateId),
      Machine.run p fuel T0 box0 ops = .ok m → m.myCurrentState = some c → P ≠ .root →
      (P = c ∨ P ∈ c.ancestors) → (m.info P).myBox.isSome = true) := by
  refine ⟨fun hbox => ⟨?_, ?_, ?_⟩, ?_⟩
  · intro m' h
    obtain ⟨k, c⟩ := transition_persistent hP hbox h
    exact ⟨k.boxLog, by rw [k.hasBox, hbox], c⟩
  · intro S T m1 hc hp hmem h1
    have e1 := exitPhase_spec hc hp h1
    obtain ⟨me, hme, hm1⟩ := exitPhase_ok hc hp h1
    obtain ⟨_, d2, _, _, _, _, d7, _⟩ := setDummyEvent_walk m
    obtain ⟨x1, x2⟩ := exit_keeps p P T S _ _ (Or.inl hP) hme
    have ho := historyOnly_setHistorySuper p S S me
    obtain ⟨l, hl, _, hd⟩ := x1.boxLog
    refine ⟨⟨_, e1.trace, List.mem_map.mpr ⟨P, hmem, rfl⟩⟩,
      ⟨l, by rw [hm1, ho.boxLog, hl, d2], hd⟩, ?_, fun hw => ?_⟩
    · rw [hm1, ho.box, x1.hasBox, d7, hbox]
    · rw [hm1, ho.box, x2 (fun x _ mm c hc' => hw x mm c (Or.inr (Or.inl hc'))), d7]
  · intro fuel ops m' h
    have k := applyAll_persistent hP hbox h
    exact ⟨k.boxLog, by rw [k.hasBox, hbox]⟩
  · intro fuel T0 box0 ops c hrun hc hPr hact
    obtain ⟨c', hc', hinv⟩ := run_activeBoxes hrun
    have hcc : c' = c := by rw [hc] at hc'; exact (Option.some.inj hc').symm
    subst hcc
    exact hinv P hPr ((isChild_iff_ancestors c' P).mpr hact)

theorem persist_noWrite : NoWrite Persist.prog Persist.P := by
  intro s m c h
  simp [Persist.prog] at h

/-- Witness for C17: in the input program with the persistent state `P`, the handler
`set` writes 7 to the box of `P`; the machine leaves `P` for `Q` and comes back: the box
of `P` holds 7 throughout, and its default constructor ran once, at the first entry. -/
theorem persistent_box_kept_witness :
    ((∃ l, Persist.left.boxLog = Persist.leaving.boxLog ++ l ∧
        BoxAction.created Persist.P ∉ l ∧ BoxAction.deleted Persist.P ∉ l) ∧
      (Persist.left.info Persist.P).myBox.isSome = true ∧
      (Persist.left.info Persist.P).myBox = (Persist.leaving.info Persist.P).myBox) ∧
    ((∃ l, Persist.returned.boxLog = Persist.returning.boxLog ++ l ∧
        BoxAction.created Persist.P ∉ l ∧ BoxAction.deleted Persist.P ∉ l) ∧
      (Persist.returned.info Persist.P).myBox.isSome = true ∧
      (Persist.returned.info Persist.P).myBox = (Persist.returning.info Persist.P).myBox) ∧
    (Persist.written.info Persist.P).myBox = some 7 ∧
    Persist.left.myCurrentState = some Persist.Q ∧
    (Persist.left.info Persist.P).myBox = some 7 ∧
    Persist.returned.myCurrentState = some Persist.P ∧
    (Persist.returned.info Persist.P).myBox = some 7 ∧
    Persist.returned.boxLog =
      [.created Persist.Top, .created Persist.P, .created Persist.Q, .deleted Persist.Q] ∧
    Persist.returned.trace =
      [.entry Persist.Top, .init Persist.Top, .entry Persist.P, .init Persist.P,
        .dispatch () Persist.P, .exit Persist.P, .entry Persist.Q, .init Persist.Q,
        .exit Persist.Q, .entry Persist.P, .init Persist.P] :=
  ⟨⟨(((persistent_box_kept Persist.prog Persist.P (by decide) Persist.leaving).1
        (by decide)).1 Persist.left (by rfl)).1,
      (((persistent_box_kept Persist.prog Persist.P (by decide) Persist.leaving).1
        (by decide)).1 Persist.left (by rfl)).2.1,
      (((persistent_box_kept Persist.prog Persist.P (by decide) Persist.leaving).1
        (by decide)).1 Persist.left (by rfl)).2.2 persist_noWrite⟩,
    ⟨(((persistent_box_kept Persist.prog Persist.P (by decide) Persist.returning).1
        (by decide)).1 Persist.returned (by rfl)).1,
      (((persistent_box_kept Persist.prog Persist.P (by decide) Persist.returning).1
        (by decide)).1 Persist.returned (by rfl)).2.1,
      (((persistent_box_kept Persist.prog Persist.P (by decide) Persist.returning).1
        (by decide)).1 Persist.returned (by rfl)).2.2 persist_noWrite⟩,
    by decide, by decide, by decide, by decide, by decide, by decide, by decide⟩

/-! ## Preinitialized boxes -/

/-- C18, as stated, fails for a persistent state among the other states entered: in
the input program with the persistent state `P`, `P` is first entered with the
preinitialized box 5 and later exited; the transition to its substate `T`, scheduled
with the box 9, enters `P` and `T`.  The box of `P` is then the one it kept, holding 5,
not a default-created one (which would hold 0); the default constructor of its box
never ran. -/
theorem persistent_ancestor_box_counterexample :
    Persist.prog.persistent Persist.T = false ∧
    Persist.prog.persistent Persist.P = true ∧
    Persist.preinstalled.myCurrentState = some Persist.Top ∧
    Persist.preinstalled.myPendingState = some Persist.T ∧
    Persist.preinstalled.myPendingBox = some 9 ∧
    Persist.preinstalled.transition Persist.prog = .ok Persist.reentered ∧
    Persist.reentered.trace = Persist.preinstalled.trace ++
      [.entry Persist.P, .entry Persist.T, .init Persist.T] ∧
    (Persist.reentered.info Persist.T).myBox = some 9 ∧
    (Persist.reentered.info Persist.P).myBox = some 5 ∧
    Persist.prog.newBox Persist.P = 0 ∧
    BoxAction.created Persist.P ∉ Persist.reentered.boxLog := by
  refine ⟨by decide, by decide, by decide, by decide, by decide, by rfl, by decide,
    by decide, by decide, by decide, by decide⟩

/-- C18, amended: a transition to a non-persistent state `T` is performed (no entry or
exit action requesting a transition itself), from a machine reached by a run.  When
it was scheduled with a preinitialized box `b`, `T` holds a box when its entry action
is invoked and after the transition, the default constructor of its box does not run,
and the box is `b` (in contents, as far as the entry actions run so far have not written
to it).  When it was scheduled without a box, `T` holds a freshly default-created
box when its entry action is invoked.  The boxes of the other non-persistent states
entered by the same transition are default-created. -/
theorem preinitialized_box (p : Program β ε) (hp : NoStateChange p) (fuel : Nat)
    (T0 : StateId) (box0 : Option β) (ops : List (Op β ε)) (m m1 m2 m' : MachineBase β ε)
    (history : Bool) (S super : StateId) (tag : Nat)
    (hrun : Machine.run p fuel T0 box0 ops = .ok m)
    (hc : m.myCurrentState = some S) (hpd : m.myPendingState = some (.sub super tag))
    (hpers : p.persistent (.sub super tag) = false)
    (h1 : m.exitPhase p = .ok m1) (h2 : m1.entryPhase p = .ok (m2, history))
    (h3 : m2.initPhase p history = .ok m') :
    (∃ ma mr : MachineBase β ε,
      ma.trace = m1.trace ++ (entryPath S (.sub super tag) true).map Action.entry ∧
      runCmds (p.entry (.sub super tag) ma) ma = .ok mr ∧
      m2 = { mr with myPendingState := none, myPendingBox := none,
                     myPendingHistory := false } ∧
      (∀ b, m.myPendingBox = some b →
        (ma.info (.sub super tag)).myBox.isSome = true ∧
        ((∀ x ∈ entryPath S super false, ∀ mm c, c ∈ p.entry x mm →
            c.writes (.sub super tag) = false) →
          (ma.info (.sub super tag)).myBox = some b) ∧
        (∃ l, m'.boxLog = m1.boxLog ++ l ∧ BoxAction.created (.sub super tag) ∉ l) ∧
        (m2.info (.sub super tag)).myBox.isSome = true ∧
        (m'.info (.sub super tag)).myBox.isSome = true ∧
        ((∀ x ∈ entryPath S (.sub super tag) true, ∀ mm c, c ∈ p.entry x mm →
            c.writes (.sub super tag) = false) →
          (m2.info (.sub super tag)).myBox = some b)) ∧
      (m.myPendingBox = none →
        (ma.info (.sub super tag)).myBox = some (p.newBox (.sub super tag)) ∧
        ∃ l, m2.boxLog = m1.boxLog ++ l ∧ BoxAction.created (.sub super tag) ∈ l)) ∧
    (∀ x ∈ entryPath S (.sub super tag) true, x ≠ .sub super tag →
      p.persistent x = false →
      (∃ l, m2.boxLog = m1.boxLog ++ l ∧ BoxAction.created x ∈ l) ∧
      ((∀ y ∈ entryPath S (.sub super tag) true, ∀ mm c, c ∈ p.entry y mm →
          c.writes x = false) →
        (m2.info x).myBox = some (p.newBox x))) := by
  have hb := run_boxesMatch hrun
  have e1 := exitPhase_spec hc hpd h1
  have e2 := entryPhase_spec e1.current e1.pending e1.eventSet h2
  have e3 := initPhase_spec e2.current h3
  have hpk := pendingKept_exitPhase hp h1
  obtain ⟨mb, m3, he, hbl, hbt, hother, hnone, hsome, h2l, h2t, h2i, hm2⟩ :=
    entryPhase_boxLog e1.current e1.pending h2
  have hnb := entryPath_noBox hb hc hpd h1
  have hTin : StateId.sub super tag ∈ entryPath S (.sub super tag) true :=
    (mem_entryPath_iff S _ true _).mpr ⟨by simp, isChild_refl _, Or.inl ⟨rfl, rfl⟩⟩
  have hTnot : StateId.sub super tag ∉ entryPath S super false := by
    intro hm
    have hh := ((mem_entryPath_iff S super false _).mp hm).2.1
    rw [not_isChild_super_sub] at hh
    cases hh
  have hpath : entryPath S (.sub super tag) true =
      entryPath S super false ++ [.sub super tag] := by
    rw [entryPath]; simp
  obtain ⟨me, mc, hwalk, hmc, hr⟩ :=
    @entry_ok β ε p S super tag true mb m3 (by simp) he
  have hwf := walkFrame_entry p S super false mb me hwalk
  have hinit : m'.boxLog = m2.boxLog := by
    obtain ⟨l, hl, hs⟩ := e3.boxes.boxLog
    cases l with
    | nil => simpa using hl
    | cons a l => exact absurd (hs a (List.mem_cons_self _ _)) (by simp)
  constructor
  · refine ⟨mc.log (.entry (.sub super tag)), m3, ?_, hr, hm2, ?_, ?_⟩
    · have hmct : mc.trace = me.trace := by
        rcases hmc with ⟨_, hmc⟩ | ⟨_, hmc⟩
        · rw [hmc]
          simp [StateInfo.createBox, MachineBase.logBox, MachineBase.setInfo]
        · rw [hmc]
      show mc.trace ++ [Action.entry (.sub super tag)] = _
      rw [hmct, hwf.trace, hbt, hpath, List.map_append, List.append_assoc]
      rfl
    · intro b hbx
      have hbx1 : m1.myPendingBox = some b := by rw [hpk.pendingBox, hbx]
      have hTb : (mb.info (.sub super tag)).myBox = some b := hsome b hbx1
      obtain ⟨k1, c1⟩ := entry_keeps p (.sub super tag) S super false mb me
        (Or.inl (by rw [hTb]; rfl)) hwalk
      have hme : (me.info (.sub super tag)).myBox.isSome = true := by
        rw [k1.hasBox, hTb]; rfl
      have hmceq : mc = me := by
        rcases hmc with ⟨hn, _⟩ | ⟨_, hmc⟩
        · rw [hn] at hme; cases hme
        · exact hmc
      obtain ⟨k2, c2⟩ := entry_keeps p (.sub super tag) S (.sub super tag) true mb m3
        (Or.inl (by rw [hTb]; rfl)) he
      obtain ⟨l, hl, hcr, _⟩ := k2.boxLog
      have hm2T : (m2.info (.sub super tag)).myBox.isSome = true := by
        rw [h2i, k2.hasBox, hTb]; rfl
      refine ⟨by rw [info_log, hmceq]; exact hme, fun hw => ?_,
        ⟨l, by rw [hinit, h2l, hl, hbl], hcr⟩, hm2T, ?_, fun hw => ?_⟩
      · rw [info_log, hmceq, c1 hw, hTb]
      · rw [e3.boxes.hasBox _ (by simp)]; exact hm2T
      · rw [h2i, c2 hw, hTb]
    · intro hnb'
      have hn1 : m1.myPendingBox = none := by rw [hpk.pendingBox, hnb']
      have hTn : (mb.info (.sub super tag)).myBox = none := by
        rw [hnone hn1, hnb _ hTin hpers]
      have hmeN : (me.info (.sub super tag)).myBox = none := by
        have := (boxFrame_entry p S super false mb me hwalk).hasBox _ hTnot
        rw [hTn] at this
        cases hx : (me.info (.sub super tag)).myBox with
        | none => rfl
        | some b => rw [hx] at this; cases this
      have hmceq : mc = StateInfo.createBox p (.sub super tag) me := by
        rcases hmc with ⟨_, hmc⟩ | ⟨hs, _⟩
        · exact hmc
        · rw [hmeN] at hs; cases hs
      refine ⟨?_, ?_⟩
      · rw [info_log, hmceq]
        simp [StateInfo.createBox, MachineBase.logBox, MachineBase.info,
          MachineBase.setInfo]
      · obtain ⟨⟨l, hl, hcr⟩, _⟩ := entry_creates p S (.sub super tag) true mb m3 he _ hTin hTn
        exact ⟨l, by rw [h2l, hl, hbl], hcr⟩
  · intro x hx hxT hpx
    have hxn : (mb.info x).myBox = none := by rw [hother x hxT, hnb x hx hpx]
    obtain ⟨⟨l, hl, hcr⟩, c⟩ := entry_creates p S (.sub super tag) true mb m3 he x hx hxn
    exact ⟨⟨l, by rw [h2l, hl, hbl], hcr⟩, fun hw => by rw [h2i, c hw]⟩
/-- Witness for the amended C18: the test's machine in `Top`, with
`StateCAA::setState(m, new StateCAA::Box(42))` scheduled: `StateC` and `StateCA` get
default-created boxes, `StateCAA` the box holding 42. -/
theorem preinitialized_box_witness :
    ((∃ ma mr : MachineBase Nat Unit,
      ma.trace = (Transitions.exited Transitions.boxScheduled).trace ++
        (entryPath Transitions.Top (.sub Transitions.StateCA 18) true).map Action.entry ∧
      runCmds (Transitions.prog.entry (.sub Transitions.StateCA 18) ma) ma = .ok mr ∧
      (Transitions.entered (Transitions.exited Transitions.boxScheduled)).1 =
        { mr with myPendingState := none, myPendingBox := none,
                  myPendingHistory := false } ∧
      (∀ b, Transitions.boxScheduled.myPendingBox = some b →
        (ma.info (.sub Transitions.StateCA 18)).myBox.isSome = true ∧
        ((∀ x ∈ entryPath Transitions.Top Transitions.StateCA false, ∀ mm c,
            c ∈ Transitions.prog.entry x mm → c.writes (.sub Transitions.StateCA 18) = false) →
          (ma.info (.sub Transitions.StateCA 18)).myBox = some b) ∧
        (∃ l, (Transitions.inited (Transitions.entered (Transitions.exited Transitions.boxScheduled)).1 true).boxLog = (Transitions.exited Transitions.boxScheduled).boxLog ++ l ∧
          BoxAction.created (.sub Transitions.StateCA 18) ∉ l) ∧
        ((Transitions.entered (Transitions.exited Transitions.boxScheduled)).1.info (.sub Transitions.StateCA 18)).myBox.isSome = true ∧
        ((Transitions.inited (Transitions.entered (Transitions.exited Transitions.boxScheduled)).1 true).info (.sub Transitions.StateCA 18)).myBox.isSome = true ∧
        ((∀ x ∈ entryPath Transitions.Top (.sub Transitions.StateCA 18) true, ∀ mm c,
            c ∈ Transitions.prog.entry x mm → c.writes (.sub Transitions.StateCA 18) = false) →
          ((Transitions.entered (Transitions.exited Transitions.boxScheduled)).1.info (.sub Transitions.StateCA 18)).myBox = some b)) ∧
      (Transitions.boxScheduled.myPendingBox = none →
        (ma.info (.sub Transitions.StateCA 18)).myBox = some (Transitions.prog.newBox (.sub Transitions.StateCA 18)) ∧
        ∃ l, (Transitions.entered (Transitions.exited Transitions.boxScheduled)).1.boxLog = (Transitions.exited Transitions.boxScheduled).boxLog ++ l ∧
          BoxAction.created (.sub Transitions.StateCA 18) ∈ l)) ∧
    (∀ x ∈ entryPath Transitions.Top (.sub Transitions.StateCA 18) true, x ≠ (.sub Transitions.StateCA 18) →
      Transitions.prog.persistent x = false →
      (∃ l, (Transitions.entered (Transitions.exited Transitions.boxScheduled)).1.boxLog = (Transitions.exited Transitions.boxScheduled).boxLog ++ l ∧ BoxAction.created x ∈ l) ∧
      ((∀ y ∈ entryPath Transitions.Top (.sub Transitions.StateCA 18) true, ∀ mm c,
          c ∈ Transitions.prog.entry y mm → c.writes x = false) →
        ((Transitions.entered (Transitions.exited Transitions.boxScheduled)).1.info x).myBox = some (Transitions.prog.newBox x)))) ∧
    Transitions.boxScheduled.myPendingBox = some 42 ∧
    ((Transitions.inited (Transitions.entered (Transitions.exited Transitions.boxScheduled)).1 true).info Transitions.StateCAA).myBox = some 42 ∧
    ((Transitions.inited (Transitions.entered (Transitions.exited Transitions.boxScheduled)).1 true).info Transitions.StateCA).myBox = some 0 ∧
    (Transitions.inited (Transitions.entered (Transitions.exited Transitions.boxScheduled)).1 true).boxLog = [.created Transitions.Top, .created Transitions.StateC,
      .created Transitions.StateCA] ∧
    (Transitions.inited (Transitions.entered (Transitions.exited Transitions.boxScheduled)).1 true).myCurrentState = some Transitions.StateCAA :=
  ⟨preinitialized_box Transitions.prog transitions_noStateChange 8 Transitions.Top none
      [.call (.setState Transitions.StateCAA (some 42))]
      Transitions.boxScheduled (Transitions.exited Transitions.boxScheduled)
      (Transitions.entered (Transitions.exited Transitions.boxScheduled)).1
      (Transitions.inited (Transitions.entered (Transitions.exited Transitions.boxScheduled)).1 true)
      true Transitions.Top Transitions.StateCA 18
      (by rfl) (by decide) (by decide) (by decide) (by rfl) (by rfl) (by rfl),
    by decide, by decide, by decide, by decide, by decide⟩


/-! ## The assertion "Init may only transition to proper substates" -/

/-- The assertion after `myCurrentState->init(history)`: with `X` pending and `T`
current it holds exactly if `X` is a proper substate of `T`. -/
theorem initPhase_assert {p : Program β ε} {history : Bool} {m mi : MachineBase β ε}
    {T X : StateId} (hc : m.myCurrentState = some T)
    (hi : StateInfo.init p T history m = .ok mi) (hcur : mi.myCurrentState = some T)
    (hX : mi.myPendingState = some X) :
    m.initPhase p history =
      if ProperAncestor T X then .ok mi.clearDummyEvent else .error .initTarget := by
  unfold MachineBase.initPhase
  rw [hc]
  simp only [hi, Except.bind, hX, hcur]
  by_cases hpa : ProperAncestor T X
  · rw [if_pos hpa, if_pos]
    simp only [Bool.and_eq_true, decide_eq_true_eq]
    exact hpa
  · rw [if_neg hpa, if_neg]
    simp only [Bool.and_eq_true, decide_eq_true_eq]
    exact hpa

theorem init_current {p : Program β ε} {history : Bool} {m mi : MachineBase β ε}
    {T : StateId} (hi : StateInfo.init p T history m = .ok mi) :
    mi.myCurrentState = m.myCurrentState := by
  rcases init_ok hi with ⟨k, mp, _, _, hs, rfl⟩ | ⟨mu, _, hr, rfl⟩
  · rw [(cmdFrame_setHistory_none T mp).current, (cmdFrame_setPendingState hs).current]
    rfl
  · rw [(cmdFrame_setHistory_none T mu).current, (cmdFrame_runCmds hr).current]
    rfl

theorem entryPhase_pending_none {p : Program β ε} {m1 m2 : MachineBase β ε} {history : Bool}
    (h : m1.entryPhase p = .ok (m2, history)) : m2.myPendingState = none := by
  cases hcur : m1.myCurrentState with
  | none => simp [MachineBase.entryPhase, hcur] at h
  | some previous =>
    cases hpend : m1.myPendingState with
    | none => simp [MachineBase.entryPhase, hcur, hpend] at h
    | some pending =>
      obtain ⟨mb, m3, _, _, h3, _⟩ := entryPhase_ok hcur hpend h
      rw [h3]

/-- C26: when `_StateInfo::init` on the state `T` just entered leaves a transition to
`X` scheduled, the assertion "Init may only transition to proper substates" of
`rattleOn` fails unless `X` is a proper substate of `T` (so it fails for `T` itself,
for a superstate of `T`, and for a state outside the subtree of `T`).  When `X` is a
proper substate of `T` the assertion holds, the loop `while (myPendingState)` goes
round again, and that next transition enters the states from below `T` down to `X` and
calls init on `X`. -/
theorem init_target_assertion (p : Program β ε) (m0 m1 m2 mi : MachineBase β ε)
    (history : Bool) (T X : StateId)
    (h1 : m0.exitPhase p = .ok m1) (h2 : m1.entryPhase p = .ok (m2, history))
    (hc : m2.myCurrentState = some T)
    (hi : StateInfo.init p T history m2 = .ok mi) (hX : mi.myPendingState = some X) :
    m2.myPendingState = none ∧
    (¬ ProperAncestor T X → m0.transition p = .error .initTarget) ∧
    (T = X → m0.transition p = .error .initTarget) ∧
    (isChild T X = true → m0.transition p = .error .initTarget) ∧
    (isChild X T = false → m0.transition p = .error .initTarget) ∧
    (ProperAncestor T X →
      m0.transition p = .ok mi.clearDummyEvent ∧
      mi.clearDummyEvent.myCurrentState = some T ∧
      mi.clearDummyEvent.myPendingState = some X ∧
      (∀ n, mi.clearDummyEvent.transitionLoop p (n + 1) =
        (mi.clearDummyEvent.transition p).bind (MachineBase.transitionLoop p n)) ∧
      ∀ m', mi.clearDummyEvent.transition p = .ok m' →
        m'.myCurrentState = some X ∧
        ∃ a : Action ε, a.IsInitOf X ∧
          m'.trace = mi.trace ++ (pathDown T X).map Action.entry ++ [a]) := by
  have hcur : mi.myCurrentState = some T := by rw [init_current hi, hc]
  have ht : m0.transition p =
      if ProperAncestor T X then .ok mi.clearDummyEvent else .error .initTarget := by
    unfold MachineBase.transition
    rw [h1]
    simp only [Except.bind, h2]
    exact initPhase_assert hc hi hcur hX
  have hbad : ¬ ProperAncestor T X → m0.transition p = .error .initTarget := by
    intro hn
    rw [ht, if_neg hn]
  refine ⟨entryPhase_pending_none h2, hbad, ?_, ?_, ?_, ?_⟩
  · intro he
    exact hbad (fun hpa => hpa.2 he)
  · intro hch
    refine hbad (fun hpa => ?_)
    have := properAncestor_not_isChild hpa
    rw [hch] at this
    cases this
  · intro hch
    refine hbad (fun hpa => ?_)
    rw [hpa.1] at hch
    cases hch
  · intro hpa
    have hcc : mi.clearDummyEvent.myCurrentState = some T := by
      unfold MachineBase.clearDummyEvent; split <;> exact hcur
    have hpp : mi.clearDummyEvent.myPendingState = some X := by
      unfold MachineBase.clearDummyEvent; split <;> exact hX
    have htrc : mi.clearDummyEvent.trace = mi.trace := by
      unfold MachineBase.clearDummyEvent; split <;> rfl
    refine ⟨by rw [ht, if_pos hpa], hcc, hpp, ?_, ?_⟩
    · intro n
      simp only [MachineBase.transitionLoop, hpp]
    · intro m' hm'
      have hd := transition_to_descendant p _ m' T X hcc hpp hpa hm'
      obtain ⟨a, ha, htr⟩ := hd.1
      exact ⟨hd.2.2.2, a, ha, by rw [htr, htrc]⟩

/-- Witness for C26.  In the test, `StateC::init` goes to `StateCA`, a proper substate:
the assertion holds and the transition is taken.  In the input program `Faulty`, the
init of `A` goes to the sibling `B`, the init of `B` to `B` itself and the init of `C`
to its superstate `Top`: the assertion fails each time. -/
theorem init_target_assertion_witness :
    ((Transitions.scheduled [] Transitions.StateC).transition Transitions.prog =
        .ok Transitions.initedC.clearDummyEvent ∧
      Transitions.initedC.clearDummyEvent.myPendingState = some Transitions.StateCA) ∧
    (Faulty.toward Faulty.A).transition Faulty.prog = .error .initTarget ∧
    (Faulty.toward Faulty.B).transition Faulty.prog = .error .initTarget ∧
    (Faulty.toward Faulty.C).transition Faulty.prog = .error .initTarget :=
  ⟨⟨((init_target_assertion Transitions.prog (Transitions.scheduled [] Transitions.StateC)
        (Transitions.exited (Transitions.scheduled [] Transitions.StateC))
        (Transitions.entered (Transitions.exited
          (Transitions.scheduled [] Transitions.StateC))).1
        Transitions.initedC
        (Transitions.entered (Transitions.exited
          (Transitions.scheduled [] Transitions.StateC))).2
        Transitions.StateC Transitions.StateCA
        (by rfl) (by rfl) (by rfl) (by rfl) (by rfl)).2.2.2.2.2 (by decide)).1,
      by rfl⟩,
    (init_target_assertion Faulty.prog (Faulty.toward Faulty.A) (Faulty.exited Faulty.A)
      (Faulty.entered Faulty.A).1 (Faulty.inited Faulty.A) (Faulty.entered Faulty.A).2
      Faulty.A Faulty.B (by rfl) (by rfl) (by rfl) (by rfl) (by rfl)).2.2.2.2.1 (by decide),
    (init_target_assertion Faulty.prog (Faulty.toward Faulty.B) (Faulty.exited Faulty.B)
      (Faulty.entered Faulty.B).1 (Faulty.inited Faulty.B) (Faulty.entered Faulty.B).2
      Faulty.B Faulty.B (by rfl) (by rfl) (by rfl) (by rfl) (by rfl)).2.2.1 rfl,
    (init_target_assertion Faulty.prog (Faulty.toward Faulty.C) (Faulty.exited Faulty.C)
      (Faulty.entered Faulty.C).1 (Faulty.inited Faulty.C) (Faulty.entered Faulty.C).2
      Faulty.C Faulty.Top (by rfl) (by rfl) (by rfl) (by rfl) (by rfl)).2.2.2.1 (by decide)⟩

/-! ## The assertion "There is already a state transition pending!" -/

/-- A library call that requests a transition to `t` leaves `t` pending, or fails the
assertion of `setPendingState` when another state is pending. -/
theorem run_target {c : Cmd β ε} {t : StateId} (ht : c.target = some t)
    (m : MachineBase β ε) :
    (∀ T, m.myPendingState = some T → T ≠ t → c.run m = .error .pendingState) ∧
    (m.myPendingState = none ∨ m.myPendingState = some t →
      ∃ m', c.run m = .ok m' ∧ m'.myPendingState = some t) := by
  have key : ∀ (history : Bool) (box : Option β),
      (∀ T, m.myPendingState = some T → T ≠ t →
        (Link._getInfo t m).setPendingState t history box = .error .pendingState) ∧
      (m.myPendingState = none ∨ m.myPendingState = some t →
        ∃ m', (Link._getInfo t m).setPendingState t history box = .ok m' ∧
          m'.myPendingState = some t) := by
    intro history box
    have hp : (Link._getInfo t m).myPendingState = m.myPendingState :=
      (getInfo_fields t m).2.2.2.1
    constructor
    · intro T hT hne
      unfold MachineBase.setPendingState
      rw [hp, hT, if_neg]
      intro h
      rcases h with h | h
      · cases h
      · exact hne (Option.some.inj h)
    · intro h
      unfold MachineBase.setPendingState
      rw [hp, if_pos h]
      exact ⟨_, rfl, rfl⟩
  cases c with
  | setState s box =>
    simp only [Cmd.target, Option.some.injEq] at ht
    subst ht
    exact key true box
  | setStateDirect s box =>
    simp only [Cmd.target, Option.some.injEq] at ht
    subst ht
    exact key false box
  | setStateAlias state =>
    simp only [Cmd.target, Option.some.injEq] at ht
    subst ht
    obtain ⟨k1, k2⟩ := key true state.myBox
    constructor
    · intro T hT hne
      simp only [Cmd.run, Link.setStateAlias, StateAlias.getInfo, StateAlias.takeBox,
        k1 T hT hne]
      rfl
    · intro h
      obtain ⟨m', hm', hp'⟩ := k2 h
      refine ⟨m', ?_, hp'⟩
      simp only [Cmd.run, Link.setStateAlias, StateAlias.getInfo, StateAlias.takeBox, hm']
      rfl
  | dispatch e => cases ht
  | clearHistory s => cases ht
  | clearHistoryDeep s => cases ht
  | modifyBox s f => cases ht

/-- After the library calls of an action have run, every transition target they named is
the pending state: the calls of one action agree on one target. -/
theorem runCmds_targets : ∀ (cs : List (Cmd β ε)) (m m' : MachineBase β ε),
    runCmds cs m = .ok m' →
    ∀ c ∈ cs, ∀ t, c.target = some t → m'.myPendingState = some t := by
  intro cs
  induction cs with
  | nil => intro m m' _ c hc; cases hc
  | cons c0 cs ih =>
    intro m m' h c hc t ht
    simp only [runCmds] at h
    cases h1 : c0.run m with
    | error e => rw [h1] at h; cases h
    | ok m1 =>
      rw [h1] at h
      rcases List.mem_cons.mp hc with rfl | hmem
      · have hp1 : m1.myPendingState = some t := by
          cases hm : m.myPendingState with
          | none =>
            obtain ⟨m'', hr, hp⟩ := (run_target ht m).2 (Or.inl hm)
            rw [h1] at hr
            cases hr
            exact hp
          | some T =>
            by_cases hT : T = t
            · subst hT
              exact (cmdFrame_run h1).pending T hm
            · have := (run_target ht m).1 T hm hT
              rw [h1] at this
              cases this
        exact (cmdFrame_runCmds h).pending t hp1
      · exact ih m1 m' h c hmem t ht

/-- An action that runs while `T` is pending and names another target is rejected. -/
theorem runCmds_other_target {cs : List (Cmd β ε)} {m : MachineBase β ε} {T t : StateId}
    (hT : m.myPendingState = some T) {c : Cmd β ε} (hc : c ∈ cs) (ht : c.target = some t)
    (hne : t ≠ T) : ∀ m', runCmds cs m ≠ .ok m' := by
  intro m' h
  have h1 := runCmds_targets cs m m' h c hc t ht
  have h2 := (cmdFrame_runCmds h).pending T hT
  rw [h1] at h2
  exact hne (Option.some.inj h2)

/-! ## The machine an action is called on -/

/-- Every exit action that the exit walk invokes runs (successfully, when the walk
succeeds) on a machine that the walk has reached by earlier actions. -/
theorem exit_calls (p : Program β ε) (next : StateId) :
    ∀ (s : StateId) (m m' : MachineBase β ε), StateInfo.exit p next s m = .ok m' →
      ∀ x ∈ exitPath next s, ∃ acts mx mx', WalkFrame acts m mx ∧
        runCmds (p.exit x mx) mx = .ok mx' := by
  intro s
  induction s with
  | root => intro m m' _ x hx; simp [exitPath] at hx
  | sub super tag ih =>
    intro m m' h x hx
    simp only [StateInfo.exit] at h
    simp only [exitPath] at hx
    split at h
    · rename_i hc
      rw [if_pos hc] at hx
      cases h1 : runCmds (p.exit (.sub super tag) (m.log (.exit (.sub super tag))))
          (m.log (.exit (.sub super tag))) with
      | error e => rw [h1] at h; cases h
      | ok m2 =>
        rw [h1] at h
        have f1 := walkFrame_log m (.exit (.sub super tag))
        rcases List.mem_cons.mp hx with rfl | hmem
        · exact ⟨_, _, m2, f1, h1⟩
        · have f2 := cmdFrame_walk (cmdFrame_runCmds h1)
          have f3 := walkFrame_virtualDeleteBox p (.sub super tag) m2
          obtain ⟨acts, mx, mx', f4, hr⟩ := ih _ _ h x hmem
          exact ⟨_, mx, mx',
            walkFrame_trans (walkFrame_trans (walkFrame_trans f1 f2) f3) f4, hr⟩
    · rename_i hc
      rw [if_neg hc] at hx
      cases hx

/-- Every entry action that the entry walk invokes runs on a machine that the walk has
reached by earlier actions. -/
theorem entry_calls (p : Program β ε) (previous : StateId) :
    ∀ (s : StateId) (first : Bool) (m m' : MachineBase β ε),
      StateInfo.entry p previous s first m = .ok m' →
      ∀ x ∈ entryPath previous s first, ∃ acts mx mx', WalkFrame acts m mx ∧
        runCmds (p.entry x mx) mx = .ok mx' := by
  intro s
  induction s with
  | root => intro first m m' _ x hx; simp [entryPath] at hx
  | sub super tag ih =>
    intro first m m' h x hx
    simp only [StateInfo.entry] at h
    simp only [entryPath] at hx
    split at h
    · rename_i hc
      rw [if_pos hc] at hx
      cases h1 : StateInfo.entry p previous super false m with
      | error e => rw [h1] at h; cases h
      | ok m1 =>
        rw [h1] at h
        simp only [Except.bind] at h
        rcases List.mem_append.mp hx with hmem | hlast
        · exact ih _ _ _ h1 x hmem
        · have hxs : x = .sub super tag := List.mem_singleton.mp hlast
          subst hxs
          have f1 := walkFrame_entry p previous _ _ _ _ h1
          have f2 : WalkFrame [] m1
              (match (m1.info (.sub super tag)).myBox with
                | none => StateInfo.createBox p (.sub super tag) m1
                | some _ => m1) := by
            split
            · exact walkFrame_createBox p _ m1
            · exact walkFrame_refl m1
          have f3 := walkFrame_log
            (match (m1.info (.sub super tag)).myBox with
                | none => StateInfo.createBox p (.sub super tag) m1
                | some _ => m1) (.entry (.sub super tag))
          exact ⟨_, _, m', walkFrame_trans (walkFrame_trans f1 f2) f3, h⟩
    · rename_i hc
      rw [if_neg hc] at hx
      cases hx

/-- The machines on which the actions of one transition from `S` to `T` are called:
each exit and entry action runs with `T` pending and the event slot occupied; the
user's init runs with no transition pending and the event slot occupied.  The slot holds
what it held after the dummy was installed at the start of the transition. -/
theorem transition_calls {p : Program β ε} {m m' : MachineBase β ε} {S T : StateId}
    (hc : m.myCurrentState = some S) (hp : m.myPendingState = some T)
    (h : m.transition p = .ok m') :
    (∀ x ∈ exitPath T S, ∃ mx mx', mx.myPendingState = some T ∧
      (mx.myPendingEvent ≠ .null ∧ mx.myPendingEvent = m.setDummyEvent.myPendingEvent) ∧
      runCmds (p.exit x mx) mx = .ok mx') ∧
    (∀ x ∈ entryPath S T true, ∃ mx mx', mx.myPendingState = some T ∧
      (mx.myPendingEvent ≠ .null ∧ mx.myPendingEvent = m.setDummyEvent.myPendingEvent) ∧
      runCmds (p.entry x mx) mx = .ok mx') ∧
    ((∃ k, Action.history T k ∈ m'.trace.drop m.trace.length) ∨
      ∃ mx mx', mx.myPendingState = none ∧
        (mx.myPendingEvent ≠ .null ∧ mx.myPendingEvent = m.setDummyEvent.myPendingEvent) ∧
        runCmds (StateBase.init p T mx) mx = .ok mx') := by
  obtain ⟨m1, m2, history, h1, h2, h3⟩ := transition_ok h
  obtain ⟨me, he, hm1⟩ := exitPhase_ok hc hp h1
  have e1 := exitPhase_spec hc hp h1
  obtain ⟨_, _, _, d4, _, _, _, d8, _⟩ := setDummyEvent_walk m
  obtain ⟨mb, m3, hb, hen, hm2, _⟩ := entryPhase_ok e1.current e1.pending h2
  have e2 := entryPhase_spec e1.current e1.pending e1.eventSet h2
  have hev1 : m1.myPendingEvent = m.setDummyEvent.myPendingEvent := by
    rw [hm1, (historyOnly_setHistorySuper p S S me).event]
    exact (walkFrame_exit p T S _ _ he).event d8
  have hbp : mb.myPendingState = some T ∧ mb.myPendingEvent = m1.myPendingEvent := by
    cases hpb : m1.myPendingBox with
    | none =>
      rw [hpb] at hb
      cases hb
      exact ⟨e1.pending, rfl⟩
    | some box =>
      rw [hpb] at hb
      simp only at hb
      unfold StateInfo.setBox at hb
      split at hb
      · cases hb
      · cases hb
        exact ⟨e1.pending, rfl⟩
  have hbn : mb.myPendingEvent ≠ .null := by rw [hbp.2]; exact e1.eventSet
  refine ⟨?_, ?_, ?_⟩
  · intro x hx
    obtain ⟨acts, mx, mx', f, hr⟩ := exit_calls p T S _ _ he x hx
    refine ⟨mx, mx', f.pending T (by rw [d4]; exact hp), ⟨?_, f.event d8⟩, hr⟩
    rw [f.event d8]
    exact d8
  · intro x hx
    obtain ⟨acts, mx, mx', f, hr⟩ := entry_calls p S T true _ _ hen x hx
    refine ⟨mx, mx', f.pending T hbp.1, ⟨?_, ?_⟩, hr⟩
    · rw [f.event hbn]
      exact hbn
    · rw [f.event hbn, hbp.2, hev1]
  · obtain ⟨mi, hi, _, hm'⟩ := initPhase_ok e2.current h3
    have hev : m2.myPendingEvent ≠ .null := by rw [e2.event]; exact e1.eventSet
    rcases init_ok hi with ⟨k, mp, hh, hk, hs, rfl⟩ | ⟨mu, _, hr, rfl⟩
    · left
      refine ⟨k, ?_⟩
      have e3 := initPhase_spec e2.current h3
      have htr : m'.trace = m.trace ++ ((exitPath T S).map Action.exit ++
          (entryPath S T true).map Action.entry ++ [Action.history T k]) := by
        rw [e3.trace, e2.trace, e1.trace, hh, hk]
        simp [initAction]
      rw [htr, List.drop_left]
      simp
    · right
      exact ⟨m2.log (.init T), mu, e2.pending, ⟨hev, by rw [← hev1, ← e2.event]; rfl⟩, hr⟩

/-- C27, as stated, fails: `setPendingState` accepts a request that names the state
already pending.  In the test's machine `StateB::setState(m)` can be called twice before
`rattleOn`.  In the input program `Faulty`, the handler `again` of `D` requests `E` twice,
the second time with a box and without history: both requests are accepted and the
second one replaces box and history flag; the entry action of `G` requests `G` while
`rattleOn` performs the transition to `G`, and the transition succeeds. -/
theorem pending_target_again_counterexample :
    (Transitions.scheduled [] Transitions.StateB).myPendingState =
      some Transitions.StateB ∧
    (Transitions.scheduled [] Transitions.StateB).setPendingState Transitions.StateB
        false (some 7) =
      .ok { Transitions.scheduled [] Transitions.StateB with
        myPendingState := some Transitions.StateB
        myPendingBox := some 7
        myPendingHistory := false } ∧
    (Faulty.prog.handler .again Faulty.DA Faulty.inD =
        [.setState Faulty.E none, .setStateDirect Faulty.E (some 5)] ∧
      Faulty.inD.dispatchEvent Faulty.prog .again = .ok (Faulty.handled .again) ∧
      (Faulty.handled .again).myPendingState = some Faulty.E ∧
      (Faulty.handled .again).myPendingBox = some 5 ∧
      (Faulty.handled .again).myPendingHistory = false) ∧
    (Faulty.prog.entry Faulty.G (Faulty.toward Faulty.G) = [.setState Faulty.G none] ∧
      (Faulty.toward Faulty.G).myPendingState = some Faulty.G ∧
      ∃ m', (Faulty.toward Faulty.G).transition Faulty.prog = .ok m' ∧
        m'.myCurrentState = some Faulty.G ∧ m'.trace = [.entry Faulty.Top, .init Faulty.Top,
          .entry Faulty.G, .init Faulty.G]) :=
  ⟨by rfl, by rfl, ⟨by rfl, by rfl, by rfl, by rfl, by rfl⟩, by rfl, by rfl,
    okOr ((Faulty.toward Faulty.G).transition Faulty.prog) {}, by rfl, by rfl, by rfl⟩

/-- During a transition from `S` to `T` every exit and entry action runs with `T`
pending, and the requests it gets accepted name `T`. -/
theorem transition_targets {p : Program β ε} {m m' : MachineBase β ε} {S T : StateId}
    (hc : m.myCurrentState = some S) (hp : m.myPendingState = some T)
    (h : m.transition p = .ok m') :
    (∀ x ∈ exitPath T S, ∃ mx, mx.myPendingState = some T ∧
      ∀ c ∈ p.exit x mx, ∀ t, c.target = some t → t = T) ∧
    (∀ x ∈ entryPath S T true, ∃ mx, mx.myPendingState = some T ∧
      ∀ c ∈ p.entry x mx, ∀ t, c.target = some t → t = T) := by
  obtain ⟨hex, hen, _⟩ := transition_calls hc hp h
  constructor
  · intro x hx
    obtain ⟨mx, mx', hpx, _, hr⟩ := hex x hx
    refine ⟨mx, hpx, fun c hcm t ht => ?_⟩
    have h1 := runCmds_targets _ _ _ hr c hcm t ht
    have h2 := (cmdFrame_runCmds hr).pending T hpx
    rw [h1] at h2
    exact Option.some.inj h2
  · intro x hx
    obtain ⟨mx, mx', hpx, _, hr⟩ := hen x hx
    refine ⟨mx, hpx, fun c hcm t ht => ?_⟩
    have h1 := runCmds_targets _ _ _ hr c hcm t ht
    have h2 := (cmdFrame_runCmds hr).pending T hpx
    rw [h1] at h2
    exact Option.some.inj h2

/-- An exit or entry action on the way from `S` to `T` that always requests a transition
to a state other than `T` makes the transition fail. -/
theorem transition_rejects_request {p : Program β ε} {m : MachineBase β ε} {S T : StateId}
    (hc : m.myCurrentState = some S) (hp : m.myPendingState = some T)
    {x t : StateId} {c : Cmd β ε} (ht : c.target = some t) (hne : t ≠ T)
    (hx : (x ∈ exitPath T S ∧ ∀ mm, c ∈ p.exit x mm) ∨
      (x ∈ entryPath S T true ∧ ∀ mm, c ∈ p.entry x mm)) :
    ∀ m', m.transition p ≠ .ok m' := by
  intro m' h
  obtain ⟨hex, hen⟩ := transition_targets hc hp h
  rcases hx with ⟨hx, hall⟩ | ⟨hx, hall⟩
  · obtain ⟨mx, _, hq⟩ := hex x hx
    exact hne (hq c (hall mx) t ht)
  · obtain ⟨mx, _, hq⟩ := hen x hx
    exact hne (hq c (hall mx) t ht)

/-- C27, amended: `setPendingState` fails its assertion exactly when a transition to
another state is pending; a request for the state already pending is accepted and
replaces the pending box and history flag.  So a library call that requests a
transition to a state other than the pending one fails the assertion; the requests
that a handler gets accepted all name one state, the one pending when the handler
returns; during a transition from `S` to `T` every exit and entry action runs with `T`
pending, so that the requests it gets accepted name `T`; and an exit or entry action
that requests another state makes the transition fail. -/
theorem pending_state_assertion (p : Program β ε) (m m' : MachineBase β ε) (S T : StateId)
    (hc : m.myCurrentState = some S) (hp : m.myPendingState = some T)
    (h : m.transition p = .ok m') :
    (∀ (mm : MachineBase β ε) (info : StateId) (history : Bool) (box : Option β),
      (∀ P, mm.myPendingState = some P → P ≠ info →
        mm.setPendingState info history box = .error .pendingState) ∧
      (mm.myPendingState = none ∨ mm.myPendingState = some info →
        mm.setPendingState info history box =
          .ok { mm with
            myPendingState := some info
            myPendingBox := box
            myPendingHistory := history })) ∧
    (∀ (c : Cmd β ε) (t P : StateId) (mm : MachineBase β ε), c.target = some t →
      mm.myPendingState = some P → P ≠ t → c.run mm = .error .pendingState) ∧
    (∀ (e : ε) (mh mh' : MachineBase β ε), mh.dispatchEvent p e = .ok mh' →
      ∃ s, mh.myCurrentState = some s ∧
        ∀ c ∈ p.handler e s (mh.log (.dispatch e s)), ∀ t, c.target = some t →
          mh'.myPendingState = some t) ∧
    (∀ x ∈ exitPath T S, ∃ mx, mx.myPendingState = some T ∧
      ∀ c ∈ p.exit x mx, ∀ t, c.target = some t → t = T) ∧
    (∀ x ∈ entryPath S T true, ∃ mx, mx.myPendingState = some T ∧
      ∀ c ∈ p.entry x mx, ∀ t, c.target = some t → t = T) ∧
    (∀ (mf : MachineBase β ε) (S' T' x t : StateId) (c : Cmd β ε),
      mf.myCurrentState = some S' → mf.myPendingState = some T' →
      c.target = some t → t ≠ T' →
      (x ∈ exitPath T' S' ∧ ∀ mm, c ∈ p.exit x mm) ∨
        (x ∈ entryPath S' T' true ∧ ∀ mm, c ∈ p.entry x mm) →
      ∀ mf', mf.transition p ≠ .ok mf') := by
  obtain ⟨hex, hen⟩ := transition_targets hc hp h
  refine ⟨?_, ?_, ?_, hex, hen, ?_⟩
  · intro mm info history box
    constructor
    · intro P hP hne
      unfold MachineBase.setPendingState
      rw [hP, if_neg]
      intro hh
      rcases hh with hh | hh
      · cases hh
      · exact hne (Option.some.inj hh)
    · intro hh
      unfold MachineBase.setPendingState
      rw [if_pos hh]
  · intro c t P mm ht hP hne
    exact (run_target ht mm).1 P hP hne
  · intro e mh mh' hd
    obtain ⟨s, hs, _, hr⟩ := dispatchEvent_ok hd
    exact ⟨s, hs, fun c hcm t ht => runCmds_targets _ _ _ hr c hcm t ht⟩
  · intro mf S' T' x t c hc' hp' ht hne hx mf'
    exact transition_rejects_request hc' hp' ht hne hx mf'

/-- Witness for C27: the test's "Sibling -> Sibling" transition from `StateA` to
`StateB`.  In the input program `Faulty`, the handler `twice` of `D` requests `A` and
then `D`, the exit action of `E` requests `A` while the transition to `B` is performed,
and the entry action of `F` requests `A` while the transition to `F` is performed: each
fails the assertion. -/
theorem pending_state_assertion_witness :
    ((∀ x ∈ exitPath Transitions.StateB Transitions.StateA, ∃ mx : MachineBase Nat Unit,
        mx.myPendingState = some Transitions.StateB ∧
        ∀ c ∈ Transitions.prog.exit x mx, ∀ t, c.target = some t → t = Transitions.StateB) ∧
      (∀ x ∈ entryPath Transitions.StateA Transitions.StateB true,
        ∃ mx : MachineBase Nat Unit, mx.myPendingState = some Transitions.StateB ∧
        ∀ c ∈ Transitions.prog.entry x mx, ∀ t, c.target = some t →
          t = Transitions.StateB)) ∧
    Faulty.inD.dispatchEvent Faulty.prog .twice = .error .pendingState ∧
    (Faulty.leaving Faulty.E).transition Faulty.prog = .error .pendingState ∧
    (Faulty.toward Faulty.F).transition Faulty.prog = .error .pendingState :=
  ⟨⟨(pending_state_assertion Transitions.prog
        (Transitions.scheduled [Transitions.StateA] Transitions.StateB)
        (Transitions.stepped [Transitions.StateA] Transitions.StateB)
        Transitions.StateA Transitions.StateB (by rfl) (by rfl) (by rfl)).2.2.2.1,
      (pending_state_assertion Transitions.prog
        (Transitions.scheduled [Transitions.StateA] Transitions.StateB)
        (Transitions.stepped [Transitions.StateA] Transitions.StateB)
        Transitions.StateA Transitions.StateB (by rfl) (by rfl) (by rfl)).2.2.2.2.1⟩,
    by rfl, by rfl, by rfl⟩


/-! ## The assertion "There is already an event pending!" -/

/-- While the event slot is occupied, the library calls of an action that succeed queue
no event, and they leave the slot as it is. -/
theorem runCmds_no_dispatch : ∀ (cs : List (Cmd β ε)) (m m' : MachineBase β ε),
    m.myPendingEvent ≠ .null → runCmds cs m = .ok m' → ∀ c ∈ cs, c.dispatches = false := by
  intro cs
  induction cs with
  | nil => intro m m' _ _ c hc; cases hc
  | cons c0 cs ih =>
    intro m m' hne h c hc
    simp only [runCmds] at h
    cases h1 : c0.run m with
    | error e => rw [h1] at h; cases h
    | ok m1 =>
      rw [h1] at h
      have hne1 : m1.myPendingEvent ≠ .null := by
        rw [(cmdFrame_run h1).event hne]
        exact hne
      rcases List.mem_cons.mp hc with rfl | hmem
      · cases c with
        | dispatch e =>
          exfalso
          cases hpe : m.myPendingEvent with
          | null => exact hne hpe
          | dummy => simp [Cmd.run, MachineBase.setPendingEvent, hpe] at h1
          | event e' => simp [Cmd.run, MachineBase.setPendingEvent, hpe] at h1
        | setState s box => rfl
        | setStateDirect s box => rfl
        | setStateAlias state => rfl
        | clearHistory s => rfl
        | clearHistoryDeep s => rfl
        | modifyBox s f => rfl
      · exact ih m1 m' hne1 h c hmem

/-- The library calls of an action that succeed queue at most one event. -/
theorem runCmds_one_dispatch : ∀ (cs : List (Cmd β ε)) (m m' : MachineBase β ε),
    runCmds cs m = .ok m' → (cs.filter Cmd.dispatches).length ≤ 1 := by
  intro cs
  induction cs with
  | nil => intro m m' _; simp
  | cons c0 cs ih =>
    intro m m' h
    simp only [runCmds] at h
    cases h1 : c0.run m with
    | error e => rw [h1] at h; cases h
    | ok m1 =>
      rw [h1] at h
      cases hd : c0.dispatches with
      | false =>
        rw [List.filter_cons_of_neg (by simp [hd])]
        exact ih m1 m' h
      | true =>
        rw [List.filter_cons_of_pos hd]
        have hne1 : m1.myPendingEvent ≠ .null := by
          cases c0 with
          | dispatch e =>
            simp only [Cmd.run, MachineBase.setPendingEvent] at h1
            split at h1
            · cases h1
              simp
            · cases h1
          | setState s box => cases hd
          | setStateDirect s box => cases hd
          | setStateAlias state => cases hd
          | clearHistory s => cases hd
          | clearHistoryDeep s => cases hd
          | modifyBox s f => cases hd
        have hnone : cs.filter Cmd.dispatches = [] := by
          rw [List.filter_eq_nil_iff]
          intro c hc
          rw [runCmds_no_dispatch cs m1 m' hne1 h c hc]
          simp
        rw [hnone]
        simp

/-- During a transition from `S` to `T` no exit action, entry action or user init that
runs queues an event, and the event slot is occupied on each of these calls. -/
theorem transition_no_dispatch {p : Program β ε} {m m' : MachineBase β ε} {S T : StateId}
    (hc : m.myCurrentState = some S) (hp : m.myPendingState = some T)
    (h : m.transition p = .ok m') :
    (∀ x ∈ exitPath T S, ∃ mx, mx.myPendingEvent ≠ .null ∧
      mx.myPendingEvent = m.setDummyEvent.myPendingEvent ∧
      ∀ c ∈ p.exit x mx, c.dispatches = false) ∧
    (∀ x ∈ entryPath S T true, ∃ mx, mx.myPendingEvent ≠ .null ∧
      mx.myPendingEvent = m.setDummyEvent.myPendingEvent ∧
      ∀ c ∈ p.entry x mx, c.dispatches = false) ∧
    ((∃ k, Action.history T k ∈ m'.trace.drop m.trace.length) ∨
      ∃ mx, mx.myPendingEvent ≠ .null ∧
        mx.myPendingEvent = m.setDummyEvent.myPendingEvent ∧
        ∀ c ∈ StateBase.init p T mx, c.dispatches = false) := by
  obtain ⟨hex, hen, hin⟩ := transition_calls hc hp h
  refine ⟨?_, ?_, ?_⟩
  · intro x hx
    obtain ⟨mx, mx', _, ⟨hne, heq⟩, hr⟩ := hex x hx
    exact ⟨mx, hne, heq, runCmds_no_dispatch _ _ _ hne hr⟩
  · intro x hx
    obtain ⟨mx, mx', _, ⟨hne, heq⟩, hr⟩ := hen x hx
    exact ⟨mx, hne, heq, runCmds_no_dispatch _ _ _ hne hr⟩
  · rcases hin with hk | ⟨mx, mx', _, ⟨hne, heq⟩, hr⟩
    · exact Or.inl hk
    · exact Or.inr ⟨mx, hne, heq, runCmds_no_dispatch _ _ _ hne hr⟩

/-- An exit action, entry action or init on the way from `S` to `T` that always queues
an event makes the transition fail. -/
theorem transition_rejects_dispatch {p : Program β ε} {m : MachineBase β ε} {S T : StateId}
    (hc : m.myCurrentState = some S) (hp : m.myPendingState = some T)
    {x : StateId} {e : ε}
    (hx : (x ∈ exitPath T S ∧ ∀ mm, Cmd.dispatch e ∈ p.exit x mm) ∨
      (x ∈ entryPath S T true ∧ ∀ mm, Cmd.dispatch e ∈ p.entry x mm) ∨
      ((m.info T).myHistory = none ∧ (¬ ProperAncestor T S ∨ p.history T = .none) ∧
        ∀ mm, Cmd.dispatch e ∈ StateBase.init p T mm)) :
    ∀ m', m.transition p ≠ .ok m' := by
  intro m' h
  obtain ⟨hex, hen, hin⟩ := transition_no_dispatch hc hp h
  rcases hx with ⟨hx, hall⟩ | ⟨hx, hall⟩ | ⟨hhist, hna, hall⟩
  · obtain ⟨mx, _, _, hq⟩ := hex x hx
    have := hq _ (hall mx)
    cases this
  · obtain ⟨mx, _, _, hq⟩ := hen x hx
    have := hq _ (hall mx)
    cases this
  · rcases hin with ⟨k, hk⟩ | ⟨mx, _, _, hq⟩
    · have hs := transition_spec hc hp h
      rw [hs.userInit hna hhist, List.append_assoc, List.append_assoc,
        List.drop_left] at hk
      simp at hk
    · have := hq _ (hall mx)
      cases this

/-- C28: with assertions enabled, the event slot is occupied from the start of a
transition on, by the queued event or else by the dummy, and every exit action, entry
action and user init of the transition is called with the slot in that state.
`setPendingEvent` fails its assertion whenever the slot is occupied, so none of these
actions gets a `dispatch` call accepted, and an action that makes one makes the
transition fail.  A handler gets at most one `dispatch` call accepted: once it has
queued an event, a further `dispatch` call fails the assertion. -/
theorem pending_event_assertion (p : Program β ε) (m m' : MachineBase β ε) (S T : StateId)
    (hc : m.myCurrentState = some S) (hp : m.myPendingState = some T)
    (h : m.transition p = .ok m') :
    (m.setDummyEvent.myPendingEvent ≠ .null ∧
      (∀ e, m.myPendingEvent = .event e → m.setDummyEvent.myPendingEvent = .event e) ∧
      (m.myPendingEvent = .null → m.setDummyEvent.myPendingEvent = .dummy)) ∧
    (∀ (mm : MachineBase β ε) (e : ε),
      (mm.myPendingEvent ≠ .null →
        mm.setPendingEvent e = .error .pendingEvent ∧
        (Cmd.dispatch e).run mm = .error .pendingEvent) ∧
      (mm.myPendingEvent = .null →
        mm.setPendingEvent e = .ok { mm with myPendingEvent := .event e })) ∧
    (∀ x ∈ exitPath T S, ∃ mx, mx.myPendingEvent ≠ .null ∧
      mx.myPendingEvent = m.setDummyEvent.myPendingEvent ∧
      ∀ c ∈ p.exit x mx, c.dispatches = false) ∧
    (∀ x ∈ entryPath S T true, ∃ mx, mx.myPendingEvent ≠ .null ∧
      mx.myPendingEvent = m.setDummyEvent.myPendingEvent ∧
      ∀ c ∈ p.entry x mx, c.dispatches = false) ∧
    ((∃ k, Action.history T k ∈ m'.trace.drop m.trace.length) ∨
      ∃ mx, mx.myPendingEvent ≠ .null ∧
        mx.myPendingEvent = m.setDummyEvent.myPendingEvent ∧
        ∀ c ∈ StateBase.init p T mx, c.dispatches = false) ∧
    (∀ (mf : MachineBase β ε) (S' T' x : StateId) (e : ε),
      mf.myCurrentState = some S' → mf.myPendingState = some T' →
      (x ∈ exitPath T' S' ∧ ∀ mm, Cmd.dispatch e ∈ p.exit x mm) ∨
        (x ∈ entryPath S' T' true ∧ ∀ mm, Cmd.dispatch e ∈ p.entry x mm) ∨
        ((mf.info T').myHistory = none ∧ (¬ ProperAncestor T' S' ∨ p.history T' = .none) ∧
          ∀ mm, Cmd.dispatch e ∈ StateBase.init p T' mm) →
      ∀ mf', mf.transition p ≠ .ok mf') ∧
    (∀ (e : ε) (mh mh' : MachineBase β ε), mh.dispatchEvent p e = .ok mh' →
      ∃ s, mh.myCurrentState = some s ∧
        ((p.handler e s (mh.log (.dispatch e s))).filter Cmd.dispatches).length ≤ 1) ∧
    (∀ (e1 e2 : ε) (cs : List (Cmd β ε)) (mm mm1 mm2 : MachineBase β ε),
      (Cmd.dispatch e1).run mm = .ok mm1 → runCmds cs mm1 = .ok mm2 →
      (Cmd.dispatch e2).run mm2 = .error .pendingEvent) := by
  obtain ⟨hex, hen, hin⟩ := transition_no_dispatch hc hp h
  obtain ⟨_, _, _, _, _, _, _, d8, d9, d10⟩ := setDummyEvent_walk m
  have hset : ∀ (mm : MachineBase β ε) (e : ε), mm.myPendingEvent ≠ .null →
      mm.setPendingEvent e = .error .pendingEvent := by
    intro mm e hne
    unfold MachineBase.setPendingEvent
    cases hpe : mm.myPendingEvent with
    | null => exact absurd hpe hne
    | dummy => rfl
    | event e' => rfl
  refine ⟨⟨d8, d9, d10⟩, ?_, hex, hen, hin, ?_, ?_, ?_⟩
  · intro mm e
    constructor
    · intro hne
      exact ⟨hset mm e hne, hset mm e hne⟩
    · intro hnull
      unfold MachineBase.setPendingEvent
      rw [hnull]
  · intro mf S' T' x e hc' hp' hx mf'
    exact transition_rejects_dispatch hc' hp' hx mf'
  · intro e mh mh' hd
    obtain ⟨s, hs, _, hr⟩ := dispatchEvent_ok hd
    exact ⟨s, hs, runCmds_one_dispatch _ _ _ hr⟩
  · intro e1 e2 cs mm mm1 mm2 h1 h2
    have hne1 : mm1.myPendingEvent ≠ .null := by
      simp only [Cmd.run, MachineBase.setPendingEvent] at h1
      cases hpe : mm.myPendingEvent with
      | null =>
        rw [hpe] at h1
        cases h1
        simp
      | dummy => rw [hpe] at h1; cases h1
      | event e' => rw [hpe] at h1; cases h1
    have hne2 : mm2.myPendingEvent ≠ .null := by
      rw [(cmdFrame_runCmds h2).event hne1]
      exact hne1
    exact hset mm2 e2 hne2

/-- Witness for C28: the test's "Sibling -> Sibling" transition from `StateA` to
`StateB`, which starts with an empty event slot, so that the dummy is installed.  In the
input program `Faulty`, the entry action of `H`, the exit action of `I` and the init of
`J` call `dispatch`, and the handler `both` of `D` calls it twice: each fails the
assertion. -/
theorem pending_event_assertion_witness :
    (Transitions.scheduled [Transitions.StateA] Transitions.StateB).setDummyEvent.myPendingEvent
      = .dummy ∧
    (∀ x ∈ exitPath Transitions.StateB Transitions.StateA, ∃ mx : MachineBase Nat Unit,
      mx.myPendingEvent ≠ .null ∧
      mx.myPendingEvent = (Transitions.scheduled [Transitions.StateA]
        Transitions.StateB).setDummyEvent.myPendingEvent ∧
      ∀ c ∈ Transitions.prog.exit x mx, c.dispatches = false) ∧
    (Faulty.toward Faulty.H).transition Faulty.prog = .error .pendingEvent ∧
    (Faulty.leaving Faulty.I).transition Faulty.prog = .error .pendingEvent ∧
    (Faulty.toward Faulty.J).transition Faulty.prog = .error .pendingEvent ∧
    Faulty.inD.dispatchEvent Faulty.prog .both = .error .pendingEvent :=
  ⟨(pending_event_assertion Transitions.prog
      (Transitions.scheduled [Transitions.StateA] Transitions.StateB)
      (Transitions.stepped [Transitions.StateA] Transitions.StateB)
      Transitions.StateA Transitions.StateB (by rfl) (by rfl) (by rfl)).1.2.2 (by rfl),
    (pending_event_assertion Transitions.prog
      (Transitions.scheduled [Transitions.StateA] Transitions.StateB)
      (Transitions.stepped [Transitions.StateA] Transitions.StateB)
      Transitions.StateA Transitions.StateB (by rfl) (by rfl) (by rfl)).2.2.1,
    by rfl, by rfl, by rfl, by rfl⟩


/-! ## Snapshots: `clone`, `copy` and `free` -/

theorem cloned_refl (m : MachineBase β ε) : Cloned m m :=
  ⟨rfl, rfl, rfl, rfl, rfl, rfl, rfl, fun _ => Or.inl rfl⟩

theorem cloned_trans {m1 m2 m3 : MachineBase β ε} (h12 : Cloned m1 m2) (h23 : Cloned m2 m3) :
    Cloned m1 m3 where
  current := h23.current.trans h12.current
  pendingState := h23.pendingState.trans h12.pendingState
  pendingBox := h23.pendingBox.trans h12.pendingBox
  pendingHistory := h23.pendingHistory.trans h12.pendingHistory
  event := h23.event.trans h12.event
  trace := h23.trace.trans h12.trace
  boxLog := h23.boxLog.trans h12.boxLog
  states := fun k => by
    rcases h23.states k with h | ⟨h, h'⟩
    · rcases h12.states k with g | ⟨g, g'⟩
      · exact Or.inl (h.trans g)
      · exact Or.inr ⟨g, h.trans g'⟩
    · rcases h12.states k with g | ⟨g, g'⟩
      · exact Or.inr ⟨by rw [← g]; exact h, h'⟩
      · rw [g'] at h
        cases h

theorem cloned_setInfo {m : MachineBase β ε} {s : StateId} (h : m.myStates s = none) :
    Cloned m (m.setInfo s {}) := by
  refine ⟨rfl, rfl, rfl, rfl, rfl, rfl, rfl, fun k => ?_⟩
  by_cases hk : k = s
  · subst hk
    exact Or.inr ⟨h, by simp [MachineBase.setInfo]⟩
  · exact Or.inl (by simp [MachineBase.setInfo, Function.update, hk])

/-- What `clone` does: it creates the `_StateInfo` of the state, and of superstates,
all of them empty. -/
theorem clone_ok : ∀ (s : StateId) (m m' : MachineBase β ε),
    StateInfo.clone s m = .ok m' → Cloned m m' ∧ m'.myStates s = some {} := by
  intro s
  induction s with
  | root =>
    intro m m' h
    unfold StateInfo.clone at h
    cases hs : m.myStates .root with
    | some i => rw [hs] at h; cases h
    | none =>
      rw [hs] at h
      cases h
      exact ⟨cloned_setInfo hs, by simp [MachineBase.setInfo]⟩
  | sub super tag ih =>
    intro m m' h
    unfold StateInfo.clone at h
    cases hs : m.myStates (.sub super tag) with
    | some i => rw [hs] at h; cases h
    | none =>
      rw [hs] at h
      simp only at h
      have key : ∀ m1 : MachineBase β ε, Cloned m m1 →
          Cloned m (m1.setInfo (.sub super tag) {}) ∧
          (m1.setInfo (.sub super tag) {}).myStates (.sub super tag) = some {} := by
        intro m1 hc
        refine ⟨?_, by simp [MachineBase.setInfo]⟩
        refine ⟨hc.current, hc.pendingState, hc.pendingBox, hc.pendingHistory, hc.event,
          hc.trace, hc.boxLog, fun k => ?_⟩
        by_cases hk : k = .sub super tag
        · subst hk
          exact Or.inr ⟨hs, by simp [MachineBase.setInfo]⟩
        · have : (m1.setInfo (.sub super tag) {}).myStates k = m1.myStates k := by
            simp [MachineBase.setInfo, Function.update, hk]
          rw [this]
          exact hc.states k
      cases hp : m.myStates super with
      | some i =>
        rw [hp] at h
        cases h
        exact key m (cloned_refl m)
      | none =>
        rw [hp] at h
        cases h1 : StateInfo.clone super m with
        | error e => rw [h1] at h; cases h
        | ok m1 =>
          rw [h1] at h
          cases h
          exact key m1 (ih m m1 h1).1

theorem createClone_ok {key : StateId} {original : Option (StateInfo β)}
    {m m' : MachineBase β ε} (h : m.createClone key original = .ok m') :
    Cloned m m' ∧ (original.isSome = true → (m'.myStates key).isSome = true) := by
  unfold MachineBase.createClone at h
  cases hk : m.myStates key with
  | some i =>
    rw [hk] at h
    cases h
    exact ⟨cloned_refl m, fun _ => by rw [hk]; rfl⟩
  | none =>
    cases ho : original with
    | none =>
      rw [hk, ho] at h
      cases h
      exact ⟨cloned_refl m, fun hh => by cases hh⟩
    | some o =>
      rw [hk, ho] at h
      obtain ⟨hc, hs⟩ := clone_ok key m m' h
      exact ⟨hc, fun _ => by rw [hs]; rfl⟩

theorem cloned_isSome {m m' : MachineBase β ε} (h : Cloned m m') (k : StateId)
    (hk : (m.myStates k).isSome = true) : (m'.myStates k).isSome = true := by
  rcases h.states k with g | ⟨g, _⟩
  · rw [g]; exact hk
  · rw [g] at hk; cases hk

theorem cloned_info {m m' : MachineBase β ε} (h : Cloned m m') (k : StateId) :
    m'.info k = m.info k := by
  unfold MachineBase.info
  rcases h.states k with g | ⟨g, g'⟩
  · rw [g]
  · rw [g, g']; rfl

theorem createClones_ok (other : StateId → Option (StateInfo β)) :
    ∀ (keys : List StateId) (m m' : MachineBase β ε),
      m.createClones other keys = .ok m' →
      Cloned m m' ∧ ∀ k ∈ keys, (other k).isSome = true → (m'.myStates k).isSome = true := by
  intro keys
  induction keys with
  | nil =>
    intro m m' h
    cases h
    exact ⟨cloned_refl m, fun k hk => by cases hk⟩
  | cons k ks ih =>
    intro m m' h
    simp only [MachineBase.createClones] at h
    cases h1 : m.createClone k (other k) with
    | error e => rw [h1] at h; cases h
    | ok m1 =>
      rw [h1] at h
      obtain ⟨c1, s1⟩ := createClone_ok h1
      obtain ⟨c2, s2⟩ := ih m1 m' h
      refine ⟨cloned_trans c1 c2, fun x hx ho => ?_⟩
      rcases List.mem_cons.mp hx with rfl | hmem
      · exact cloned_isSome c2 x (s1 ho)
      · exact s2 x hmem ho

theorem filled_refl (m : MachineBase β ε) : Filled m m :=
  ⟨rfl, rfl, rfl, rfl, rfl, rfl, rfl, fun _ => rfl⟩

theorem filled_trans {m1 m2 m3 : MachineBase β ε} (h12 : Filled m1 m2) (h23 : Filled m2 m3) :
    Filled m1 m3 where
  current := h23.current.trans h12.current
  pendingState := h23.pendingState.trans h12.pendingState
  pendingBox := h23.pendingBox.trans h12.pendingBox
  pendingHistory := h23.pendingHistory.trans h12.pendingHistory
  event := h23.event.trans h12.event
  trace := h23.trace.trans h12.trace
  boxLog := h23.boxLog.trans h12.boxLog
  exist := fun k => (h23.exist k).trans (h12.exist k)

theorem setInfo_myStates (m : MachineBase β ε) (s k : StateId) (i : StateInfo β) :
    (m.setInfo s i).myStates k = if k = s then some i else m.myStates k := by
  unfold MachineBase.setInfo
  by_cases h : k = s
  · subst h; simp
  · simp [Function.update, h]

theorem filled_setInfo {m : MachineBase β ε} {s : StateId} (i : StateInfo β)
    (hs : (m.myStates s).isSome = true) : Filled m (m.setInfo s i) := by
  refine ⟨rfl, rfl, rfl, rfl, rfl, rfl, rfl, fun k => ?_⟩
  rw [setInfo_myStates]
  split
  · rename_i hk
    subst hk
    rw [hs]
    rfl
  · rfl

/-- What `_StateInfo::copy` does to a new, empty `_StateInfo`: it takes over the
history pointer, whose target must exist in this machine, and the box (not for Root). -/
theorem copy_ok {k : StateId} {o : StateInfo β} {m m' : MachineBase β ε}
    (hk : (m.myStates k).isSome = true) (hi : m.info k = {})
    (h : StateInfo.copy k o m = .ok m') :
    Filled m m' ∧ (∀ j, j ≠ k → m'.myStates j = m.myStates j) ∧
    (m'.info k).myHistory = o.myHistory ∧
    (k ≠ .root → (m'.info k).myBox = o.myBox) ∧
    (k = .root → (m'.info k).myBox = none) ∧
    (∀ t, o.myHistory = some t → (m.myStates t).isSome = true) := by
  unfold StateInfo.copy at h
  -- the history pointer
  have step1 : ∃ m1, (match o.myHistory with
      | some t =>
        match m.myStates t with
        | some _ => Except.ok (StateInfo.setHistory k (some t) m)
        | none => Except.error Fault.snapshot
      | none => Except.ok m) = .ok m1 ∧ Filled m m1 ∧
      (∀ j, j ≠ k → m1.myStates j = m.myStates j) ∧
      m1.info k = { myHistory := o.myHistory, myBox := none } ∧
      (∀ t, o.myHistory = some t → (m.myStates t).isSome = true) := by
    cases hh : o.myHistory with
    | none =>
      refine ⟨m, rfl, filled_refl m, fun _ _ => rfl, ?_, fun t ht => by cases ht⟩
      rw [hi]
    | some t =>
      cases ht : m.myStates t with
      | none =>
        rw [hh] at h
        simp only [ht, Except.bind] at h
        cases h
      | some it =>
        refine ⟨StateInfo.setHistory k (some t) m, by simp only [ht],
          filled_setInfo _ hk, ?_, ?_, ?_⟩
        · intro j hj
          simp only [StateInfo.setHistory, setInfo_myStates, if_neg hj]
        · simp only [StateInfo.setHistory, info_setInfo, if_true, hi]
        · intro t' ht'
          cases ht'
          rw [ht]
          rfl
  obtain ⟨m1, e1, f1, o1, i1, t1⟩ := step1
  rw [e1] at h
  simp only [Except.bind] at h
  have hk1 : (m1.myStates k).isSome = true := by rw [f1.exist]; exact hk
  cases hb : o.myBox with
  | none =>
    rw [hb] at h
    cases h
    refine ⟨f1, o1, by rw [i1], fun _ => by rw [i1], fun _ => by rw [i1], t1⟩
  | some box =>
    rw [hb] at h
    simp only at h
    unfold StateInfo.cloneBox at h
    cases k with
    | root =>
      simp only at h
      cases h
      exact ⟨f1, o1, by rw [i1], fun hne => absurd rfl hne, fun _ => by rw [i1], t1⟩
    | sub super tag =>
      simp only [i1] at h
      cases h
      refine ⟨filled_trans f1 (filled_setInfo _ hk1), ?_, ?_, ?_, ?_, t1⟩
      · intro j hj
        rw [setInfo_myStates, if_neg hj]
        exact o1 j hj
      · simp only [info_setInfo, if_true]
      · intro _
        simp only [info_setInfo, if_true]
      · intro hr
        cases hr

theorem info_of_myStates {m m' : MachineBase β ε} {k : StateId}
    (h : m'.myStates k = m.myStates k) : m'.info k = m.info k := by
  unfold MachineBase.info
  rw [h]

/-- What the second loop of `copy` does when it starts with empty `_StateInfo` objects:
every `_StateInfo` of this machine has an original, and takes over its history pointer
(whose target exists here) and its box. -/
theorem copyStates_ok (other : StateId → Option (StateInfo β)) :
    ∀ (keys : List StateId) (m m' : MachineBase β ε), keys.Nodup →
      (∀ k ∈ keys, m.info k = {}) → m.copyStates other keys = .ok m' →
      Filled m m' ∧ (∀ j, j ∉ keys → m'.myStates j = m.myStates j) ∧
      ∀ k ∈ keys, (m.myStates k).isSome = true →
        ∃ o, other k = some o ∧ (m'.info k).myHistory = o.myHistory ∧
          (k ≠ .root → (m'.info k).myBox = o.myBox) ∧
          (k = .root → (m'.info k).myBox = none) ∧
          ∀ t, o.myHistory = some t → (m.myStates t).isSome = true := by
  intro keys
  induction keys with
  | nil =>
    intro m m' _ _ h
    cases h
    exact ⟨filled_refl m, fun _ _ => rfl, fun k hk => by cases hk⟩
  | cons k ks ih =>
    intro m m' hnd hfresh h
    have hkn : k ∉ ks := (List.nodup_cons.mp hnd).1
    have hnd' : ks.Nodup := (List.nodup_cons.mp hnd).2
    simp only [MachineBase.copyStates] at h
    -- the step at `k`
    have step : ∃ m1, (match m.myStates k with
        | none => Except.ok m
        | some _ =>
          match other k with
          | some original => StateInfo.copy k original m
          | none => Except.error Fault.snapshot) = .ok m1 ∧
        Filled m m1 ∧ (∀ j, j ≠ k → m1.myStates j = m.myStates j) ∧
        ((m.myStates k).isSome = true →
          ∃ o, other k = some o ∧ (m1.info k).myHistory = o.myHistory ∧
            (k ≠ .root → (m1.info k).myBox = o.myBox) ∧
            (k = .root → (m1.info k).myBox = none) ∧
            ∀ t, o.myHistory = some t → (m.myStates t).isSome = true) := by
      cases hk : m.myStates k with
      | none =>
        exact ⟨m, rfl, filled_refl m, fun _ _ => rfl, fun hh => by cases hh⟩
      | some i =>
        cases ho : other k with
        | none =>
          rw [hk] at h
          simp only [ho, Except.bind] at h
          cases h
        | some o =>
          rw [hk] at h
          simp only [ho] at h
          cases hc : StateInfo.copy k o m with
          | error e => rw [hc] at h; cases h
          | ok m1 =>
            obtain ⟨f, o1, c1, c2, c3, c4⟩ :=
              copy_ok (by rw [hk]; rfl) (hfresh k (List.mem_cons_self k ks)) hc
            exact ⟨m1, hc, f, o1, fun _ => ⟨o, rfl, c1, c2, c3, c4⟩⟩
    obtain ⟨m1, e1, f1, o1, c1⟩ := step
    rw [e1] at h
    simp only [Except.bind] at h
    have hfresh1 : ∀ x ∈ ks, m1.info x = {} := by
      intro x hx
      have hxk : x ≠ k := fun hxk => hkn (hxk ▸ hx)
      rw [info_of_myStates (o1 x hxk)]
      exact hfresh x (List.mem_cons_of_mem k hx)
    obtain ⟨f2, o2, c2⟩ := ih m1 m' hnd' hfresh1 h
    refine ⟨filled_trans f1 f2, ?_, ?_⟩
    · intro j hj
      have hjk : j ≠ k := fun hjk => hj (hjk ▸ List.mem_cons_self k ks)
      have hjs : j ∉ ks := fun hjs => hj (List.mem_cons_of_mem k hjs)
      rw [o2 j hjs, o1 j hjk]
    · intro x hx hxs
      rcases List.mem_cons.mp hx with rfl | hmem
      · obtain ⟨o, ho, a1, a2, a3, a4⟩ := c1 hxs
        have hinfo : m'.info x = m1.info x := info_of_myStates (o2 x hkn)
        exact ⟨o, ho, by rw [hinfo]; exact a1, fun hne => by rw [hinfo]; exact a2 hne,
          fun hr => by rw [hinfo]; exact a3 hr, a4⟩
      · have hxs1 : (m1.myStates x).isSome = true := by rw [f1.exist]; exact hxs
        obtain ⟨o, ho, a1, a2, a3, a4⟩ := c2 x hmem hxs1
        exact ⟨o, ho, a1, a2, a3, fun t ht => by rw [← f1.exist]; exact a4 t ht⟩

/-- What `copy` does to a machine without `_StateInfo` objects for the keys: afterwards
a `_StateInfo` exists for exactly the keys that have one in `other`, with the history
pointer and the box of the original; the history targets exist as well. -/
theorem copy_spec {keys : List StateId} {other : StateId → Option (StateInfo β)}
    {m m' : MachineBase β ε} (hnd : keys.Nodup) (hnone : ∀ k ∈ keys, m.myStates k = none)
    (h : m.copy keys other = .ok m') :
    (m'.myCurrentState = m.myCurrentState ∧ m'.myPendingState = m.myPendingState ∧
      m'.myPendingBox = m.myPendingBox ∧ m'.myPendingHistory = m.myPendingHistory ∧
      m'.myPendingEvent = m.myPendingEvent ∧ m'.trace = m.trace ∧ m'.boxLog = m.boxLog) ∧
    (∀ k ∈ keys, (m'.myStates k).isSome = (other k).isSome) ∧
    (∀ k ∈ keys, (m'.info k).myHistory = ((other k).getD {}).myHistory) ∧
    (∀ k ∈ keys, k ≠ .root → (m'.info k).myBox = ((other k).getD {}).myBox) ∧
    (m'.info .root).myBox = (m.info .root).myBox ∧
    (∀ k ∈ keys, ∀ t, ((other k).getD {}).myHistory = some t →
      (m'.myStates t).isSome = true) := by
  unfold MachineBase.copy at h
  cases h1 : m.createClones other keys with
  | error e => rw [h1] at h; cases h
  | ok m1 =>
    rw [h1] at h
    simp only [Except.bind] at h
    obtain ⟨c1, s1⟩ := createClones_ok other keys m m1 h1
    have hfresh : ∀ k ∈ keys, m1.info k = {} := by
      intro k hk
      rw [cloned_info c1, MachineBase.info, hnone k hk]
      rfl
    obtain ⟨f2, o2, c2⟩ := copyStates_ok other keys m1 m' hnd hfresh h
    have hex : ∀ k ∈ keys, (m'.myStates k).isSome = (other k).isSome := by
      intro k hk
      cases ho : other k with
      | some o =>
        rw [f2.exist]
        exact s1 k hk (by rw [ho]; rfl)
      | none =>
        cases hs : (m'.myStates k).isSome with
        | false => rfl
        | true =>
          exfalso
          obtain ⟨o, ho', _⟩ := c2 k hk (by rw [← f2.exist]; exact hs)
          rw [ho] at ho'
          cases ho'
    have hcases : ∀ k ∈ keys, other k = none → m'.info k = {} := by
      intro k hk ho
      have := hex k hk
      rw [ho] at this
      unfold MachineBase.info
      cases hs : m'.myStates k with
      | none => rfl
      | some i => rw [hs] at this; cases this
    refine ⟨⟨f2.current.trans c1.current, f2.pendingState.trans c1.pendingState,
        f2.pendingBox.trans c1.pendingBox, f2.pendingHistory.trans c1.pendingHistory,
        f2.event.trans c1.event, f2.trace.trans c1.trace, f2.boxLog.trans c1.boxLog⟩,
      hex, ?_, ?_, ?_, ?_⟩
    · intro k hk
      cases ho : other k with
      | none => rw [hcases k hk ho]; rfl
      | some o =>
        obtain ⟨o', ho', a1, _⟩ := c2 k hk (by rw [← f2.exist, hex k hk, ho]; rfl)
        rw [ho] at ho'
        cases ho'
        exact a1
    · intro k hk hne
      cases ho : other k with
      | none => rw [hcases k hk ho]; rfl
      | some o =>
        obtain ⟨o', ho', _, a2, _⟩ := c2 k hk (by rw [← f2.exist, hex k hk, ho]; rfl)
        rw [ho] at ho'
        cases ho'
        exact a2 hne
    · by_cases hr : StateId.root ∈ keys
      · have hm : (m.info .root).myBox = none := by
          rw [MachineBase.info, hnone _ hr]
          rfl
        rw [hm]
        cases hs : (m'.myStates .root).isSome with
        | false =>
          unfold MachineBase.info
          cases hs' : m'.myStates .root with
          | none => rfl
          | some i => rw [hs'] at hs; cases hs
        | true =>
          obtain ⟨o', _, _, _, a3, _⟩ := c2 _ hr (by rw [← f2.exist]; exact hs)
          exact a3 rfl
      · rw [info_of_myStates (o2 _ hr), cloned_info c1]
    · intro k hk t ht
      cases ho : other k with
      | none => rw [ho] at ht; cases ht
      | some o =>
        obtain ⟨o', ho', _, _, _, a4⟩ := c2 k hk (by rw [← f2.exist, hex k hk, ho]; rfl)
        rw [ho] at ho' ht
        cases ho'
        rw [f2.exist]
        exact a4 t ht

/-- What `delete myStates[k]; myStates[k] = 0;` does: the entry is null afterwards, the
other entries stay, and at most the box of `k` is destroyed. -/
theorem deleteInfo_spec (k : StateId) (m : MachineBase β ε) :
    ((m.deleteInfo k).myCurrentState = m.myCurrentState ∧
      (m.deleteInfo k).myPendingState = m.myPendingState ∧
      (m.deleteInfo k).myPendingBox = m.myPendingBox ∧
      (m.deleteInfo k).myPendingHistory = m.myPendingHistory ∧
      (m.deleteInfo k).myPendingEvent = m.myPendingEvent ∧
      (m.deleteInfo k).trace = m.trace) ∧
    (∃ l, (m.deleteInfo k).boxLog = m.boxLog ++ l ∧ ∀ a ∈ l, a = BoxAction.deleted k) ∧
    (m.deleteInfo k).myStates k = none ∧
    (∀ j, j ≠ k → (m.deleteInfo k).myStates j = m.myStates j) := by
  unfold MachineBase.deleteInfo
  cases hk : m.myStates k with
  | none =>
    exact ⟨⟨rfl, rfl, rfl, rfl, rfl, rfl⟩, ⟨[], by simp, by simp⟩, hk, fun _ _ => rfl⟩
  | some i =>
    simp only
    cases k with
    | root =>
      refine ⟨⟨rfl, rfl, rfl, rfl, rfl, rfl⟩, ⟨[], by simp [StateInfo.deleteBox], by simp⟩,
        by simp [StateInfo.deleteBox], fun j hj => ?_⟩
      simp [StateInfo.deleteBox, Function.update, hj]
    | sub super tag =>
      cases hb : (m.info (.sub super tag)).myBox with
      | none =>
        refine ⟨⟨?_, ?_, ?_, ?_, ?_, ?_⟩, ⟨[], ?_, by simp⟩, ?_, fun j hj => ?_⟩ <;>
          simp [StateInfo.deleteBox, hb, Function.update]
        intro hj'
        exact absurd hj' hj
      | some b =>
        refine ⟨⟨?_, ?_, ?_, ?_, ?_, ?_⟩, ⟨[BoxAction.deleted (.sub super tag)], ?_, by simp⟩,
          ?_, fun j hj => ?_⟩ <;>
          simp [StateInfo.deleteBox, hb, Function.update, MachineBase.logBox,
            MachineBase.setInfo]
        rw [if_neg hj, if_neg hj]

/-- What `free` does: every entry of the array is null afterwards, and only box
destructors have run. -/
theorem free_spec : ∀ (keys : List StateId) (m : MachineBase β ε),
    ((m.free keys).myCurrentState = m.myCurrentState ∧
      (m.free keys).myPendingState = m.myPendingState ∧
      (m.free keys).myPendingBox = m.myPendingBox ∧
      (m.free keys).myPendingHistory = m.myPendingHistory ∧
      (m.free keys).myPendingEvent = m.myPendingEvent ∧
      (m.free keys).trace = m.trace) ∧
    (∃ l, (m.free keys).boxLog = m.boxLog ++ l ∧ ∀ a ∈ l, ∃ s, a = BoxAction.deleted s) ∧
    (∀ k ∈ keys, (m.free keys).myStates k = none) ∧
    (∀ j, j ∉ keys → (m.free keys).myStates j = m.myStates j) := by
  intro keys
  induction keys with
  | nil =>
    intro m
    exact ⟨⟨rfl, rfl, rfl, rfl, rfl, rfl⟩, ⟨[], by simp [MachineBase.free], by simp⟩,
      fun k hk => by simp at hk, fun _ _ => rfl⟩
  | cons k ks ih =>
    intro m
    obtain ⟨⟨a1, a2, a3, a4, a5, a6⟩, ⟨l1, b1, b2⟩, c1, d1⟩ := ih m
    obtain ⟨⟨e1, e2, e3, e4, e5, e6⟩, ⟨l2, f1, f2⟩, g1, g2⟩ :=
      deleteInfo_spec k (m.free ks)
    simp only [MachineBase.free]
    refine ⟨⟨e1.trans a1, e2.trans a2, e3.trans a3, e4.trans a4, e5.trans a5, e6.trans a6⟩,
      ⟨l1 ++ l2, by rw [f1, b1, List.append_assoc], ?_⟩, ?_, ?_⟩
    · intro a ha
      rcases List.mem_append.mp ha with h | h
      · exact b2 a h
      · exact ⟨k, f2 a h⟩
    · intro x hx
      by_cases hxk : x = k
      · subst hxk
        exact g1
      · rw [g2 x hxk]
        rcases List.mem_cons.mp hx with h | h
        · exact absurd h hxk
        · exact c1 x h
    · intro j hj
      have hjk : j ≠ k := fun hjk => hj (hjk ▸ List.mem_cons_self k ks)
      have hjs : j ∉ ks := fun hjs => hj (List.mem_cons_of_mem k hjs)
      rw [g2 j hjk, d1 j hjs]

/-- The loop `while (myPendingState || myPendingEvent)` ends with nothing pending. -/
theorem settle_quiescent {p : Program β ε} :
    ∀ (fuel : Nat) (m m' : MachineBase β ε), m.settle p fuel = .ok m' →
      m'.myPendingState = none ∧ m'.myPendingEvent = .null := by
  intro fuel
  induction fuel with
  | zero =>
    intro m m' h
    unfold MachineBase.settle at h
    split at h
    · rename_i hp he
      cases h
      exact ⟨hp, he⟩
    · cases h
  | succ n ih =>
    intro m m' h
    unfold MachineBase.settle at h
    split at h
    · rename_i hp he
      cases h
      exact ⟨hp, he⟩
    · cases h1 : m.transitionLoop p (n + 1) with
      | error e => rw [h1] at h; cases h
      | ok m1 =>
        rw [h1] at h
        simp only [Except.bind] at h
        cases hpe : m1.myPendingEvent with
        | null =>
          simp only [hpe] at h
          exact ih _ _ h
        | dummy =>
          simp only [hpe] at h
          cases h
        | event e =>
          simp only [hpe] at h
          cases h2 : MachineBase.dispatchEvent p e { m1 with myPendingEvent := .null } with
          | error f => rw [h2] at h; cases h
          | ok m2 =>
            rw [h2] at h
            exact ih _ _ h

/-! ## Taking a snapshot and restoring it -/

theorem snapshot_ok {keys : List StateId} {m0 s : MachineBase β ε}
    (h : Snapshot.new keys m0 = .ok s) :
    m0.myPendingState = none ∧ m0.myPendingEvent = .null ∧
    ∃ c s1, m0.myCurrentState = some c ∧
      MachineBase.copy keys m0.myStates (MachineBase.allocate {}) = .ok s1 ∧
      s = { s1 with myCurrentState := (s1.myStates c).map fun _ => c } := by
  unfold Snapshot.new at h
  split at h
  · cases h
  · rename_i current hp he hc
    cases h1 : MachineBase.copy keys m0.myStates (MachineBase.allocate {}) with
    | error e => rw [h1] at h; cases h
    | ok s1 =>
      rw [h1] at h
      cases h
      exact ⟨hp, he, current, s1, hc, rfl, rfl⟩
  · cases h
  · cases h

theorem assign_ok {p : Program β ε} {fuel : Nat} {keys : List StateId}
    {s m m' : MachineBase β ε} (h : Machine.assign p fuel keys s m = .ok m') :
    m.myPendingState = none ∧ m.myPendingEvent = .null ∧
    ∃ c0 m1 m2 c, m.myCurrentState = some c0 ∧ m.shutdown p fuel = .ok m1 ∧
      MachineBase.copy keys s.myStates (m1.free keys) = .ok m2 ∧
      s.myCurrentState = some c ∧ (m2.myStates c).isSome = true ∧
      MachineBase.rattleOn p fuel { m2 with myCurrentState := some c } = .ok m' := by
  unfold Machine.assign at h
  split at h
  · cases h
  · rename_i c0 hp he hc
    cases h1 : m.shutdown p fuel with
    | error e => rw [h1] at h; cases h
    | ok m1 =>
      rw [h1] at h
      simp only [Except.bind] at h
      cases h2 : MachineBase.copy keys s.myStates (m1.free keys) with
      | error e => rw [h2] at h; cases h
      | ok m2 =>
        rw [h2] at h
        simp only at h
        cases hsc : s.myCurrentState with
        | none => rw [hsc] at h; cases h
        | some c =>
          rw [hsc] at h
          simp only at h
          cases hm2 : m2.myStates c with
          | none => rw [hm2] at h; cases h
          | some i =>
            rw [hm2] at h
            exact ⟨hp, he, c0, m1, m2, c, hc, rfl, h2, rfl, by rw [hm2]; rfl, h⟩
  · cases h
  · cases h

/-- After `shutdown()` nothing is pending. -/
theorem shutdown_quiescent {p : Program β ε} {fuel : Nat} {m m1 : MachineBase β ε}
    (hp : m.myPendingState = none) (h : m.shutdown p fuel = .ok m1) :
    m1.myPendingState = none ∧ m1.myPendingEvent = .null ∧ m1.myCurrentState = none := by
  obtain ⟨ms, mr, _, _, _, _, _, _, hra, hm1⟩ := shutdown_ok hp h
  unfold MachineBase.rattleOn at hra
  split at hra
  · cases hra
  · obtain ⟨q1, q2⟩ := settle_quiescent _ _ _ hra
    subst hm1
    exact ⟨q1, q2, rfl⟩

/-- The machine after `m = s`: the copy of the snapshot's `_StateInfo` objects, made
after `shutdown()` and `free`, with the snapshot's current state. -/
theorem assign_spec {p : Program β ε} {fuel : Nat} {keys : List StateId}
    {s m m' : MachineBase β ε} (h : Machine.assign p fuel keys s m = .ok m') :
    ∃ m1 m2 c, m.shutdown p fuel = .ok m1 ∧
      MachineBase.copy keys s.myStates (m1.free keys) = .ok m2 ∧
      s.myCurrentState = some c ∧ (m2.myStates c).isSome = true ∧
      m2.myPendingState = none ∧ m2.myPendingEvent = .null ∧
      (m2.trace = m1.trace ∧ m2.boxLog = (m1.free keys).boxLog) ∧
      m' = { m2 with myCurrentState := some c } := by
  obtain ⟨hp, he, c0, m1, m2, c, hc, h1, h2, hsc, hm2, hr⟩ := assign_ok h
  obtain ⟨q1, q2, _⟩ := shutdown_quiescent hp h1
  obtain ⟨⟨_, f2, _, _, f5, f6⟩, _⟩ := free_spec keys m1
  have hcopy : m2.myPendingState = none ∧ m2.myPendingEvent = .null ∧
      (m2.trace = m1.trace ∧ m2.boxLog = (m1.free keys).boxLog) := by
    unfold MachineBase.copy at h2
    cases h3 : (m1.free keys).createClones s.myStates keys with
    | error e => rw [h3] at h2; cases h2
    | ok m3 =>
      rw [h3] at h2
      simp only [Except.bind] at h2
      obtain ⟨c1, _⟩ := createClones_ok _ _ _ _ h3
      have hfill : ∀ (ks : List StateId) (a b : MachineBase β ε),
          a.copyStates s.myStates ks = .ok b →
          b.myPendingState = a.myPendingState ∧ b.myPendingEvent = a.myPendingEvent ∧
            b.trace = a.trace ∧ b.boxLog = a.boxLog := by
        intro ks
        induction ks with
        | nil => intro a b hab; cases hab; exact ⟨rfl, rfl, rfl, rfl⟩
        | cons k ks ih =>
          intro a b hab
          simp only [MachineBase.copyStates] at hab
          cases hk : a.myStates k with
          | none =>
            rw [hk] at hab
            exact ih a b hab
          | some i =>
            rw [hk] at hab
            simp only at hab
            cases ho : s.myStates k with
            | none => rw [ho] at hab; cases hab
            | some o =>
              rw [ho] at hab
              simp only at hab
              cases hcp : StateInfo.copy k o a with
              | error e => rw [hcp] at hab; cases hab
              | ok a1 =>
                rw [hcp] at hab
                obtain ⟨r1, r2, r3, r4⟩ := ih a1 b hab
                have g : a1.myPendingState = a.myPendingState ∧
                    a1.myPendingEvent = a.myPendingEvent ∧ a1.trace = a.trace ∧
                    a1.boxLog = a.boxLog := by
                  unfold StateInfo.copy at hcp
                  cases hh : o.myHistory with
                  | none =>
                    rw [hh] at hcp
                    simp only [Except.bind] at hcp
                    cases hb : o.myBox with
                    | none => rw [hb] at hcp; cases hcp; exact ⟨rfl, rfl, rfl, rfl⟩
                    | some box =>
                      rw [hb] at hcp
                      simp only [StateInfo.cloneBox] at hcp
                      split at hcp
                      · cases hcp; exact ⟨rfl, rfl, rfl, rfl⟩
                      · split at hcp
                        · cases hcp
                        · cases hcp; exact ⟨rfl, rfl, rfl, rfl⟩
                  | some t =>
                    rw [hh] at hcp
                    simp only at hcp
                    cases ht : a.myStates t with
                    | none => rw [ht] at hcp; cases hcp
                    | some it =>
                      rw [ht] at hcp
                      simp only [Except.bind] at hcp
                      cases hb : o.myBox with
                      | none => rw [hb] at hcp; cases hcp; exact ⟨rfl, rfl, rfl, rfl⟩
                      | some box =>
                        rw [hb] at hcp
                        simp only [StateInfo.cloneBox] at hcp
                        split at hcp
                        · cases hcp; exact ⟨rfl, rfl, rfl, rfl⟩
                        · split at hcp
                          · cases hcp
                          · cases hcp; exact ⟨rfl, rfl, rfl, rfl⟩
                exact ⟨r1.trans g.1, r2.trans g.2.1, r3.trans g.2.2.1, r4.trans g.2.2.2⟩
      obtain ⟨r1, r2, r3, r4⟩ := hfill keys m3 m2 h2
      exact ⟨by rw [r1, c1.pendingState, f2, q1], by rw [r2, c1.event, f5, q2],
        by rw [r3, c1.trace, f6], by rw [r4, c1.boxLog]⟩
  refine ⟨m1, m2, c, h1, h2, hsc, hm2, hcopy.1, hcopy.2.1, hcopy.2.2, ?_⟩
  unfold MachineBase.rattleOn at hr
  simp only at hr
  rw [settle_quiescent_id (by exact hcopy.1) (by exact hcopy.2.1)] at hr
  cases hr
  rfl

/-- C21: after a snapshot `s` was taken of a machine `m0` (the constructor asserts that
`m0` is quiescent) and `s` was assigned to a machine `m`, the machine `m'` that results
has the current state of `m0`; for every key it has a `_StateInfo` exactly if `m0` had
one at capture; every history pointer is the one of `m0`, and its target has a
`_StateInfo` in `m'`; every state holds a box exactly if it held one in `m0`, with the
same contents (Root never holds a box); and no transition and no event is pending. -/
theorem snapshot_restore_state (p : Program β ε) (fuel : Nat) (keys : List StateId)
    (m0 s m m' : MachineBase β ε) (hnd : keys.Nodup)
    (hs : Snapshot.new keys m0 = .ok s) (ha : Machine.assign p fuel keys s m = .ok m') :
    (m0.myPendingState = none ∧ m0.myPendingEvent = .null) ∧
    (∃ c, m0.myCurrentState = some c ∧ m'.myCurrentState = some c) ∧
    (∀ k ∈ keys, (m'.myStates k).isSome = (m0.myStates k).isSome) ∧
    (∀ k ∈ keys, (m'.info k).myHistory = (m0.info k).myHistory) ∧
    (∀ k ∈ keys, ∀ t, (m'.info k).myHistory = some t → (m'.myStates t).isSome = true) ∧
    (∀ k ∈ keys, k ≠ .root → (m'.info k).myBox = (m0.info k).myBox) ∧
    m'.myPendingState = none ∧ m'.myPendingEvent = .null := by
  obtain ⟨hp0, he0, c, s1, hc0, hcopy1, hs1⟩ := snapshot_ok hs
  obtain ⟨m1, m2, c', _, hcopy2, hsc, hm2c, hp2, he2, _, hm'⟩ := assign_spec ha
  have hsm : s.myStates = s1.myStates := by rw [hs1]
  obtain ⟨_, x1, x2, x3, _, _⟩ :=
    copy_spec hnd (fun k _ => (rfl : (MachineBase.allocate ({} : MachineBase β ε)).myStates k
      = none)) hcopy1
  obtain ⟨_, _, fnone, _⟩ := free_spec keys m1
  rw [hsm] at hcopy2
  obtain ⟨_, y1, y2, y3, _, y5⟩ := copy_spec hnd fnone hcopy2
  have hms : ∀ k, (m'.myStates k) = m2.myStates k := by intro k; rw [hm']
  have hmi : ∀ k, m'.info k = m2.info k := by intro k; rw [hm']; rfl
  have hcc : c' = c := by
    rw [hs1] at hsc
    simp only at hsc
    cases hx : s1.myStates c with
    | none => rw [hx] at hsc; cases hsc
    | some i =>
      rw [hx] at hsc
      simp only [Option.map, Option.some.injEq] at hsc
      exact hsc.symm
  refine ⟨⟨hp0, he0⟩, ⟨c, hc0, by rw [hm', hcc]⟩, ?_, ?_, ?_, ?_, by rw [hm']; exact hp2,
    by rw [hm']; exact he2⟩
  · intro k hk
    rw [hms, y1 k hk, x1 k hk]
  · intro k hk
    rw [hmi, y2 k hk]
    exact x2 k hk
  · intro k hk t ht
    rw [hms]
    rw [hmi, y2 k hk] at ht
    exact y5 k hk t ht
  · intro k hk hne
    rw [hmi, y3 k hk hne]
    exact x3 k hk hne

/-- Witness for C21: the test's machine, captured in `StateCAA` and restored when it has
gone on to `StateAAA`. -/
theorem snapshot_restore_state_witness :
    ((Transitions.driven [Transitions.StateC]).myPendingState = none ∧
      (Transitions.driven [Transitions.StateC]).myPendingEvent = .null) ∧
    (∃ c, (Transitions.driven [Transitions.StateC]).myCurrentState = some c ∧
      (Transitions.restored [Transitions.StateC]
        [Transitions.StateC, Transitions.StateAAA]).myCurrentState = some c) ∧
    (∀ k ∈ Transitions.keys,
      ((Transitions.restored [Transitions.StateC]
        [Transitions.StateC, Transitions.StateAAA]).myStates k).isSome =
      ((Transitions.driven [Transitions.StateC]).myStates k).isSome) ∧
    (∀ k ∈ Transitions.keys,
      ((Transitions.restored [Transitions.StateC]
        [Transitions.StateC, Transitions.StateAAA]).info k).myHistory =
      ((Transitions.driven [Transitions.StateC]).info k).myHistory) ∧
    (∀ k ∈ Transitions.keys, ∀ t,
      ((Transitions.restored [Transitions.StateC]
        [Transitions.StateC, Transitions.StateAAA]).info k).myHistory = some t →
      ((Transitions.restored [Transitions.StateC]
        [Transitions.StateC, Transitions.StateAAA]).myStates t).isSome = true) ∧
    (∀ k ∈ Transitions.keys, k ≠ .root →
      ((Transitions.restored [Transitions.StateC]
        [Transitions.StateC, Transitions.StateAAA]).info k).myBox =
      ((Transitions.driven [Transitions.StateC]).info k).myBox) ∧
    (Transitions.restored [Transitions.StateC]
      [Transitions.StateC, Transitions.StateAAA]).myPendingState = none ∧
    (Transitions.restored [Transitions.StateC]
      [Transitions.StateC, Transitions.StateAAA]).myPendingEvent = .null :=
  snapshot_restore_state Transitions.prog 8 Transitions.keys
    (Transitions.driven [Transitions.StateC]) (Transitions.snapshot [Transitions.StateC])
    (Transitions.driven [Transitions.StateC, Transitions.StateAAA])
    (Transitions.restored [Transitions.StateC] [Transitions.StateC, Transitions.StateAAA])
    (by decide) (by rfl) (by rfl)

/-! ## What restoring a snapshot invokes -/

theorem virtualDeleteBox_boxLog (p : Program β ε) (s : StateId) (m : MachineBase β ε) :
    ∃ l, (StateBase._deleteBox p s m).boxLog = m.boxLog ++ l ∧
      ∀ a ∈ l, a = BoxAction.deleted s := by
  cases s with
  | root => exact ⟨[], by simp [StateBase._deleteBox], by simp⟩
  | sub super tag =>
    simp only [StateBase._deleteBox]
    split
    · exact ⟨[], by simp, by simp⟩
    · simp only [StateInfo.deleteBox]
      cases hb : (m.info (.sub super tag)).myBox with
      | none => exact ⟨[], by simp, by simp⟩
      | some b => exact ⟨[.deleted (.sub super tag)], rfl, by simp⟩

/-- The exit walk constructs no box: its box log entries are destructor calls. -/
theorem exit_boxLog (p : Program β ε) (next : StateId) :
    ∀ (s : StateId) (m m' : MachineBase β ε), StateInfo.exit p next s m = .ok m' →
      ∃ l, m'.boxLog = m.boxLog ++ l ∧ ∀ a ∈ l, ∃ x, a = BoxAction.deleted x := by
  intro s
  induction s with
  | root =>
    intro m m' h
    cases h
    exact ⟨[], by simp, by simp⟩
  | sub super tag ih =>
    intro m m' h
    simp only [StateInfo.exit] at h
    split at h
    · cases h1 : runCmds (p.exit (.sub super tag) (m.log (.exit (.sub super tag))))
          (m.log (.exit (.sub super tag))) with
      | error e => rw [h1] at h; cases h
      | ok m2 =>
        rw [h1] at h
        obtain ⟨l1, e1, a1⟩ := virtualDeleteBox_boxLog p (.sub super tag) m2
        obtain ⟨l2, e2, a2⟩ := ih _ _ h
        refine ⟨l1 ++ l2, ?_, ?_⟩
        · rw [e2, e1, (cmdFrame_runCmds h1).boxLog, List.append_assoc]
          rfl
        · intro a ha
          rcases List.mem_append.mp ha with hh | hh
          · exact ⟨_, a1 a hh⟩
          · exact a2 a hh
    · cases h
      exact ⟨[], by simp, by simp⟩

/-- The transition to Root constructs no box. -/
theorem transition_to_root_boxLog {p : Program β ε} {m m' : MachineBase β ε} {c : StateId}
    (hc : m.myCurrentState = some c) (hp : m.myPendingState = some .root)
    (h : m.transition p = .ok m') :
    ∃ l, m'.boxLog = m.boxLog ++ l ∧ ∀ a ∈ l, ∃ x, a = BoxAction.deleted x := by
  obtain ⟨m1, m2, history, h1, h2, h3⟩ := transition_ok h
  have e1 := exitPhase_spec hc hp h1
  have e2 := entryPhase_spec e1.current e1.pending e1.eventSet h2
  have e3 := initPhase_spec e2.current h3
  obtain ⟨me, hme, hm1⟩ := exitPhase_ok hc hp h1
  obtain ⟨l, el, al⟩ := exit_boxLog p .root c _ _ hme
  obtain ⟨mb, m3, hen, b1, _, _, _, _, b2, _⟩ := entryPhase_boxLog e1.current e1.pending h2
  simp only [StateInfo.entry] at hen
  cases hen
  obtain ⟨l3, el3, al3⟩ := e3.boxes.boxLog
  have hl3 : l3 = [] := by
    cases l3 with
    | nil => rfl
    | cons a rest =>
      have := al3 a (List.mem_cons_self a rest)
      simp at this
  refine ⟨l, ?_, al⟩
  rw [el3, hl3, List.append_nil, b2, b1, hm1, (historyOnly_setHistorySuper p c c me).boxLog, el,
    (setDummyEvent_walk m).2.1]

/-- What `shutdown()` invokes: the exit actions of the active states, innermost first,
and the empty init of Root; it constructs no box. -/
theorem shutdown_actions {p : Program β ε} {fuel : Nat} {m m' : MachineBase β ε}
    {c : StateId} (hc : m.myCurrentState = some c) (hp : m.myPendingState = none)
    (he : m.myPendingEvent = .null) (hr : (m.info .root).myHistory = none)
    (h : m.shutdown p fuel = .ok m') :
    m'.trace = m.trace ++ (pathUp c .root).map Action.exit ++ [Action.init .root] ∧
    ∃ l, m'.boxLog = m.boxLog ++ l ∧ ∀ a ∈ l, ∃ x, a = BoxAction.deleted x := by
  refine ⟨(shutdown_spec hc hp he hr h).1, ?_⟩
  obtain ⟨ms, m1, s1, s2, s3, s4, s5, s6, hra, hm'⟩ := shutdown_ok hp h
  have hc1 : ms.myCurrentState = some c := by rw [s1, hc]
  unfold MachineBase.rattleOn at hra
  rw [hc1] at hra
  simp only at hra
  obtain ⟨hl, hpn, hen⟩ := settle_pending_null hc1 s2 (by rw [s3, he]) hra
  obtain ⟨n, mt, _, ht, hl2⟩ := transitionLoop_some s2 hl
  obtain ⟨t1, _, t3, _⟩ := transition_to_root hc1 s2 (by rw [s6, hr]) ht
  rw [transitionLoop_none t3] at hl2
  cases hl2
  obtain ⟨l, el, al⟩ := transition_to_root_boxLog hc1 s2 ht
  subst hm'
  exact ⟨l, by show m1.boxLog = _; rw [el, s5], al⟩

/-- C22: the code does not do what the claim and the comment of the `Snapshot` class say.
With the `_shutdown` and `_restore` of `_StateBase`, which a state class has unless it
overrides them, `m = s` starts with `myCurrentState->shutdown()`, which shuts the
overwritten machine down: the restore invokes the exit actions of the states that were
active in the overwritten machine, innermost first, and then the empty init of Root; for
every machine that rests in a state `c0` the exit action of `c0` is among them.  Nothing
else is invoked (no entry action, no exit action of the restored state), the only box
log entries are destructor calls, and the machine then is in the snapshot's current
state. -/
theorem restore_invocations (p : Program β ε) (fuel : Nat) (keys : List StateId)
    (s m m' : MachineBase β ε) (c0 : StateId) (hc : m.myCurrentState = some c0)
    (hr : (m.info .root).myHistory = none)
    (ha : Machine.assign p fuel keys s m = .ok m') :
    m'.trace = m.trace ++ (pathUp c0 .root).map Action.exit ++ [Action.init .root] ∧
    (c0 ≠ .root → Action.exit c0 ∈ m'.trace.drop m.trace.length) ∧
    (∀ mm, StateBase.init p .root mm = []) ∧
    (∀ x, Action.entry x ∉ m'.trace.drop m.trace.length) ∧
    (∀ x, Action.exit x ∈ m'.trace.drop m.trace.length → active c0 x = true) ∧
    (∃ l, m'.boxLog = m.boxLog ++ l ∧ ∀ a ∈ l, ∃ x, a = BoxAction.deleted x) ∧
    m'.myCurrentState = s.myCurrentState := by
  obtain ⟨hp, he, _⟩ := assign_ok ha
  obtain ⟨m1, m2, c, h1, _, hsc, _, _, _, ⟨htr, hbl⟩, hm'⟩ := assign_spec ha
  obtain ⟨t1, l1, e1, a1⟩ := shutdown_actions hc hp he hr h1
  obtain ⟨_, ⟨l2, e2, a2⟩, _⟩ := free_spec keys m1
  have htrace : m'.trace =
      m.trace ++ ((pathUp c0 .root).map Action.exit ++ [Action.init .root]) := by
    rw [hm']
    show m2.trace = _
    rw [htr, t1, List.append_assoc]
  refine ⟨by rw [htrace, List.append_assoc], ?_, fun _ => rfl, ?_, ?_, ?_,
    by rw [hm', hsc]⟩
  · intro hne
    rw [htrace, List.drop_left]
    exact List.mem_append_left _
      (List.mem_map.mpr ⟨c0, (mem_pathUp_root_iff c0 c0).mpr ⟨hne, Or.inl rfl⟩, rfl⟩)
  · intro x hx
    rw [htrace, List.drop_left] at hx
    simp at hx
  · intro x hx
    rw [htrace, List.drop_left] at hx
    simp only [List.mem_append, List.mem_map, List.mem_singleton] at hx
    rcases hx with ⟨y, hy, hxy⟩ | hx
    · have hyx : y = x := by injection hxy
      subst hyx
      exact (active_iff c0 y).mpr ((mem_pathUp_root_iff c0 y).mp hy)
    · cases hx
  · refine ⟨l1 ++ l2, ?_, ?_⟩
    · rw [hm']
      show m2.boxLog = _
      rw [hbl, e2, e1, List.append_assoc]
    · intro a ha'
      rcases List.mem_append.mp ha' with hh | hh
      · exact a1 a hh
      · exact a2 a hh

/-- Witness for C22, the failing input: the test's machine, captured in `StateCAA` and
restored by `m = s` when it rests in `StateAAA`.  The restore invokes the exit actions of
`StateAAA`, `StateAA`, `StateA` and `Top` (the test reads the restored box of `Top`
afterwards, in which nothing is registered); the persistent box of `StateAAA` is
destroyed when the `_StateInfo` objects are freed. -/
theorem restore_invocations_witness :
    (Transitions.driven [Transitions.StateC, Transitions.StateAAA]).myCurrentState =
      some Transitions.StateAAA ∧
    ((Transitions.driven [Transitions.StateC, Transitions.StateAAA]).info
      .root).myHistory = none ∧
    Machine.assign Transitions.prog 8 Transitions.keys
        (Transitions.snapshot [Transitions.StateC])
        (Transitions.driven [Transitions.StateC, Transitions.StateAAA]) =
      .ok (Transitions.restored [Transitions.StateC]
        [Transitions.StateC, Transitions.StateAAA]) ∧
    ((Transitions.restored [Transitions.StateC]
        [Transitions.StateC, Transitions.StateAAA]).trace =
      (Transitions.driven [Transitions.StateC, Transitions.StateAAA]).trace ++
        (pathUp Transitions.StateAAA .root).map Action.exit ++ [Action.init .root] ∧
      (Transitions.StateAAA ≠ .root →
        Action.exit Transitions.StateAAA ∈ (Transitions.restored [Transitions.StateC]
          [Transitions.StateC, Transitions.StateAAA]).trace.drop
            (Transitions.driven [Transitions.StateC, Transitions.StateAAA]).trace.length) ∧
      (∀ mm, StateBase.init Transitions.prog .root mm = []) ∧
      (∀ x, Action.entry x ∉ (Transitions.restored [Transitions.StateC]
        [Transitions.StateC, Transitions.StateAAA]).trace.drop
          (Transitions.driven [Transitions.StateC, Transitions.StateAAA]).trace.length) ∧
      (∀ x, Action.exit x ∈ (Transitions.restored [Transitions.StateC]
        [Transitions.StateC, Transitions.StateAAA]).trace.drop
          (Transitions.driven [Transitions.StateC, Transitions.StateAAA]).trace.length →
        active Transitions.StateAAA x = true) ∧
      (∃ l, (Transitions.restored [Transitions.StateC]
          [Transitions.StateC, Transitions.StateAAA]).boxLog =
        (Transitions.driven [Transitions.StateC, Transitions.StateAAA]).boxLog ++ l ∧
        ∀ a ∈ l, ∃ x, a = BoxAction.deleted x) ∧
      (Transitions.restored [Transitions.StateC]
        [Transitions.StateC, Transitions.StateAAA]).myCurrentState =
      (Transitions.snapshot [Transitions.StateC]).myCurrentState) ∧
    (Transitions.restored [Transitions.StateC]
        [Transitions.StateC, Transitions.StateAAA]).trace =
      (Transitions.driven [Transitions.StateC, Transitions.StateAAA]).trace ++
        [.exit Transitions.StateAAA, .exit Transitions.StateAA, .exit Transitions.StateA,
          .exit Transitions.Top, .init .root] ∧
    (Transitions.restored [Transitions.StateC]
        [Transitions.StateC, Transitions.StateAAA]).boxLog =
      (Transitions.driven [Transitions.StateC, Transitions.StateAAA]).boxLog ++
        [.deleted Transitions.StateAA, .deleted Transitions.StateA, .deleted Transitions.Top,
          .deleted Transitions.StateAAA] ∧
    (Transitions.restored [Transitions.StateC]
      [Transitions.StateC, Transitions.StateAAA]).myCurrentState =
        some Transitions.StateCAA :=
  ⟨by decide, by decide, by rfl,
    restore_invocations Transitions.prog 8 Transitions.keys
      (Transitions.snapshot [Transitions.StateC])
      (Transitions.driven [Transitions.StateC, Transitions.StateAAA])
      (Transitions.restored [Transitions.StateC] [Transitions.StateC, Transitions.StateAAA])
      Transitions.StateAAA (by decide) (by decide) (by rfl),
    by decide, by decide, by decide⟩


/-! ## Nothing is pending when `rattleOn` returns -/

theorem pendingClear_ofKept {m m' : MachineBase β ε} (hk : PendingKept m m')
    (h : PendingClear m) : PendingClear m' := by
  intro hp
  rw [hk.pendingState] at hp
  rw [hk.pendingBox, hk.pendingHistory]
  exact h hp

theorem pendingClear_ofSome {m : MachineBase β ε} {t : StateId}
    (h : m.myPendingState = some t) : PendingClear m := by
  intro hp
  rw [h] at hp
  cases hp

theorem cmd_schedules_target (c : Cmd β ε) (hs : c.schedules = true) :
    ∃ t, c.target = some t := by
  cases c with
  | setState s box => exact ⟨s, rfl⟩
  | setStateDirect s box => exact ⟨s, rfl⟩
  | setStateAlias state => exact ⟨state.myCharacter, rfl⟩
  | dispatch e => cases hs
  | clearHistory s => cases hs
  | clearHistoryDeep s => cases hs
  | modifyBox s f => cases hs

theorem pendingClear_run {c : Cmd β ε} {m m' : MachineBase β ε} (h : c.run m = .ok m')
    (hm : PendingClear m) : PendingClear m' := by
  cases hs : c.schedules with
  | false => exact pendingClear_ofKept (pendingKept_run hs h) hm
  | true =>
    obtain ⟨t, ht⟩ := cmd_schedules_target c hs
    exact pendingClear_ofSome (runCmds_targets [c] m m' (by simp [runCmds, h, Except.bind])
      c (List.mem_singleton.mpr rfl) t ht)

theorem pendingClear_runCmds : ∀ (cs : List (Cmd β ε)) (m m' : MachineBase β ε),
    runCmds cs m = .ok m' → PendingClear m → PendingClear m' := by
  intro cs
  induction cs with
  | nil => intro m m' h hm; cases h; exact hm
  | cons c cs ih =>
    intro m m' h hm
    simp only [runCmds] at h
    cases h1 : c.run m with
    | error e => rw [h1] at h; cases h
    | ok m1 =>
      rw [h1] at h
      exact ih m1 m' h (pendingClear_run h1 hm)

/-- After one transition nothing is left over from the request: either init has made a
new request, or target, box and history flag are clear. -/
theorem pendingClear_transition {p : Program β ε} {m m' : MachineBase β ε}
    (h : m.transition p = .ok m') : PendingClear m' := by
  obtain ⟨m1, m2, history, h1, h2, h3⟩ := transition_ok h
  have hc2 : PendingClear m2 := by
    cases hcur : m1.myCurrentState with
    | none => simp [MachineBase.entryPhase, hcur] at h2
    | some previous =>
      cases hpend : m1.myPendingState with
      | none => simp [MachineBase.entryPhase, hcur, hpend] at h2
      | some pending =>
        obtain ⟨mb, m3, _, _, h3', _⟩ := entryPhase_ok hcur hpend h2
        rw [h3']
        intro _
        exact ⟨rfl, rfl⟩
  cases hcur2 : m2.myCurrentState with
  | none => simp [MachineBase.initPhase, hcur2] at h3
  | some T =>
    obtain ⟨mi, hi, _, hm'⟩ := initPhase_ok hcur2 h3
    obtain ⟨_, _, _, c4, c5, c6, _⟩ := clearDummyEvent_walk mi
    have hci : PendingClear mi := by
      rcases init_ok hi with ⟨k, mp, _, _, hs, rfl⟩ | ⟨mu, _, hr, rfl⟩
      · refine pendingClear_ofKept
          (pendingKept_ofHistoryOnly (historyOnly_setHistory T none mp)) ?_
        unfold MachineBase.setPendingState at hs
        split at hs
        · cases hs
          exact pendingClear_ofSome rfl
        · cases hs
      · refine pendingClear_ofKept
          (pendingKept_ofHistoryOnly (historyOnly_setHistory T none mu)) ?_
        exact pendingClear_runCmds _ _ _ hr (fun hp => hc2 hp)
    rw [hm']
    intro hp
    rw [c4] at hp
    rw [c5, c6]
    exact hci hp

theorem pendingClear_transitionLoop {p : Program β ε} :
    ∀ (fuel : Nat) (m m' : MachineBase β ε), m.transitionLoop p fuel = .ok m' →
      PendingClear m → PendingClear m' := by
  intro fuel
  induction fuel with
  | zero =>
    intro m m' h hm
    unfold MachineBase.transitionLoop at h
    split at h
    · cases h; exact hm
    · cases h
  | succ n ih =>
    intro m m' h hm
    unfold MachineBase.transitionLoop at h
    split at h
    · cases h; exact hm
    · cases h1 : m.transition p with
      | error e => rw [h1] at h; cases h
      | ok m1 =>
        rw [h1] at h
        exact ih m1 m' h (pendingClear_transition h1)

theorem pendingClear_dispatchEvent {p : Program β ε} {e : ε} {m m' : MachineBase β ε}
    (h : m.dispatchEvent p e = .ok m') (hm : PendingClear m) : PendingClear m' := by
  obtain ⟨c, _, _, hr⟩ := dispatchEvent_ok h
  exact pendingClear_runCmds _ _ _ hr hm

theorem pendingClear_settle {p : Program β ε} :
    ∀ (fuel : Nat) (m m' : MachineBase β ε), m.settle p fuel = .ok m' →
      PendingClear m → PendingClear m' := by
  intro fuel
  induction fuel with
  | zero =>
    intro m m' h hm
    unfold MachineBase.settle at h
    split at h
    · cases h; exact hm
    · cases h
  | succ n ih =>
    intro m m' h hm
    unfold MachineBase.settle at h
    split at h
    · cases h; exact hm
    · cases h1 : m.transitionLoop p (n + 1) with
      | error e => rw [h1] at h; cases h
      | ok m1 =>
        rw [h1] at h
        simp only [Except.bind] at h
        have hm1 := pendingClear_transitionLoop _ _ _ h1 hm
        cases hpe : m1.myPendingEvent with
        | null =>
          simp only [hpe] at h
          exact ih _ _ h hm1
        | dummy =>
          simp only [hpe] at h
          cases h
        | event e =>
          simp only [hpe] at h
          cases h2 : MachineBase.dispatchEvent p e { m1 with myPendingEvent := .null } with
          | error f => rw [h2] at h; cases h
          | ok m2 =>
            rw [h2] at h
            exact ih _ _ h (pendingClear_dispatchEvent h2 (fun hp => hm1 hp))

/-- When `rattleOn` returns, the machine is quiescent. -/
theorem rattleOn_quiescent {p : Program β ε} {fuel : Nat} {m m' : MachineBase β ε}
    (hm : PendingClear m) (h : m.rattleOn p fuel = .ok m') : Quiescent m' := by
  unfold MachineBase.rattleOn at h
  split at h
  · cases h
  · obtain ⟨q1, q2⟩ := settle_quiescent _ _ _ h
    obtain ⟨q3, q4⟩ := pendingClear_settle _ _ _ h hm q1
    exact ⟨q1, q3, q4, q2⟩

theorem quiescent_pendingClear {m : MachineBase β ε} (h : Quiescent m) : PendingClear m :=
  fun _ => ⟨h.2.1, h.2.2.1⟩

theorem setState_quiescent {p : Program β ε} {fuel : Nat} {info : StateId} {history : Bool}
    {box : Option β} {m m' : MachineBase β ε}
    (h : MachineBase.setState p fuel info history box m = .ok m') : Quiescent m' := by
  unfold MachineBase.setState at h
  cases h1 : m.setPendingState info history box with
  | error e => rw [h1] at h; cases h
  | ok m1 =>
    rw [h1] at h
    refine rattleOn_quiescent ?_ h
    unfold MachineBase.setPendingState at h1
    split at h1
    · cases h1
      exact pendingClear_ofSome rfl
    · cases h1

/-- The part of `_StateInfo::copy` that is kept whatever the `_StateInfo` held before:
the machine's own fields and the ghost logs. -/
theorem copy_fields {k : StateId} {o : StateInfo β} {m m' : MachineBase β ε}
    (h : StateInfo.copy k o m = .ok m') :
    m'.myCurrentState = m.myCurrentState ∧ m'.myPendingState = m.myPendingState ∧
    m'.myPendingBox = m.myPendingBox ∧ m'.myPendingHistory = m.myPendingHistory ∧
    m'.myPendingEvent = m.myPendingEvent ∧ m'.trace = m.trace ∧ m'.boxLog = m.boxLog := by
  unfold StateInfo.copy at h
  have hbox : ∀ (a b : MachineBase β ε),
      (match o.myBox with
        | some box => StateInfo.cloneBox k box a
        | none => Except.ok a) = .ok b →
      b.myCurrentState = a.myCurrentState ∧ b.myPendingState = a.myPendingState ∧
      b.myPendingBox = a.myPendingBox ∧ b.myPendingHistory = a.myPendingHistory ∧
      b.myPendingEvent = a.myPendingEvent ∧ b.trace = a.trace ∧ b.boxLog = a.boxLog := by
    intro a b hab
    cases hb : o.myBox with
    | none => rw [hb] at hab; cases hab; exact ⟨rfl, rfl, rfl, rfl, rfl, rfl, rfl⟩
    | some box =>
      rw [hb] at hab
      simp only [StateInfo.cloneBox] at hab
      split at hab
      · cases hab; exact ⟨rfl, rfl, rfl, rfl, rfl, rfl, rfl⟩
      · split at hab
        · cases hab
        · cases hab; exact ⟨rfl, rfl, rfl, rfl, rfl, rfl, rfl⟩
  cases hh : o.myHistory with
  | none =>
    rw [hh] at h
    exact hbox m m' h
  | some t =>
    rw [hh] at h
    simp only at h
    cases ht : m.myStates t with
    | none => rw [ht] at h; cases h
    | some it =>
      rw [ht] at h
      obtain ⟨a1, a2, a3, a4, a5, a6, a7⟩ := hbox (StateInfo.setHistory k (some t) m) m' h
      exact ⟨a1, a2, a3, a4, a5, a6, a7⟩

theorem copyStates_fields (other : StateId → Option (StateInfo β)) :
    ∀ (keys : List StateId) (m m' : MachineBase β ε), m.copyStates other keys = .ok m' →
      m'.myCurrentState = m.myCurrentState ∧ m'.myPendingState = m.myPendingState ∧
      m'.myPendingBox = m.myPendingBox ∧ m'.myPendingHistory = m.myPendingHistory ∧
      m'.myPendingEvent = m.myPendingEvent ∧ m'.trace = m.trace ∧ m'.boxLog = m.boxLog := by
  intro keys
  induction keys with
  | nil => intro m m' h; cases h; exact ⟨rfl, rfl, rfl, rfl, rfl, rfl, rfl⟩
  | cons k ks ih =>
    intro m m' h
    simp only [MachineBase.copyStates] at h
    cases hk : m.myStates k with
    | none =>
      rw [hk] at h
      exact ih m m' h
    | some i =>
      rw [hk] at h
      simp only at h
      cases ho : other k with
      | none => rw [ho] at h; cases h
      | some o =>
        rw [ho] at h
        simp only at h
        cases hcp : StateInfo.copy k o m with
        | error e => rw [hcp] at h; cases h
        | ok m1 =>
          rw [hcp] at h
          obtain ⟨a1, a2, a3, a4, a5, a6, a7⟩ := copy_fields hcp
          obtain ⟨b1, b2, b3, b4, b5, b6, b7⟩ := ih m1 m' h
          exact ⟨b1.trans a1, b2.trans a2, b3.trans a3, b4.trans a4, b5.trans a5,
            b6.trans a6, b7.trans a7⟩

/-- What `copy` leaves alone: the machine's own fields and the ghost logs. -/
theorem copyAll_fields {keys : List StateId} {other : StateId → Option (StateInfo β)}
    {m m' : MachineBase β ε} (h : m.copy keys other = .ok m') :
    m'.myCurrentState = m.myCurrentState ∧ m'.myPendingState = m.myPendingState ∧
    m'.myPendingBox = m.myPendingBox ∧ m'.myPendingHistory = m.myPendingHistory ∧
    m'.myPendingEvent = m.myPendingEvent ∧ m'.trace = m.trace ∧ m'.boxLog = m.boxLog := by
  unfold MachineBase.copy at h
  cases h1 : m.createClones other keys with
  | error e => rw [h1] at h; cases h
  | ok m1 =>
    rw [h1] at h
    obtain ⟨c, _⟩ := createClones_ok other keys m m1 h1
    obtain ⟨b1, b2, b3, b4, b5, b6, b7⟩ := copyStates_fields other keys m1 m' h
    exact ⟨b1.trans c.current, b2.trans c.pendingState, b3.trans c.pendingBox,
      b4.trans c.pendingHistory, b5.trans c.event, b6.trans c.trace, b7.trans c.boxLog⟩

/-- After `shutdown()` the machine is quiescent. -/
theorem shutdown_clear {p : Program β ε} {fuel : Nat} {m m1 : MachineBase β ε}
    (h : m.shutdown p fuel = .ok m1) : Quiescent m1 := by
  unfold MachineBase.shutdown at h
  split at h
  · cases h
  · cases h1 : MachineBase.setState p fuel .root false none (Link._getInfo .root m) with
    | error e => rw [h1] at h; cases h
    | ok mr =>
      rw [h1] at h
      cases h
      obtain ⟨q1, q2, q3, q4⟩ := setState_quiescent h1
      exact ⟨q1, q2, q3, q4⟩

/-- After `m = s` the machine is quiescent. -/
theorem assign_quiescent {p : Program β ε} {fuel : Nat} {keys : List StateId}
    {s m m' : MachineBase β ε} (h : Machine.assign p fuel keys s m = .ok m') :
    Quiescent m' := by
  obtain ⟨m1, m2, c, h1, h2, _, _, _, _, _, hm'⟩ := assign_spec h
  obtain ⟨q1, q2, q3, q4⟩ := shutdown_clear h1
  obtain ⟨⟨_, f2, f3, f4, f5, _⟩, _⟩ := free_spec keys m1
  obtain ⟨_, b2, b3, b4, b5, _, _⟩ := copyAll_fields h2
  rw [hm']
  exact ⟨by show m2.myPendingState = none; rw [b2, f2, q1],
    by show m2.myPendingBox = none; rw [b3, f3, q2],
    by show m2.myPendingHistory = false; rw [b4, f4, q3],
    by show m2.myPendingEvent = .null; rw [b5, f5, q4]⟩

theorem new_quiescent {p : Program β ε} {fuel : Nat} {T : StateId} {box : Option β}
    {m : MachineBase β ε} (h : Machine.new p fuel T box = .ok m) : Quiescent m := by
  unfold Machine.new MachineBase.start at h
  exact setState_quiescent h

theorem setStateAlias_quiescent {p : Program β ε} {fuel : Nat} {state : StateAlias β}
    {history : Bool} {m : MachineBase β ε} {r : MachineBase β ε × StateAlias β}
    (h : m.setStateAlias p fuel state history = .ok r) : Quiescent r.1 := by
  unfold MachineBase.setStateAlias at h
  simp only at h
  cases h1 : (state.getInfo m).setPendingState state.myCharacter history state.takeBox.1 with
  | error e => rw [h1] at h; cases h
  | ok m1 =>
    rw [h1] at h
    simp only [Except.bind] at h
    cases h2 : m1.rattleOn p fuel with
    | error e => rw [h2] at h; cases h
    | ok m2 =>
      rw [h2] at h
      cases h
      refine rattleOn_quiescent ?_ h2
      unfold MachineBase.setPendingState at h1
      split at h1
      · cases h1
        exact pendingClear_ofSome rfl
      · cases h1

theorem apply_pendingClear {p : Program β ε} {fuel : Nat} {o : Op β ε}
    {m m' : MachineBase β ε} (h : Machine.apply p fuel o m = .ok m')
    (hm : PendingClear m) : PendingClear m' := by
  cases o with
  | call c => exact pendingClear_run h hm
  | rattleOn => exact quiescent_pendingClear (rattleOn_quiescent hm h)
  | dispatch e =>
    simp only [Machine.apply, Machine.dispatch] at h
    cases h1 : m.dispatchEvent p e with
    | error f => rw [h1] at h; cases h
    | ok m1 =>
      rw [h1] at h
      exact quiescent_pendingClear
        (rattleOn_quiescent (pendingClear_dispatchEvent h1 hm) h)
  | arrow e =>
    simp only [Machine.apply, Machine.arrow] at h
    split at h
    · cases h
    · cases h
    · cases h1 : m.dispatchEvent p e with
      | error f => rw [h1] at h; cases h
      | ok m1 =>
        rw [h1] at h
        exact quiescent_pendingClear
          (rattleOn_quiescent (pendingClear_dispatchEvent h1 hm) h)
  | setState state history =>
    simp only [Machine.apply] at h
    cases h1 : m.setStateAlias p fuel state history with
    | error f => rw [h1] at h; cases h
    | ok r =>
      rw [h1] at h
      cases h
      exact quiescent_pendingClear (setStateAlias_quiescent h1)

/-- On every machine reached by a run, a pending box or a set history flag comes with a
pending target. -/
theorem run_pendingClear {p : Program β ε} {fuel : Nat} {T : StateId} {box : Option β}
    {ops : List (Op β ε)} {m : MachineBase β ε}
    (h : Machine.run p fuel T box ops = .ok m) : PendingClear m := by
  unfold Machine.run at h
  cases h1 : Machine.new p fuel T box with
  | error f => rw [h1] at h; cases h
  | ok m1 =>
    rw [h1] at h
    simp only [Except.bind] at h
    have key : ∀ (os : List (Op β ε)) (a b : MachineBase β ε),
        Machine.applyAll p fuel os a = .ok b → PendingClear a → PendingClear b := by
      intro os
      induction os with
      | nil => intro a b hab ha; cases hab; exact ha
      | cons o os ih =>
        intro a b hab ha
        simp only [Machine.applyAll] at hab
        cases h2 : Machine.apply p fuel o a with
        | error f => rw [h2] at hab; cases hab
        | ok a1 =>
          rw [h2] at hab
          exact ih a1 b hab (apply_pendingClear h2 ha)
    exact key ops m1 m h (quiescent_pendingClear (new_quiescent h1))

/-- C29: whenever `rattleOn` returns, the machine has no pending transition, no pending
box and no pending event (and the pending history flag is clear); a pending box without
a pending transition does not occur on a machine reached by a run.  The same holds after
the construction of a machine, after `Machine::dispatch`, after an event handler called
through `operator->`, after `setState`, and after the restore from a snapshot. -/
theorem quiescent_when_settled (p : Program β ε) (fuel : Nat) (m m' : MachineBase β ε)
    (hm : m.myPendingState = none → m.myPendingBox = none ∧ m.myPendingHistory = false)
    (h : m.rattleOn p fuel = .ok m') :
    (m'.myPendingState = none ∧ m'.myPendingBox = none ∧ m'.myPendingHistory = false ∧
      m'.myPendingEvent = .null) ∧
    (∀ (T : StateId) (box : Option β) (ops : List (Op β ε)) (mr : MachineBase β ε),
      Machine.run p fuel T box ops = .ok mr →
      mr.myPendingState = none → mr.myPendingBox = none ∧ mr.myPendingHistory = false) ∧
    (∀ (T : StateId) (box : Option β) (mn : MachineBase β ε),
      Machine.new p fuel T box = .ok mn → Quiescent mn) ∧
    (∀ (state : StateAlias β) (r : MachineBase β ε × StateAlias β),
      Machine.newAlias p fuel state = .ok r → Quiescent r.1) ∧
    (∀ (e : ε) (md md' : MachineBase β ε), PendingClear md →
      Machine.dispatch p fuel e md = .ok md' → Quiescent md') ∧
    (∀ (e : ε) (md md' : MachineBase β ε), PendingClear md →
      Machine.arrow p fuel e md = .ok md' → Quiescent md') ∧
    (∀ (info : StateId) (history : Bool) (box : Option β) (ms ms' : MachineBase β ε),
      MachineBase.setState p fuel info history box ms = .ok ms' → Quiescent ms') ∧
    (∀ (state : StateAlias β) (history : Bool) (ms : MachineBase β ε)
      (r : MachineBase β ε × StateAlias β),
      ms.setStateAlias p fuel state history = .ok r → Quiescent r.1) ∧
    (∀ (keys : List StateId) (s ma ma' : MachineBase β ε),
      Machine.assign p fuel keys s ma = .ok ma' → Quiescent ma') := by
  refine ⟨rattleOn_quiescent hm h, ?_, ?_, ?_, ?_, ?_, ?_, ?_, ?_⟩
  · intro T box ops mr hr
    exact run_pendingClear hr
  · intro T box mn hn
    exact new_quiescent hn
  · intro state r hr
    unfold Machine.newAlias at hr
    cases h1 : MachineBase.start p fuel state.myCharacter state.takeBox.1
        (state.getInfo {}) with
    | error e => rw [h1] at hr; cases hr
    | ok mn =>
      rw [h1] at hr
      cases hr
      unfold MachineBase.start at h1
      exact setState_quiescent h1
  · intro e md md' hmd hd
    unfold Machine.dispatch at hd
    cases h1 : md.dispatchEvent p e with
    | error f => rw [h1] at hd; cases hd
    | ok m1 =>
      rw [h1] at hd
      exact rattleOn_quiescent (pendingClear_dispatchEvent h1 hmd) hd
  · intro e md md' hmd hd
    unfold Machine.arrow at hd
    split at hd
    · cases hd
    · cases hd
    · cases h1 : md.dispatchEvent p e with
      | error f => rw [h1] at hd; cases hd
      | ok m1 =>
        rw [h1] at hd
        exact rattleOn_quiescent (pendingClear_dispatchEvent h1 hmd) hd
  · intro info history box ms ms' hs
    exact setState_quiescent hs
  · intro state history ms r hr
    exact setStateAlias_quiescent hr
  · intro keys s ma ma' ha
    exact assign_quiescent ha

/-- Witness for C29: the test's `m.dispatch(Macho::Event(&Top::event3, 3, true))` in
`StateA`: when the handler has returned, a transition and an event are pending, and
`rattleOn` settles both. -/
theorem quiescent_when_settled_witness :
    (Dispatch.handled.myPendingState = some Dispatch.StateB ∧
      Dispatch.handled.myPendingEvent = .event .event1) ∧
    Dispatch.rattled.myPendingState = none ∧ Dispatch.rattled.myPendingBox = none ∧
    Dispatch.rattled.myPendingHistory = false ∧ Dispatch.rattled.myPendingEvent = .null :=
  ⟨⟨by decide, by decide⟩,
    (quiescent_when_settled Dispatch.prog 8 Dispatch.handled Dispatch.rattled
      (fun hp => absurd hp (by decide)) (by rfl)).1⟩

/-! ## The top of the loop `while (myPendingState || myPendingEvent)` -/

/-- One iteration of the outer loop of `rattleOn`: the loop ends when nothing is
pending, and runs its body otherwise. -/
theorem settle_succ (p : Program β ε) (fuel : Nat) (m : MachineBase β ε) :
    m.settle p (fuel + 1) =
      match m.myPendingState, m.myPendingEvent with
      | none, .null => .ok m
      | _, _ => (m.outerBody p (fuel + 1)).bind (MachineBase.settle p fuel) := by
  unfold MachineBase.outerBody
  conv => lhs; unfold MachineBase.settle
  have hb : ∀ (x : Except Fault (MachineBase β ε)),
      (x.bind fun m1 =>
        (match m1.myPendingEvent with
          | .null => Except.ok m1
          | .dummy => Except.error Fault.undefined
          | .event e =>
            MachineBase.dispatchEvent p e { m1 with myPendingEvent := .null }).bind
          (MachineBase.settle p fuel)) =
      (x.bind fun m1 =>
        match m1.myPendingEvent with
        | .null => Except.ok m1
        | .dummy => Except.error Fault.undefined
        | .event e =>
          MachineBase.dispatchEvent p e { m1 with myPendingEvent := .null }).bind
        (MachineBase.settle p fuel) := by
    intro x
    cases x <;> rfl
  cases hp : m.myPendingState with
  | none =>
    cases he : m.myPendingEvent with
    | null => rfl
    | dummy => exact hb _
    | event e => exact hb _
  | some T => exact hb _

theorem setPendingState_event {m m' : MachineBase β ε} {info : StateId} {history : Bool}
    {box : Option β} (h : m.setPendingState info history box = .ok m') :
    m'.myPendingEvent = m.myPendingEvent := by
  unfold MachineBase.setPendingState at h
  split at h
  · cases h; rfl
  · cases h

theorem transitionLoop_event {p : Program β ε} {fuel : Nat} {m m1 : MachineBase β ε}
    (h : m.transitionLoop p fuel = .ok m1) :
    (∀ e, m.myPendingEvent = .event e → m1.myPendingEvent = .event e) ∧
    (m.myPendingEvent = .null → m1.myPendingEvent = .null) := by
  cases hp : m.myPendingState with
  | none =>
    rw [transitionLoop_none hp] at h
    cases h
    exact ⟨fun _ he => he, fun he => he⟩
  | some T =>
    cases hc : m.myCurrentState with
    | none =>
      obtain ⟨n, mt, _, ht, _⟩ := transitionLoop_some hp h
      obtain ⟨_, _, _, hx, _, _⟩ := transition_ok ht
      simp [MachineBase.exitPhase, hc] at hx
    | some S =>
      obtain ⟨_, _, _, _, _, _, _, _, hk, hn⟩ := transitionLoop_cascade p fuel m m1 S T hc hp h
      exact ⟨hk, hn⟩

theorem run_event {c : Cmd β ε} {m m' : MachineBase β ε} (h : c.run m = .ok m') :
    m'.myPendingEvent = m.myPendingEvent ∨ ∃ e, m'.myPendingEvent = .event e := by
  cases hne : m.myPendingEvent with
  | null =>
    cases c with
    | dispatch e =>
      simp only [Cmd.run, MachineBase.setPendingEvent, hne] at h
      cases h
      exact Or.inr ⟨e, rfl⟩
    | setState s box =>
      left
      simp only [Cmd.run, Link.setState] at h
      have hf := cmdFrame_setPendingState h
      have := setPendingState_event h
      rw [this, (getInfo_fields s m).2.2.2.2.2.2, hne]
    | setStateDirect s box =>
      left
      simp only [Cmd.run, Link.setStateDirect] at h
      have := setPendingState_event h
      rw [this, (getInfo_fields s m).2.2.2.2.2.2, hne]
    | setStateAlias state =>
      left
      simp only [Cmd.run, Link.setStateAlias, StateAlias.getInfo, StateAlias.takeBox] at h
      cases h1 : (Link._getInfo state.myCharacter m).setPendingState state.myCharacter true
          state.myBox with
      | error e => rw [h1] at h; cases h
      | ok m2 =>
        rw [h1] at h
        cases h
        have := setPendingState_event h1
        show m2.myPendingEvent = _
        rw [this, (getInfo_fields state.myCharacter m).2.2.2.2.2.2, hne]
    | clearHistory s =>
      left
      cases h
      rw [(historyOnly_clearHistory s m).event, hne]
    | clearHistoryDeep s =>
      left
      cases h
      show (Link._getInfo s m).myPendingEvent = _
      rw [(getInfo_fields s m).2.2.2.2.2.2, hne]
    | modifyBox s f =>
      left
      simp only [Cmd.run, StateInfo.modifyBox] at h
      split at h
      · cases h
        exact hne
      · cases h
  | dummy =>
    left
    rw [(cmdFrame_run h).event (by rw [hne]; simp), hne]
  | event e =>
    left
    rw [(cmdFrame_run h).event (by rw [hne]; simp), hne]

theorem runCmds_noDummy : ∀ (cs : List (Cmd β ε)) (m m' : MachineBase β ε),
    runCmds cs m = .ok m' → m.myPendingEvent ≠ .dummy → m'.myPendingEvent ≠ .dummy := by
  intro cs
  induction cs with
  | nil => intro m m' h hm; cases h; exact hm
  | cons c cs ih =>
    intro m m' h hm
    simp only [runCmds] at h
    cases h1 : c.run m with
    | error e => rw [h1] at h; cases h
    | ok m1 =>
      rw [h1] at h
      refine ih m1 m' h ?_
      rcases run_event h1 with hh | ⟨e, hh⟩
      · rw [hh]; exact hm
      · rw [hh]; simp

/-- The dummy event is not seen at the top of the outer loop: no iteration ends with
it. -/
theorem outerBody_noDummy {p : Program β ε} {fuel : Nat} {m m' : MachineBase β ε}
    (h : m.outerBody p fuel = .ok m') :
    m'.myPendingEvent ≠ .dummy := by
  unfold MachineBase.outerBody at h
  cases h1 : m.transitionLoop p fuel with
  | error e => rw [h1] at h; cases h
  | ok m1 =>
    rw [h1] at h
    simp only [Except.bind] at h
    cases hpe : m1.myPendingEvent with
    | null =>
      simp only [hpe] at h
      cases h
      rw [hpe]
      simp
    | dummy =>
      simp only [hpe] at h
      cases h
    | event e =>
      simp only [hpe] at h
      obtain ⟨c, _, _, hr⟩ := dispatchEvent_ok h
      exact runCmds_noDummy _ _ _ hr (by simp [MachineBase.log])

/-- With a transition and an event both pending at the top of the outer loop, the body
performs the transition, with the transitions that init requests, and then dispatches
the event to the state reached. -/
theorem outerBody_both {p : Program β ε} {fuel : Nat} {m : MachineBase β ε} {e : ε}
    (he : m.myPendingEvent = .event e) :
    m.outerBody p fuel =
      (m.transitionLoop p fuel).bind fun m1 =>
        MachineBase.dispatchEvent p e { m1 with myPendingEvent := .null } := by
  unfold MachineBase.outerBody
  cases h1 : m.transitionLoop p fuel with
  | error f => rfl
  | ok m1 =>
    simp only [Except.bind]
    rw [(transitionLoop_event h1).1 e he]

/-- C30, as stated, fails: in the test's `m.dispatch(Macho::Event(&Top::event3, 3, true))`
the handler `StateA::event3` schedules the transition to `StateB` and queues `event1`, so
that a transition and an event are both pending at the top of the first iteration of the
outer loop of `rattleOn`. -/
theorem both_pending_counterexample :
    Dispatch.inStateA.dispatchEvent Dispatch.prog .event3 = .ok Dispatch.handled ∧
    Dispatch.handled.myPendingState = some Dispatch.StateB ∧
    Dispatch.handled.myPendingEvent = .event .event1 ∧
    Dispatch.handled.rattleOn Dispatch.prog 8 = Dispatch.handled.settle Dispatch.prog 8 ∧
    Dispatch.handled.settle Dispatch.prog 8 =
      (Dispatch.handled.outerBody Dispatch.prog 8).bind (MachineBase.settle Dispatch.prog 7) ∧
    Dispatch.handled.rattleOn Dispatch.prog 8 = .ok Dispatch.rattled :=
  ⟨by rfl, by decide, by decide, by rfl, by rfl, by rfl⟩

/-- C30, amended: at the top of an iteration of the outer loop of `rattleOn` a
transition may be pending, an event may be pending, both, or neither of them, and the
loop ends exactly if neither is.  A transition and an event can be pending together (a
handler may schedule the one and queue the other): the body then performs the transition
and the transitions that init requests, which leave the event queued, and dispatches the
event afterwards, to the state reached.  The dummy event of the inner loop is never
pending at the top of an iteration. -/
theorem outer_loop_top (p : Program β ε) (fuel : Nat) (m : MachineBase β ε) (T : StateId)
    (e : ε) (hp : m.myPendingState = some T) (he : m.myPendingEvent = .event e) :
    m.settle p (fuel + 1) = (m.outerBody p (fuel + 1)).bind (MachineBase.settle p fuel) ∧
    m.outerBody p (fuel + 1) =
      ((m.transitionLoop p (fuel + 1)).bind fun m1 =>
        MachineBase.dispatchEvent p e { m1 with myPendingEvent := .null }) ∧
    (∀ m1, m.transitionLoop p (fuel + 1) = .ok m1 →
      m1.myPendingState = none ∧ m1.myPendingEvent = .event e) ∧
    (∀ (mt : MachineBase β ε) (n : Nat),
      (mt.myPendingState = none → mt.myPendingEvent = .null → mt.settle p n = .ok mt) ∧
      (∀ t, mt.myPendingState = some t →
        mt.settle p (n + 1) = (mt.outerBody p (n + 1)).bind (MachineBase.settle p n)) ∧
      (∀ e', mt.myPendingEvent = .event e' →
        mt.settle p (n + 1) = (mt.outerBody p (n + 1)).bind (MachineBase.settle p n)) ∧
      (∀ mt', mt.outerBody p n = .ok mt' → mt'.myPendingEvent ≠ .dummy)) := by
  refine ⟨?_, outerBody_both he, ?_, ?_⟩
  · rw [settle_succ, hp]
  · intro m1 h1
    refine ⟨?_, (transitionLoop_event h1).1 e he⟩
    cases hc : m.myCurrentState with
    | none =>
      obtain ⟨n, mt, _, ht, _⟩ := transitionLoop_some hp h1
      obtain ⟨_, _, _, hx, _, _⟩ := transition_ok ht
      simp [MachineBase.exitPhase, hc] at hx
    | some S =>
      obtain ⟨_, _, _, _, _, _, _, hpn, _, _⟩ :=
        transitionLoop_cascade p (fuel + 1) m m1 S T hc hp h1
      exact hpn
  · intro mt n
    refine ⟨fun h1 h2 => settle_quiescent_id h1 h2 n, ?_, ?_, ?_⟩
    · intro t ht
      rw [settle_succ, ht]
    · intro e' he'
      rw [settle_succ, he']
      cases mt.myPendingState <;> rfl
    · intro mt' hb
      exact outerBody_noDummy hb

/-- Witness for C30: the test's machine when `StateA::event3` has returned. -/
theorem outer_loop_top_witness :
    Dispatch.handled.settle Dispatch.prog 8 =
      (Dispatch.handled.outerBody Dispatch.prog 8).bind (MachineBase.settle Dispatch.prog 7) ∧
    Dispatch.handled.outerBody Dispatch.prog 8 =
      ((Dispatch.handled.transitionLoop Dispatch.prog 8).bind fun m1 =>
        MachineBase.dispatchEvent Dispatch.prog .event1 { m1 with myPendingEvent := .null }) ∧
    (∃ m1, Dispatch.handled.transitionLoop Dispatch.prog 8 = .ok m1 ∧
      m1.myCurrentState = some Dispatch.StateB ∧ m1.myPendingState = none ∧
      m1.myPendingEvent = .event .event1) ∧
    Dispatch.rattled.trace = Dispatch.handled.trace ++
      [.exit Dispatch.StateA, .entry Dispatch.StateB, .init Dispatch.StateB,
        .dispatch .event1 Dispatch.StateB] :=
  ⟨(outer_loop_top Dispatch.prog 7 Dispatch.handled Dispatch.StateB .event1
      (by decide) (by decide)).1,
    (outer_loop_top Dispatch.prog 7 Dispatch.handled Dispatch.StateB .event1
      (by decide) (by decide)).2.1,
    ⟨okOr (Dispatch.handled.transitionLoop Dispatch.prog 8) {}, by rfl, by decide,
      ((outer_loop_top Dispatch.prog 7 Dispatch.handled Dispatch.StateB .event1
        (by decide) (by decide)).2.2.1 _ (by rfl)).1,
      ((outer_loop_top Dispatch.prog 7 Dispatch.handled Dispatch.StateB .event1
        (by decide) (by decide)).2.2.1 _ (by rfl)).2⟩,
    by decide⟩

/-! ## Aliases and the boxes they carry -/

/-- A successful `rattleOn` on a machine with a pending transition performs it. -/
theorem rattleOn_first {p : Program β ε} {fuel : Nat} {ms r : MachineBase β ε} {T : StateId}
    (hpd : ms.myPendingState = some T) (h : ms.rattleOn p fuel = .ok r) :
    ∃ m', ms.transition p = .ok m' := by
  unfold MachineBase.rattleOn at h
  cases hcur : ms.myCurrentState with
  | none => rw [hcur] at h; cases h
  | some c =>
    rw [hcur] at h
    simp only at h
    cases fuel with
    | zero => simp [MachineBase.settle, hpd] at h
    | succ n =>
      simp only [MachineBase.settle, hpd] at h
      cases hl : ms.transitionLoop p (n + 1) with
      | error e => rw [hl] at h; cases h
      | ok ml =>
        obtain ⟨_, m1, _, ht, _⟩ := transitionLoop_some hpd hl
        exact ⟨m1, ht⟩

/-- The entry part of a transition to a state that holds no box and gets none handed
over: the state holds a default-created box when its entry action is invoked. -/
theorem entryPhase_default_box {p : Program β ε} {m1 m2 : MachineBase β ε} {history : Bool}
    {S super : StateId} {tag : Nat}
    (hc : m1.myCurrentState = some S) (hpd : m1.myPendingState = some (.sub super tag))
    (hn : m1.myPendingBox = none) (hT : (m1.info (.sub super tag)).myBox = none)
    (h2 : m1.entryPhase p = .ok (m2, history)) :
    ∃ ma mr : MachineBase β ε,
      ma.trace = m1.trace ++ (entryPath S (.sub super tag) true).map Action.entry ∧
      runCmds (p.entry (.sub super tag) ma) ma = .ok mr ∧
      (ma.info (.sub super tag)).myBox = some (p.newBox (.sub super tag)) ∧
      ∃ l, m2.boxLog = m1.boxLog ++ l ∧ BoxAction.created (.sub super tag) ∈ l := by
  obtain ⟨mb, m3, he, hbl, hbt, hother, hnone, hsome, h2l, h2t, h2i, hm2⟩ :=
    entryPhase_boxLog hc hpd h2
  have hTin : StateId.sub super tag ∈ entryPath S (.sub super tag) true :=
    (mem_entryPath_iff S _ true _).mpr ⟨by simp, isChild_refl _, Or.inl ⟨rfl, rfl⟩⟩
  have hTnot : StateId.sub super tag ∉ entryPath S super false := by
    intro hm
    have hh := ((mem_entryPath_iff S super false _).mp hm).2.1
    rw [not_isChild_super_sub] at hh
    cases hh
  have hpath : entryPath S (.sub super tag) true =
      entryPath S super false ++ [.sub super tag] := by
    rw [entryPath]; simp
  obtain ⟨me, mc, hwalk, hmc, hr⟩ :=
    @entry_ok β ε p S super tag true mb m3 (by simp) he
  have hwf := walkFrame_entry p S super false mb me hwalk
  have hTn : (mb.info (.sub super tag)).myBox = none := by rw [hnone hn, hT]
  have hmeN : (me.info (.sub super tag)).myBox = none := by
    have := (boxFrame_entry p S super false mb me hwalk).hasBox _ hTnot
    rw [hTn] at this
    cases hx : (me.info (.sub super tag)).myBox with
    | none => rfl
    | some b => rw [hx] at this; cases this
  have hmceq : mc = StateInfo.createBox p (.sub super tag) me := by
    rcases hmc with ⟨_, hmc⟩ | ⟨hs, _⟩
    · exact hmc
    · rw [hmeN] at hs; cases hs
  refine ⟨mc.log (.entry (.sub super tag)), m3, ?_, hr, ?_, ?_⟩
  · have hmct : mc.trace = me.trace := by
      rw [hmceq]
      simp [StateInfo.createBox, MachineBase.logBox, MachineBase.setInfo]
    show mc.trace ++ [Action.entry (.sub super tag)] = _
    rw [hmct, hwf.trace, hbt, hpath, List.map_append, List.append_assoc]
    rfl
  · rw [info_log, hmceq]
    simp [StateInfo.createBox, MachineBase.logBox, MachineBase.info,
      MachineBase.setInfo]
  · obtain ⟨⟨l, hl, hcr⟩, _⟩ := entry_creates p S (.sub super tag) true mb m3 he _ hTin hTn
    exact ⟨l, by rw [h2l, hl, hbl], hcr⟩

/-- A transition scheduled without a box, to a state that is not persistent or holds no
box, on a machine on which the non-persistent states hold a box exactly if active: the
target holds a default-created box when its entry action is invoked. -/
theorem transition_default_box {p : Program β ε} (hp : NoStateChange p)
    {m ms m' : MachineBase β ε} {history : Bool} {S super : StateId} {tag : Nat}
    (hb : BoxesMatch p m) (hc : m.myCurrentState = some S)
    (hfree : p.persistent (.sub super tag) = false ∨ (m.info (.sub super tag)).myBox = none)
    (hs : (Link._getInfo (.sub super tag) m).setPendingState (.sub super tag) history none =
      .ok ms)
    (ht : ms.transition p = .ok m') :
    ∃ m1 m2 hist ma mr,
      ms.exitPhase p = .ok m1 ∧ m1.entryPhase p = .ok (m2, hist) ∧
      m2.initPhase p hist = .ok m' ∧
      ma.trace = m.trace ++ (exitPath (.sub super tag) S).map Action.exit ++
        (entryPath S (.sub super tag) true).map Action.entry ∧
      runCmds (p.entry (.sub super tag) ma) ma = .ok mr ∧
      (ma.info (.sub super tag)).myBox = some (p.newBox (.sub super tag)) ∧
      ∃ l, m2.boxLog = m.boxLog ++ l ∧ BoxAction.created (.sub super tag) ∈ l := by
  obtain ⟨g1, g2, g3, g4, g5, g6, g7⟩ := getInfo_fields (.sub super tag) m
  have hsi := setPendingState_info hs
  have hms : ms = { Link._getInfo (.sub super tag) m with
      myPendingState := some (.sub super tag), myPendingBox := none,
      myPendingHistory := history } := by
    unfold MachineBase.setPendingState at hs
    split at hs
    · cases hs; rfl
    · cases hs
  have hmsc : ms.myCurrentState = some S := by rw [hms]; show _ = some S; rw [g3, hc]
  have hmsp : ms.myPendingState = some (.sub super tag) := by rw [hms]
  have hmsb : ms.myPendingBox = none := by rw [hms]
  have hmst : ms.trace = m.trace := by rw [hms]; exact g1
  have hmsl : ms.boxLog = m.boxLog := by rw [hms]; exact g2
  have hmsi : ∀ k, ms.info k = m.info k := fun k => by
    rw [hsi k, info_getInfo]
  have hbs : BoxesMatch p ms := by
    obtain ⟨c, hc', hinv⟩ := hb
    exact ⟨c, by rw [hmsc, ← hc', hc], fun s hs' hps => by rw [hmsi, hinv s hs' hps]⟩
  obtain ⟨m1, m2, hist, h1, h2, h3⟩ := transition_ok ht
  have e1 := exitPhase_spec hmsc hmsp h1
  have hpk := pendingKept_exitPhase hp h1
  have hTin : StateId.sub super tag ∈ entryPath S (.sub super tag) true :=
    (mem_entryPath_iff S _ true _).mpr ⟨by simp, isChild_refl _, Or.inl ⟨rfl, rfl⟩⟩
  have hT1 : (m1.info (.sub super tag)).myBox = none := by
    by_cases hpers : p.persistent (.sub super tag) = false
    · exact entryPath_noBox hbs hmsc hmsp h1 _ hTin hpers
    · have hP : p.persistent (.sub super tag) = true := by
        cases hx : p.persistent (.sub super tag) with
        | true => rfl
        | false => exact absurd hx hpers
      have hmn : (m.info (.sub super tag)).myBox = none := by
        rcases hfree with hf | hf
        · exact absurd hf hpers
        · exact hf
      obtain ⟨me, hme, hm1⟩ := exitPhase_ok hmsc hmsp h1
      obtain ⟨_, _, _, _, _, _, d7, _⟩ := setDummyEvent_walk ms
      obtain ⟨x1, _⟩ := exit_keeps p (.sub super tag) (.sub super tag) S _ _ (Or.inl hP) hme
      have ho := historyOnly_setHistorySuper p S S me
      have hsome : (m1.info (.sub super tag)).myBox.isSome = false := by
        rw [hm1, ho.box, x1.hasBox, d7, hmsi, hmn]; rfl
      cases hx : (m1.info (.sub super tag)).myBox with
      | none => rfl
      | some b => rw [hx] at hsome; cases hsome
  obtain ⟨ma, mr, hat, har, hab, l, hl, hcr⟩ :=
    entryPhase_default_box e1.current e1.pending (by rw [hpk.pendingBox, hmsb]) hT1 h2
  obtain ⟨l1, hl1, _⟩ := e1.boxes.boxLog
  refine ⟨m1, m2, hist, ma, mr, h1, h2, h3, ?_, har, hab, l1 ++ l, ?_, ?_⟩
  · rw [hat, e1.trace, hmst]
  · rw [hl, hl1, hmsl, List.append_assoc]
  · exact List.mem_append_right _ hcr
/-- C24, amended: copying a `StateAlias`, assigning from it, or using it in a transition
moves its box to the new owner (the copy, the destination alias, the machine's pending
box) and leaves the source alias with its state and no box; assignment also destroys
the box the destination alias held before.  A second transition made with the alias as
it is left behind, on a machine reached by a run (no entry or exit action requesting a
transition), is scheduled without a box, and its target state, unless it is persistent
and still holds a box, holds a default-created box when its entry action is invoked. -/
theorem alias_box_moves (p : Program β ε) (hp : NoStateChange p) (fuel : Nat)
    (T0 : StateId) (box0 : Option β) (ops : List (Op β ε)) (m : MachineBase β ε)
    (a d : StateAlias β) (history : Bool) (r : MachineBase β ε × StateAlias β)
    (S super : StateId) (tag : Nat)
    (hrun : Machine.run p fuel T0 box0 ops = .ok m)
    (hc : m.myCurrentState = some S)
    (hch : a.myCharacter = .sub super tag)
    (hfree : p.persistent (.sub super tag) = false ∨ (m.info (.sub super tag)).myBox = none)
    (h : m.setStateAlias p fuel (StateAlias.copy a).2 history = .ok r) :
    ((StateAlias.copy a).1.myBox = a.myBox ∧
      (StateAlias.copy a).1.myCharacter = a.myCharacter ∧
      (StateAlias.copy a).2.myBox = none ∧
      (StateAlias.copy a).2.myCharacter = a.myCharacter) ∧
    ((StateAlias.assign d a).1.myBox = a.myBox ∧
      (StateAlias.assign d a).1.myCharacter = a.myCharacter ∧
      (StateAlias.assign d a).2.1 = (StateAlias.copy a).2 ∧
      (StateAlias.assign d a).2.2 = d.myBox) ∧
    (∀ (mx : MachineBase β ε) (rx : MachineBase β ε × StateAlias β),
      Link.setStateAlias a mx = .ok rx →
      rx.1.myPendingState = some a.myCharacter ∧ rx.1.myPendingBox = a.myBox ∧
      rx.2 = (StateAlias.copy a).2) ∧
    (∀ (mx : MachineBase β ε) (hx : Bool) (rx : MachineBase β ε × StateAlias β),
      mx.setStateAlias p fuel a hx = .ok rx →
      rx.2 = (StateAlias.copy a).2 ∧
      ∃ ms, (a.getInfo mx).setPendingState a.myCharacter hx a.myBox = .ok ms ∧
        ms.myPendingBox = a.myBox ∧ ms.rattleOn p fuel = .ok rx.1) ∧
    (∀ rx : MachineBase β ε × StateAlias β, Machine.newAlias p fuel a = .ok rx →
      rx.2 = (StateAlias.copy a).2 ∧
      MachineBase.start p fuel a.myCharacter a.myBox (a.getInfo {}) = .ok rx.1) ∧
    r.2.myBox = none ∧
    ∃ ms m' m1 m2 hist ma mr,
      (Link._getInfo (.sub super tag) m).setPendingState (.sub super tag) history none =
        .ok ms ∧
      ms.transition p = .ok m' ∧
      ms.exitPhase p = .ok m1 ∧ m1.entryPhase p = .ok (m2, hist) ∧
      m2.initPhase p hist = .ok m' ∧
      ma.trace = m.trace ++ (exitPath (.sub super tag) S).map Action.exit ++
        (entryPath S (.sub super tag) true).map Action.entry ∧
      runCmds (p.entry (.sub super tag) ma) ma = .ok mr ∧
      (ma.info (.sub super tag)).myBox = some (p.newBox (.sub super tag)) ∧
      ∃ l, m2.boxLog = m.boxLog ++ l ∧ BoxAction.created (.sub super tag) ∈ l := by
  have huse : ∀ (mx : MachineBase β ε) (hx : Bool) (rx : MachineBase β ε × StateAlias β)
      (b : StateAlias β), mx.setStateAlias p fuel b hx = .ok rx →
      rx.2 = (StateAlias.copy b).2 ∧
      ∃ ms, (b.getInfo mx).setPendingState b.myCharacter hx b.myBox = .ok ms ∧
        ms.myPendingBox = b.myBox ∧ ms.rattleOn p fuel = .ok rx.1 := by
    intro mx hx rx b hr
    unfold MachineBase.setStateAlias at hr
    simp only [StateAlias.takeBox] at hr
    cases hs : (b.getInfo mx).setPendingState b.myCharacter hx b.myBox with
    | error e => rw [hs] at hr; cases hr
    | ok ms =>
      rw [hs] at hr
      simp only [Except.bind] at hr
      cases hro : ms.rattleOn p fuel with
      | error e => rw [hro] at hr; cases hr
      | ok mo =>
        rw [hro] at hr
        cases hr
        refine ⟨rfl, ms, rfl, ?_, hro⟩
        unfold MachineBase.setPendingState at hs
        split at hs
        · cases hs; rfl
        · cases hs
  refine ⟨⟨rfl, rfl, rfl, rfl⟩, ⟨rfl, rfl, rfl, rfl⟩, ?_, fun mx hx rx => huse mx hx rx a, ?_,
    ?_, ?_⟩
  · intro mx rx hr
    unfold Link.setStateAlias at hr
    simp only [StateAlias.takeBox] at hr
    cases hs : (a.getInfo mx).setPendingState a.myCharacter true a.myBox with
    | error e => rw [hs] at hr; cases hr
    | ok ms =>
      rw [hs] at hr
      cases hr
      unfold MachineBase.setPendingState at hs
      split at hs
      · cases hs; exact ⟨rfl, rfl, rfl⟩
      · cases hs
  · intro rx hr
    unfold Machine.newAlias at hr
    simp only [StateAlias.takeBox] at hr
    cases hs : MachineBase.start p fuel a.myCharacter a.myBox (a.getInfo {}) with
    | error e => rw [hs] at hr; cases hr
    | ok ms =>
      rw [hs] at hr
      cases hr
      exact ⟨rfl, rfl⟩
  · rw [(huse m history r _ h).1]; rfl
  · obtain ⟨_, ms, hs, _, hro⟩ := huse m history r _ h
    have hs' : (Link._getInfo (.sub super tag) m).setPendingState (.sub super tag) history
        none = .ok ms := by
      have : (StateAlias.copy a).2.myCharacter = .sub super tag := hch
      simpa [StateAlias.getInfo, StateAlias.copy, StateAlias.takeBox, hch] using hs
    have hpd : ms.myPendingState = some (.sub super tag) := by
      unfold MachineBase.setPendingState at hs'
      split at hs'
      · cases hs'; rfl
      · cases hs'
    obtain ⟨m', ht⟩ := rattleOn_first hpd hro
    obtain ⟨m1, m2, hist, ma, mr, x⟩ :=
      transition_default_box hp (run_boxesMatch hrun) hc hfree hs' ht
    exact ⟨ms, m', m1, m2, hist, ma, mr, hs', ht, x⟩
/-- Counterexample to C24 as stated, on the test's machine: `StateAAA` is persistent.
The alias `State<StateAAA>(new Box(5))` is used in a transition, which leaves it without
a box, the machine goes on to `StateB`, and the alias is used in a second transition:
`StateAAA` is entered again and still holds the box `5` of the first use, not a
default-created one (that would hold `0`); no box was ever created for `StateAAA`. -/
theorem alias_again_counterexample :
    Transitions.prog.persistent Transitions.StateAAA = true ∧
    (Transitions.aliasUsed Transitions.stateP).1.myCurrentState =
      some Transitions.StateAAA ∧
    ((Transitions.aliasUsed Transitions.stateP).1.info Transitions.StateAAA).myBox =
      some 5 ∧
    (Transitions.aliasUsed Transitions.stateP).2 =
      (StateAlias.copy Transitions.stateP).2 ∧
    (Transitions.aliasUsed Transitions.stateP).2.myBox = none ∧
    (Transitions.aliasLeft Transitions.stateP).myCurrentState = some Transitions.StateB ∧
    (Transitions.aliasLeft Transitions.stateP).setStateAlias Transitions.prog 8
        (Transitions.aliasUsed Transitions.stateP).2 true =
      .ok (Transitions.aliasUsedAgain Transitions.stateP) ∧
    (Transitions.aliasUsedAgain Transitions.stateP).1.trace =
      (Transitions.aliasLeft Transitions.stateP).trace ++
        [.exit Transitions.StateB, .entry Transitions.StateA, .entry Transitions.StateAA,
          .entry Transitions.StateAAA, .init Transitions.StateAAA] ∧
    ((Transitions.aliasUsedAgain Transitions.stateP).1.info Transitions.StateAAA).myBox =
      some 5 ∧
    Transitions.prog.newBox Transitions.StateAAA = 0 ∧
    BoxAction.created Transitions.StateAAA ∉
      (Transitions.aliasUsedAgain Transitions.stateP).1.boxLog := by
  refine ⟨by decide, by decide, by decide, by rfl, by decide, by decide, by rfl, by decide,
    by decide, by decide, by decide⟩

/-- Witness for the amended C24: the test's `state1 = State<StateCAA>(new Box(42))`,
used in a transition, the machine gone on to `StateB`, and the alias used again:
`StateCAA` holds a default-created box when it is entered the second time. -/
theorem alias_box_moves_witness :
    Machine.run Transitions.prog 8 Transitions.Top none
        (Op.setState Transitions.state1 true :: Transitions.visit [Transitions.StateB]) =
      .ok (Transitions.aliasLeft Transitions.state1) ∧
    (Transitions.aliasLeft Transitions.state1).myCurrentState = some Transitions.StateB ∧
    (Transitions.aliasLeft Transitions.state1).setStateAlias Transitions.prog 8
        (StateAlias.copy Transitions.state1).2 true =
      .ok (Transitions.aliasUsedAgain Transitions.state1) ∧
    (StateAlias.copy Transitions.state1).1.myBox = some 42 ∧
    (StateAlias.copy Transitions.state1).2.myBox = none ∧
    (StateAlias.assign Transitions.stateP Transitions.state1).1.myBox = some 42 ∧
    (StateAlias.assign Transitions.stateP Transitions.state1).2.1.myBox = none ∧
    (StateAlias.assign Transitions.stateP Transitions.state1).2.2 = some 5 ∧
    (Transitions.aliasUsedAgain Transitions.state1).2.myBox = none ∧
    (∃ ms m' m1 m2 hist ma mr,
      (Link._getInfo (.sub Transitions.StateCA 18)
          (Transitions.aliasLeft Transitions.state1)).setPendingState
        (.sub Transitions.StateCA 18) true none = .ok ms ∧
      ms.transition Transitions.prog = .ok m' ∧
      ms.exitPhase Transitions.prog = .ok m1 ∧
      m1.entryPhase Transitions.prog = .ok (m2, hist) ∧
      m2.initPhase Transitions.prog hist = .ok m' ∧
      ma.trace = (Transitions.aliasLeft Transitions.state1).trace ++
        (exitPath (.sub Transitions.StateCA 18) Transitions.StateB).map Action.exit ++
        (entryPath Transitions.StateB (.sub Transitions.StateCA 18) true).map
          Action.entry ∧
      runCmds (Transitions.prog.entry (.sub Transitions.StateCA 18) ma) ma = .ok mr ∧
      (ma.info (.sub Transitions.StateCA 18)).myBox =
        some (Transitions.prog.newBox (.sub Transitions.StateCA 18)) ∧
      ∃ l, m2.boxLog = (Transitions.aliasLeft Transitions.state1).boxLog ++ l ∧
        BoxAction.created (.sub Transitions.StateCA 18) ∈ l) ∧
    ((Transitions.aliasUsed Transitions.state1).1.info Transitions.StateCAA).myBox =
      some 42 ∧
    ((Transitions.aliasUsedAgain Transitions.state1).1.info Transitions.StateCAA).myBox =
      some 0 :=
  have h := alias_box_moves Transitions.prog transitions_noStateChange 8 Transitions.Top none
    (Op.setState Transitions.state1 true :: Transitions.visit [Transitions.StateB])
    (Transitions.aliasLeft Transitions.state1) Transitions.state1 Transitions.stateP true
    (Transitions.aliasUsedAgain Transitions.state1) Transitions.StateB Transitions.StateCA 18
    (by rfl) (by decide) (by rfl) (Or.inl (by decide)) (by rfl)
  ⟨by rfl, by decide, by rfl, h.1.1, h.1.2.2.1, h.2.1.1, by decide, h.2.1.2.2.2,
    h.2.2.2.2.2.1, h.2.2.2.2.2.2, by decide, by decide⟩
/-- A transition scheduled with a box: the target holds a box when its entry action is
invoked, the box handed over as far as the entry actions of the states entered before it
have not written to it, and the default constructor of its box does not run. -/
theorem transition_given_box {p : Program β ε} (hp : NoStateChange p)
    {ms m' : MachineBase β ε} {b : β} {S super : StateId} {tag : Nat}
    (hc : ms.myCurrentState = some S) (hpd : ms.myPendingState = some (.sub super tag))
    (hbx : ms.myPendingBox = some b) (ht : ms.transition p = .ok m') :
    ∃ m1 m2 hist ma mr,
      ms.exitPhase p = .ok m1 ∧ m1.entryPhase p = .ok (m2, hist) ∧
      m2.initPhase p hist = .ok m' ∧
      ma.trace = ms.trace ++ (exitPath (.sub super tag) S).map Action.exit ++
        (entryPath S (.sub super tag) true).map Action.entry ∧
      runCmds (p.entry (.sub super tag) ma) ma = .ok mr ∧
      (ma.info (.sub super tag)).myBox.isSome = true ∧
      ((∀ x ∈ entryPath S super false, ∀ mm c, c ∈ p.entry x mm →
          c.writes (.sub super tag) = false) →
        (ma.info (.sub super tag)).myBox = some b) ∧
      ∃ l, m'.boxLog = ms.boxLog ++ l ∧ BoxAction.created (.sub super tag) ∉ l := by
  obtain ⟨m1, m2, hist, h1, h2, h3⟩ := transition_ok ht
  have e1 := exitPhase_spec hc hpd h1
  have e2 := entryPhase_spec e1.current e1.pending e1.eventSet h2
  have e3 := initPhase_spec e2.current h3
  have hpk := pendingKept_exitPhase hp h1
  obtain ⟨mb, m3, he, hbl, hbt, hother, hnone, hsome, h2l, h2t, h2i, hm2⟩ :=
    entryPhase_boxLog e1.current e1.pending h2
  have hpath : entryPath S (.sub super tag) true =
      entryPath S super false ++ [.sub super tag] := by
    rw [entryPath]; simp
  obtain ⟨me, mc, hwalk, hmc, hr⟩ :=
    @entry_ok β ε p S super tag true mb m3 (by simp) he
  have hwf := walkFrame_entry p S super false mb me hwalk
  have hinit : m'.boxLog = m2.boxLog := by
    obtain ⟨l, hl, hs⟩ := e3.boxes.boxLog
    cases l with
    | nil => simpa using hl
    | cons a l => exact absurd (hs a (List.mem_cons_self _ _)) (by simp)
  have hbx1 : m1.myPendingBox = some b := by rw [hpk.pendingBox, hbx]
  have hTb : (mb.info (.sub super tag)).myBox = some b := hsome b hbx1
  obtain ⟨k1, c1⟩ := entry_keeps p (.sub super tag) S super false mb me
    (Or.inl (by rw [hTb]; rfl)) hwalk
  have hme : (me.info (.sub super tag)).myBox.isSome = true := by
    rw [k1.hasBox, hTb]; rfl
  have hmceq : mc = me := by
    rcases hmc with ⟨hn, _⟩ | ⟨_, hmc⟩
    · rw [hn] at hme; cases hme
    · exact hmc
  obtain ⟨k2, _⟩ := entry_keeps p (.sub super tag) S (.sub super tag) true mb m3
    (Or.inl (by rw [hTb]; rfl)) he
  obtain ⟨l, hl, hcr, _⟩ := k2.boxLog
  obtain ⟨mx, hmx, hm1⟩ := exitPhase_ok hc hpd h1
  obtain ⟨lx, hlx, hdel⟩ := exit_boxLog p (.sub super tag) S _ _ hmx
  obtain ⟨_, d2, _⟩ := setDummyEvent_walk ms
  have hm1l : m1.boxLog = ms.boxLog ++ lx := by
    rw [hm1, (historyOnly_setHistorySuper p S S mx).boxLog, hlx, d2]
  refine ⟨m1, m2, hist, mc.log (.entry (.sub super tag)), m3, h1, h2, h3, ?_, hr, ?_, ?_, ?_⟩
  · show mc.trace ++ [Action.entry (.sub super tag)] = _
    rw [hmceq, hwf.trace, hbt, e1.trace, hpath]
    simp [List.append_assoc]
  · rw [info_log, hmceq]; exact hme
  · intro hw
    rw [info_log, hmceq, c1 hw, hTb]
  · refine ⟨lx ++ l, by rw [hinit, h2l, hl, hbl, hm1l, List.append_assoc], ?_⟩
    intro hin
    rcases List.mem_append.mp hin with hin | hin
    · obtain ⟨x, hx⟩ := hdel _ hin
      cases hx
    · exact hcr hin
/-- C25: `StateAlias::clone` returns an alias for the same state that carries a copy of
the original's box (none when the original carries none) and leaves the original as it
is.  A transition made with the clone takes the box of the clone only; a later
transition made with the original (no entry or exit action requesting a transition) is
scheduled with the original's box, and when that is a box `b`, the target holds a box
when its entry action is invoked, which is `b` as far as the entry actions run before
have not written to it, and no box is default-created for the target.  (The later
`setState` is taken to succeed: like every transition with a preinitialized box it
fails the assertion of `setBox` when the target is a persistent state that still holds
a box.) -/
theorem clone_keeps_box (p : Program β ε) (hp : NoStateChange p) (fuel : Nat)
    (a : StateAlias β) (m : MachineBase β ε) (history : Bool)
    (r : MachineBase β ε × StateAlias β) (S super : StateId) (tag : Nat)
    (hc : m.myCurrentState = some S) (hch : a.myCharacter = .sub super tag)
    (h : m.setStateAlias p fuel (StateAlias.clone a).2 history = .ok r) :
    (StateAlias.clone a).1.myCharacter = a.myCharacter ∧
    (StateAlias.clone a).1.myBox = a.myBox ∧
    (StateAlias.clone a).2 = a ∧
    (∀ (mx : MachineBase β ε) (hx : Bool) (rx : MachineBase β ε × StateAlias β),
      mx.setStateAlias p fuel (StateAlias.clone a).1 hx = .ok rx →
      rx.2.myBox = none ∧ rx.2.myCharacter = a.myCharacter ∧
      (StateAlias.clone a).2.myBox = a.myBox) ∧
    ∃ ms m',
      (Link._getInfo (.sub super tag) m).setPendingState (.sub super tag) history a.myBox =
        .ok ms ∧
      ms.myPendingBox = a.myBox ∧
      ms.transition p = .ok m' ∧
      ∀ b, a.myBox = some b →
        ∃ m1 m2 hist ma mr,
          ms.exitPhase p = .ok m1 ∧ m1.entryPhase p = .ok (m2, hist) ∧
          m2.initPhase p hist = .ok m' ∧
          ma.trace = m.trace ++ (exitPath (.sub super tag) S).map Action.exit ++
            (entryPath S (.sub super tag) true).map Action.entry ∧
          runCmds (p.entry (.sub super tag) ma) ma = .ok mr ∧
          (ma.info (.sub super tag)).myBox.isSome = true ∧
          ((∀ x ∈ entryPath S super false, ∀ mm c, c ∈ p.entry x mm →
              c.writes (.sub super tag) = false) →
            (ma.info (.sub super tag)).myBox = some b) ∧
          ∃ l, m'.boxLog = m.boxLog ++ l ∧ BoxAction.created (.sub super tag) ∉ l := by
  have hcl : (StateAlias.clone a).1.myBox = a.myBox := by
    unfold StateAlias.clone
    cases a.myBox <;> rfl
  refine ⟨rfl, hcl, rfl, ?_, ?_⟩
  · intro mx hx rx hr
    unfold MachineBase.setStateAlias at hr
    cases hs : (((StateAlias.clone a).1.getInfo mx).setPendingState
        (StateAlias.clone a).1.myCharacter hx (StateAlias.clone a).1.takeBox.1).bind
        (MachineBase.rattleOn p fuel) with
    | error e => simp only [hs] at hr; cases hr
    | ok mo =>
      simp only [hs] at hr
      cases hr
      exact ⟨rfl, rfl, rfl⟩
  · unfold MachineBase.setStateAlias at h
    simp only [StateAlias.takeBox, StateAlias.clone, StateAlias.getInfo, hch] at h
    cases hs : (Link._getInfo (.sub super tag) m).setPendingState (.sub super tag) history
        a.myBox with
    | error e => rw [hs] at h; cases h
    | ok ms =>
      rw [hs] at h
      simp only [Except.bind] at h
      cases hro : ms.rattleOn p fuel with
      | error e => rw [hro] at h; cases h
      | ok mo =>
        have hms : ms = { Link._getInfo (.sub super tag) m with
            myPendingState := some (.sub super tag), myPendingBox := a.myBox,
            myPendingHistory := history } := by
          unfold MachineBase.setPendingState at hs
          split at hs
          · cases hs; rfl
          · cases hs
        obtain ⟨g1, g2, g3, _⟩ := getInfo_fields (.sub super tag) m
        have hpd : ms.myPendingState = some (.sub super tag) := by rw [hms]
        have hmsc : ms.myCurrentState = some S := by rw [hms]; show _ = some S; rw [g3, hc]
        have hmst : ms.trace = m.trace := by rw [hms]; exact g1
        have hmsl : ms.boxLog = m.boxLog := by rw [hms]; exact g2
        obtain ⟨m', ht⟩ := rattleOn_first hpd hro
        refine ⟨ms, m', rfl, by rw [hms], ht, ?_⟩
        intro b hb
        obtain ⟨m1, m2, hist, ma, mr, x1, x2, x3, x4, x5, x6, x7, l, x8, x9⟩ :=
          transition_given_box hp hmsc hpd (by rw [hms]; exact hb) ht
        exact ⟨m1, m2, hist, ma, mr, x1, x2, x3, by rw [x4, hmst], x5, x6, x7, l,
          by rw [x8, hmsl], x9⟩
/-- Witness for C25, the test's "cloning of aliases": `state1` carries the box `42`; after
`m.setState(state1.clone(), true)` and a return to `StateAAB`, `m.setState(state1, true)`
enters `StateCAA` with the box `42` of the original. -/
theorem clone_keeps_box_witness :
    Transitions.cloneUsed.myCurrentState = some Transitions.StateAAB ∧
    Transitions.cloneUsed.setStateAlias Transitions.prog 8
        (StateAlias.clone Transitions.state1).2 true = .ok Transitions.originalUsed ∧
    (StateAlias.clone Transitions.state1).1.myBox = some 42 ∧
    (StateAlias.clone Transitions.state1).2.myBox = some 42 ∧
    (∃ ms m',
      (Link._getInfo (.sub Transitions.StateCA 18) Transitions.cloneUsed).setPendingState
        (.sub Transitions.StateCA 18) true Transitions.state1.myBox = .ok ms ∧
      ms.myPendingBox = Transitions.state1.myBox ∧
      ms.transition Transitions.prog = .ok m' ∧
      ∀ b, Transitions.state1.myBox = some b →
        ∃ m1 m2 hist ma mr,
          ms.exitPhase Transitions.prog = .ok m1 ∧
          m1.entryPhase Transitions.prog = .ok (m2, hist) ∧
          m2.initPhase Transitions.prog hist = .ok m' ∧
          ma.trace = Transitions.cloneUsed.trace ++
            (exitPath (.sub Transitions.StateCA 18) Transitions.StateAAB).map Action.exit ++
            (entryPath Transitions.StateAAB (.sub Transitions.StateCA 18) true).map
              Action.entry ∧
          runCmds (Transitions.prog.entry (.sub Transitions.StateCA 18) ma) ma = .ok mr ∧
          (ma.info (.sub Transitions.StateCA 18)).myBox.isSome = true ∧
          ((∀ x ∈ entryPath Transitions.StateAAB Transitions.StateCA false, ∀ mm c,
              c ∈ Transitions.prog.entry x mm →
              c.writes (.sub Transitions.StateCA 18) = false) →
            (ma.info (.sub Transitions.StateCA 18)).myBox = some b) ∧
          ∃ l, m'.boxLog = Transitions.cloneUsed.boxLog ++ l ∧
            BoxAction.created (.sub Transitions.StateCA 18) ∉ l) ∧
    Transitions.originalUsed.1.myCurrentState = some Transitions.StateCAA ∧
    (Transitions.originalUsed.1.info Transitions.StateCAA).myBox = some 42 ∧
    Transitions.originalUsed.1.trace = Transitions.cloneUsed.trace ++
      [.exit Transitions.StateAAB, .exit Transitions.StateAA, .exit Transitions.StateA,
        .entry Transitions.StateC, .entry Transitions.StateCA, .entry Transitions.StateCAA,
        .init Transitions.StateCAA] :=
  have h := clone_keeps_box Transitions.prog transitions_noStateChange 8 Transitions.state1
    Transitions.cloneUsed true Transitions.originalUsed Transitions.StateAAB
    Transitions.StateCA 18 (by decide) (by rfl) (by rfl)
  ⟨by decide, by rfl, by decide, by decide, h.2.2.2.2, by decide, by decide, by decide⟩
/-! ## Machines that behave alike -/

theorem upClosed_super {keys : List StateId} (h : UpClosed keys) {super : StateId}
    {tag : Nat} (hs : StateId.sub super tag ∈ keys) : super ∈ keys :=
  h _ hs super (by simp [StateId.ancestors])

theorem agree_bind {α γ : Type} {R : α → α → Prop} {Q : γ → γ → Prop}
    {x y : Except Fault α} {f g : α → Except Fault γ}
    (h : Agree R x y) (hf : ∀ a b, R a b → Agree Q (f a) (g b)) :
    Agree Q (x.bind f) (y.bind g) := by
  cases x with
  | error e =>
    cases y with
    | error e' => exact h
    | ok b => exact h.elim
  | ok a =>
    cases y with
    | error e' => exact h.elim
    | ok b => exact hf a b h

theorem agree_map {α γ : Type} {R : α → α → Prop} {Q : γ → γ → Prop}
    {x y : Except Fault α} {f g : α → γ}
    (h : Agree R x y) (hf : ∀ a b, R a b → Q (f a) (g b)) :
    Agree Q (x.map f) (y.map g) := by
  cases x with
  | error e =>
    cases y with
    | error e' => exact h
    | ok b => exact h.elim
  | ok a =>
    cases y with
    | error e' => exact h.elim
    | ok b => exact hf a b h

theorem agree_ok {α : Type} {R : α → α → Prop} {a b : α} (h : R a b) :
    Agree R (Except.ok a) (Except.ok b) := h

theorem agree_error {α : Type} {R : α → α → Prop} (e : Fault) :
    Agree R (Except.error e : Except Fault α) (Except.error e) := rfl

theorem alike_view {keys : List StateId} {t t' : List (Action ε)} {m m' : MachineBase β ε}
    (h : Alike keys t t' m m') : SameView keys m m' :=
  ⟨h.current, h.pendingState, h.pendingBox, h.pendingHistory, h.event, h.info⟩

/-- Steps that change neither the fields, the trace nor any `_StateInfo` contents. -/
theorem alike_of_same {keys : List StateId} {t t' : List (Action ε)}
    {m m' n n' : MachineBase β ε} (h : Alike keys t t' m m')
    (e1 : n.myCurrentState = m.myCurrentState) (e2 : n.myPendingState = m.myPendingState)
    (e3 : n.myPendingBox = m.myPendingBox) (e4 : n.myPendingHistory = m.myPendingHistory)
    (e5 : n.myPendingEvent = m.myPendingEvent) (e6 : ∀ k, n.info k = m.info k)
    (e7 : n.trace = m.trace)
    (f1 : n'.myCurrentState = m'.myCurrentState) (f2 : n'.myPendingState = m'.myPendingState)
    (f3 : n'.myPendingBox = m'.myPendingBox) (f4 : n'.myPendingHistory = m'.myPendingHistory)
    (f5 : n'.myPendingEvent = m'.myPendingEvent) (f6 : ∀ k, n'.info k = m'.info k)
    (f7 : n'.trace = m'.trace) : Alike keys t t' n n' := by
  refine ⟨by rw [f1, e1, h.current], by rw [f2, e2, h.pendingState],
    by rw [f3, e3, h.pendingBox], by rw [f4, e4, h.pendingHistory],
    by rw [f5, e5, h.event], fun k hk => by rw [f6, e6, h.info k hk], ?_, ?_, ?_, ?_⟩
  · obtain ⟨l, h1, h2⟩ := h.trace
    exact ⟨l, by rw [e7, h1], by rw [f7, h2]⟩
  · intro c hc; rw [e1] at hc; exact h.knownCurrent c hc
  · intro c hc; rw [e2] at hc; exact h.knownPending c hc
  · intro k hk x hx; rw [e6] at hx; exact h.knownHistory k hk x hx

theorem alike_getInfo {keys : List StateId} {t t' : List (Action ε)}
    {m m' : MachineBase β ε} (s : StateId) (h : Alike keys t t' m m') :
    Alike keys t t' (Link._getInfo s m) (Link._getInfo s m') := by
  obtain ⟨g1, _, g3, g4, g5, g6, g7⟩ := getInfo_fields s m
  obtain ⟨g1', _, g3', g4', g5', g6', g7'⟩ := getInfo_fields s m'
  exact alike_of_same h g3 g4 g5 g6 g7 (info_getInfo s m) g1 g3' g4' g5' g6' g7'
    (info_getInfo s m') g1'

theorem alike_setInfo {keys : List StateId} {t t' : List (Action ε)}
    {m m' : MachineBase β ε} {k : StateId} {i : StateInfo β} (h : Alike keys t t' m m')
    (hi : ∀ x, i.myHistory = some x → x ∈ keys) :
    Alike keys t t' (m.setInfo k i) (m'.setInfo k i) := by
  refine ⟨h.current, h.pendingState, h.pendingBox, h.pendingHistory, h.event, ?_, h.trace,
    h.knownCurrent, h.knownPending, ?_⟩
  · intro j hj
    rw [info_setInfo, info_setInfo]
    split
    · rfl
    · exact h.info j hj
  · intro j hj x hx
    rw [info_setInfo] at hx
    split at hx
    · exact hi x hx
    · exact h.knownHistory j hj x hx

theorem alike_log {keys : List StateId} {t t' : List (Action ε)}
    {m m' : MachineBase β ε} (a : Action ε) (h : Alike keys t t' m m') :
    Alike keys t t' (m.log a) (m'.log a) := by
  refine ⟨h.current, h.pendingState, h.pendingBox, h.pendingHistory, h.event, h.info, ?_,
    h.knownCurrent, h.knownPending, h.knownHistory⟩
  obtain ⟨l, h1, h2⟩ := h.trace
  exact ⟨l ++ [a], by show m.trace ++ [a] = _; rw [h1, List.append_assoc],
    by show m'.trace ++ [a] = _; rw [h2, List.append_assoc]⟩

theorem alike_logBox {keys : List StateId} {t t' : List (Action ε)}
    {m m' : MachineBase β ε} (a b : BoxAction) (h : Alike keys t t' m m') :
    Alike keys t t' (m.logBox a) (m'.logBox b) :=
  ⟨h.current, h.pendingState, h.pendingBox, h.pendingHistory, h.event, h.info, h.trace,
    h.knownCurrent, h.knownPending, h.knownHistory⟩

theorem alike_setHistory {keys : List StateId} {t t' : List (Action ε)}
    {m m' : MachineBase β ε} {k : StateId} {x : Option StateId}
    (h : Alike keys t t' m m') (hk : k ∈ keys) (hx : ∀ y, x = some y → y ∈ keys) :
    Alike keys t t' (StateInfo.setHistory k x m) (StateInfo.setHistory k x m') := by
  unfold StateInfo.setHistory
  rw [h.info k hk]
  exact alike_setInfo h hx

theorem alike_setPendingState {keys : List StateId} {t t' : List (Action ε)}
    {m m' : MachineBase β ε} {info : StateId} {history : Bool} {box : Option β}
    (h : Alike keys t t' m m') (hk : info ∈ keys) :
    Agree (Alike keys t t') (m.setPendingState info history box)
      (m'.setPendingState info history box) := by
  unfold MachineBase.setPendingState
  rw [h.pendingState]
  split
  · exact ⟨h.current, rfl, rfl, rfl, h.event, h.info, h.trace, h.knownCurrent,
      fun c hc => by cases hc; exact hk, h.knownHistory⟩
  · rfl

theorem alike_setPendingEvent {keys : List StateId} {t t' : List (Action ε)}
    {m m' : MachineBase β ε} {e : ε} (h : Alike keys t t' m m') :
    Agree (Alike keys t t') (m.setPendingEvent e) (m'.setPendingEvent e) := by
  unfold MachineBase.setPendingEvent
  rw [h.event]
  cases m.myPendingEvent with
  | null =>
    exact ⟨h.current, h.pendingState, h.pendingBox, h.pendingHistory, rfl, h.info, h.trace,
      h.knownCurrent, h.knownPending, h.knownHistory⟩
  | dummy => rfl
  | event e' => rfl

theorem alike_clearHistoryDeep {keys : List StateId} {t t' : List (Action ε)}
    {m m' : MachineBase β ε} (s : StateId) (h : Alike keys t t' m m') :
    Alike keys t t' (m.clearHistoryDeep s) (m'.clearHistoryDeep s) := by
  have hi : ∀ (n : MachineBase β ε) (k : StateId), (n.clearHistoryDeep s).info k =
      if isChild k s = true then { n.info k with myHistory := none } else n.info k := by
    intro n k
    unfold MachineBase.clearHistoryDeep MachineBase.info
    simp only
    cases n.myStates k with
    | none => by_cases hc : isChild k s = true <;> simp [hc]
    | some i => by_cases hc : isChild k s = true <;> simp [hc]
  refine ⟨h.current, h.pendingState, h.pendingBox, h.pendingHistory, h.event, ?_, h.trace,
    h.knownCurrent, h.knownPending, ?_⟩
  · intro k hk
    rw [hi, hi, h.info k hk]
  · intro k hk x hx
    rw [hi] at hx
    split at hx
    · cases hx
    · exact h.knownHistory k hk x hx

theorem alike_modifyBox {keys : List StateId} {t t' : List (Action ε)}
    {m m' : MachineBase β ε} {s : StateId} {f : β → β} (h : Alike keys t t' m m')
    (hs : s ∈ keys) :
    Agree (Alike keys t t') (StateInfo.modifyBox s f m) (StateInfo.modifyBox s f m') := by
  unfold StateInfo.modifyBox
  rw [h.info s hs]
  cases hb : (m.info s).myBox with
  | none => rfl
  | some b =>
    exact alike_setInfo h (fun x hx => h.knownHistory s hs x hx)

theorem alike_run {keys : List StateId} {t t' : List (Action ε)}
    {m m' : MachineBase β ε} (c : Cmd β ε) (h : Alike keys t t' m m')
    (hc : ∀ x ∈ c.states, x ∈ keys) :
    Agree (Alike keys t t') (c.run m) (c.run m') := by
  cases c with
  | setState s box =>
    exact alike_setPendingState (alike_getInfo s h) (hc s (by simp [Cmd.states]))
  | setStateDirect s box =>
    exact alike_setPendingState (alike_getInfo s h) (hc s (by simp [Cmd.states]))
  | setStateAlias state =>
    simp only [Cmd.run, Link.setStateAlias]
    exact agree_map (agree_map
      (alike_setPendingState (alike_getInfo state.myCharacter h)
        (hc state.myCharacter (by simp [Cmd.states])))
      (Q := fun a b => Alike keys t t' a.1 b.1) (fun a b hab => hab)) (fun a b hab => hab)
  | dispatch e => exact alike_setPendingEvent h
  | clearHistory s =>
    exact alike_setHistory (alike_getInfo s h) (hc s (by simp [Cmd.states]))
      (fun y hy => by cases hy)
  | clearHistoryDeep s => exact alike_clearHistoryDeep s (alike_getInfo s h)
  | modifyBox s f => exact alike_modifyBox h (hc s (by simp [Cmd.states]))

theorem alike_runCmds {keys : List StateId} {t t' : List (Action ε)} :
    ∀ (cs : List (Cmd β ε)) {m m' : MachineBase β ε}, Alike keys t t' m m' →
      (∀ c ∈ cs, ∀ x ∈ c.states, x ∈ keys) →
      Agree (Alike keys t t') (runCmds cs m) (runCmds cs m') := by
  intro cs
  induction cs with
  | nil => intro m m' h _; exact h
  | cons c cs ih =>
    intro m m' h hc
    simp only [runCmds]
    exact agree_bind (alike_run c h (hc c (List.mem_cons_self _ _)))
      (fun a b hab => ih hab (fun c' hc' => hc c' (List.mem_cons_of_mem _ hc')))

theorem alike_createBox {keys : List StateId} {t t' : List (Action ε)}
    {m m' : MachineBase β ε} (p : Program β ε) {s : StateId} (h : Alike keys t t' m m')
    (hs : s ∈ keys) :
    Alike keys t t' (StateInfo.createBox p s m) (StateInfo.createBox p s m') := by
  cases s with
  | root => exact h
  | sub super tag =>
    simp only [StateInfo.createBox]
    rw [h.info _ hs]
    exact alike_logBox _ _ (alike_setInfo h (fun x hx => h.knownHistory _ hs x hx))

theorem alike_deleteBox {keys : List StateId} {t t' : List (Action ε)}
    {m m' : MachineBase β ε} {s : StateId} (h : Alike keys t t' m m') (hs : s ∈ keys) :
    Alike keys t t' (StateInfo.deleteBox s m) (StateInfo.deleteBox s m') := by
  cases s with
  | root => exact h
  | sub super tag =>
    simp only [StateInfo.deleteBox]
    rw [h.info _ hs]
    cases hb : (m.info (.sub super tag)).myBox with
    | none => exact h
    | some b =>
      exact alike_logBox _ _ (alike_setInfo h (fun x hx => h.knownHistory _ hs x hx))

theorem alike_virtualDeleteBox {keys : List StateId} {t t' : List (Action ε)}
    {m m' : MachineBase β ε} (p : Program β ε) {s : StateId} (h : Alike keys t t' m m')
    (hs : s ∈ keys) :
    Alike keys t t' (StateBase._deleteBox p s m) (StateBase._deleteBox p s m') := by
  cases s with
  | root => exact h
  | sub super tag =>
    simp only [StateBase._deleteBox]
    split
    · exact h
    · exact alike_deleteBox h hs

theorem alike_setBox {keys : List StateId} {t t' : List (Action ε)}
    {m m' : MachineBase β ε} {s : StateId} {box : β} (h : Alike keys t t' m m')
    (hs : s ∈ keys) :
    Agree (Alike keys t t') (StateInfo.setBox s box m) (StateInfo.setBox s box m') := by
  unfold StateInfo.setBox
  rw [h.info s hs]
  cases hb : (m.info s).myBox with
  | some b => rfl
  | none => exact alike_setInfo h (fun x hx => h.knownHistory s hs x hx)

theorem alike_saveHistory {keys : List StateId} {t t' : List (Action ε)}
    (hk : UpClosed keys) (p : Program β ε) :
    ∀ (s shallow deep : StateId) {m m' : MachineBase β ε}, Alike keys t t' m m' →
      s ∈ keys → shallow ∈ keys → deep ∈ keys →
      Alike keys t t' (StateInfo.saveHistory p s shallow deep m)
        (StateInfo.saveHistory p s shallow deep m') := by
  intro s
  induction s with
  | root => intro shallow deep m m' h _ _ _; exact h
  | sub super tag ih =>
    intro shallow deep m m' h hs hsh hd
    simp only [StateInfo.saveHistory]
    have h1 : Alike keys t t'
        (match p.history (.sub super tag) with
          | .none => m
          | .shallow => StateInfo.setHistory (.sub super tag) (some shallow) m
          | .deep => StateInfo.setHistory (.sub super tag) (some deep) m)
        (match p.history (.sub super tag) with
          | .none => m'
          | .shallow => StateInfo.setHistory (.sub super tag) (some shallow) m'
          | .deep => StateInfo.setHistory (.sub super tag) (some deep) m') := by
      cases p.history (.sub super tag) with
      | none => exact h
      | shallow => exact alike_setHistory h hs (fun y hy => by cases hy; exact hsh)
      | deep => exact alike_setHistory h hs (fun y hy => by cases hy; exact hd)
    split
    · exact ih _ _ h1 (upClosed_super hk hs) hs hd
    · exact h1

theorem alike_setHistorySuper {keys : List StateId} {t t' : List (Action ε)}
    (hk : UpClosed keys) (p : Program β ε) {s deep : StateId} {m m' : MachineBase β ε}
    (h : Alike keys t t' m m') (hs : s ∈ keys) (hd : deep ∈ keys) :
    Alike keys t t' (StateInfo.setHistorySuper p s deep m)
      (StateInfo.setHistorySuper p s deep m') := by
  cases s with
  | root => exact h
  | sub super tag => exact alike_saveHistory hk p super _ deep h (upClosed_super hk hs) hs hd

theorem alike_entry {keys : List StateId} {t t' : List (Action ε)}
    (hk : UpClosed keys) {p : Program β ε} (hn : Named p keys) (hu : Uniform p keys)
    (previous : StateId) :
    ∀ (s : StateId) (first : Bool) {m m' : MachineBase β ε}, Alike keys t t' m m' →
      s ∈ keys →
      Agree (Alike keys t t') (StateInfo.entry p previous s first m)
        (StateInfo.entry p previous s first m') := by
  intro s
  induction s with
  | root => intro first m m' h _; exact h
  | sub super tag ih =>
    intro first m m' h hs
    simp only [StateInfo.entry]
    split
    · refine agree_bind (ih false h (upClosed_super hk hs)) ?_
      intro a b hab
      have hact : ∀ {x y : MachineBase β ε}, Alike keys t t' x y →
          Agree (Alike keys t t')
            (runCmds (p.entry (.sub super tag) (x.log (.entry (.sub super tag))))
              (x.log (.entry (.sub super tag))))
            (runCmds (p.entry (.sub super tag) (y.log (.entry (.sub super tag))))
              (y.log (.entry (.sub super tag)))) := by
        intro x y hxy
        have h3 := alike_log (.entry (.sub super tag)) hxy
        rw [(hu (.sub super tag) _ _ (alike_view h3)).1]
        exact alike_runCmds _ h3 (fun c hc => hn _ _ c (Or.inl hc))
      simp only [hab.info _ hs]
      cases (a.info (.sub super tag)).myBox with
      | none => exact hact (alike_createBox p hab hs)
      | some x => exact hact hab
    · exact h

theorem alike_exit {keys : List StateId} {t t' : List (Action ε)}
    (hk : UpClosed keys) {p : Program β ε} (hn : Named p keys) (hu : Uniform p keys)
    (next : StateId) :
    ∀ (s : StateId) {m m' : MachineBase β ε}, Alike keys t t' m m' →
      s ∈ keys →
      Agree (Alike keys t t') (StateInfo.exit p next s m) (StateInfo.exit p next s m') := by
  intro s
  induction s with
  | root => intro m m' h _; exact h
  | sub super tag ih =>
    intro m m' h hs
    simp only [StateInfo.exit]
    split
    · have h1 := alike_log (.exit (.sub super tag)) h
      rw [(hu (.sub super tag) _ _ (alike_view h1)).2.1]
      refine agree_bind (alike_runCmds _ h1 (fun c hc => hn _ _ c (Or.inr (Or.inl hc)))) ?_
      intro a b hab
      exact ih (alike_virtualDeleteBox p hab hs) (upClosed_super hk hs)
    · exact h

theorem alike_init {keys : List StateId} {t t' : List (Action ε)}
    {p : Program β ε} (hn : Named p keys) (hu : Uniform p keys)
    {s : StateId} {history : Bool} {m m' : MachineBase β ε} (h : Alike keys t t' m m')
    (hs : s ∈ keys) :
    Agree (Alike keys t t') (StateInfo.init p s history m)
      (StateInfo.init p s history m') := by
  unfold StateInfo.init
  refine agree_map (R := Alike keys t t') ?_
    (fun a b hab => alike_setHistory hab hs (fun y hy => by cases hy))
  rw [h.info s hs]
  have hcmds : Agree (Alike keys t t')
      (runCmds (StateBase.init p s (m.log (.init s))) (m.log (.init s)))
      (runCmds (StateBase.init p s (m'.log (.init s))) (m'.log (.init s))) := by
    have h1 := alike_log (.init s) h
    cases s with
    | root => exact h1
    | sub super tag =>
      simp only [StateBase.init]
      rw [(hu (.sub super tag) _ _ (alike_view h1)).2.2.1]
      exact alike_runCmds _ h1 (fun c hc => hn _ _ c (Or.inr (Or.inr (Or.inl hc))))
  cases history with
  | false => exact hcmds
  | true =>
    cases hh : (m.info s).myHistory with
    | none => exact hcmds
    | some x =>
      exact alike_setPendingState (alike_log _ h) (h.knownHistory s hs x hh)

theorem alike_setDummyEvent {keys : List StateId} {t t' : List (Action ε)}
    {m m' : MachineBase β ε} (h : Alike keys t t' m m') :
    Alike keys t t' m.setDummyEvent m'.setDummyEvent := by
  unfold MachineBase.setDummyEvent
  rw [h.event]
  cases m.myPendingEvent with
  | null =>
    exact ⟨h.current, h.pendingState, h.pendingBox, h.pendingHistory, rfl, h.info, h.trace,
      h.knownCurrent, h.knownPending, h.knownHistory⟩
  | dummy => exact h
  | event e => exact h

theorem alike_clearDummyEvent {keys : List StateId} {t t' : List (Action ε)}
    {m m' : MachineBase β ε} (h : Alike keys t t' m m') :
    Alike keys t t' m.clearDummyEvent m'.clearDummyEvent := by
  unfold MachineBase.clearDummyEvent
  rw [h.event]
  cases m.myPendingEvent with
  | null => exact h
  | dummy =>
    exact ⟨h.current, h.pendingState, h.pendingBox, h.pendingHistory, rfl, h.info, h.trace,
      h.knownCurrent, h.knownPending, h.knownHistory⟩
  | event e => exact h

theorem alike_exitPhase {keys : List StateId} {t t' : List (Action ε)}
    (hk : UpClosed keys) {p : Program β ε} (hn : Named p keys) (hu : Uniform p keys)
    {m m' : MachineBase β ε} (h : Alike keys t t' m m') :
    Agree (Alike keys t t') (m.exitPhase p) (m'.exitPhase p) := by
  unfold MachineBase.exitPhase
  rw [h.current, h.pendingState]
  cases hc : m.myCurrentState with
  | none => rfl
  | some current =>
    cases hp : m.myPendingState with
    | none => rfl
    | some pending =>
      refine agree_bind (alike_exit hk hn hu pending current (alike_setDummyEvent h)
        (h.knownCurrent current hc)) ?_
      intro a b hab
      simp only [hab.current]
      cases hac : a.myCurrentState with
      | none => rfl
      | some c =>
        have hck := hab.knownCurrent c hac
        exact alike_setHistorySuper hk p hab hck hck

theorem alike_fields {keys : List StateId} {t t' : List (Action ε)}
    {m m' : MachineBase β ε} (h : Alike keys t t' m m')
    {c c' ps ps' : Option StateId} {pb pb' : Option β} {ph ph' : Bool}
    {ev ev' : PendingEvent ε} (e1 : c' = c) (e2 : ps' = ps) (e3 : pb' = pb) (e4 : ph' = ph)
    (e5 : ev' = ev) (hc : ∀ x, c = some x → x ∈ keys) (hps : ∀ x, ps = some x → x ∈ keys) :
    Alike keys t t'
      { myCurrentState := c, myPendingState := ps, myPendingBox := pb,
        myPendingHistory := ph, myPendingEvent := ev, myStates := m.myStates,
        trace := m.trace, boxLog := m.boxLog }
      { myCurrentState := c', myPendingState := ps', myPendingBox := pb',
        myPendingHistory := ph', myPendingEvent := ev', myStates := m'.myStates,
        trace := m'.trace, boxLog := m'.boxLog } :=
  ⟨e1, e2, e3, e4, e5, h.info, h.trace, hc, hps, h.knownHistory⟩

theorem alike_entryPhase {keys : List StateId} {t t' : List (Action ε)}
    (hk : UpClosed keys) {p : Program β ε} (hn : Named p keys) (hu : Uniform p keys)
    {m m' : MachineBase β ε} (h : Alike keys t t' m m') :
    Agree (fun a b => Alike keys t t' a.1 b.1 ∧ b.2 = a.2) (m.entryPhase p)
      (m'.entryPhase p) := by
  unfold MachineBase.entryPhase
  rw [h.current, h.pendingState]
  cases hc : m.myCurrentState with
  | none => rfl
  | some previous =>
    cases hp : m.myPendingState with
    | none => rfl
    | some pending =>
      have hpk := h.knownPending pending hp
      simp only [h.pendingBox]
      refine agree_bind (R := Alike keys t t') ?_ ?_
      · cases m.myPendingBox with
        | none =>
          exact alike_fields h rfl rfl rfl h.pendingHistory h.event
            (fun x hx => by cases hx; exact hpk) (fun x hx => by cases hx; exact hpk)
        | some box =>
          exact alike_setBox (alike_fields h rfl rfl rfl h.pendingHistory h.event
            (fun x hx => by cases hx; exact hpk) (fun x hx => by cases hx; exact hpk)) hpk
      · intro a b hab
        refine agree_map (alike_entry hk hn hu previous pending true hab hpk) ?_
        intro x y hxy
        exact ⟨alike_fields hxy hxy.current rfl rfl rfl hxy.event hxy.knownCurrent
          (fun c hc' => by cases hc'), hxy.pendingHistory⟩

theorem alike_initPhase {keys : List StateId} {t t' : List (Action ε)}
    {p : Program β ε} (hn : Named p keys) (hu : Uniform p keys)
    {history : Bool} {m m' : MachineBase β ε} (h : Alike keys t t' m m') :
    Agree (Alike keys t t') (m.initPhase p history) (m'.initPhase p history) := by
  unfold MachineBase.initPhase
  rw [h.current]
  cases hc : m.myCurrentState with
  | none => rfl
  | some current =>
    refine agree_bind (alike_init hn hu h (h.knownCurrent current hc)) ?_
    intro a b hab
    simp only [hab.pendingState, hab.current]
    split
    · exact alike_clearDummyEvent hab
    · rfl

theorem alike_transition {keys : List StateId} {t t' : List (Action ε)}
    (hk : UpClosed keys) {p : Program β ε} (hn : Named p keys) (hu : Uniform p keys)
    {m m' : MachineBase β ε} (h : Alike keys t t' m m') :
    Agree (Alike keys t t') (m.transition p) (m'.transition p) := by
  unfold MachineBase.transition
  refine agree_bind (alike_exitPhase hk hn hu h) ?_
  intro a b hab
  refine agree_bind (alike_entryPhase hk hn hu hab) ?_
  intro x y hxy
  rw [hxy.2]
  exact alike_initPhase hn hu hxy.1

theorem alike_transitionLoop {keys : List StateId} {t t' : List (Action ε)}
    (hk : UpClosed keys) {p : Program β ε} (hn : Named p keys) (hu : Uniform p keys) :
    ∀ (fuel : Nat) {m m' : MachineBase β ε}, Alike keys t t' m m' →
      Agree (Alike keys t t') (m.transitionLoop p fuel) (m'.transitionLoop p fuel) := by
  intro fuel
  induction fuel with
  | zero =>
    intro m m' h
    simp only [MachineBase.transitionLoop, h.pendingState]
    cases m.myPendingState with
    | none => exact h
    | some x => rfl
  | succ n ih =>
    intro m m' h
    simp only [MachineBase.transitionLoop, h.pendingState]
    cases m.myPendingState with
    | none => exact h
    | some x => exact agree_bind (alike_transition hk hn hu h) (fun a b hab => ih hab)

theorem alike_dispatchEvent {keys : List StateId} {t t' : List (Action ε)}
    {p : Program β ε} (hn : Named p keys) (hu : Uniform p keys) (e : ε)
    {m m' : MachineBase β ε} (h : Alike keys t t' m m') :
    Agree (Alike keys t t') (m.dispatchEvent p e) (m'.dispatchEvent p e) := by
  unfold MachineBase.dispatchEvent
  rw [h.current]
  cases m.myCurrentState with
  | none => rfl
  | some c =>
    cases c with
    | root => rfl
    | sub super tag =>
      have h1 := alike_log (.dispatch e (.sub super tag)) h
      show Agree (Alike keys t t') (runCmds (p.handler e (.sub super tag) _) _)
        (runCmds (p.handler e (.sub super tag) _) _)
      rw [(hu (.sub super tag) _ _ (alike_view h1)).2.2.2 e]
      exact alike_runCmds _ h1 (fun c hc => hn _ _ c (Or.inr (Or.inr (Or.inr ⟨e, hc⟩))))

theorem alike_settle {keys : List StateId} {t t' : List (Action ε)}
    (hk : UpClosed keys) {p : Program β ε} (hn : Named p keys) (hu : Uniform p keys) :
    ∀ (fuel : Nat) {m m' : MachineBase β ε}, Alike keys t t' m m' →
      Agree (Alike keys t t') (m.settle p fuel) (m'.settle p fuel) := by
  intro fuel
  induction fuel with
  | zero =>
    intro m m' h
    simp only [MachineBase.settle, h.pendingState, h.event]
    cases m.myPendingState with
    | none =>
      cases m.myPendingEvent with
      | null => exact h
      | dummy => rfl
      | event e => rfl
    | some x => rfl
  | succ n ih =>
    intro m m' h
    have hbody : Agree (Alike keys t t')
        ((m.transitionLoop p (n + 1)).bind fun m1 =>
          (match m1.myPendingEvent with
            | .null => Except.ok m1
            | .dummy => Except.error Fault.undefined
            | .event e =>
              MachineBase.dispatchEvent p e { m1 with myPendingEvent := .null }).bind
            (MachineBase.settle p n))
        ((m'.transitionLoop p (n + 1)).bind fun m1 =>
          (match m1.myPendingEvent with
            | .null => Except.ok m1
            | .dummy => Except.error Fault.undefined
            | .event e =>
              MachineBase.dispatchEvent p e { m1 with myPendingEvent := .null }).bind
            (MachineBase.settle p n)) := by
      refine agree_bind (alike_transitionLoop hk hn hu (n + 1) h) ?_
      intro a b hab
      refine agree_bind (R := Alike keys t t') ?_ (fun x y hxy => ih hxy)
      rw [hab.event]
      cases a.myPendingEvent with
      | null => exact hab
      | dummy => rfl
      | event e =>
        exact alike_dispatchEvent hn hu e
          ⟨hab.current, hab.pendingState, hab.pendingBox, hab.pendingHistory, rfl,
            hab.info, hab.trace, hab.knownCurrent, hab.knownPending, hab.knownHistory⟩
    simp only [MachineBase.settle, h.pendingState, h.event]
    cases hp : m.myPendingState with
    | none =>
      cases he : m.myPendingEvent with
      | null => exact h
      | dummy => exact hbody
      | event e => exact hbody
    | some x => exact hbody

theorem alike_rattleOn {keys : List StateId} {t t' : List (Action ε)}
    (hk : UpClosed keys) {p : Program β ε} (hn : Named p keys) (hu : Uniform p keys)
    (fuel : Nat) {m m' : MachineBase β ε} (h : Alike keys t t' m m') :
    Agree (Alike keys t t') (m.rattleOn p fuel) (m'.rattleOn p fuel) := by
  unfold MachineBase.rattleOn
  rw [h.current]
  cases m.myCurrentState with
  | none => rfl
  | some c => exact alike_settle hk hn hu fuel h

theorem alike_apply {keys : List StateId} {t t' : List (Action ε)}
    (hk : UpClosed keys) {p : Program β ε} (hn : Named p keys) (hu : Uniform p keys)
    (fuel : Nat) (o : Op β ε) {m m' : MachineBase β ε} (h : Alike keys t t' m m')
    (ho : ∀ x ∈ o.states, x ∈ keys) :
    Agree (Alike keys t t') (Machine.apply p fuel o m) (Machine.apply p fuel o m') := by
  cases o with
  | call c => exact alike_run c h ho
  | rattleOn => exact alike_rattleOn hk hn hu fuel h
  | dispatch e =>
    simp only [Machine.apply, Machine.dispatch]
    exact agree_bind (alike_dispatchEvent hn hu e h)
      (fun a b hab => alike_rattleOn hk hn hu fuel hab)
  | arrow e =>
    simp only [Machine.apply, Machine.arrow, h.current, h.pendingState]
    cases m.myCurrentState with
    | none => rfl
    | some c =>
      cases m.myPendingState with
      | some x => rfl
      | none =>
        exact agree_bind (alike_dispatchEvent hn hu e h)
          (fun a b hab => alike_rattleOn hk hn hu fuel hab)
  | setState state history =>
    simp only [Machine.apply, MachineBase.setStateAlias]
    refine agree_map (Q := Alike keys t t')
      (R := fun a b => Alike keys t t' a.1 b.1) (agree_map (R := Alike keys t t') ?_
        (fun a b hab => hab)) (fun a b hab => hab)
    exact agree_bind (alike_setPendingState (alike_getInfo state.myCharacter h)
      (ho state.myCharacter (by simp [Op.states])))
      (fun a b hab => alike_rattleOn hk hn hu fuel hab)

theorem alike_applyAll {keys : List StateId} {t t' : List (Action ε)}
    (hk : UpClosed keys) {p : Program β ε} (hn : Named p keys) (hu : Uniform p keys)
    (fuel : Nat) :
    ∀ (ops : List (Op β ε)) {m m' : MachineBase β ε}, Alike keys t t' m m' →
      (∀ o ∈ ops, ∀ x ∈ o.states, x ∈ keys) →
      Agree (Alike keys t t') (Machine.applyAll p fuel ops m)
        (Machine.applyAll p fuel ops m') := by
  intro ops
  induction ops with
  | nil => intro m m' h _; exact h
  | cons o os ih =>
    intro m m' h ho
    simp only [Machine.applyAll]
    exact agree_bind (alike_apply hk hn hu fuel o h (ho o (List.mem_cons_self _ _)))
      (fun a b hab => ih hab (fun o' ho' => ho o' (List.mem_cons_of_mem _ ho')))

theorem stateInfo_ext {a b : StateInfo β} (h1 : a.myHistory = b.myHistory)
    (h2 : a.myBox = b.myBox) : a = b := by
  cases a
  cases b
  simp only at h1 h2
  rw [h1, h2]

/-- A machine restored from a snapshot looks the same as the machine of which the
snapshot was taken. -/
theorem restore_alike {p : Program β ε} {fuel : Nat} {keys : List StateId}
    {m0 s m m' : MachineBase β ε} (hnd : keys.Nodup) (hq : Quiescent m0)
    (hroot : (m0.info .root).myBox = none)
    (hcur : ∀ c, m0.myCurrentState = some c → c ∈ keys)
    (hhist : ∀ k ∈ keys, ∀ h, (m0.info k).myHistory = some h → h ∈ keys)
    (hs : Snapshot.new keys m0 = .ok s) (ha : Machine.assign p fuel keys s m = .ok m') :
    Alike keys m0.trace m'.trace m0 m' := by
  obtain ⟨hp0, he0, c, s1, hc0, hcopy1, hs1⟩ := snapshot_ok hs
  obtain ⟨m1, m2, c', _, hcopy2, hsc, hm2c, hp2, he2, _, hm'⟩ := assign_spec ha
  obtain ⟨q1, q2, q3, q4⟩ := assign_quiescent ha
  have hsm : s.myStates = s1.myStates := by rw [hs1]
  obtain ⟨_, x1, x2, x3, x4, _⟩ :=
    copy_spec hnd (fun k _ => (rfl : (MachineBase.allocate ({} : MachineBase β ε)).myStates k
      = none)) hcopy1
  obtain ⟨_, _, fnone, _⟩ := free_spec keys m1
  rw [hsm] at hcopy2
  obtain ⟨_, y1, y2, y3, y4, y5⟩ := copy_spec hnd fnone hcopy2
  have hmi : ∀ k, m'.info k = m2.info k := by intro k; rw [hm']; rfl
  have hcc : c' = c := by
    rw [hs1] at hsc
    simp only at hsc
    cases hx : s1.myStates c with
    | none => rw [hx] at hsc; cases hsc
    | some i =>
      rw [hx] at hsc
      simp only [Option.map, Option.some.injEq] at hsc
      exact hsc.symm
  refine ⟨by rw [hm', hcc, hc0], by rw [q1, hq.1], by rw [q2, hq.2.1], by rw [q3, hq.2.2.1],
    by rw [q4, hq.2.2.2], ?_, ⟨[], by simp, by simp⟩, hcur,
    (fun x hx => by rw [hq.1] at hx; cases hx), hhist⟩
  intro k hk
  apply stateInfo_ext
  · rw [hmi, y2 k hk]
    exact x2 k hk
  · by_cases hr : k = .root
    · subst hr
      rw [hmi, y4, hroot]
      show (((m1.free keys).myStates .root).getD {}).myBox = none
      rw [fnone _ hk]
      rfl
    · rw [hmi, y3 k hk hr]
      exact x3 k hk hr

/-- C23: a snapshot `s` is taken of a quiescent machine `m0` and assigned to a machine
`m`, whatever that machine has been driven to, which gives `m'`.  Every sequence `ops`
of requests (library calls, `rattleOn`, `dispatch`, `m->event()`, `setState` with an
alias) then does the same to `m'` as to `m0`: after every number `n` of requests the
trace of entry, exit, init and handler invocations has grown by the same actions, the
current states are the same and the states hold the same histories and boxes; a request
that fails on one fails on the other with the same fault.  (The key table holds the
states the program, the requests and `m0` name, with their superstates; user code reads
the machine only through the current state, the pending fields, the histories and the
boxes.) -/
theorem restored_behaves_alike (p : Program β ε) (fuel : Nat) (keys : List StateId)
    (m0 s m m' : MachineBase β ε) (ops : List (Op β ε))
    (hnd : keys.Nodup) (hk : UpClosed keys) (hn : Named p keys) (hu : Uniform p keys)
    (hq : Quiescent m0) (hroot : (m0.info .root).myBox = none)
    (hcur : ∃ c ∈ keys, m0.myCurrentState = some c)
    (hhist : ∀ k ∈ keys, ∀ h ∈ (m0.info k).myHistory, h ∈ keys)
    (hops : ∀ o ∈ ops, ∀ x ∈ o.states, x ∈ keys)
    (hs : Snapshot.new keys m0 = .ok s) (ha : Machine.assign p fuel keys s m = .ok m') :
    ∀ n : Nat,
      (∀ m1, Machine.applyAll p fuel (ops.take n) m0 = .ok m1 →
        ∃ m1' l, Machine.applyAll p fuel (ops.take n) m' = .ok m1' ∧
          m1.trace = m0.trace ++ l ∧ m1'.trace = m'.trace ++ l ∧
          m1'.myCurrentState = m1.myCurrentState ∧
          ∀ k ∈ keys, m1'.info k = m1.info k) ∧
      (∀ e, Machine.applyAll p fuel (ops.take n) m0 = .error e →
        Machine.applyAll p fuel (ops.take n) m' = .error e) := by
  intro n
  have h0 : Alike keys m0.trace m'.trace m0 m' := by
    refine restore_alike hnd hq hroot ?_ ?_ hs ha
    · intro c hc
      obtain ⟨c', hc', hcc⟩ := hcur
      rw [hcc] at hc
      cases hc
      exact hc'
    · intro k hk' h hh
      exact hhist k hk' h hh
  have h1 := alike_applyAll hk hn hu fuel (ops.take n) h0
    (fun o ho => hops o (List.mem_of_mem_take ho))
  constructor
  · intro m1 hm1
    rw [hm1] at h1
    cases hx : Machine.applyAll p fuel (ops.take n) m' with
    | error e => rw [hx] at h1; exact h1.elim
    | ok m1' =>
      rw [hx] at h1
      have h2 : Alike keys m0.trace m'.trace m1 m1' := h1
      obtain ⟨l, t1, t2⟩ := h2.trace
      exact ⟨m1', l, rfl, t1, t2, h2.current, h2.info⟩
  · intro e he
    rw [he] at h1
    cases hx : Machine.applyAll p fuel (ops.take n) m' with
    | error e' =>
      rw [hx] at h1
      have h2 : e' = e := h1
      rw [h2]
    | ok m1' => rw [hx] at h1; exact h1.elim

theorem transitions_named : Named Transitions.prog Transitions.keys := by
  intro s m c h x hx
  simp only [Transitions.prog] at h
  rcases h with h | h | h | ⟨e, h⟩
  · split at h
    · simp only [List.mem_singleton] at h
      subst h
      simp only [Cmd.states, List.mem_singleton] at hx
      subst hx
      decide
    · split at h
      · simp only [List.mem_singleton] at h
        subst h
        simp only [Cmd.states, List.mem_singleton] at hx
        subst hx
        decide
      · simp at h
  · split at h
    · simp only [List.mem_singleton] at h
      subst h
      simp only [Cmd.states, List.mem_singleton] at hx
      subst hx
      decide
    · simp at h
  · split at h
    · simp only [List.mem_singleton] at h
      subst h
      simp only [Cmd.states, List.mem_singleton] at hx
      subst hx
      decide
    · split at h
      · simp only [List.mem_singleton] at h
        subst h
        simp only [Cmd.states, List.mem_singleton] at hx
        subst hx
        decide
      · simp at h
  · simp at h

theorem transitions_uniform : Uniform Transitions.prog Transitions.keys :=
  fun _ _ _ _ => ⟨rfl, rfl, rfl, fun _ => rfl⟩

/-- Witness for C23, the test's loop: the snapshot is taken in `StateCAA`, the machine
goes on to `StateAAA` and is restored; the requests of the loop then invoke the same
actions on the restored machine as on the machine at capture. -/
theorem restored_behaves_alike_witness :
    Snapshot.new Transitions.keys (Transitions.driven [Transitions.StateC]) =
      .ok (Transitions.snapshot [Transitions.StateC]) ∧
    Machine.assign Transitions.prog 8 Transitions.keys
        (Transitions.snapshot [Transitions.StateC])
        (Transitions.driven [Transitions.StateC, Transitions.StateAAA]) =
      .ok (Transitions.restored [Transitions.StateC]
        [Transitions.StateC, Transitions.StateAAA]) ∧
    (∀ n : Nat,
      (∀ m1, Machine.applyAll Transitions.prog 8 (Transitions.loopOps.take n)
          (Transitions.driven [Transitions.StateC]) = .ok m1 →
        ∃ m1' l, Machine.applyAll Transitions.prog 8 (Transitions.loopOps.take n)
            (Transitions.restored [Transitions.StateC]
              [Transitions.StateC, Transitions.StateAAA]) = .ok m1' ∧
          m1.trace = (Transitions.driven [Transitions.StateC]).trace ++ l ∧
          m1'.trace = (Transitions.restored [Transitions.StateC]
              [Transitions.StateC, Transitions.StateAAA]).trace ++ l ∧
          m1'.myCurrentState = m1.myCurrentState ∧
          ∀ k ∈ Transitions.keys, m1'.info k = m1.info k) ∧
      (∀ e, Machine.applyAll Transitions.prog 8 (Transitions.loopOps.take n)
          (Transitions.driven [Transitions.StateC]) = .error e →
        Machine.applyAll Transitions.prog 8 (Transitions.loopOps.take n)
          (Transitions.restored [Transitions.StateC]
            [Transitions.StateC, Transitions.StateAAA]) = .error e)) ∧
    Machine.applyAll Transitions.prog 8 (Transitions.loopOps.take 6)
        (Transitions.driven [Transitions.StateC]) =
      .ok (Transitions.looped 6 (Transitions.driven [Transitions.StateC])) ∧
    (Transitions.looped 6 (Transitions.driven [Transitions.StateC])).trace =
      (Transitions.driven [Transitions.StateC]).trace ++
        [.exit Transitions.StateCAA, .exit Transitions.StateCA, .exit Transitions.StateC,
          .entry Transitions.StateC, .history Transitions.StateC Transitions.StateCAA,
          .entry Transitions.StateCA, .entry Transitions.StateCAA,
          .init Transitions.StateCAA,
          .exit Transitions.StateCAA, .entry Transitions.StateCAB,
          .init Transitions.StateCAB,
          .exit Transitions.StateCAB, .exit Transitions.StateCA, .exit Transitions.StateC,
          .entry Transitions.StateB, .init Transitions.StateB] ∧
    (Transitions.looped 6 (Transitions.restored [Transitions.StateC]
        [Transitions.StateC, Transitions.StateAAA])).trace =
      (Transitions.restored [Transitions.StateC]
          [Transitions.StateC, Transitions.StateAAA]).trace ++
        [.exit Transitions.StateCAA, .exit Transitions.StateCA, .exit Transitions.StateC,
          .entry Transitions.StateC, .history Transitions.StateC Transitions.StateCAA,
          .entry Transitions.StateCA, .entry Transitions.StateCAA,
          .init Transitions.StateCAA,
          .exit Transitions.StateCAA, .entry Transitions.StateCAB,
          .init Transitions.StateCAB,
          .exit Transitions.StateCAB, .exit Transitions.StateCA, .exit Transitions.StateC,
          .entry Transitions.StateB, .init Transitions.StateB] :=
  ⟨by rfl, by rfl,
    restored_behaves_alike Transitions.prog 8 Transitions.keys
      (Transitions.driven [Transitions.StateC]) (Transitions.snapshot [Transitions.StateC])
      (Transitions.driven [Transitions.StateC, Transitions.StateAAA])
      (Transitions.restored [Transitions.StateC] [Transitions.StateC, Transitions.StateAAA])
      Transitions.loopOps (by decide) (by decide) transitions_named transitions_uniform
      ⟨by decide, by decide, by decide, by decide⟩ (by decide) (by decide) (by decide)
      (by decide) (by rfl) (by rfl),
    by rfl, by decide, by decide⟩
/-! ## The example machine -/

/-- C33: the run of `Example.cpp` (with any loop bound of the model above 3): the
machine is constructed, `event1(42)` and then `event2(43)` are dispatched and the
machine is destroyed.  The run succeeds, and the entry and exit invocations are, in
this order: `Top` entry, `Super` entry, `StateA` entry, `StateA`
exit, `StateB` entry, `StateB` exit, `StateA` entry, `StateA` exit, `Super` exit, `Top`
exit.  Dispatching with `m.dispatch(Event(...))` instead of `m->event(...)` gives the
same run. -/
theorem example_entries_exits (n : Nat) :
    ((Machine.new Example.prog (n + 4) Example.Top (some 11)).bind fun m =>
      (Machine.arrow Example.prog (n + 4) (.event1 42) m).bind fun m1 =>
        (Machine.arrow Example.prog (n + 4) (.event2 43) m1).bind
          (Machine.destroy Example.prog (n + 4))) = .ok (Example.destroyed 42 43) ∧
    ((Machine.new Example.prog (n + 4) Example.Top (some 11)).bind fun m =>
      (Machine.dispatch Example.prog (n + 4) (.event1 42) m).bind fun m1 =>
        (Machine.dispatch Example.prog (n + 4) (.event2 43) m1).bind
          (Machine.destroy Example.prog (n + 4))) = .ok (Example.destroyed 42 43) ∧
    entriesExits (Example.destroyed 42 43).trace =
      [.entry Example.Top, .entry Example.Super, .entry Example.StateA,
        .exit Example.StateA, .entry Example.StateB,
        .exit Example.StateB, .entry Example.StateA,
        .exit Example.StateA, .exit Example.Super, .exit Example.Top] ∧
    (Example.destroyed 42 43).trace =
      [.entry Example.Top, .init Example.Top, .entry Example.Super, .entry Example.StateA,
        .init Example.StateA, .dispatch (.event1 42) Example.StateA,
        .exit Example.StateA, .entry Example.StateB, .init Example.StateB,
        .dispatch (.event2 43) Example.StateB,
        .exit Example.StateB, .entry Example.StateA, .init Example.StateA,
        .exit Example.StateA, .exit Example.Super, .exit Example.Top, .init .root] ∧
    (Example.destroyed 42 43).myCurrentState = none := by
  refine ⟨by rfl, by rfl, by rfl, by rfl, by rfl⟩

/-- Counterexample to C34 as stated: in `Example.cpp` the handler `StateA::event1` writes
to `box()`, the box of `StateA`.  After `m->event1(42)` the machine is in `StateB` and the
box of `Top` carries `11`, the value the machine was constructed with, not `42`. -/
theorem example_top_box_counterexample :
    Example.started.myCurrentState = some Example.StateA ∧
    Machine.arrow Example.prog 8 (.event1 42) Example.started =
      .ok (Example.afterEvent1 42) ∧
    (Example.afterEvent1 42).myCurrentState = some Example.StateB ∧
    ((Example.afterEvent1 42).info Example.Top).myBox = some 11 ∧
    ((Example.afterEvent1 42).info Example.Top).myBox ≠ some 42 := by
  refine ⟨by decide, by rfl, by decide, by decide, by decide⟩

/-- C34, amended: in the example machine (any loop bound of the model above 3), the
machine is constructed in `StateA` with `11` in the box of `Top` and `44` in the box of
`StateA`.  The handler of `event1(42)` writes `42` to the box of `StateA`; after
`m->event1(42)` the machine is in `StateB`, `StateA` holds no box any more and the box of
`Top` still carries `11`.  After `m->event2(43)` the machine is in `StateA` and the box
of `Top` carries `43`. -/
theorem example_boxes (n : Nat) :
    Machine.new Example.prog (n + 4) Example.Top (some 11) = .ok Example.started ∧
    Example.started.myCurrentState = some Example.StateA ∧
    (Example.started.info Example.Top).myBox = some 11 ∧
    (Example.started.info Example.StateA).myBox = some 44 ∧
    Example.started.dispatchEvent Example.prog (.event1 42) = .ok (Example.inEvent1 42) ∧
    ((Example.inEvent1 42).info Example.StateA).myBox = some 42 ∧
    ((Example.inEvent1 42).info Example.Top).myBox = some 11 ∧
    Machine.arrow Example.prog (n + 4) (.event1 42) Example.started =
      .ok (Example.afterEvent1 42) ∧
    (Example.afterEvent1 42).myCurrentState = some Example.StateB ∧
    ((Example.afterEvent1 42).info Example.StateA).myBox = none ∧
    ((Example.afterEvent1 42).info Example.Top).myBox = some 11 ∧
    Machine.arrow Example.prog (n + 4) (.event2 43) (Example.afterEvent1 42) =
      .ok (Example.afterEvent2 42 43) ∧
    (Example.afterEvent2 42 43).myCurrentState = some Example.StateA ∧
    ((Example.afterEvent2 42 43).info Example.Top).myBox = some 43 := by
  refine ⟨by rfl, by decide, by decide, by decide, by rfl, by decide, by decide, by rfl,
    by decide, by decide, by decide, by rfl, by decide, by decide⟩

/-! ## A machine constructed from a snapshot -/

/-- C39 fails on the code: `Machine(const Snapshot &)` copies the `_StateInfo` objects of
the snapshot but never assigns `myCurrentState` (the constructor of `Snapshot` and
`operator=(const Snapshot &)` do), so the machine it constructs has a null current state,
whatever the snapshot's current state is: `rattleOn` and `operator->` fail their
assertion `myCurrentState`, and `dispatch` and the destructor dereference null. -/
theorem machine_of_snapshot_null (p : Program β ε) (fuel : Nat) (keys : List StateId)
    (s m : MachineBase β ε) (h : Machine.ofSnapshot keys s = .ok m) :
    m.myCurrentState = none ∧
    (∀ k ∈ keys, keys.Nodup → (m.myStates k).isSome = (s.myStates k).isSome) ∧
    m.rattleOn p fuel = .error .noCurrentState ∧
    (∀ e, Machine.arrow p fuel e m = .error .noCurrentState) ∧
    (∀ e, Machine.dispatch p fuel e m = .error .undefined) ∧
    Machine.destroy p fuel m = .error .undefined := by
  unfold Machine.ofSnapshot at h
  obtain ⟨b1, _⟩ := copyAll_fields h
  have hc : m.myCurrentState = none := by rw [b1]; rfl
  refine ⟨hc, ?_, ?_, ?_, ?_, ?_⟩
  · intro k hk hnd
    obtain ⟨_, x1, _⟩ := copy_spec hnd (fun k _ =>
      (rfl : (MachineBase.allocate ({} : MachineBase β ε)).myStates k = none)) h
    exact x1 k hk
  · simp [MachineBase.rattleOn, hc]
  · intro e; simp [Machine.arrow, hc]
  · intro e; simp [Machine.dispatch, MachineBase.dispatchEvent, hc, Except.bind]
  · simp [Machine.destroy, hc]

/-- The failing input of C39 on the test's machine: the snapshot taken in `StateCAA` has
`StateCAA` as its current state, the machine constructed from it has none. -/
theorem machine_of_snapshot_null_witness :
    Machine.ofSnapshot Transitions.keys (Transitions.snapshot [Transitions.StateC]) =
      .ok (Transitions.fromSnapshot [Transitions.StateC]) ∧
    (Transitions.snapshot [Transitions.StateC]).myCurrentState =
      some Transitions.StateCAA ∧
    (Transitions.fromSnapshot [Transitions.StateC]).myCurrentState = none ∧
    (∀ k ∈ Transitions.keys, Transitions.keys.Nodup →
      ((Transitions.fromSnapshot [Transitions.StateC]).myStates k).isSome =
        ((Transitions.snapshot [Transitions.StateC]).myStates k).isSome) ∧
    (Transitions.fromSnapshot [Transitions.StateC]).rattleOn Transitions.prog 8 =
      .error .noCurrentState ∧
    (∀ e, Machine.arrow Transitions.prog 8 e (Transitions.fromSnapshot [Transitions.StateC]) =
      .error .noCurrentState) ∧
    (∀ e, Machine.dispatch Transitions.prog 8 e
      (Transitions.fromSnapshot [Transitions.StateC]) = .error .undefined) ∧
    Machine.destroy Transitions.prog 8 (Transitions.fromSnapshot [Transitions.StateC]) =
      .error .undefined :=
  ⟨by rfl, by decide,
    machine_of_snapshot_null Transitions.prog 8 Transitions.keys
      (Transitions.snapshot [Transitions.StateC])
      (Transitions.fromSnapshot [Transitions.StateC]) (by rfl)⟩

/-! ## `init` discards the stored history -/

/-- C37: `_StateInfo::init(history)` on a state `X` leaves the history pointer of `X`
null in every case: when it redirects to the stored history, when it is called with
history disabled, and when it runs the user's init because nothing is stored.  It sets
the history pointer of no state.  Hence every transition to `X` leaves `X` as the
current state without a stored history, whether or not the stored history was used. -/
theorem init_clears_history (p : Program β ε) (X : StateId) (history : Bool)
    (m m' : MachineBase β ε) (h : StateInfo.init p X history m = .ok m') :
    (m'.info X).myHistory = none ∧
    m'.trace = m.trace ++ [initAction X history (m.info X).myHistory] ∧
    (∀ k, (m'.info k).myHistory = (m.info k).myHistory ∨ (m'.info k).myHistory = none) ∧
    (∀ (S : StateId) (m0 m1 : MachineBase β ε), m0.myCurrentState = some S →
      m0.myPendingState = some X → m0.transition p = .ok m1 →
      m1.myCurrentState = some X ∧ (m1.info X).myHistory = none ∧
      ∃ a : Action ε, a.IsInitOf X ∧ m1.trace.getLast? = some a) := by
  refine ⟨?_, ?_, ?_, ?_⟩
  · rcases init_ok h with ⟨k, mp, _, _, _, hmi⟩ | ⟨mu, _, _, hmi⟩
    · rw [hmi, setHistory_history, if_pos rfl]
    · rw [hmi, setHistory_history, if_pos rfl]
  · rcases init_ok h with ⟨k, mp, hh, hk, hsp, hmi⟩ | ⟨mu, hor, hru, hmi⟩
    · have hmp : mp.trace = m.trace ++ [Action.history X k] := by
        unfold MachineBase.setPendingState at hsp
        split at hsp
        · cases hsp; rfl
        · cases hsp
      rw [hmi, (historyOnly_setHistory X none mp).trace, hmp, hh, hk]
      rfl
    · have hmu : mu.trace = m.trace ++ [Action.init X] := (cmdFrame_runCmds hru).trace
      rw [hmi, (historyOnly_setHistory X none mu).trace, hmu]
      rcases hor with hf | hn
      · rw [hf]; rfl
      · rw [hn]
        cases history <;> rfl
  · intro k
    rcases init_ok h with ⟨j, mp, _, _, hsp, hmi⟩ | ⟨mu, _, hru, hmi⟩
    · rw [hmi, setHistory_history]
      split
      · exact Or.inr rfl
      · left
        rw [setPendingState_info hsp]
        rfl
    · rw [hmi, setHistory_history]
      split
      · exact Or.inr rfl
      · exact (cmdFrame_runCmds hru).history k
  · intro S m0 m1 hc hp ht
    have hs := transition_spec hc hp ht
    obtain ⟨a, ha, htr⟩ := hs.trace
    exact ⟨hs.current, hs.cleared, a, ha, by rw [htr]; simp⟩

/-- Witness for C37, the test's "Ignoring history": `StateC` holds the stored history
`StateCAB`; `init(false)` on `StateC` runs the user's init, `init(true)` redirects, and
either way the history pointer of `StateC` is null afterwards. -/
theorem init_clears_history_witness :
    (Transitions.directEntered.info Transitions.StateC).myHistory =
      some Transitions.StateCAB ∧
    StateInfo.init Transitions.prog Transitions.StateC false Transitions.directEntered =
      .ok (okOr (StateInfo.init Transitions.prog Transitions.StateC false
        Transitions.directEntered) {}) ∧
    (((okOr (StateInfo.init Transitions.prog Transitions.StateC false
        Transitions.directEntered) {}).info Transitions.StateC).myHistory = none ∧
      (okOr (StateInfo.init Transitions.prog Transitions.StateC false
          Transitions.directEntered) {}).trace =
        Transitions.directEntered.trace ++
          [initAction Transitions.StateC false
            (Transitions.directEntered.info Transitions.StateC).myHistory] ∧
      (∀ k, ((okOr (StateInfo.init Transitions.prog Transitions.StateC false
            Transitions.directEntered) {}).info k).myHistory =
          (Transitions.directEntered.info k).myHistory ∨
        ((okOr (StateInfo.init Transitions.prog Transitions.StateC false
            Transitions.directEntered) {}).info k).myHistory = none) ∧
      (∀ (S : StateId) (m0 m1 : MachineBase Nat Unit), m0.myCurrentState = some S →
        m0.myPendingState = some Transitions.StateC →
        m0.transition Transitions.prog = .ok m1 →
        m1.myCurrentState = some Transitions.StateC ∧
        (m1.info Transitions.StateC).myHistory = none ∧
        ∃ a : Action Unit, a.IsInitOf Transitions.StateC ∧ m1.trace.getLast? = some a)) ∧
    (initAction Transitions.StateC false
      (Transitions.directEntered.info Transitions.StateC).myHistory : Action Unit) =
      .init Transitions.StateC ∧
    (Transitions.historyEntered.info Transitions.StateC).myHistory =
      some Transitions.StateCAB ∧
    (okOr (StateInfo.init Transitions.prog Transitions.StateC true
        Transitions.historyEntered) {}).trace =
      Transitions.historyEntered.trace ++
        [.history Transitions.StateC Transitions.StateCAB] ∧
    ((okOr (StateInfo.init Transitions.prog Transitions.StateC true
        Transitions.historyEntered) {}).info Transitions.StateC).myHistory = none :=
  ⟨by decide, by rfl,
    init_clears_history Transitions.prog Transitions.StateC false Transitions.directEntered
      (okOr (StateInfo.init Transitions.prog Transitions.StateC false
        Transitions.directEntered) {}) (by rfl),
    by decide, by decide, by decide, by decide⟩

/-! ## The history save of a transition -/

/-- A proper superstate `A` of `P` has a child on the path down to `P`. -/
theorem child_on_path {A : StateId} :
    ∀ {P : StateId}, ProperAncestor A P → ∃ tag, isChild P (.sub A tag) = true := by
  intro P
  induction P with
  | root =>
    intro h
    have h1 := h.1
    simp only [isChild, decide_eq_true_eq] at h1
    exact absurd h1.symm h.2
  | sub super tg ih =>
    intro h
    have hs : isChild super A = true := isChild_super h.1 h.2
    by_cases heq : A = super
    · subst heq
      exact ⟨tg, isChild_refl _⟩
    · obtain ⟨tag, ht⟩ := ih ⟨hs, heq⟩
      exact ⟨tag, isChild_of_super tg ht⟩

/-- The state handed to a shallow history on the way up from `P` is the child on the
path down to `P`. -/
theorem childToward_path {A super : StateId} {tg tag : Nat} (hA : A ≠ .root)
    (hpa : ProperAncestor A (.sub super tg))
    (ht : isChild (.sub super tg) (.sub A tag) = true) :
    childToward A super (.sub super tg) = .sub A tag := by
  have hs : isChild super A = true := isChild_super hpa.1 hpa.2
  apply childToward_child A tag super (.sub super tg) hs hA
  · intro heq
    subst heq
    simp only [isChild, Bool.or_eq_true, decide_eq_true_eq] at ht
    rcases ht with ht | ht
    · exact ht
    · have := not_isChild_super_sub super tag
      rw [this] at ht
      cases ht
  · intro hne
    simp only [isChild, Bool.or_eq_true, decide_eq_true_eq] at ht
    rcases ht with ht | ht
    · injection ht with h1 h2
      exact absurd h1 hne
    · exact ht

/-- C36: in a transition away from the current state `P`, after the exit actions (machine
`me`) the history save `myCurrentState->setHistorySuper(*myCurrentState)` gives every
proper superstate `A` of `P` (other than Root, the library's base state) the history
pointer its strategy asks for: the child of `A` on the path down to `P` for shallow
history, `P` itself for deep history, and the pointer it had for no history; this holds
for each superstate on the chain independently, whether or not the transition exits it.
The history pointer of every other state is left as it is. -/
theorem history_save (p : Program β ε) (P T : StateId) (m m1 : MachineBase β ε)
    (hc : m.myCurrentState = some P) (hp : m.myPendingState = some T)
    (h : m.exitPhase p = .ok m1) :
    ∃ me, StateInfo.exit p T P m.setDummyEvent = .ok me ∧
      m1 = StateInfo.setHistorySuper p P P me ∧
      (∀ A, ProperAncestor A P → A ≠ .root →
        (p.history A = .shallow →
          ∃ tag, isChild P (.sub A tag) = true ∧
            (m1.info A).myHistory = some (.sub A tag)) ∧
        (p.history A = .deep → (m1.info A).myHistory = some P) ∧
        (p.history A = .none → (m1.info A).myHistory = (me.info A).myHistory)) ∧
      (∀ k, ¬ ProperAncestor k P ∨ k = .root →
        (m1.info k).myHistory = (me.info k).myHistory) := by
  obtain ⟨me, hme, hm1⟩ := exitPhase_ok hc hp h
  refine ⟨me, hme, hm1, ?_, ?_⟩
  · intro A hA hroot
    cases P with
    | root =>
      have h1 := hA.1
      simp only [isChild, decide_eq_true_eq] at h1
      exact absurd h1.symm hA.2
    | sub super tg =>
      have hs : isChild super A = true := isChild_super hA.1 hA.2
      have hh := saveHistory_history p super (.sub super tg) (.sub super tg) me A hs hroot
      have hm1A : (m1.info A).myHistory =
          ((StateInfo.saveHistory p super (.sub super tg) (.sub super tg) me).info
            A).myHistory := by rw [hm1]; rfl
      refine ⟨?_, ?_, ?_⟩
      · intro hsh
        obtain ⟨tag, ht⟩ := child_on_path hA
        refine ⟨tag, ht, ?_⟩
        rw [hm1A, hh, hsh]
        simp only
        rw [childToward_path hroot hA ht]
      · intro hd
        rw [hm1A, hh, hd]
      · intro hn
        rw [hm1A, hh, hn]
  · intro k hk
    rw [hm1]
    rcases hk with hk | hk
    · exact setHistorySuper_other p P P me k hk
    · rw [hk]
      exact setHistorySuper_root p P P me

/-- Witness for C36 on the test's machine: it leaves `StateCAB` for `StateB`; `StateCA`
and `StateC`, both with deep history, each get `StateCAB`.  When it leaves `StateBAA` for
`StateA`, `StateB` with shallow history gets its child `StateBA`. -/
theorem history_save_witness :
    (Transitions.leaving Transitions.StateCAB Transitions.StateB).myCurrentState =
      some Transitions.StateCAB ∧
    (Transitions.leaving Transitions.StateCAB Transitions.StateB).myPendingState =
      some Transitions.StateB ∧
    (∃ me, StateInfo.exit Transitions.prog Transitions.StateB Transitions.StateCAB
        (Transitions.leaving Transitions.StateCAB Transitions.StateB).setDummyEvent =
          .ok me ∧
      Transitions.exited (Transitions.leaving Transitions.StateCAB Transitions.StateB) =
        StateInfo.setHistorySuper Transitions.prog Transitions.StateCAB
          Transitions.StateCAB me ∧
      (∀ A, ProperAncestor A Transitions.StateCAB → A ≠ .root →
        (Transitions.prog.history A = .shallow →
          ∃ tag, isChild Transitions.StateCAB (.sub A tag) = true ∧
            ((Transitions.exited (Transitions.leaving Transitions.StateCAB
              Transitions.StateB)).info A).myHistory = some (.sub A tag)) ∧
        (Transitions.prog.history A = .deep →
          ((Transitions.exited (Transitions.leaving Transitions.StateCAB
            Transitions.StateB)).info A).myHistory = some Transitions.StateCAB) ∧
        (Transitions.prog.history A = .none →
          ((Transitions.exited (Transitions.leaving Transitions.StateCAB
            Transitions.StateB)).info A).myHistory = (me.info A).myHistory)) ∧
      (∀ k, ¬ ProperAncestor k Transitions.StateCAB ∨ k = .root →
        ((Transitions.exited (Transitions.leaving Transitions.StateCAB
          Transitions.StateB)).info k).myHistory = (me.info k).myHistory)) ∧
    ((Transitions.exited (Transitions.leaving Transitions.StateCAB
      Transitions.StateB)).info Transitions.StateCA).myHistory =
        some Transitions.StateCAB ∧
    ((Transitions.exited (Transitions.leaving Transitions.StateCAB
      Transitions.StateB)).info Transitions.StateC).myHistory =
        some Transitions.StateCAB ∧
    ((Transitions.exited (Transitions.leaving Transitions.StateCAB
      Transitions.StateB)).info Transitions.Top).myHistory = none ∧
    (Transitions.leaving Transitions.StateBAA Transitions.StateA).myCurrentState =
      some Transitions.StateBAA ∧
    ((Transitions.exited (Transitions.leaving Transitions.StateBAA
      Transitions.StateA)).info Transitions.StateB).myHistory =
        some Transitions.StateBA ∧
    ((Transitions.exited (Transitions.leaving Transitions.StateBAA
      Transitions.StateA)).info Transitions.StateBA).myHistory = none :=
  ⟨by decide, by decide,
    history_save Transitions.prog Transitions.StateCAB Transitions.StateB
      (Transitions.leaving Transitions.StateCAB Transitions.StateB)
      (Transitions.exited (Transitions.leaving Transitions.StateCAB Transitions.StateB))
      (by decide) (by decide) (by rfl),
    by decide, by decide, by decide, by decide, by decide, by decide⟩
/-! ## The assertion of `setBox` -/

theorem bind_ne_boxSet {α γ : Type} {r : Except Fault α} {f : α → Except Fault γ}
    (hr : r ≠ .error .boxSet) (hf : ∀ a, r = .ok a → f a ≠ .error .boxSet) :
    r.bind f ≠ .error .boxSet := by
  cases r with
  | error e =>
    intro h
    simp only [Except.bind] at h
    cases h
    exact hr rfl
  | ok a => exact hf a rfl

theorem map_ne_boxSet {α γ : Type} {r : Except Fault α} {f : α → γ}
    (hr : r ≠ .error .boxSet) : r.map f ≠ .error .boxSet := by
  cases r with
  | error e =>
    intro h
    simp only [Except.map] at h
    cases h
    exact hr rfl
  | ok a => intro h; cases h

theorem setPendingState_ne_boxSet (m : MachineBase β ε) (info : StateId) (history : Bool)
    (box : Option β) : m.setPendingState info history box ≠ .error .boxSet := by
  unfold MachineBase.setPendingState
  split <;> intro h <;> cases h

theorem cmd_ne_boxSet (c : Cmd β ε) (m : MachineBase β ε) : c.run m ≠ .error .boxSet := by
  cases c with
  | setState s box => exact setPendingState_ne_boxSet _ _ _ _
  | setStateDirect s box => exact setPendingState_ne_boxSet _ _ _ _
  | setStateAlias state =>
    simp only [Cmd.run, Link.setStateAlias]
    exact map_ne_boxSet (map_ne_boxSet (setPendingState_ne_boxSet _ _ _ _))
  | dispatch e =>
    simp only [Cmd.run, MachineBase.setPendingEvent]
    split <;> intro h <;> cases h
  | clearHistory s => intro h; cases h
  | clearHistoryDeep s => intro h; cases h
  | modifyBox s f =>
    simp only [Cmd.run, StateInfo.modifyBox]
    split <;> intro h <;> cases h

theorem runCmds_ne_boxSet : ∀ (cs : List (Cmd β ε)) (m : MachineBase β ε),
    runCmds cs m ≠ .error .boxSet := by
  intro cs
  induction cs with
  | nil => intro m h; cases h
  | cons c cs ih =>
    intro m
    simp only [runCmds]
    exact bind_ne_boxSet (cmd_ne_boxSet c m) (fun a _ => ih a)

theorem exit_ne_boxSet (p : Program β ε) (next : StateId) :
    ∀ (s : StateId) (m : MachineBase β ε), StateInfo.exit p next s m ≠ .error .boxSet := by
  intro s
  induction s with
  | root => intro m h; cases h
  | sub super tag ih =>
    intro m
    simp only [StateInfo.exit]
    split
    · exact bind_ne_boxSet (runCmds_ne_boxSet _ _) (fun a _ => ih _)
    · intro h; cases h

theorem entry_ne_boxSet (p : Program β ε) (previous : StateId) :
    ∀ (s : StateId) (first : Bool) (m : MachineBase β ε),
      StateInfo.entry p previous s first m ≠ .error .boxSet := by
  intro s
  induction s with
  | root => intro first m h; cases h
  | sub super tag ih =>
    intro first m
    simp only [StateInfo.entry]
    split
    · exact bind_ne_boxSet (ih false m) (fun a _ => runCmds_ne_boxSet _ _)
    · intro h; cases h

theorem init_ne_boxSet (p : Program β ε) (self : StateId) (history : Bool)
    (m : MachineBase β ε) : StateInfo.init p self history m ≠ .error .boxSet := by
  unfold StateInfo.init
  apply map_ne_boxSet
  split
  · exact setPendingState_ne_boxSet _ _ _ _
  · exact runCmds_ne_boxSet _ _

theorem exitPhase_ne_boxSet (p : Program β ε) (m : MachineBase β ε) :
    m.exitPhase p ≠ .error .boxSet := by
  unfold MachineBase.exitPhase
  split
  · refine bind_ne_boxSet (exit_ne_boxSet p _ _ _) (fun m2 _ => ?_)
    split <;> intro h <;> cases h
  · intro h; cases h

theorem initPhase_ne_boxSet (p : Program β ε) (history : Bool) (m : MachineBase β ε) :
    m.initPhase p history ≠ .error .boxSet := by
  unfold MachineBase.initPhase
  split
  · intro h; cases h
  · refine bind_ne_boxSet (init_ne_boxSet p _ _ _) (fun m1 _ => ?_)
    simp only
    split <;> intro h <;> cases h

theorem dispatchEvent_ne_boxSet (p : Program β ε) (e : ε) (m : MachineBase β ε) :
    m.dispatchEvent p e ≠ .error .boxSet := by
  unfold MachineBase.dispatchEvent
  split
  · intro h; cases h
  · intro h; cases h
  · exact runCmds_ne_boxSet _ _

theorem setPendingState_fields {m m' : MachineBase β ε} {info : StateId} {history : Bool}
    {box : Option β} (h : m.setPendingState info history box = .ok m') :
    m'.myPendingState = some info ∧ m'.myPendingBox = box ∧
    m'.myPendingHistory = history ∧ m'.myCurrentState = m.myCurrentState := by
  unfold MachineBase.setPendingState at h
  split at h
  · cases h; exact ⟨rfl, rfl, rfl, rfl⟩
  · cases h

theorem boxTarget_ofKept {p : Program β ε} {m m' : MachineBase β ε}
    (hk : PendingKept m m') (h : BoxTarget p m) : BoxTarget p m' := by
  intro b hb
  rw [hk.pendingBox] at hb
  rw [hk.pendingState]
  exact h b hb

theorem boxTarget_ofNone {p : Program β ε} {m : MachineBase β ε}
    (h : m.myPendingBox = none) : BoxTarget p m := by
  intro b hb
  rw [h] at hb
  cases hb

theorem boxTarget_run {p : Program β ε} {c : Cmd β ε} {m m' : MachineBase β ε}
    (hc : ∀ t, c.boxed = some t → t ≠ .root ∧ p.persistent t = false)
    (h : c.run m = .ok m') (hm : BoxTarget p m) : BoxTarget p m' := by
  cases c with
  | setState s box =>
    obtain ⟨f1, f2, _⟩ := setPendingState_fields h
    intro b hb
    rw [f2] at hb
    subst hb
    exact ⟨s, f1, hc s rfl⟩
  | setStateDirect s box =>
    obtain ⟨f1, f2, _⟩ := setPendingState_fields h
    intro b hb
    rw [f2] at hb
    subst hb
    exact ⟨s, f1, hc s rfl⟩
  | setStateAlias state =>
    simp only [Cmd.run, Link.setStateAlias, StateAlias.takeBox] at h
    cases hs : (state.getInfo m).setPendingState state.myCharacter true state.myBox with
    | error e => rw [hs] at h; cases h
    | ok ms =>
      rw [hs] at h
      cases h
      obtain ⟨f1, f2, _⟩ := setPendingState_fields hs
      intro b hb
      have hb' : state.myBox = some b := by rw [← f2]; exact hb
      exact ⟨state.myCharacter, f1, hc state.myCharacter (by simp [Cmd.boxed, hb'])⟩
  | dispatch e =>
    exact boxTarget_ofKept
      (pendingKept_run (show (Cmd.dispatch e : Cmd β ε).schedules = false from rfl) h) hm
  | clearHistory s =>
    exact boxTarget_ofKept
      (pendingKept_run (show (Cmd.clearHistory s : Cmd β ε).schedules = false from rfl) h) hm
  | clearHistoryDeep s =>
    exact boxTarget_ofKept
      (pendingKept_run (show (Cmd.clearHistoryDeep s : Cmd β ε).schedules = false from rfl) h) hm
  | modifyBox s f =>
    exact boxTarget_ofKept
      (pendingKept_run (show (Cmd.modifyBox s f : Cmd β ε).schedules = false from rfl) h) hm

theorem boxTarget_runCmds {p : Program β ε} :
    ∀ (cs : List (Cmd β ε)) (m m' : MachineBase β ε),
      (∀ c ∈ cs, ∀ t, c.boxed = some t → t ≠ .root ∧ p.persistent t = false) →
      runCmds cs m = .ok m' → BoxTarget p m → BoxTarget p m' := by
  intro cs
  induction cs with
  | nil => intro m m' _ h hm; cases h; exact hm
  | cons c cs ih =>
    intro m m' hc h hm
    simp only [runCmds] at h
    cases h1 : c.run m with
    | error e => rw [h1] at h; cases h
    | ok m1 =>
      rw [h1] at h
      exact ih m1 m' (fun c' hc' => hc c' (List.mem_cons_of_mem _ hc')) h
        (boxTarget_run (hc c (List.mem_cons_self _ _)) h1 hm)

theorem boxTarget_exit {p : Program β ε} (hf : BoxesToFresh p) (next : StateId) :
    ∀ (s : StateId) (m m' : MachineBase β ε), StateInfo.exit p next s m = .ok m' →
      BoxTarget p m → BoxTarget p m' := by
  intro s
  induction s with
  | root => intro m m' h hm; cases h; exact hm
  | sub super tag ih =>
    intro m m' h hm
    simp only [StateInfo.exit] at h
    split at h
    · cases h1 : runCmds (p.exit (.sub super tag) (m.log (.exit (.sub super tag))))
          (m.log (.exit (.sub super tag))) with
      | error e => rw [h1] at h; cases h
      | ok m2 =>
        rw [h1] at h
        have k1 : BoxTarget p (m.log (.exit (.sub super tag))) := hm
        have k2 := boxTarget_runCmds _ _ _
          (fun c hc => hf _ _ c (Or.inr (Or.inl hc))) h1 k1
        exact ih _ _ h (boxTarget_ofKept (pendingKept_virtualDeleteBox p _ m2) k2)
    · cases h; exact hm

theorem boxTarget_exitPhase {p : Program β ε} (hf : BoxesToFresh p)
    {m m1 : MachineBase β ε} (h : m.exitPhase p = .ok m1) (hm : BoxTarget p m) :
    BoxTarget p m1 := by
  obtain ⟨S, T, hc, hpd⟩ := exitPhase_some h
  obtain ⟨me, he, hm1⟩ := exitPhase_ok hc hpd h
  obtain ⟨_, _, _, d4, d5, d6, _⟩ := setDummyEvent_walk m
  have k0 : BoxTarget p m.setDummyEvent := boxTarget_ofKept ⟨d4, d5, d6⟩ hm
  have k1 := boxTarget_exit hf T S _ _ he k0
  rw [hm1]
  exact boxTarget_ofKept (pendingKept_ofHistoryOnly (historyOnly_setHistorySuper p S S me)) k1

theorem setBox_ne_boxSet {x : MachineBase β ε} {t : StateId} {b : β}
    (h : (x.info t).myBox = none) : StateInfo.setBox t b x ≠ .error .boxSet := by
  unfold StateInfo.setBox
  rw [h]
  intro h'; cases h'

/-- After a transition a pending box can only come from the init action. -/
theorem boxTarget_transition {p : Program β ε} (hf : BoxesToFresh p)
    {m m' : MachineBase β ε} (h : m.transition p = .ok m') : BoxTarget p m' := by
  obtain ⟨m1, m2, history, h1, h2, h3⟩ := transition_ok h
  obtain ⟨S, T, hc, hpd⟩ := exitPhase_some h1
  have e1 := exitPhase_spec hc hpd h1
  have e2 := entryPhase_spec e1.current e1.pending e1.eventSet h2
  obtain ⟨mi, hi, _, hm'⟩ := initPhase_ok e2.current h3
  obtain ⟨_, _, _, c4, c5, c6, _⟩ := clearDummyEvent_walk mi
  have hci : BoxTarget p mi := by
    rcases init_ok hi with ⟨k, mp, _, _, hs, rfl⟩ | ⟨mu, _, hr, rfl⟩
    · refine boxTarget_ofKept
        (pendingKept_ofHistoryOnly (historyOnly_setHistory T none mp)) ?_
      exact boxTarget_ofNone (setPendingState_fields hs).2.1
    · refine boxTarget_ofKept
        (pendingKept_ofHistoryOnly (historyOnly_setHistory T none mu)) ?_
      refine boxTarget_runCmds _ _ _ ?_ hr (boxTarget_ofNone e2.pendingBox)
      intro c hc'
      cases T with
      | root => simp [StateBase.init] at hc'
      | sub super tag => exact hf _ _ c (Or.inr (Or.inr (Or.inl hc')))
  rw [hm']
  exact boxTarget_ofKept ⟨c4, c5, c6⟩ hci

/-- The assertion of `setBox` holds in a transition of a machine on which the
non-persistent states hold a box exactly if active, when the pending box is for a
non-persistent state. -/
theorem transition_ne_boxSet {p : Program β ε} (hf : BoxesToFresh p)
    {m : MachineBase β ε} (hb : BoxesMatch p m) (ht : BoxTarget p m) :
    m.transition p ≠ .error .boxSet := by
  unfold MachineBase.transition
  refine bind_ne_boxSet (exitPhase_ne_boxSet p m) (fun m1 h1 => ?_)
  refine bind_ne_boxSet ?_ (fun r _ => initPhase_ne_boxSet p _ _)
  obtain ⟨S, T, hc, hpd⟩ := exitPhase_some h1
  have e1 := exitPhase_spec hc hpd h1
  have ht1 := boxTarget_exitPhase hf h1 ht
  unfold MachineBase.entryPhase
  rw [e1.current, e1.pending]
  simp only
  refine bind_ne_boxSet ?_ (fun m2 _ => map_ne_boxSet (entry_ne_boxSet p _ _ _ _))
  cases hpb : m1.myPendingBox with
  | none => intro h; cases h
  | some b =>
    obtain ⟨t, htp, htr, htper⟩ := ht1 b hpb
    have hT : t = T := by
      rw [e1.pending] at htp
      exact (Option.some.inj htp).symm
    subst hT
    have hTin : t ∈ entryPath S t true :=
      (mem_entryPath_iff S _ true _).mpr ⟨htr, isChild_refl _, Or.inl ⟨rfl, rfl⟩⟩
    have hnb := entryPath_noBox hb hc hpd h1 t hTin htper
    have hinfo : ∀ x : MachineBase β ε, x.myStates = m1.myStates →
        (x.info t).myBox = none := by
      intro x hx
      rw [info_of_myStates (congrFun hx t)]
      exact hnb
    exact setBox_ne_boxSet (hinfo _ rfl)

theorem boxTarget_transitionLoop {p : Program β ε} (hf : BoxesToFresh p) :
    ∀ (fuel : Nat) (m m' : MachineBase β ε), m.transitionLoop p fuel = .ok m' →
      BoxTarget p m → BoxTarget p m' := by
  intro fuel
  induction fuel with
  | zero =>
    intro m m' h hm
    unfold MachineBase.transitionLoop at h
    split at h
    · cases h; exact hm
    · cases h
  | succ n ih =>
    intro m m' h hm
    unfold MachineBase.transitionLoop at h
    split at h
    · cases h; exact hm
    · cases h1 : m.transition p with
      | error e => rw [h1] at h; cases h
      | ok m1 =>
        rw [h1] at h
        exact ih m1 m' h (boxTarget_transition hf h1)

theorem boxTarget_dispatchEvent {p : Program β ε} (hf : BoxesToFresh p) {e : ε}
    {m m' : MachineBase β ε} (h : m.dispatchEvent p e = .ok m') (hm : BoxTarget p m) :
    BoxTarget p m' := by
  obtain ⟨c, _, _, hr⟩ := dispatchEvent_ok h
  exact boxTarget_runCmds _ _ _ (fun c' hc' => hf _ _ c' (Or.inr (Or.inr (Or.inr ⟨e, hc'⟩))))
    hr hm

theorem transitionLoop_ne_boxSet {p : Program β ε} (hf : BoxesToFresh p) :
    ∀ (fuel : Nat) (m : MachineBase β ε), BoxesMatch p m → BoxTarget p m →
      m.transitionLoop p fuel ≠ .error .boxSet := by
  intro fuel
  induction fuel with
  | zero =>
    intro m _ _
    unfold MachineBase.transitionLoop
    split <;> intro h <;> cases h
  | succ n ih =>
    intro m hb ht
    unfold MachineBase.transitionLoop
    split
    · intro h; cases h
    · exact bind_ne_boxSet (transition_ne_boxSet hf hb ht)
        (fun m1 h1 => ih m1 (boxesMatch_transition hb h1) (boxTarget_transition hf h1))

theorem settle_ne_boxSet {p : Program β ε} (hf : BoxesToFresh p) :
    ∀ (fuel : Nat) (m : MachineBase β ε), BoxesMatch p m → BoxTarget p m →
      m.settle p fuel ≠ .error .boxSet := by
  intro fuel
  induction fuel with
  | zero =>
    intro m _ _
    unfold MachineBase.settle
    split <;> intro h <;> cases h
  | succ n ih =>
    intro m hb ht
    unfold MachineBase.settle
    split
    · intro h; cases h
    · refine bind_ne_boxSet (transitionLoop_ne_boxSet hf (n + 1) m hb ht) (fun m1 h1 => ?_)
      have hb1 : BoxesMatch p m1 :=
        transitionLoop_invariant (BoxesMatch p)
          (fun _ _ hi hx => boxesMatch_transition hi hx) (n + 1) m m1 hb h1
      have ht1 : BoxTarget p m1 := boxTarget_transitionLoop hf (n + 1) m m1 h1 ht
      refine bind_ne_boxSet ?_ (fun m2 h2 => ?_)
      · split
        · intro h; cases h
        · intro h; cases h
        · exact dispatchEvent_ne_boxSet p _ _
      · cases hpe : m1.myPendingEvent with
        | null =>
          rw [hpe] at h2
          cases h2
          exact ih m1 hb1 ht1
        | dummy => rw [hpe] at h2; cases h2
        | event e =>
          rw [hpe] at h2
          have hb1' : BoxesMatch p { m1 with myPendingEvent := .null } := by
            obtain ⟨c, hc, hinv⟩ := hb1
            exact ⟨c, hc, hinv⟩
          have ht1' : BoxTarget p { m1 with myPendingEvent := .null } := ht1
          exact ih m2 (boxesMatch_quiet hb1' (quiet_dispatchEvent h2))
            (boxTarget_dispatchEvent hf h2 ht1')

theorem boxTarget_settle {p : Program β ε} (hf : BoxesToFresh p) :
    ∀ (fuel : Nat) (m m' : MachineBase β ε), m.settle p fuel = .ok m' →
      BoxTarget p m → BoxTarget p m' := by
  intro fuel
  induction fuel with
  | zero =>
    intro m m' h hm
    unfold MachineBase.settle at h
    split at h
    · cases h; exact hm
    · cases h
  | succ n ih =>
    intro m m' h hm
    unfold MachineBase.settle at h
    split at h
    · cases h; exact hm
    · cases h1 : m.transitionLoop p (n + 1) with
      | error e => rw [h1] at h; cases h
      | ok m1 =>
        rw [h1] at h
        simp only [Except.bind] at h
        have hm1 := boxTarget_transitionLoop hf _ _ _ h1 hm
        cases hpe : m1.myPendingEvent with
        | null =>
          simp only [hpe] at h
          exact ih _ _ h hm1
        | dummy =>
          simp only [hpe] at h
          cases h
        | event e =>
          simp only [hpe] at h
          cases h2 : MachineBase.dispatchEvent p e { m1 with myPendingEvent := .null } with
          | error f => rw [h2] at h; cases h
          | ok m2 =>
            rw [h2] at h
            have hm1' : BoxTarget p { m1 with myPendingEvent := .null } := hm1
            exact ih _ _ h (boxTarget_dispatchEvent hf h2 hm1')

theorem rattleOn_ne_boxSet {p : Program β ε} (hf : BoxesToFresh p) (fuel : Nat)
    {m : MachineBase β ε} (hb : BoxesMatch p m) (ht : BoxTarget p m) :
    m.rattleOn p fuel ≠ .error .boxSet := by
  unfold MachineBase.rattleOn
  split
  · intro h; cases h
  · exact settle_ne_boxSet hf fuel m hb ht

theorem boxTarget_rattleOn {p : Program β ε} (hf : BoxesToFresh p) {fuel : Nat}
    {m m' : MachineBase β ε} (h : m.rattleOn p fuel = .ok m') (ht : BoxTarget p m) :
    BoxTarget p m' := by
  unfold MachineBase.rattleOn at h
  split at h
  · cases h
  · exact boxTarget_settle hf fuel m m' h ht

/-- Scheduling a transition with an alias. -/
theorem scheduled_alias {p : Program β ε} {state : StateAlias β} {history : Bool}
    {m ms : MachineBase β ε}
    (hs : ∀ t, (match state.myBox with
        | some _ => some state.myCharacter
        | none => none) = some t → t ≠ .root ∧ p.persistent t = false)
    (h : (state.getInfo m).setPendingState state.myCharacter history state.takeBox.1 =
      .ok ms) (hb : BoxesMatch p m) : BoxesMatch p ms ∧ BoxTarget p ms := by
  have hq : Quiet m ms :=
    quiet_ofCmdFrame (cmdFrame_trans (cmdFrame_getInfo _ m) (cmdFrame_setPendingState h))
  refine ⟨boxesMatch_quiet hb hq, ?_⟩
  obtain ⟨f1, f2, _⟩ := setPendingState_fields h
  intro b hbx
  have hb' : state.myBox = some b := by
    rw [f2] at hbx
    exact hbx
  exact ⟨state.myCharacter, f1, hs state.myCharacter (by simp [hb'])⟩

theorem apply_ne_boxSet {p : Program β ε} (hf : BoxesToFresh p) (fuel : Nat)
    (o : Op β ε) (ho : ∀ t, o.boxed = some t → t ≠ .root ∧ p.persistent t = false)
    {m : MachineBase β ε} (hb : BoxesMatch p m) (ht : BoxTarget p m) :
    Machine.apply p fuel o m ≠ .error .boxSet := by
  cases o with
  | call c => exact cmd_ne_boxSet c m
  | rattleOn => exact rattleOn_ne_boxSet hf fuel hb ht
  | dispatch e =>
    simp only [Machine.apply, Machine.dispatch]
    exact bind_ne_boxSet (dispatchEvent_ne_boxSet p e m) (fun m1 h1 =>
      rattleOn_ne_boxSet hf fuel (boxesMatch_quiet hb (quiet_dispatchEvent h1))
        (boxTarget_dispatchEvent hf h1 ht))
  | arrow e =>
    simp only [Machine.apply, Machine.arrow]
    split
    · intro h; cases h
    · intro h; cases h
    · exact bind_ne_boxSet (dispatchEvent_ne_boxSet p e m) (fun m1 h1 =>
        rattleOn_ne_boxSet hf fuel (boxesMatch_quiet hb (quiet_dispatchEvent h1))
          (boxTarget_dispatchEvent hf h1 ht))
  | setState state history =>
    simp only [Machine.apply, MachineBase.setStateAlias]
    refine map_ne_boxSet (map_ne_boxSet
      (bind_ne_boxSet (setPendingState_ne_boxSet _ _ _ _) (fun ms hs => ?_)))
    obtain ⟨hbs, hts⟩ := scheduled_alias (p := p) ho hs hb
    exact rattleOn_ne_boxSet hf fuel hbs hts

theorem boxTarget_apply {p : Program β ε} (hf : BoxesToFresh p) {fuel : Nat}
    {o : Op β ε} (ho : ∀ t, o.boxed = some t → t ≠ .root ∧ p.persistent t = false)
    {m m' : MachineBase β ε} (h : Machine.apply p fuel o m = .ok m')
    (hb : BoxesMatch p m) (ht : BoxTarget p m) : BoxTarget p m' := by
  cases o with
  | call c => exact boxTarget_run ho h ht
  | rattleOn => exact boxTarget_rattleOn hf h ht
  | dispatch e =>
    simp only [Machine.apply, Machine.dispatch] at h
    cases h1 : m.dispatchEvent p e with
    | error f => rw [h1] at h; cases h
    | ok m1 =>
      rw [h1] at h
      exact boxTarget_rattleOn hf h (boxTarget_dispatchEvent hf h1 ht)
  | arrow e =>
    simp only [Machine.apply, Machine.arrow] at h
    split at h
    · cases h
    · cases h
    · cases h1 : m.dispatchEvent p e with
      | error f => rw [h1] at h; cases h
      | ok m1 =>
        rw [h1] at h
        exact boxTarget_rattleOn hf h (boxTarget_dispatchEvent hf h1 ht)
  | setState state history =>
    simp only [Machine.apply, MachineBase.setStateAlias] at h
    cases h1 : (state.getInfo m).setPendingState state.myCharacter history state.takeBox.1 with
    | error f => rw [h1] at h; cases h
    | ok m1 =>
      rw [h1] at h
      simp only [Except.bind] at h
      cases h2 : m1.rattleOn p fuel with
      | error f => rw [h2] at h; cases h
      | ok m2 =>
        rw [h2] at h
        cases h
        exact boxTarget_rattleOn hf h2 (scheduled_alias (p := p) ho h1 hb).2

theorem applyAll_ne_boxSet {p : Program β ε} (hf : BoxesToFresh p) (fuel : Nat) :
    ∀ (ops : List (Op β ε)) (m : MachineBase β ε),
      (∀ o ∈ ops, ∀ t, o.boxed = some t → t ≠ .root ∧ p.persistent t = false) →
      BoxesMatch p m → BoxTarget p m →
      Machine.applyAll p fuel ops m ≠ .error .boxSet := by
  intro ops
  induction ops with
  | nil => intro m _ _ _ h; cases h
  | cons o os ih =>
    intro m ho hb ht
    simp only [Machine.applyAll]
    refine bind_ne_boxSet (apply_ne_boxSet hf fuel o (ho o (List.mem_cons_self _ _)) hb ht)
      (fun m1 h1 => ?_)
    exact ih m1 (fun o' ho' => ho o' (List.mem_cons_of_mem _ ho'))
      (apply_invariant (BoxesMatch p) (fun _ _ hi hx => boxesMatch_transition hi hx)
        (fun _ _ hi hq => boxesMatch_quiet hi hq) hb h1)
      (boxTarget_apply hf (ho o (List.mem_cons_self _ _)) h1 hb ht)

theorem new_ne_boxSet {p : Program β ε} (hf : BoxesToFresh p) (fuel : Nat) (T : StateId)
    (box : Option β) (hT : box ≠ none → T ≠ .root ∧ p.persistent T = false) :
    Machine.new p fuel T box ≠ .error .boxSet := by
  unfold Machine.new MachineBase.start MachineBase.setState
  refine bind_ne_boxSet (setPendingState_ne_boxSet _ _ _ _) (fun ms hs => ?_)
  obtain ⟨f1, f2, _, f4⟩ := setPendingState_fields hs
  have hi : ∀ k, ms.info k = {} := by
    intro k
    rw [setPendingState_info hs]
    show (Link._getInfo .root (Link._getInfo T {})).info k = {}
    rw [info_getInfo, info_getInfo]
    rfl
  refine rattleOn_ne_boxSet hf fuel (boxesMatch_start p ms (by rw [f4]) hi) ?_
  intro b hb
  rw [f2] at hb
  exact ⟨T, f1, hT (by rw [hb]; intro h; cases h)⟩

/-- C38: when preinitialized boxes are handed to non-persistent states only (by the
program's actions and handlers, by the start of the machine and by the requests `ops`),
no run fails the assertion `!myBox` of `setBox`; every machine reached has a box for
exactly the active non-persistent states and a pending box only for a pending
non-persistent target, so its next transition passes the assertion.  In a transition of
such a machine from `S` to a non-persistent `T`, `T` holds no box when the exits are
done and the pending box is installed: if `T` was active (`S` or a superstate of `S`)
it held a box, was exited and its box destroyed; if it was inactive it held no box. -/
theorem setBox_assertion (p : Program β ε) (fuel : Nat) (T0 : StateId) (box0 : Option β)
    (ops : List (Op β ε)) (hf : BoxesToFresh p)
    (hT0 : box0.isSome = true → T0 ≠ .root ∧ p.persistent T0 = false)
    (hops : ∀ o ∈ ops, ∀ t ∈ o.boxed, t ≠ .root ∧ p.persistent t = false) :
    Machine.run p fuel T0 box0 ops ≠ .error .boxSet ∧
    (∀ m, Machine.run p fuel T0 box0 ops = .ok m →
      BoxesMatch p m ∧ BoxTarget p m ∧ m.transition p ≠ .error .boxSet) ∧
    (∀ (m m1 : MachineBase β ε) (S T : StateId), BoxesMatch p m →
      m.myCurrentState = some S → m.myPendingState = some T → T ≠ .root →
      p.persistent T = false → m.exitPhase p = .ok m1 →
      (m1.info T).myBox = none ∧
      (∀ b, StateInfo.setBox T b { m1 with myCurrentState := some T } ≠ .error .boxSet) ∧
      (isChild S T = true →
        T ∈ exitPath T S ∧ (m.info T).myBox.isSome = true ∧
        ∃ l, m1.boxLog = m.boxLog ++ l ∧ BoxAction.deleted T ∈ l) ∧
      (isChild S T = false → (m.info T).myBox = none)) := by
  have hT0' : box0 ≠ none → T0 ≠ .root ∧ p.persistent T0 = false := by
    intro hne
    apply hT0
    cases box0 with
    | none => exact absurd rfl hne
    | some b => rfl
  have hops' : ∀ o ∈ ops, ∀ t, o.boxed = some t → t ≠ .root ∧ p.persistent t = false :=
    fun o ho t ht => hops o ho t ht
  have hnew : ∀ m0, Machine.new p fuel T0 box0 = .ok m0 → BoxesMatch p m0 ∧ BoxTarget p m0 := by
    intro m0 h0
    have hb0 : BoxesMatch p m0 :=
      @run_boxesMatch β ε p fuel T0 box0 [] m0 (by simp [Machine.run, h0, Machine.applyAll,
        Except.bind])
    refine ⟨hb0, ?_⟩
    exact boxTarget_ofNone (new_quiescent h0).2.1
  have hrunJ : ∀ m, Machine.run p fuel T0 box0 ops = .ok m → BoxesMatch p m ∧ BoxTarget p m := by
    intro m hm
    refine ⟨run_boxesMatch hm, ?_⟩
    unfold Machine.run at hm
    cases h0 : Machine.new p fuel T0 box0 with
    | error e => rw [h0] at hm; cases hm
    | ok m0 =>
      rw [h0] at hm
      simp only [Except.bind] at hm
      obtain ⟨hb0, ht0⟩ := hnew m0 h0
      have key : ∀ (os : List (Op β ε)) (a b : MachineBase β ε),
          (∀ o ∈ os, ∀ t, o.boxed = some t → t ≠ .root ∧ p.persistent t = false) →
          BoxesMatch p a → BoxTarget p a → Machine.applyAll p fuel os a = .ok b →
          BoxTarget p b := by
        intro os
        induction os with
        | nil => intro a b _ _ hta h; cases h; exact hta
        | cons o os ih =>
          intro a b ho hba hta h
          simp only [Machine.applyAll] at h
          cases h1 : Machine.apply p fuel o a with
          | error e => rw [h1] at h; cases h
          | ok a1 =>
            rw [h1] at h
            exact ih a1 b (fun o' ho' => ho o' (List.mem_cons_of_mem _ ho'))
              (apply_invariant (BoxesMatch p) (fun _ _ hi hx => boxesMatch_transition hi hx)
                (fun _ _ hi hq => boxesMatch_quiet hi hq) hba h1)
              (boxTarget_apply hf (ho o (List.mem_cons_self _ _)) h1 hba hta) h
      exact key ops m0 m hops' hb0 ht0 hm
  refine ⟨?_, ?_, ?_⟩
  · unfold Machine.run
    refine bind_ne_boxSet (new_ne_boxSet hf fuel T0 box0 hT0') (fun m0 h0 => ?_)
    obtain ⟨hb0, ht0⟩ := hnew m0 h0
    exact applyAll_ne_boxSet hf fuel ops m0 hops' hb0 ht0
  · intro m hm
    obtain ⟨hb, ht⟩ := hrunJ m hm
    exact ⟨hb, ht, transition_ne_boxSet hf hb ht⟩
  · intro m m1 S T hb hc hpd hroot hpers h1
    have hTin : T ∈ entryPath S T true :=
      (mem_entryPath_iff S _ true _).mpr ⟨hroot, isChild_refl _, Or.inl ⟨rfl, rfl⟩⟩
    have hnb := entryPath_noBox hb hc hpd h1 T hTin hpers
    obtain ⟨c, hc', hinv⟩ := hb
    have hcS : c = S := by rw [hc] at hc'; exact (Option.some.inj hc').symm
    subst hcS
    refine ⟨hnb, fun b => setBox_ne_boxSet hnb, ?_, ?_⟩
    · intro hact
      have hbox : (m.info T).myBox.isSome = true := by rw [hinv T hroot hpers, hact]
      have hmem : T ∈ exitPath T c :=
        (mem_exitPath_iff T c T).mpr ⟨hroot, hact, Or.inl rfl⟩
      obtain ⟨me, hme, hm1⟩ := exitPhase_ok hc hpd h1
      obtain ⟨_, d2, _, _, _, _, d7, _⟩ := setDummyEvent_walk m
      obtain ⟨l, hl, hdel⟩ := exit_deletes p T c _ _ hme T hmem hpers (by rw [d7]; exact hbox)
      refine ⟨hmem, hbox, l, ?_, hdel⟩
      rw [hm1, (historyOnly_setHistorySuper p c c me).boxLog, hl, d2]
    · intro hin
      have := hinv T hroot hpers
      rw [hin] at this
      cases hx : (m.info T).myBox with
      | none => rfl
      | some b => rw [hx] at this; cases this

theorem example_boxesToFresh : BoxesToFresh Example.prog := by
  intro s m c h t ht
  refine ⟨?_, rfl⟩
  simp only [Example.prog] at h
  rcases h with h | h | h | ⟨e, h⟩
  · simp at h
  · simp at h
  · split at h
    · simp only [List.mem_singleton] at h
      subst h
      simp only [Cmd.boxed, Option.some.injEq] at ht
      subst ht
      decide
    · simp at h
  · cases e with
    | event1 i =>
      simp only at h
      split at h
      · simp only [List.mem_cons, List.mem_singleton, List.not_mem_nil, or_false] at h
        rcases h with h | h <;> subst h <;> simp [Cmd.boxed] at ht
      · simp at h
    | event2 l =>
      simp only at h
      split at h
      · simp only [List.mem_cons, List.mem_singleton, List.not_mem_nil, or_false] at h
        rcases h with h | h <;> subst h <;> simp [Cmd.boxed] at ht
      · simp at h

/-- Witness for C38, the example machine: it is constructed with `new Top::Box(11)` and
`Top::init` hands `new StateA::Box(44)` to `StateA`; the run of `main` does not fail the
assertion, and in the transition from `Top` to `StateA` in the cascade of the
construction `StateA` holds no box when the box is installed. -/
theorem setBox_assertion_witness :
    Machine.run Example.prog 8 Example.Top (some 11) Example.mainOps ≠ .error .boxSet ∧
    (∀ m, Machine.run Example.prog 8 Example.Top (some 11) Example.mainOps = .ok m →
      BoxesMatch Example.prog m ∧ BoxTarget Example.prog m ∧
      m.transition Example.prog ≠ .error .boxSet) ∧
    (∀ (m m1 : MachineBase Int Example.Event) (S T : StateId), BoxesMatch Example.prog m →
      m.myCurrentState = some S → m.myPendingState = some T → T ≠ .root →
      Example.prog.persistent T = false → m.exitPhase Example.prog = .ok m1 →
      (m1.info T).myBox = none ∧
      (∀ b, StateInfo.setBox T b { m1 with myCurrentState := some T } ≠ .error .boxSet) ∧
      (isChild S T = true →
        T ∈ exitPath T S ∧ (m.info T).myBox.isSome = true ∧
        ∃ l, m1.boxLog = m.boxLog ++ l ∧ BoxAction.deleted T ∈ l) ∧
      (isChild S T = false → (m.info T).myBox = none)) ∧
    Machine.run Example.prog 8 Example.Top (some 11) Example.mainOps =
      .ok (Example.afterEvent2 42 43) ∧
    Example.topInited.myCurrentState = some Example.Top ∧
    Example.topInited.myPendingState = some Example.StateA ∧
    Example.topInited.myPendingBox = some 44 ∧
    (Example.topInited.info Example.StateA).myBox = none ∧
    (Example.started.info Example.StateA).myBox = some 44 :=
  have h := setBox_assertion Example.prog 8 Example.Top (some 11) Example.mainOps
    example_boxesToFresh (by decide) (by decide)
  ⟨h.1, h.2.1, h.2.2, by rfl, by decide, by decide, by decide, by decide, by decide⟩
theorem isChildWithin_eq : ∀ (s : StateId) (n : Nat) (a : StateId), s.depth < n →
    isChildWithin n s a = some (isChild s a) := by
  intro s
  induction s with
  | root =>
    intro n a hn
    obtain ⟨k, rfl⟩ : ∃ k, n = k + 1 := ⟨n - 1, by omega⟩
    rfl
  | sub super tag ih =>
    intro n a hn
    simp only [StateId.depth] at hn
    obtain ⟨k, rfl⟩ : ∃ k, n = k + 1 := ⟨n - 1, by omega⟩
    simp only [isChildWithin, isChild]
    by_cases h : StateId.sub super tag = a
    · simp [h]
    · rw [if_neg h, ih k a (by omega)]
      simp [h]

theorem entryWithin_eq (p : Program β ε) (previous : StateId) :
    ∀ (s : StateId) (n : Nat) (first : Bool) (m : MachineBase β ε), s.depth < n →
      StateInfo.entryWithin p previous n s first m = StateInfo.entry p previous s first m := by
  intro s
  induction s with
  | root =>
    intro n first m hn
    obtain ⟨k, rfl⟩ : ∃ k, n = k + 1 := ⟨n - 1, by omega⟩
    rfl
  | sub super tag ih =>
    intro n first m hn
    simp only [StateId.depth] at hn
    obtain ⟨k, rfl⟩ : ∃ k, n = k + 1 := ⟨n - 1, by omega⟩
    have e := ih k false m (by omega)
    simp only [StateInfo.entryWithin, StateInfo.entry, e]

theorem exitWithin_eq (p : Program β ε) (next : StateId) :
    ∀ (s : StateId) (n : Nat) (m : MachineBase β ε), s.depth < n →
      StateInfo.exitWithin p next n s m = StateInfo.exit p next s m := by
  intro s
  induction s with
  | root =>
    intro n m hn
    obtain ⟨k, rfl⟩ : ∃ k, n = k + 1 := ⟨n - 1, by omega⟩
    rfl
  | sub super tag ih =>
    intro n m hn
    simp only [StateId.depth] at hn
    obtain ⟨k, rfl⟩ : ∃ k, n = k + 1 := ⟨n - 1, by omega⟩
    simp only [StateInfo.exitWithin, StateInfo.exit]
    split
    · congr 1
      funext m2
      exact ih k _ (by omega)
    · rfl

theorem exitPath_length (next : StateId) : ∀ s : StateId, (exitPath next s).length ≤ s.depth := by
  intro s
  induction s with
  | root => simp [exitPath]
  | sub super tag ih =>
    simp only [exitPath, StateId.depth]
    split
    · simp only [List.length_cons]; omega
    · simp

theorem entryPath_length (previous : StateId) :
    ∀ (s : StateId) (first : Bool), (entryPath previous s first).length ≤ s.depth := by
  intro s
  induction s with
  | root => intro first; simp [entryPath]
  | sub super tag ih =>
    intro first
    simp only [entryPath, StateId.depth]
    split
    · simp only [List.length_append, List.length_singleton]
      have := ih false
      omega
    · simp

theorem chain_depth : ∀ (l : List StateId) (T : StateId) (h : Nat),
    List.Chain ProperAncestor T l → (l.getLastD T).depth ≤ h → l.length + T.depth ≤ h := by
  intro l
  induction l with
  | nil => intro T h _ hl; simpa using hl
  | cons a l ih =>
    intro T h hc hl
    rw [List.chain_cons] at hc
    have h1 := properAncestor_depth hc.1
    have h3 : (a :: l).getLastD T = l.getLastD a := by
      cases l <;> simp [List.getLastD]
    have h2 := ih a h hc.2 (by rw [← h3]; exact hl)
    simp only [List.length_cons]
    omega

/-- C40: the inner loop `while (myPendingState)` of `rattleOn`, started on one scheduled
transition to `T`, ends.  In a state tree of height `h` (no init action names a state
with more than `h` superstates, and the machine holds none) a bound of `h + 1 - depth T`
iterations does not cut the loop off; that an init action schedules a proper substate
only is asserted by the library, so that a violating program ends the loop with the
failed assertion.  When the loop ends regularly, the first iteration has made `T`
current and each further iteration has made a proper substate of the state before
current, with strictly more superstates, so that there are at most `h - depth T` further
iterations.  The recursive walks `isChild`, `entry` and `exit` on a state `s` need at
most `depth s + 1` nested calls, each call moving to the parent and Root having none,
and entry and exit invoke at most `depth s` actions. -/
theorem inner_loop_terminates (p : Program β ε) (h : Nat) (hp : InitDepth p h)
    (m : MachineBase β ε) (S T : StateId) (hb : DepthBound h m)
    (hc : m.myCurrentState = some S) (hpd : m.myPendingState = some T) :
    (∀ fuel, h < T.depth + fuel → m.transitionLoop p fuel ≠ .error .fuel) ∧
    (∀ fuel m', m.transitionLoop p fuel = .ok m' →
      ∃ (a0 : Action ε) (steps : List (StateId × Action ε)),
        a0.IsInitOf T ∧ (∀ s ∈ steps, s.2.IsInitOf s.1) ∧
        List.Chain (fun a b => ProperAncestor a b ∧ a.depth < b.depth) T
          (steps.map Prod.fst) ∧
        steps.length + T.depth ≤ h ∧
        m'.trace = m.trace ++ (exitPath T S).map Action.exit ++
          (entryPath S T true).map Action.entry ++ [a0] ++ cascade T steps ∧
        m'.myCurrentState = some ((steps.map Prod.fst).getLastD T) ∧
        m'.myPendingState = none) ∧
    (∀ s a n, s.depth < n → isChildWithin n s a = some (isChild s a)) ∧
    (∀ previous s first n (m0 : MachineBase β ε), s.depth < n →
      StateInfo.entryWithin p previous n s first m0 ≠ .error .fuel ∧
      StateInfo.entryWithin p previous n s first m0 = StateInfo.entry p previous s first m0 ∧
      (entryPath previous s first).length ≤ s.depth) ∧
    (∀ next s n (m0 : MachineBase β ε), s.depth < n →
      StateInfo.exitWithin p next n s m0 ≠ .error .fuel ∧
      StateInfo.exitWithin p next n s m0 = StateInfo.exit p next s m0 ∧
      (exitPath next s).length ≤ s.depth) := by
  refine ⟨?_, ?_, ?_, ?_, ?_⟩
  · intro fuel hf
    refine transitionLoop_ne_fuel hp fuel m hb (fun T' hT' => ?_)
    rw [hpd] at hT'; cases hT'
    exact hf
  · intro fuel m' hl
    obtain ⟨a0, steps, h1, h2, h3, h4, h5, h6, _, _⟩ :=
      transitionLoop_cascade p fuel m m' S T hc hpd hl
    have hb' : DepthBound h m' :=
      transitionLoop_invariant (DepthBound h)
        (fun a b ha hab => depthBound_transition hp ha hab) fuel m m' hb hl
    refine ⟨a0, steps, h1, h2, ?_, ?_, h4, h5, h6⟩
    · exact h3.imp (fun _ _ hab => ⟨hab, properAncestor_depth hab⟩)
    · have := chain_depth (steps.map Prod.fst) T h h3 (hb'.current _ h5)
      simpa using this
  · intro s a n hn
    exact isChildWithin_eq s n a hn
  · intro previous s first n m0 hn
    have e := entryWithin_eq p previous s n first m0 hn
    exact ⟨by rw [e]; exact entry_ne_fuel p previous s first m0, e,
      entryPath_length previous s first⟩
  · intro next s n m0 hn
    have e := exitWithin_eq p next s n m0 hn
    exact ⟨by rw [e]; exact exit_ne_fuel p next s m0, e, exitPath_length next s⟩
theorem constructing_depthBound : DepthBound 4 Transitions.constructing := by
  have e : Transitions.constructing =
      { Link._getInfo .root (Link._getInfo Transitions.StateC {}) with
        myCurrentState := some .root, myPendingState := some Transitions.StateC,
        myPendingBox := none, myPendingHistory := false } := rfl
  refine ⟨?_, ?_, ?_⟩
  · intro t ht
    rw [e] at ht
    cases ht
    decide
  · intro c hc
    rw [e] at hc
    cases hc
    decide
  · intro k t hk
    have : Transitions.constructing.info k = {} := by
      rw [e]
      show (Link._getInfo .root (Link._getInfo Transitions.StateC {})).info k = {}
      rw [info_getInfo, (fresh_getInfo Transitions.StateC).2.2.2.2 k]
    rw [this] at hk
    cases hk

/-- Witness for C40: the test's machine constructed on `StateC`, whose init goes to
`StateCA`, whose init goes to `StateCAA`: in the tree of height 4 the loop started on
`StateC`, which has 2 superstates, is through within 3 iterations. -/
theorem inner_loop_terminates_witness :
    InitDepth Transitions.prog 4 ∧ DepthBound 4 Transitions.constructing ∧
    Transitions.constructing.myCurrentState = some .root ∧
    Transitions.constructing.myPendingState = some Transitions.StateC ∧
    Transitions.constructing.transitionLoop Transitions.prog 3 ≠ .error .fuel ∧
    ((Transitions.constructing.transitionLoop Transitions.prog 3).toOption.bind
      fun m => m.myCurrentState) = some Transitions.StateCAA :=
  ⟨transitions_initDepth, constructing_depthBound, rfl, rfl,
    (inner_loop_terminates Transitions.prog 4 transitions_initDepth Transitions.constructing
      .root Transitions.StateC constructing_depthBound rfl rfl).1 3 (by decide),
    by decide⟩
theorem historyOK_step {p : Program β ε} {m m' : MachineBase β ε} (h : HistoryOK p m)
    (hs : ∀ k, (m'.info k).myHistory = (m.info k).myHistory ∨ (m'.info k).myHistory = none) :
    HistoryOK p m' := by
  intro k t hk
  rcases hs k with hx | hx
  · rw [hx] at hk; exact h k t hk
  · rw [hx] at hk; cases hk

theorem historyOK_fresh {p : Program β ε} {m : MachineBase β ε} (h : ∀ k, m.info k = {}) :
    HistoryOK p m := by
  intro k t hk
  rw [h k] at hk
  cases hk

theorem properAncestor_child (k : StateId) (tag : Nat) : ProperAncestor k (.sub k tag) := by
  refine ⟨isChild_of_super tag (isChild_refl k), ?_⟩
  intro he
  have h1 := not_isChild_super_sub k tag
  rw [← he, isChild_refl] at h1
  cases h1

theorem historyOK_setHistorySuper {p : Program β ε} {me : MachineBase β ε} (S : StateId)
    (h : HistoryOK p me) : HistoryOK p (StateInfo.setHistorySuper p S S me) := by
  intro k t hk
  by_cases hA : ProperAncestor k S ∧ k ≠ .root
  · obtain ⟨hA, hroot⟩ := hA
    cases S with
    | root =>
      have h1 := hA.1
      simp only [isChild, decide_eq_true_eq] at h1
      exact absurd h1.symm hA.2
    | sub super tg =>
      have hs : isChild super k = true := isChild_super hA.1 hA.2
      have hh := saveHistory_history p super (.sub super tg) (.sub super tg) me k hs hroot
      have hk' : ((StateInfo.saveHistory p super (.sub super tg) (.sub super tg) me).info
          k).myHistory = some t := hk
      rw [hh] at hk'
      cases hst : p.history k with
      | none =>
        rw [hst] at hk'
        exact absurd hst (h k t hk').2
      | shallow =>
        rw [hst] at hk'
        obtain ⟨tag, ht⟩ := child_on_path hA
        rw [childToward_path hroot hA ht] at hk'
        cases hk'
        exact ⟨properAncestor_child k tag, by simp⟩
      | deep =>
        rw [hst] at hk'
        cases hk'
        exact ⟨hA, by simp⟩
  · have hsame : ((StateInfo.setHistorySuper p S S me).info k).myHistory =
        (me.info k).myHistory := by
      by_cases h1 : ProperAncestor k S
      · have hr : k = .root := by
          by_contra hne
          exact hA ⟨h1, hne⟩
        rw [hr]
        exact setHistorySuper_root p S S me
      · exact setHistorySuper_other p S S me k h1
    rw [hsame] at hk
    exact h k t hk

theorem historyOK_transition {p : Program β ε} {m m' : MachineBase β ε}
    (h : HistoryOK p m) (ht : m.transition p = .ok m') : HistoryOK p m' := by
  obtain ⟨m1, m2, history, h1, h2, h3⟩ := transition_ok ht
  obtain ⟨S, T, hc, hpd⟩ := exitPhase_some h1
  have e1 := exitPhase_spec hc hpd h1
  have e2 := entryPhase_spec e1.current e1.pending e1.eventSet h2
  have e3 := initPhase_spec e2.current h3
  obtain ⟨me, hme, hm1⟩ := exitPhase_ok hc hpd h1
  have hw := walkFrame_exit p T S _ _ hme
  have b0 : HistoryOK p me := by
    refine historyOK_step h (fun k => ?_)
    rcases hw.history k with hx | hx
    · left; rw [hx, (setDummyEvent_walk m).2.2.2.2.2.2.1]
    · right; exact hx
  have b1 : HistoryOK p m1 := by
    rw [hm1]
    exact historyOK_setHistorySuper S b0
  exact historyOK_step (historyOK_step b1 e2.history) e3.history

theorem historyOK_quiet {p : Program β ε} {m m' : MachineBase β ε}
    (h : HistoryOK p m) (hq : Quiet m m') : HistoryOK p m' :=
  historyOK_step h hq.history

theorem historyOK_run {p : Program β ε} {fuel : Nat} {T : StateId} {box : Option β}
    {ops : List (Op β ε)} {m : MachineBase β ε}
    (h : Machine.run p fuel T box ops = .ok m) : HistoryOK p m :=
  run_invariant (HistoryOK p) (fun _ _ hi ht => historyOK_transition hi ht)
    (fun _ _ hi hq => historyOK_quiet hi hq)
    (fun _ _ _ _ hf => historyOK_fresh hf) h

theorem historyOK_init {p : Program β ε} {T : StateId} {history : Bool}
    {m m' : MachineBase β ε} (h : HistoryOK p m)
    (hi : StateInfo.init p T history m = .ok m') : HistoryOK p m' := by
  refine historyOK_step h (fun k => ?_)
  have hset : ∀ mx : MachineBase β ε, (∀ j, (mx.info j).myHistory = (m.info j).myHistory ∨
      (mx.info j).myHistory = none) →
      ((StateInfo.setHistory T none mx).info k).myHistory = (m.info k).myHistory ∨
        ((StateInfo.setHistory T none mx).info k).myHistory = none := by
    intro mx hx
    rw [setHistory_history]
    split
    · right; rfl
    · exact hx k
  rcases init_ok hi with ⟨t, mp, _, _, hsp, rfl⟩ | ⟨mu, _, hru, rfl⟩
  · exact hset mp (fun j => Or.inl (by rw [setPendingState_info hsp j]; rfl))
  · exact hset mu (fun j => (cmdFrame_runCmds hru).history j)

theorem historyOK_clearHistory {p : Program β ε} (s : StateId) {m : MachineBase β ε}
    (h : HistoryOK p m) : HistoryOK p (Link.clearHistory s m) := by
  refine historyOK_step h (fun k => ?_)
  rw [clearHistory_history]
  split
  · right; rfl
  · left; rfl

theorem historyOK_clearHistoryDeep {p : Program β ε} (s : StateId) {m : MachineBase β ε}
    (h : HistoryOK p m) : HistoryOK p (Link.clearHistoryDeep s m) := by
  refine historyOK_step h (fun k => ?_)
  unfold Link.clearHistoryDeep
  rw [clearHistoryDeep_history, info_getInfo]
  split
  · right; rfl
  · left; rfl
theorem cloneBox_history {k : StateId} {b : β} {m m' : MachineBase β ε}
    (h : StateInfo.cloneBox k b m = .ok m') (j : StateId) :
    (m'.info j).myHistory = (m.info j).myHistory := by
  unfold StateInfo.cloneBox at h
  cases k with
  | root => cases h; rfl
  | sub super tag =>
    simp only at h
    cases hb : (m.info (.sub super tag)).myBox with
    | some x => rw [hb] at h; cases h
    | none =>
      rw [hb] at h
      cases h
      rw [info_setInfo]
      split
      · rename_i hj; rw [hj]
      · rfl

theorem stateCopy_history {k : StateId} {o : StateInfo β} {m m' : MachineBase β ε}
    (h : StateInfo.copy k o m = .ok m') (j t : StateId)
    (hj : (m'.info j).myHistory = some t) :
    (m.info j).myHistory = some t ∨ (j = k ∧ o.myHistory = some t) := by
  unfold StateInfo.copy at h
  have hbox : ∀ (a : MachineBase β ε),
      (match o.myBox with
        | some box => StateInfo.cloneBox k box a
        | none => Except.ok a) = .ok m' →
      (a.info j).myHistory = some t := by
    intro a hab
    cases hb : o.myBox with
    | none => rw [hb] at hab; cases hab; exact hj
    | some box =>
      rw [hb] at hab
      rw [← cloneBox_history hab j]
      exact hj
  cases ho : o.myHistory with
  | none =>
    rw [ho] at h
    exact Or.inl (hbox m h)
  | some x =>
    rw [ho] at h
    simp only at h
    cases hs : m.myStates x with
    | none => rw [hs] at h; cases h
    | some i =>
      rw [hs] at h
      have := hbox _ h
      rw [setHistory_history] at this
      split at this
      · rename_i hjk
        exact Or.inr ⟨hjk, this⟩
      · exact Or.inl this

theorem copyStates_history (other : StateId → Option (StateInfo β)) :
    ∀ (keys : List StateId) (m m' : MachineBase β ε), m.copyStates other keys = .ok m' →
      ∀ j t, (m'.info j).myHistory = some t →
        (m.info j).myHistory = some t ∨ ((other j).getD {}).myHistory = some t := by
  intro keys
  induction keys with
  | nil => intro m m' h j t hj; cases h; exact Or.inl hj
  | cons k ks ih =>
    intro m m' h j t hj
    simp only [MachineBase.copyStates] at h
    cases hk : m.myStates k with
    | none =>
      rw [hk] at h
      exact ih m m' h j t hj
    | some i =>
      rw [hk] at h
      simp only at h
      cases ho : other k with
      | none => rw [ho] at h; cases h
      | some o =>
        rw [ho] at h
        simp only at h
        cases hc : StateInfo.copy k o m with
        | error e => rw [hc] at h; cases h
        | ok m1 =>
          rw [hc] at h
          rcases ih m1 m' h j t hj with hx | hx
          · rcases stateCopy_history hc j t hx with hy | ⟨hy, hz⟩
            · exact Or.inl hy
            · right
              rw [hy, ho]
              exact hz
          · exact Or.inr hx

theorem copy_history {keys : List StateId} {other : StateId → Option (StateInfo β)}
    {m m' : MachineBase β ε} (h : m.copy keys other = .ok m') (j t : StateId)
    (hj : (m'.info j).myHistory = some t) :
    (m.info j).myHistory = some t ∨ ((other j).getD {}).myHistory = some t := by
  unfold MachineBase.copy at h
  cases h1 : m.createClones other keys with
  | error e => rw [h1] at h; cases h
  | ok m1 =>
    rw [h1] at h
    simp only [Except.bind] at h
    obtain ⟨c1, _⟩ := createClones_ok other keys m m1 h1
    rcases copyStates_history other keys m1 m' h j t hj with hx | hx
    · left
      rw [← cloned_info c1 j]
      exact hx
    · exact Or.inr hx

theorem historyOK_copy {p : Program β ε} {keys : List StateId} {s m m' : MachineBase β ε}
    (hs : HistoryOK p s) (hm : HistoryOK p m) (h : m.copy keys s.myStates = .ok m') :
    HistoryOK p m' := by
  intro k t hk
  rcases copy_history h k t hk with hx | hx
  · exact hm k t hx
  · exact hs k t hx

theorem historyOK_free {p : Program β ε} (keys : List StateId) {m : MachineBase β ε}
    (h : HistoryOK p m) : HistoryOK p (m.free keys) := by
  obtain ⟨_, _, fnone, fsame⟩ := free_spec keys m
  refine historyOK_step h (fun k => ?_)
  by_cases hk : k ∈ keys
  · right
    unfold MachineBase.info
    rw [fnone k hk]
    rfl
  · left
    rw [info_of_myStates (fsame k hk)]

theorem historyOK_snapshot {p : Program β ε} {keys : List StateId} {m s : MachineBase β ε}
    (h : HistoryOK p m) (hs : Snapshot.new keys m = .ok s) : HistoryOK p s := by
  obtain ⟨_, _, c, s1, _, hcopy, rfl⟩ := snapshot_ok hs
  have h0 : HistoryOK p (MachineBase.allocate ({} : MachineBase β ε)) :=
    historyOK_fresh (fun _ => rfl)
  have h1 : HistoryOK p s1 := historyOK_copy h h0 hcopy
  exact historyOK_step h1 (fun _ => Or.inl rfl)

theorem historyOK_shutdown {p : Program β ε} {fuel : Nat} {m m1 : MachineBase β ε}
    (h : HistoryOK p m) (hp : m.myPendingState = none) (hs : m.shutdown p fuel = .ok m1) :
    HistoryOK p m1 := by
  obtain ⟨ms, mr, _, _, _, _, _, hi, hra, rfl⟩ := shutdown_ok hp hs
  have h0 : HistoryOK p ms := historyOK_step h (fun k => Or.inl (by rw [hi k]))
  have h1 : HistoryOK p mr :=
    rattleOn_invariant (HistoryOK p) (fun _ _ hi ht => historyOK_transition hi ht)
      (fun _ _ hi hq => historyOK_quiet hi hq) h0 hra
  exact historyOK_step h1 (fun _ => Or.inl rfl)

theorem historyOK_assign {p : Program β ε} {fuel : Nat} {keys : List StateId}
    {s m m' : MachineBase β ε} (hs : HistoryOK p s) (hm : HistoryOK p m)
    (h : Machine.assign p fuel keys s m = .ok m') : HistoryOK p m' := by
  obtain ⟨hp, _, _⟩ := assign_ok h
  obtain ⟨m1, m2, c, h1, h2, _, _, _, _, _, rfl⟩ := assign_spec h
  have h3 : HistoryOK p m2 :=
    historyOK_copy hs (historyOK_free keys (historyOK_shutdown hm hp h1)) h2
  exact historyOK_step h3 (fun _ => Or.inl rfl)
/-- C35: in every machine reached by a run (construction followed by any operations from
outside), the history pointer of a state is null or names a proper substate of that
state, and a state without a history strategy has a null history pointer.  This property
is kept by every transition, by `init`, by `clearHistory` and `clearHistoryDeep`, by
taking a snapshot (the snapshot has it when the machine has it) and by restoring a
machine from a snapshot that has it. -/
theorem history_pointers (p : Program β ε) :
    (∀ fuel T box ops (m : MachineBase β ε), Machine.run p fuel T box ops = .ok m →
      ∀ k t, (m.info k).myHistory = some t → ProperAncestor k t ∧ p.history k ≠ .none) ∧
    (∀ fuel T box ops (m : MachineBase β ε), Machine.run p fuel T box ops = .ok m →
      ∀ k, p.history k = .none → (m.info k).myHistory = none) ∧
    (∀ m m' : MachineBase β ε, HistoryOK p m → m.transition p = .ok m' → HistoryOK p m') ∧
    (∀ T history (m m' : MachineBase β ε), HistoryOK p m →
      StateInfo.init p T history m = .ok m' → HistoryOK p m') ∧
    (∀ s (m : MachineBase β ε), HistoryOK p m →
      HistoryOK p (Link.clearHistory s m) ∧ HistoryOK p (Link.clearHistoryDeep s m)) ∧
    (∀ keys (m s : MachineBase β ε), HistoryOK p m → Snapshot.new keys m = .ok s →
      HistoryOK p s) ∧
    (∀ fuel keys (s m m' : MachineBase β ε), HistoryOK p s → HistoryOK p m →
      Machine.assign p fuel keys s m = .ok m' → HistoryOK p m') := by
  refine ⟨?_, ?_, ?_, ?_, ?_, ?_, ?_⟩
  · intro fuel T box ops m h
    exact historyOK_run h
  · intro fuel T box ops m h k hk
    cases hh : (m.info k).myHistory with
    | none => rfl
    | some t => exact absurd hk (historyOK_run h k t hh).2
  · intro m m' hm ht
    exact historyOK_transition hm ht
  · intro T history m m' hm hi
    exact historyOK_init hm hi
  · intro s m hm
    exact ⟨historyOK_clearHistory s hm, historyOK_clearHistoryDeep s hm⟩
  · intro keys m s hm hs
    exact historyOK_snapshot hm hs
  · intro fuel keys s m m' hs hm h
    exact historyOK_assign hs hm h

/-- Witness for C35 on the test's machine: after the visits to `StateCAB` and `StateB`,
`StateC` (deep history) holds the history pointer `StateCAB`, a proper substate. -/
theorem history_pointers_witness :
    Machine.run Transitions.prog 8 Transitions.Top none
        (Transitions.visit [Transitions.StateCAB, Transitions.StateB]) =
      .ok (Transitions.driven [Transitions.StateCAB, Transitions.StateB]) ∧
    ((Transitions.driven [Transitions.StateCAB, Transitions.StateB]).info
      Transitions.StateC).myHistory = some Transitions.StateCAB ∧
    (ProperAncestor Transitions.StateC Transitions.StateCAB ∧
      Transitions.prog.history Transitions.StateC ≠ .none) :=
  ⟨by rfl, by decide,
    (history_pointers Transitions.prog).1 8 Transitions.Top none
      (Transitions.visit [Transitions.StateCAB, Transitions.StateB])
      (Transitions.driven [Transitions.StateCAB, Transitions.StateB]) (by rfl)
      Transitions.StateC Transitions.StateCAB (by decide)⟩
theorem run_queues {c : Cmd β ε} {m m' : MachineBase β ε} (h : c.run m = .ok m') :
    m'.myPendingEvent = m.myPendingEvent ∨
      ∃ e, c = .dispatch e ∧ m'.myPendingEvent = .event e := by
  have sp : ∀ (m0 ma : MachineBase β ε) (info : StateId) (history : Bool) (box : Option β),
      m0.setPendingState info history box = .ok ma →
      ma.myPendingEvent = m0.myPendingEvent := by
    intro m0 ma info history box hs
    unfold MachineBase.setPendingState at hs
    split at hs
    · cases hs; rfl
    · cases hs
  cases c with
  | setState s box =>
    left
    rw [sp _ _ _ _ _ h, (getInfo_fields s m).2.2.2.2.2.2]
  | setStateDirect s box =>
    left
    rw [sp _ _ _ _ _ h, (getInfo_fields s m).2.2.2.2.2.2]
  | setStateAlias state =>
    left
    simp only [Cmd.run, Link.setStateAlias, StateAlias.getInfo, StateAlias.takeBox] at h
    cases h1 : (Link._getInfo state.myCharacter m).setPendingState state.myCharacter true
        state.myBox with
    | error e => rw [h1] at h; cases h
    | ok m2 =>
      rw [h1] at h
      cases h
      rw [sp _ _ _ _ _ h1, (getInfo_fields _ m).2.2.2.2.2.2]
  | dispatch e =>
    right
    cases hne : m.myPendingEvent with
    | null =>
      simp only [Cmd.run, MachineBase.setPendingEvent, hne] at h
      cases h
      exact ⟨e, rfl, rfl⟩
    | dummy => simp [Cmd.run, MachineBase.setPendingEvent, hne] at h
    | event x => simp [Cmd.run, MachineBase.setPendingEvent, hne] at h
  | clearHistory s =>
    left
    cases h
    exact (getInfo_fields s m).2.2.2.2.2.2
  | clearHistoryDeep s =>
    left
    cases h
    exact (getInfo_fields s m).2.2.2.2.2.2
  | modifyBox s f =>
    left
    simp only [Cmd.run, StateInfo.modifyBox] at h
    split at h
    · cases h; rfl
    · cases h

theorem runCmds_queues : ∀ (cs : List (Cmd β ε)) (m m' : MachineBase β ε),
    runCmds cs m = .ok m' → m.myPendingEvent = .null →
    m'.myPendingEvent = .null ∨ ∃ e, Cmd.dispatch e ∈ cs ∧ m'.myPendingEvent = .event e := by
  intro cs
  induction cs with
  | nil => intro m m' h he; simp only [runCmds] at h; cases h; exact Or.inl he
  | cons c cs ih =>
    intro m m' h he
    simp only [runCmds] at h
    cases h1 : c.run m with
    | error e => rw [h1] at h; cases h
    | ok m1 =>
      rw [h1] at h
      rcases run_queues h1 with hx | ⟨e, hc, hx⟩
      · rcases ih m1 m' h (by rw [hx, he]) with hy | ⟨e, hm, hy⟩
        · exact Or.inl hy
        · exact Or.inr ⟨e, List.mem_cons_of_mem _ hm, hy⟩
      · right
        refine ⟨e, by rw [hc]; exact List.mem_cons_self _ _, ?_⟩
        rw [(cmdFrame_runCmds h).event (by rw [hx]; simp), hx]

theorem depthBound_runCmds {h : Nat} {cs : List (Cmd β ε)} {m m' : MachineBase β ε}
    (hb : DepthBound h m) (hcs : ∀ c ∈ cs, ∀ t, c.target = some t → t.depth ≤ h)
    (hr : runCmds cs m = .ok m') : DepthBound h m' := by
  have hf := cmdFrame_runCmds hr
  refine ⟨?_, ?_, ?_⟩
  · intro t ht
    rcases runCmds_pending_target cs m m' hr with hx | ⟨c, hc, hx⟩
    · rw [hx] at ht; exact hb.pending t ht
    · rw [ht] at hx; exact hcs c hc t hx
  · intro c hc
    rw [hf.current] at hc
    exact hb.current c hc
  · intro k t hk
    rcases hf.history k with hx | hx
    · rw [hx] at hk; exact hb.history k t hk
    · rw [hx] at hk; cases hk

/-- One dispatch of a queued event: the machine stays within the height `h`, and what the
handler queues has a smaller rank. -/
theorem dispatchEvent_ranked {p : Program β ε} {h : Nat} {rank : ε → Nat}
    (hh : HandlerDepth p h) (hr : EventRank p rank) {e : ε} {m m' : MachineBase β ε}
    (hb : DepthBound h m) (he : m.myPendingEvent = .null)
    (hd : m.dispatchEvent p e = .ok m') :
    DepthBound h m' ∧ m'.myPendingEvent ≠ .dummy ∧
      m'.myPendingEvent.dispatches rank ≤ rank e ∧
      m'.myCurrentState = m.myCurrentState := by
  obtain ⟨c, hc, _, hrun⟩ := dispatchEvent_ok hd
  have hb1 : DepthBound h (m.log (.dispatch e c)) := ⟨hb.pending, hb.current, hb.history⟩
  refine ⟨depthBound_runCmds hb1 (fun c' hc' t ht => hh e c _ c' t hc' ht) hrun, ?_, ?_,
    (cmdFrame_runCmds hrun).current⟩
  · rcases runCmds_queues _ _ _ hrun he with hx | ⟨e', _, hx⟩
    · rw [hx]; simp
    · rw [hx]; simp
  · rcases runCmds_queues _ _ _ hrun he with hx | ⟨e', hm, hx⟩
    · rw [hx]; simp [PendingEvent.dispatches]
    · rw [hx]
      have := hr e c _ e' hm
      simp only [PendingEvent.dispatches]
      omega
theorem transitionLoop_drained {p : Program β ε} :
    ∀ (fuel : Nat) (m m' : MachineBase β ε), m.transitionLoop p fuel = .ok m' →
      m'.myPendingState = none := by
  intro fuel
  induction fuel with
  | zero =>
    intro m m' h
    unfold MachineBase.transitionLoop at h
    split at h
    · rename_i hp; cases h; exact hp
    · cases h
  | succ n ih =>
    intro m m' h
    unfold MachineBase.transitionLoop at h
    split at h
    · rename_i hp; cases h; exact hp
    · cases h1 : m.transition p with
      | error e => rw [h1] at h; cases h
      | ok m1 =>
        rw [h1] at h
        exact ih m1 m' h

/-- One iteration of the outer loop of `rattleOn`, when it returns: nothing is pending
any more, or fewer dispatches are outstanding than before. -/
theorem outerBody_ranked {p : Program β ε} {h : Nat} {rank : ε → Nat}
    (hi : InitDepth p h) (hh : HandlerDepth p h) (hr : EventRank p rank) {fuel : Nat}
    {m m2 : MachineBase β ε} (hb : DepthBound h m) (hd : m.myPendingEvent ≠ .dummy)
    (ho : m.outerBody p fuel = .ok m2) :
    DepthBound h m2 ∧ m2.myPendingEvent ≠ .dummy ∧
      ((m2.myPendingState = none ∧ m2.myPendingEvent = .null) ∨
        m2.myPendingEvent.dispatches rank < m.myPendingEvent.dispatches rank) := by
  unfold MachineBase.outerBody at ho
  cases h1 : m.transitionLoop p fuel with
  | error e => rw [h1] at ho; cases ho
  | ok m1 =>
    rw [h1] at ho
    simp only [Except.bind] at ho
    have hb1 : DepthBound h m1 :=
      transitionLoop_invariant (DepthBound h)
        (fun a b ha hab => depthBound_transition hi ha hab) fuel m m1 hb h1
    have hp1 := transitionLoop_drained fuel m m1 h1
    obtain ⟨ev1, ev2⟩ := transitionLoop_event h1
    cases hev : m.myPendingEvent with
    | dummy => exact absurd hev hd
    | null =>
      have hn := ev2 hev
      rw [hn] at ho
      cases ho
      exact ⟨hb1, by rw [hn]; simp, Or.inl ⟨hp1, hn⟩⟩
    | event e =>
      have hn := ev1 e hev
      rw [hn] at ho
      simp only at ho
      have hb0 : DepthBound h ({ m1 with myPendingEvent := .null } : MachineBase β ε) :=
        ⟨hb1.pending, hb1.current, hb1.history⟩
      obtain ⟨d1, d2, d3, _⟩ := dispatchEvent_ranked hh hr hb0 rfl ho
      refine ⟨d1, d2, Or.inr ?_⟩
      have hx : (PendingEvent.event e : PendingEvent ε).dispatches rank = rank e + 1 := rfl
      rw [hx]
      omega

/-- The loop `while (myPendingState || myPendingEvent)` is not cut off by the model's
bound once the bound exceeds the height of the state tree plus the number of dispatches
the queued event can still cause. -/
theorem settle_ne_fuel {p : Program β ε} {h : Nat} {rank : ε → Nat}
    (hi : InitDepth p h) (hh : HandlerDepth p h) (hr : EventRank p rank) :
    ∀ (fuel : Nat) (m : MachineBase β ε), DepthBound h m → m.myPendingEvent ≠ .dummy →
      h + m.myPendingEvent.dispatches rank < fuel → m.settle p fuel ≠ .error .fuel := by
  intro fuel
  induction fuel with
  | zero => intro m _ _ hf; omega
  | succ n ih =>
    intro m hb hd hf
    rw [settle_succ]
    have hbody : (m.outerBody p (n + 1)).bind (MachineBase.settle p n) ≠ .error .fuel := by
      refine bind_ne_fuel ?_ (fun m2 h2 => ?_)
      · unfold MachineBase.outerBody
        refine bind_ne_fuel
          (transitionLoop_ne_fuel hi (n + 1) m hb (fun T _ => by omega)) (fun m1 _ => ?_)
        split
        · intro hx; cases hx
        · intro hx; cases hx
        · exact dispatchEvent_ne_fuel p _ _
      · obtain ⟨b2, d2, hq | hlt⟩ := outerBody_ranked hi hh hr hb hd h2
        · rw [settle_quiescent_id hq.1 hq.2]
          intro hx; cases hx
        · exact ih m2 b2 d2 (by omega)
    split
    · intro hx; cases hx
    · exact hbody
theorem echo_settle : ∀ (fuel : Nat) (m : MachineBase Unit Echo.Event),
    m.myCurrentState = some Echo.Top → m.myPendingState = none →
    m.myPendingEvent = .event .ping → m.settle Echo.prog fuel = .error .fuel := by
  intro fuel
  induction fuel with
  | zero =>
    intro m _ hp he
    simp [MachineBase.settle, hp, he]
  | succ n ih =>
    intro m hc hp he
    rw [settle_succ, hp, he]
    simp only [MachineBase.outerBody, transitionLoop_none hp, Except.bind, he]
    have hd : MachineBase.dispatchEvent Echo.prog .ping
        ({ m with myPendingEvent := .null } : MachineBase Unit Echo.Event) =
        .ok { m with myPendingEvent := .event .ping,
                     trace := m.trace ++ [Action.dispatch .ping Echo.Top] } := by
      simp only [MachineBase.dispatchEvent, hc, Echo.Top]
      rfl
    rw [hd]
    exact ih _ hc hp rfl

/-- C31, as stated, fails: the machine has the single state `Top`, no entry, exit or
init action, and the handler `Top::ping()` is `dispatch(Event(&Top::ping));`, which
returns at once and queues one event, as a handler may.  After `m.dispatch(ping)` has
called the handler, `ping` is queued again, and every iteration of the loop
`while (myPendingState || myPendingEvent)` dispatches it and finds it queued again: the
loop is cut off by every bound. -/
theorem settle_forever_counterexample :
    (∀ s m, Echo.prog.entry s m = [] ∧ Echo.prog.exit s m = [] ∧ Echo.prog.init s m = []) ∧
    (∀ e s m, Echo.prog.handler e s m = [.dispatch .ping]) ∧
    Machine.new Echo.prog 8 Echo.Top none = .ok Echo.started ∧
    Echo.started.myCurrentState = some Echo.Top ∧
    Echo.started.myPendingState = none ∧ Echo.started.myPendingEvent = .null ∧
    Echo.started.dispatchEvent Echo.prog .ping = .ok Echo.handled ∧
    Echo.handled.myPendingState = none ∧ Echo.handled.myPendingEvent = .event .ping ∧
    (∀ fuel, Echo.handled.rattleOn Echo.prog fuel = .error .fuel) ∧
    (∀ fuel, Machine.dispatch Echo.prog fuel .ping Echo.started = .error .fuel) ∧
    (∀ fuel, Machine.arrow Echo.prog fuel .ping Echo.started = .error .fuel) := by
  have hr : ∀ fuel, Echo.handled.rattleOn Echo.prog fuel = .error .fuel := by
    intro fuel
    have hc : Echo.handled.myCurrentState = some Echo.Top := by decide
    unfold MachineBase.rattleOn
    rw [hc]
    exact echo_settle fuel _ hc (by decide) (by decide)
  have hd : Echo.started.dispatchEvent Echo.prog .ping = .ok Echo.handled := by rfl
  refine ⟨fun _ _ => ⟨rfl, rfl, rfl⟩, fun _ _ _ => rfl, by rfl, by decide, by decide,
    by decide, hd, by decide, by decide, hr, ?_, ?_⟩
  · intro fuel
    unfold Machine.dispatch
    rw [hd]
    exact hr fuel
  · intro fuel
    have h1 : Machine.arrow Echo.prog fuel .ping Echo.started =
        (Echo.started.dispatchEvent Echo.prog .ping).bind
          (MachineBase.rattleOn Echo.prog fuel) := by rfl
    rw [h1, hd]
    exact hr fuel
/-- C31, amended: when every event has a rank and a handler queues only an event of a
smaller rank than the event it handles, the settle loop of `rattleOn` ends for every
machine within a state tree of height `h` (no init action and no handler names a state
with more than `h` superstates, and the machine holds none): a bound above `h` plus the
number of dispatches the queued event can still cause does not cut it off.  The callbacks
of the model return by construction, and a callback that breaks a re-entrancy rule ends
the loop with the failed assertion.  When the loop ends regularly, no transition and no
event is pending. -/
theorem settle_terminates (p : Program β ε) (h : Nat) (rank : ε → Nat)
    (hi : InitDepth p h) (hh : HandlerDepth p h) (hr : EventRank p rank)
    (m : MachineBase β ε) (hb : DepthBound h m) (hd : m.myPendingEvent ≠ .dummy) :
    (∀ fuel, h + m.myPendingEvent.dispatches rank < fuel →
      m.rattleOn p fuel ≠ .error .fuel) ∧
    (∀ fuel m', m.rattleOn p fuel = .ok m' →
      m'.myPendingState = none ∧ m'.myPendingEvent = .null) := by
  constructor
  · intro fuel hf
    unfold MachineBase.rattleOn
    split
    · intro hx; cases hx
    · exact settle_ne_fuel hi hh hr fuel m hb hd hf
  · intro fuel m' hm
    unfold MachineBase.rattleOn at hm
    split at hm
    · cases hm
    · exact settle_quiescent _ _ _ hm

theorem dispatch_initDepth : InitDepth Dispatch.prog 2 := by
  intro s m c t hc _
  simp [Dispatch.prog] at hc

theorem dispatch_handlerDepth : HandlerDepth Dispatch.prog 2 := by
  intro e s m c t hc ht
  cases e with
  | clear =>
    simp only [Dispatch.prog, List.mem_singleton] at hc
    subst hc; cases ht
  | event1 =>
    simp only [Dispatch.prog, List.mem_singleton] at hc
    subst hc; cases ht
  | event2 =>
    simp only [Dispatch.prog, List.mem_singleton] at hc
    subst hc; cases ht
  | event3 =>
    simp only [Dispatch.prog] at hc
    split at hc
    · simp only [List.mem_cons, List.mem_singleton, List.mem_nil_iff, or_false] at hc
      rcases hc with hc | hc | hc <;> subst hc <;> cases ht
      decide
    · split at hc
      · simp only [List.mem_cons, List.mem_singleton, List.mem_nil_iff, or_false] at hc
        rcases hc with hc | hc | hc <;> subst hc <;> cases ht
        decide
      · simp only [List.mem_singleton] at hc
        subst hc; cases ht

theorem dispatch_eventRank : EventRank Dispatch.prog Dispatch.rank := by
  intro e s m e' hc
  cases e with
  | clear => simp [Dispatch.prog] at hc
  | event1 => simp [Dispatch.prog] at hc
  | event2 => simp [Dispatch.prog] at hc
  | event3 =>
    simp only [Dispatch.prog] at hc
    split at hc
    · simp at hc
      subst hc; decide
    · split at hc
      · simp at hc
        subst hc; decide
      · simp at hc

theorem dispatch_handled_depthBound : DepthBound 2 Dispatch.handled := by
  have hrun : Machine.run Dispatch.prog 8 Dispatch.Top none
      [.call (.setState Dispatch.StateA none), .rattleOn, .dispatch .clear] =
      .ok Dispatch.inStateA := by rfl
  have hd : Dispatch.inStateA.dispatchEvent Dispatch.prog .event3 = .ok Dispatch.handled := by
    rfl
  have hok : HistoryOK Dispatch.prog Dispatch.handled :=
    historyOK_quiet (historyOK_run hrun) (quiet_dispatchEvent hd)
  refine ⟨?_, ?_, ?_⟩
  · intro t ht
    have : Dispatch.handled.myPendingState = some Dispatch.StateB := by decide
    rw [this] at ht
    cases ht
    decide
  · intro c hc
    have : Dispatch.handled.myCurrentState = some Dispatch.StateA := by decide
    rw [this] at hc
    cases hc
    decide
  · intro k t hk
    exact absurd rfl (hok k t hk).2

/-- Witness for C31 on the test's machine: the handler of `event3` in `StateA` has
scheduled the transition to `StateB` and queued `event1`, whose handlers queue nothing;
the settle loop is through within the bound 8 and leaves the machine quiescent. -/
theorem settle_terminates_witness :
    InitDepth Dispatch.prog 2 ∧ HandlerDepth Dispatch.prog 2 ∧
    EventRank Dispatch.prog Dispatch.rank ∧ DepthBound 2 Dispatch.handled ∧
    Dispatch.handled.myPendingEvent = .event .event1 ∧
    Dispatch.handled.rattleOn Dispatch.prog 8 ≠ .error .fuel ∧
    Dispatch.handled.rattleOn Dispatch.prog 8 = .ok Dispatch.rattled ∧
    (Dispatch.rattled.myPendingState = none ∧ Dispatch.rattled.myPendingEvent = .null) :=
  ⟨dispatch_initDepth, dispatch_handlerDepth, dispatch_eventRank,
    dispatch_handled_depthBound, by decide,
    (settle_terminates Dispatch.prog 2 Dispatch.rank dispatch_initDepth
      dispatch_handlerDepth dispatch_eventRank Dispatch.handled
      dispatch_handled_depthBound (by decide)).1 8 (by decide),
    by rfl,
    (settle_terminates Dispatch.prog 2 Dispatch.rank dispatch_initDepth
      dispatch_handlerDepth dispatch_eventRank Dispatch.handled
      dispatch_handled_depthBound (by decide)).2 8 Dispatch.rattled (by rfl)⟩
theorem inherited_spec (own : ε → StateId → Option (MachineBase β ε → List (Cmd β ε)))
    (e : ε) : ∀ (c d : StateId) (body : MachineBase β ε → List (Cmd β ε)),
    Link.inherited own e c = some (d, body) →
    own e d = some body ∧ isChild c d = true ∧ d ≠ .root ∧
      ∀ s, isChild c s = true → ProperAncestor d s → own e s = none := by
  intro c
  induction c with
  | root => intro d body h; cases h
  | sub super tag ih =>
    intro d body h
    simp only [Link.inherited] at h
    cases ho : own e (.sub super tag) with
    | some b =>
      rw [ho] at h
      cases h
      refine ⟨ho, isChild_refl _, by simp, ?_⟩
      intro s hs hps
      exact absurd (isChild_antisymm hs hps.1) hps.2
    | none =>
      rw [ho] at h
      obtain ⟨a1, a2, a3, a4⟩ := ih d body h
      refine ⟨a1, isChild_of_super tag a2, a3, ?_⟩
      intro s hs hps
      by_cases heq : s = .sub super tag
      · rw [heq]; exact ho
      · exact a4 s (isChild_super hs heq) hps

theorem inherited_some (own : ε → StateId → Option (MachineBase β ε → List (Cmd β ε)))
    (e : ε) (top : StateId) (htop : top ≠ .root) (hown : (own e top).isSome = true) :
    ∀ c : StateId, isChild c top = true → (Link.inherited own e c).isSome = true := by
  intro c
  induction c with
  | root =>
    intro h
    simp only [isChild, decide_eq_true_eq] at h
    exact absurd h.symm htop
  | sub super tag ih =>
    intro h
    simp only [Link.inherited]
    cases ho : own e (.sub super tag) with
    | some b => rfl
    | none =>
      simp only
      apply ih
      apply isChild_super h
      intro heq
      rw [heq, ho] at hown
      cases hown

theorem inherited_congr (own own' : ε → StateId → Option (MachineBase β ε → List (Cmd β ε)))
    (e : ε) : ∀ c : StateId, (∀ s, isChild c s = true → own' e s = own e s) →
      Link.inherited own' e c = Link.inherited own e c := by
  intro c
  induction c with
  | root => intro _; rfl
  | sub super tag ih =>
    intro h
    simp only [Link.inherited]
    rw [h _ (isChild_refl _), ih (fun s hs => h s (isChild_of_super tag hs))]

theorem dispatchEvent_withHandlers (p : Program β ε)
    (own : ε → StateId → Option (MachineBase β ε → List (Cmd β ε))) (e : ε)
    (m : MachineBase β ε) (c : StateId) (hc : m.myCurrentState = some c) (hroot : c ≠ .root) :
    m.dispatchEvent (p.withHandlers own) e =
      runCmds
        (match Link.inherited own e c with
          | some r => r.2 (m.log (.dispatch e c))
          | none => [])
        (m.log (.dispatch e c)) := by
  unfold MachineBase.dispatchEvent
  rw [hc]
  cases c with
  | root => exact absurd rfl hroot
  | sub super tag => rfl

/-- C32: an event dispatched to the machine in current state `c` is handled by the
handler that the class of `c` ends up with: its own, if the class declares one for the
event, and otherwise the one of the nearest superstate whose class declares one, which
exists because the class of the top state declares a handler for every event.  The
handler body that runs is that of this one declaring state `d`; no state strictly between
`c` and `d` declares the handler, and what states other than `c` and its superstates
declare has no influence on the dispatch. -/
theorem handler_inherited (p : Program β ε)
    (own : ε → StateId → Option (MachineBase β ε → List (Cmd β ε))) (e : ε)
    (m : MachineBase β ε) (c top : StateId) (hc : m.myCurrentState = some c)
    (hct : isChild c top = true) (htop : top ≠ .root) (hown : (own e top).isSome = true) :
    ∃ d body, Link.inherited own e c = some (d, body) ∧
      own e d = some body ∧ isChild c d = true ∧ isChild d top = true ∧
      (∀ s, isChild c s = true → ProperAncestor d s → own e s = none) ∧
      (∀ b, own e c = some b → d = c) ∧
      m.dispatchEvent (p.withHandlers own) e =
        runCmds (body (m.log (.dispatch e c))) (m.log (.dispatch e c)) ∧
      ∀ own' : ε → StateId → Option (MachineBase β ε → List (Cmd β ε)),
        (∀ s, isChild c s = true → own' e s = own e s) →
        m.dispatchEvent (p.withHandlers own') e = m.dispatchEvent (p.withHandlers own) e := by
  have hcr : c ≠ .root := by
    intro h
    rw [h] at hct
    simp only [isChild, decide_eq_true_eq] at hct
    exact htop hct.symm
  have hsome := inherited_some own e top htop hown c hct
  cases hr : Link.inherited own e c with
  | none => rw [hr] at hsome; cases hsome
  | some r =>
    obtain ⟨d, body⟩ := r
    obtain ⟨a1, a2, a3, a4⟩ := inherited_spec own e c d body hr
    refine ⟨d, body, rfl, a1, a2, ?_, a4, ?_, ?_, ?_⟩
    · rcases isChild_total a2 hct with h1 | h1
      · exact h1
      · by_contra hn
        have hne : d ≠ top := by
          intro heq
          rw [heq, isChild_refl] at hn
          exact hn rfl
        have := a4 top hct ⟨h1, hne⟩
        rw [this] at hown
        cases hown
    · intro b hb
      by_contra hne
      have := a4 c (isChild_refl c) ⟨a2, hne⟩
      rw [this] at hb
      cases hb
    · rw [dispatchEvent_withHandlers p own e m c hc hcr, hr]
    · intro own' hag
      rw [dispatchEvent_withHandlers p own' e m c hc hcr,
        dispatchEvent_withHandlers p own e m c hc hcr, inherited_congr own own' e c hag]
/-- Witness for C32 on the test's machine in `StateA`: `event1`, which `StateA` does not
declare, is handled by the handler of `Top`; `event3` by the handler of `StateA` itself.
On the states of the test the handlers that result from the declarations are those of
the test's program. -/
theorem handler_inherited_witness :
    Dispatch.inStateA.myCurrentState = some Dispatch.StateA ∧
    isChild Dispatch.StateA Dispatch.Top = true ∧ Dispatch.Top ≠ .root ∧
    (Dispatch.own .event1 Dispatch.Top).isSome = true ∧
    (Dispatch.own .event1 Dispatch.StateA).isNone = true ∧
    (∀ e, ∀ s ∈ [Dispatch.Top, Dispatch.StateA, Dispatch.StateB], ∀ m,
      (Dispatch.prog.withHandlers Dispatch.own).handler e s m =
        Dispatch.prog.handler e s m) ∧
    (Link.inherited Dispatch.own .event1 Dispatch.StateA).map Prod.fst =
      some Dispatch.Top ∧
    (Link.inherited Dispatch.own .event3 Dispatch.StateA).map Prod.fst =
      some Dispatch.StateA ∧
    Dispatch.inStateA.dispatchEvent (Dispatch.prog.withHandlers Dispatch.own) .event1 =
      Dispatch.inStateA.dispatchEvent Dispatch.prog .event1 ∧
    (∃ d body, Link.inherited Dispatch.own .event1 Dispatch.StateA = some (d, body) ∧
      Dispatch.own .event1 d = some body ∧ isChild Dispatch.StateA d = true ∧
      isChild d Dispatch.Top = true ∧
      (∀ s, isChild Dispatch.StateA s = true → ProperAncestor d s →
        Dispatch.own .event1 s = none) ∧
      (∀ b, Dispatch.own .event1 Dispatch.StateA = some b → d = Dispatch.StateA) ∧
      Dispatch.inStateA.dispatchEvent (Dispatch.prog.withHandlers Dispatch.own) .event1 =
        runCmds (body (Dispatch.inStateA.log (.dispatch .event1 Dispatch.StateA)))
          (Dispatch.inStateA.log (.dispatch .event1 Dispatch.StateA)) ∧
      ∀ own' : Dispatch.Event → StateId →
          Option (MachineBase (List Nat) Dispatch.Event → List (Cmd (List Nat) Dispatch.Event)),
        (∀ s, isChild Dispatch.StateA s = true → own' .event1 s = Dispatch.own .event1 s) →
        Dispatch.inStateA.dispatchEvent (Dispatch.prog.withHandlers own') .event1 =
          Dispatch.inStateA.dispatchEvent (Dispatch.prog.withHandlers Dispatch.own)
            .event1) :=
  ⟨by decide, by decide, by decide, by rfl, by rfl,
    (by
      intro e s hs m
      simp only [List.mem_cons, List.mem_singleton, List.mem_nil_iff, or_false] at hs
      rcases hs with hs | hs | hs <;> subst hs <;> cases e <;> rfl),
    by rfl, by rfl, by rfl,
    handler_inherited Dispatch.prog Dispatch.own .event1 Dispatch.inStateA Dispatch.StateA
      Dispatch.Top (by decide) (by decide) (by decide) (by rfl)⟩
end Macho
